import Mathlib

/-!
# LPG gateway: a shallow embedding of the request pipeline

The development follows the Go packages of the repository:

* `internal/risk`      (namespace `Risk`): the scorer and its score bands;
* `internal/router`    (namespace `Router`): the routing decision table;
* `internal/audit`     (namespace `Audit`): the hash-chained audit log;
* `internal/sanitizer` (namespace `Sanitizer`): entity detection and surrogates;
* `internal/proxy`     (namespace `Proxy`): the dispatch handler.

Conventions of the embedding.

* A Go `string` is a Lean `String`; character-level algorithms work on its
  `data : List Char`.  Offsets therefore count characters; the Go code slices
  strings only at regexp match boundaries, so the slices are the same.
* A Go `int` is a 64-bit two's complement integer: an `Int` reduced with
  `wrapInt64` after every arithmetic operation that can leave the range.
* A Go `float64` confidence is a rational number; only comparisons are made
  on confidences, never arithmetic.
* A Go `(T, error)` result is an `Except`.
-/

/-! ## Machine integers -/

/-- Two's complement reduction of an integer to the 64-bit range of Go's `int`:
a value of the range is unchanged, a value outside of it wraps around. -/
def wrapInt64 (x : Int) : Int :=
  if 2 ^ 63 ≤ x ∨ x < -(2 ^ 63) then (x + 2 ^ 63) % 2 ^ 64 - 2 ^ 63 else x

/-- Membership in the range of a Go `int` (64 bit). -/
def IsInt64 (x : Int) : Prop := -(2 ^ 63) ≤ x ∧ x < 2 ^ 63

/-! ## internal/risk -/

namespace Risk

/-- Go: `type Category string`. -/
abbrev Category := String

/-- Go: `CategoryLow Category = "Low"`. -/
def CategoryLow : Category := "Low"
/-- Go: `CategoryMedium Category = "Medium"`. -/
def CategoryMedium : Category := "Medium"
/-- Go: `CategoryHigh Category = "High"`. -/
def CategoryHigh : Category := "High"
/-- Go: `CategoryCritical Category = "Critical"`. -/
def CategoryCritical : Category := "Critical"

/-- Go: `type Result struct { Score int; Category Category; Confidence float64 }`. -/
structure Result where
  Score : Int
  Category : Category
  Confidence : ℚ
  deriving DecidableEq

/-- Go: `type Scorer struct { confidenceThreshold float64 }`. -/
structure Scorer where
  confidenceThreshold : ℚ

/-- The error of `categoryForScore`: `fmt.Errorf("invalid score: %d", score)`. -/
inductive Error where
  | invalidScore (score : Int)
  deriving DecidableEq

/-- Go: `NewScorer`; a threshold that is not positive is replaced by `0.70`. -/
def NewScorer (confidenceThreshold : ℚ) : Scorer :=
  if confidenceThreshold ≤ 0 then ⟨7 / 10⟩ else ⟨confidenceThreshold⟩

/-- Go: `categoryForScore`, a `switch` over the four closed score intervals. -/
def categoryForScore (score : Int) : Except Error Category :=
  if 0 ≤ score ∧ score ≤ 24 then .ok CategoryLow
  else if 25 ≤ score ∧ score ≤ 49 then .ok CategoryMedium
  else if 50 ≤ score ∧ score ≤ 74 then .ok CategoryHigh
  else if 75 ≤ score ∧ score ≤ 100 then .ok CategoryCritical
  else .error (.invalidScore score)

/-- Go: `escalate`; every category that is not Low, Medium or High goes to Critical. -/
def escalate (category : Category) : Category :=
  if category = CategoryLow then CategoryMedium
  else if category = CategoryMedium then CategoryHigh
  else if category = CategoryHigh then CategoryCritical
  else CategoryCritical

/-- Go: `(*Scorer).Evaluate`.  The product `detections * 25` is a Go `int`
product, so it wraps around at 64 bits. -/
def Scorer.Evaluate (s : Scorer) (detections : Int) (confidence : ℚ) : Except Error Result :=
  let score := wrapInt64 (detections * 25)
  let score := if score > 100 then 100 else score
  match categoryForScore score with
  | .error err => .error err
  | .ok baseCategory =>
    let finalCategory :=
      if confidence < s.confidenceThreshold then escalate baseCategory else baseCategory
    .ok { Score := score, Category := finalCategory, Confidence := confidence }

/-- The band of the specification (section 4.2), in the spec's words:
`[0,24]→Low, [25,49]→Medium, [50,74]→High, [75,100]→Critical`. -/
def specBand (score : Int) : Category :=
  if score ≤ 24 then "Low" else if score ≤ 49 then "Medium" else if score ≤ 74 then "High"
  else "Critical"

/-- The one-band promotion of the specification (section 4.2), in the spec's
words: Low→Medium, Medium→High, High→Critical, Critical→Critical. -/
def specPromote (category : Category) : Category :=
  if category = "Low" then "Medium"
  else if category = "Medium" then "High"
  else "Critical"

end Risk

/-! ## internal/router -/

namespace Router

/-- Go: `type Route string`. -/
abbrev Route := String

/-- Go: `RouteRawForward Route = "raw_forward"`. -/
def RouteRawForward : Route := "raw_forward"
/-- Go: `RouteSanitizedForward Route = "sanitized_forward"`. -/
def RouteSanitizedForward : Route := "sanitized_forward"
/-- Go: `RouteHighAbstraction Route = "high_abstraction"`. -/
def RouteHighAbstraction : Route := "high_abstraction"
/-- Go: `RouteCriticalLocalOnly Route = "critical_local_only"`. -/
def RouteCriticalLocalOnly : Route := "critical_local_only"
/-- Go: `RouteCriticalBlocked Route = "critical_blocked"`. -/
def RouteCriticalBlocked : Route := "critical_blocked"

/-- Go: `type Decision struct { Category risk.Category; Route Route; Egress bool }`. -/
structure Decision where
  Category : Risk.Category
  Route : Route
  Egress : Bool
  deriving DecidableEq

/-- Go: `type Engine struct { allowRawForwarding bool; criticalLocalOnly bool }`. -/
structure Engine where
  allowRawForwarding : Bool
  criticalLocalOnly : Bool

/-- Go: `NewEngine`. -/
def NewEngine (allowRawForwarding : Bool) : Engine :=
  { allowRawForwarding := allowRawForwarding, criticalLocalOnly := false }

/-- Go: `NewEngineWithCriticalLocalOnly`. -/
def NewEngineWithCriticalLocalOnly (allowRawForwarding criticalLocalOnly : Bool) : Engine :=
  { allowRawForwarding := allowRawForwarding, criticalLocalOnly := criticalLocalOnly }

/-- Go: `(*Engine).Decide`.  The `default` branch takes Critical and every
other category string, and answers with the category Critical. -/
def Engine.Decide (e : Engine) (category : Risk.Category) (hasHardBlock : Bool) : Decision :=
  if category = Risk.CategoryLow then
    if e.allowRawForwarding && !hasHardBlock then
      { Category := category, Route := RouteRawForward, Egress := true }
    else
      { Category := category, Route := RouteSanitizedForward, Egress := true }
  else if category = Risk.CategoryMedium then
    { Category := category, Route := RouteSanitizedForward, Egress := true }
  else if category = Risk.CategoryHigh then
    { Category := category, Route := RouteHighAbstraction, Egress := true }
  else if e.criticalLocalOnly then
    { Category := Risk.CategoryCritical, Route := RouteCriticalLocalOnly, Egress := false }
  else
    { Category := Risk.CategoryCritical, Route := RouteCriticalBlocked, Egress := false }

end Router

/-! ## Go strings: helpers of the standard library -/

namespace GoString

/-- Go: `len(s)` of a string, its number of bytes in UTF-8. -/
def byteLen (s : List Char) : Nat := (s.map Char.utf8Size).sum

/-- Go: `unicode.IsSpace`: the Latin-1 spaces `\t \n \v \f \r`, space, U+0085,
U+00A0, and the other code points of category Z and property Pattern_White_Space. -/
def isSpace (c : Char) : Bool :=
  let n := c.toNat
  (9 ≤ n ∧ n ≤ 13) ∨ n = 32 ∨ n = 0x85 ∨ n = 0xA0 ∨ n = 0x1680 ∨
  (0x2000 ≤ n ∧ n ≤ 0x200A) ∨ n = 0x2028 ∨ n = 0x2029 ∨ n = 0x202F ∨ n = 0x205F ∨ n = 0x3000

/-- Go: `strings.TrimSpace`, on the characters of the string. -/
def TrimSpace (s : List Char) : List Char :=
  ((s.dropWhile isSpace).reverse.dropWhile isSpace).reverse

/-- The line feed character. -/
def lf : Char := Char.ofNat 10

/-- The carriage return character. -/
def cr : Char := Char.ofNat 13

/-- Go: `strings.Split(s, "\n")`, with the piece being read kept reversed in `acc`. -/
def splitLinesAux : List Char → List Char → List (List Char)
  | [], acc => [acc.reverse]
  | c :: cs, acc =>
    if c = lf then acc.reverse :: splitLinesAux cs [] else splitLinesAux cs (c :: acc)

/-- Go: `strings.Split(s, "\n")`. -/
def splitLines (s : List Char) : List (List Char) := splitLinesAux s []

/-- Go: the tokens that `bufio.ScanLines` cuts out of a file, before the
carriage return is dropped: the text up to each line feed, and the unterminated
rest of the file when it is not empty. -/
def scanLinesAux : List Char → List Char → List (List Char)
  | [], acc => if acc = [] then [] else [acc.reverse]
  | c :: cs, acc =>
    if c = lf then acc.reverse :: scanLinesAux cs [] else scanLinesAux cs (c :: acc)

/-- Go: the raw tokens of a `bufio.Scanner` with the `ScanLines` split function. -/
def scanLines (s : List Char) : List (List Char) := scanLinesAux s []

/-- Go: `dropCR` of package bufio: one trailing carriage return is removed. -/
def dropCR (s : List Char) : List Char :=
  if s.getLast? = some cr then s.dropLast else s

/-- Go: `bufio.MaxScanTokenSize`, the size of the largest buffer of a default
`bufio.Scanner`.  A line must fit into the buffer together with its line feed;
a line of this many bytes or more ends the scan with `bufio.ErrTooLong`. -/
def maxScanTokenSize : Nat := 64 * 1024

end GoString

/-! ## Go: encoding/json, the encoder side -/

namespace Json

/-- The quotation mark. -/
def quote : Char := Char.ofNat 34

/-- The backslash. -/
def backslash : Char := Char.ofNat 92

/-- Go: the table `hex = "0123456789abcdef"` of package encoding/json. -/
def hexDigit (n : Nat) : Char := "0123456789abcdef".data.getD n '0'

/-- Go: the escape that `appendString` of encoding/json (with HTML escaping, as
`json.Marshal` does) writes for one character of a valid UTF-8 string:
the quotation mark and the backslash are preceded by a backslash; backspace,
form feed, line feed, carriage return and tab have their letter escapes; the
other control characters and `<`, `>`, `&` are written `\u00XX`; U+2028 and
U+2029 are written as the escapes of their code points; every other character stands for itself. -/
def escapeChar (c : Char) : List Char :=
  let n := c.toNat
  if n = 34 ∨ n = 92 then [backslash, c]
  else if n = 8 then [backslash, 'b']
  else if n = 12 then [backslash, 'f']
  else if n = 10 then [backslash, 'n']
  else if n = 13 then [backslash, 'r']
  else if n = 9 then [backslash, 't']
  else if n < 32 ∨ n = 60 ∨ n = 62 ∨ n = 38 then
    [backslash, 'u', '0', '0', hexDigit (n / 16), hexDigit (n % 16)]
  else if n = 0x2028 then [backslash, 'u', '2', '0', '2', '8']
  else if n = 0x2029 then [backslash, 'u', '2', '0', '2', '9']
  else [c]

/-- Go: the JSON string literal that `json.Marshal` writes for a string. -/
def encodeString (s : String) : List Char :=
  quote :: (s.data.flatMap escapeChar ++ [quote])

/-- Go: the JSON object that `json.Marshal` writes for a struct: its members
between braces. -/
def object (members : List Char) : List Char :=
  Char.ofNat 123 :: (members ++ [Char.ofNat 125])

end Json

/-! ## internal/audit -/

namespace Audit

/-- Go: `type Event struct`. -/
structure Event where
  RequestID : String
  PolicyVersion : String
  ActionSummary : String
  RiskCategory : String
  Route : String
  deriving DecidableEq

/-- Go: `time.Time`, reduced to what the audit log observes of a UTC time: its
RFC 3339 text (nanosecond precision, as `Time.MarshalJSON` formats it), and
whether its year lies in `[0,9999]`, outside of which `Time.MarshalJSON` fails. -/
structure Time where
  rfc3339 : String
  yearInRange : Bool
  deriving DecidableEq

/-- Go: `type Record struct`, with the JSON field names of its tags in
`marshalRecord`. -/
structure Record where
  Timestamp : Time
  RequestID : String
  PolicyVersion : String
  ActionSummary : String
  RiskCategory : String
  Route : String
  PrevHash : String
  EntryHash : String
  deriving DecidableEq

/-- The errors that the audit package returns. -/
inductive Error where
  /-- the error of `json.Marshal` on a time whose year is outside `[0,9999]` -/
  | marshal
  /-- the error of `json.Unmarshal` on the last line of the file -/
  | unmarshal
  /-- the error of `os.OpenFile` -/
  | openFile
  /-- the error of `f.Write` -/
  | write
  /-- the error of `f.Close` -/
  | close
  deriving DecidableEq

/-- The functions of the Go standard library that the package calls and the
embedding leaves open: the hex digest `hex.EncodeToString(sha256(bytes))`, and
`json.Unmarshal` into a `Record` (`none` when it returns an error). -/
structure Lib where
  sha256Hex : List Char → String
  unmarshal : List Char → Option Record

/-- Go: `Time.MarshalJSON`: the quoted RFC 3339 text.  Its characters (digits,
`-`, `:`, `.`, `+`, `T`, `Z`) are none of those that `Json.encodeString`
escapes, so the quoted text is written with `Json.encodeString`. -/
def Time.MarshalJSON (t : Time) : Except Error (List Char) :=
  if t.yearInRange then .ok (Json.encodeString t.rfc3339) else .error .marshal

/-- The members that `json.Marshal` writes for the six non-hash fields, in the
order of their declaration and with the names of their tags, without white
space; `ts` is the marshalled timestamp. -/
def payloadFields (r : Record) (ts : List Char) : List Char :=
  "\"timestamp\":".data ++ ts ++
  ",\"request_id\":".data ++ Json.encodeString r.RequestID ++
  ",\"policy_version\":".data ++ Json.encodeString r.PolicyVersion ++
  ",\"action_summary\":".data ++ Json.encodeString r.ActionSummary ++
  ",\"risk_category\":".data ++ Json.encodeString r.RiskCategory ++
  ",\"route\":".data ++ Json.encodeString r.Route

/-- The members that `json.Marshal` writes for the two hash fields. -/
def hashFields (r : Record) : List Char :=
  ",\"prev_hash\":".data ++ Json.encodeString r.PrevHash ++
  ",\"entry_hash\":".data ++ Json.encodeString r.EntryHash

/-- Go: `json.Marshal` of the anonymous struct of `entryHash`: the object of
the six non-hash fields. -/
def marshalPayload (r : Record) : Except Error (List Char) :=
  match r.Timestamp.MarshalJSON with
  | .error err => .error err
  | .ok ts => .ok (Json.object (payloadFields r ts))

/-- The text of the line of a record: the object of its eight fields. -/
def recordLine (r : Record) : List Char :=
  Json.object (payloadFields r (Json.encodeString r.Timestamp.rfc3339) ++ hashFields r)

/-- Go: `json.Marshal(record)`: the eight fields of `Record`. -/
def marshalRecord (r : Record) : Except Error (List Char) :=
  match r.Timestamp.MarshalJSON with
  | .error err => .error err
  | .ok ts => .ok (Json.object (payloadFields r ts ++ hashFields r))

/-- Go: `entryHash`: the hex SHA-256 of the marshalled payload followed by the
bytes of `record.PrevHash`. -/
def entryHash (lib : Lib) (record : Record) : Except Error String :=
  match marshalPayload record with
  | .error err => .error err
  | .ok payload => .ok (lib.sha256Hex (payload ++ record.PrevHash.data))

/-- Go: `type ChainWriter struct`; the path is fixed, the clock is an argument
of `Append`, and the mutex serialises the calls, which are run one at a time. -/
structure ChainWriter where
  prevHash : String
  deriving DecidableEq

/-- The file of the log: `none` when it does not exist, else its contents. -/
abbrev File := Option (List Char)

/-- What the operating system does with the file operations of one `Append`. -/
inductive IOOutcome where
  /-- open, write and close succeed -/
  | ok
  /-- the call of `os.OpenFile` fails -/
  | openFails
  /-- the call of `f.Write` fails after `written` characters reached the file; `closeFails`
  tells whether the `f.Close` that follows fails too -/
  | writeFails (written : Nat) (closeFails : Bool)
  /-- the call of `f.Write` succeeds and `f.Close` fails -/
  | closeFails
  deriving DecidableEq

/-- The outcome of `Append`: the returned pair, the writer and the file after
the call. -/
structure AppendResult where
  result : Except Error Record
  writer : ChainWriter
  file : File

/-- Go: `(*ChainWriter).Append`.  `now` is the value of `cw.now().UTC()`. -/
def ChainWriter.Append (lib : Lib) (cw : ChainWriter) (file : File) (now : Time)
    (io : IOOutcome) (event : Event) : AppendResult :=
  let record : Record :=
    { Timestamp := now, RequestID := event.RequestID, PolicyVersion := event.PolicyVersion,
      ActionSummary := event.ActionSummary, RiskCategory := event.RiskCategory,
      Route := event.Route, PrevHash := cw.prevHash, EntryHash := "" }
  match entryHash lib record with
  | .error err => { result := .error err, writer := cw, file := file }
  | .ok hash =>
    let record := { record with EntryHash := hash }
    match marshalRecord record with
    | .error err => { result := .error err, writer := cw, file := file }
    | .ok line =>
      match io with
      | .openFails => { result := .error .openFile, writer := cw, file := file }
      | .writeFails written closeFails =>
        { result := .error (if closeFails then .close else .write), writer := cw,
          file := some (file.getD [] ++ (line ++ [GoString.lf]).take written) }
      | .closeFails =>
        { result := .error .close, writer := cw,
          file := some (file.getD [] ++ (line ++ [GoString.lf])) }
      | .ok =>
        { result := .ok record, writer := { prevHash := record.EntryHash },
          file := some (file.getD [] ++ (line ++ [GoString.lf])) }

/-- Go: `(*ChainWriter).loadPrevHash` on a fresh writer (whose `prevHash` is
the empty string): the new value of `prevHash`. -/
def loadPrevHash (lib : Lib) (file : File) : Except Error String :=
  match file with
  | none => .ok ""
  | some contents =>
    let trimmed := GoString.TrimSpace contents
    if trimmed = [] then .ok ""
    else
      let lines := GoString.splitLines trimmed
      let lastLine := lines.getLastD []
      match lib.unmarshal lastLine with
      | none => .error .unmarshal
      | some record => .ok record.EntryHash

/-- Go: `NewChainWriter`. -/
def NewChainWriter (lib : Lib) (file : File) : Except Error ChainWriter :=
  match loadPrevHash lib file with
  | .error err => .error err
  | .ok prev => .ok { prevHash := prev }

/-- The errors of `VerifyChain`; `line` is the 1-based line number of the
message. -/
inductive VerifyError where
  /-- message `invalid audit record at line %d` -/
  | invalidRecord (line : Nat)
  /-- message `invalid prev_hash at line %d` -/
  | invalidPrevHash (line : Nat)
  /-- message `failed to compute entry hash at line %d` -/
  | hashFailure (line : Nat)
  /-- message `invalid entry_hash at line %d` -/
  | invalidEntryHash (line : Nat)
  /-- the value of `scanner.Err()`: `bufio.ErrTooLong`, which carries no line number -/
  | tokenTooLong
  deriving DecidableEq

/-- Go: the `for scanner.Scan()` loop of `VerifyChain` over the raw tokens
that remain, with the loop variables `prev` and `lineNum`.  A token that does
not fit the scanner's buffer makes `Scan` return false and `scanner.Err()`
return `bufio.ErrTooLong`. -/
def verifyLoop (lib : Lib) : List (List Char) → String → Nat → Except VerifyError Unit
  | [], _, _ => .ok ()
  | raw :: rest, prev, lineNum =>
    if GoString.maxScanTokenSize ≤ GoString.byteLen raw then .error .tokenTooLong
    else
      let lineNum := lineNum + 1
      let line := GoString.TrimSpace (GoString.dropCR raw)
      if line = [] then verifyLoop lib rest prev lineNum
      else
        match lib.unmarshal line with
        | none => .error (.invalidRecord lineNum)
        | some record =>
          if record.PrevHash ≠ prev then .error (.invalidPrevHash lineNum)
          else
            match entryHash lib record with
            | .error _ => .error (.hashFailure lineNum)
            | .ok expected =>
              if record.EntryHash ≠ expected then .error (.invalidEntryHash lineNum)
              else verifyLoop lib rest record.EntryHash lineNum

/-- Go: `VerifyChain`; a file that does not exist verifies. -/
def VerifyChain (lib : Lib) (file : File) : Except VerifyError Unit :=
  match file with
  | none => .ok ()
  | some contents => verifyLoop lib (GoString.scanLines contents) "" 0

/-- One call of `Append` as the environment sees it: the clock reading, what
the operating system does, and the event. -/
structure Call where
  now : Time
  io : IOOutcome
  event : Event

/-- A sequence of `Append` calls on one writer, run in order: the results of
the calls, the writer and the file at the end. -/
def runAppends (lib : Lib) : ChainWriter → File → List Call →
    List (Except Error Record) × ChainWriter × File
  | cw, file, [] => ([], cw, file)
  | cw, file, c :: cs =>
    let a := cw.Append lib file c.now c.io c.event
    let rest := runAppends lib a.writer a.file cs
    (a.result :: rest.1, rest.2)

/-- The records that the successful calls of a run returned, in order. -/
def okRecords : List (Except Error Record) → List Record
  | [] => []
  | .ok r :: rest => r :: okRecords rest
  | .error _ :: rest => okRecords rest

end Audit

namespace Audit

/-- The chain invariant of a list of records that follows the hash `prev`:
the first record has `prev_hash = prev`, every record's `entry_hash` is what
`entryHash` computes for it, and the rest of the list follows that hash. -/
def Chained (lib : Lib) : String → List Record → Prop
  | _, [] => True
  | prev, r :: rs =>
    r.PrevHash = prev ∧ entryHash lib r = .ok r.EntryHash ∧ Chained lib r.EntryHash rs

/-- The hash that the next record must carry as `prev_hash`: the entry hash of
the last record of the list, or `prev` when the list is empty. -/
def lastHash (prev : String) : List Record → String
  | [] => prev
  | r :: rs => lastHash r.EntryHash rs

/-- The text of a log file that holds the given lines, each followed by a line
feed, as `Append` writes them. -/
def fileOfLines (lines : List (List Char)) : List Char :=
  lines.flatMap (fun line => line ++ [GoString.lf])

end Audit

namespace Audit

/-- The law of encoding/json that the proofs use, stated for the records of a
log: `json.Unmarshal` reads back from the line of a record the record itself.
The library does so for a record whose text fields are valid UTF-8, as the
strings of this development are.  A Go string with an invalid byte is outside
it: `json.Marshal` writes such a byte as the escape of U+FFFD, `json.Unmarshal`
reads the character U+FFFD, and the record read is not the record written. -/
def RoundTrip (lib : Lib) (rs : List Record) : Prop :=
  ∀ r ∈ rs, lib.unmarshal (recordLine r) = some r

/-- Every line of the log fits the buffer of the scanner of `VerifyChain`. -/
def ShortLines (rs : List Record) : Prop :=
  ∀ r ∈ rs, GoString.byteLen (recordLine r) < GoString.maxScanTokenSize

/-- Every call of the sequence succeeds: the file operations succeed, and the
clock reading can be marshalled. -/
def AllSucceed (calls : List Call) : Prop :=
  ∀ c ∈ calls, c.io = .ok ∧ c.now.yearInRange = true

/-- The line number that an error of `VerifyChain` names, if it names one. -/
def VerifyError.line : VerifyError → Option Nat
  | .invalidRecord n => some n
  | .invalidPrevHash n => some n
  | .hashFailure n => some n
  | .invalidEntryHash n => some n
  | .tokenTooLong => none

end Audit

namespace Audit

/-- The clock reading of the package's tests, `2026-02-22T00:00:00Z`. -/
def testTime : Time := { rfc3339 := "2026-02-22T00:00:00Z", yearInRange := true }

/-- The first event of the package's tests. -/
def testEvent1 : Event :=
  { RequestID := "req-1", PolicyVersion := "v2.1", ActionSummary := "first",
    RiskCategory := "Medium", Route := "sanitized_forward" }

/-- The second event of the package's tests. -/
def testEvent2 : Event :=
  { RequestID := "req-2", PolicyVersion := "v2.1", ActionSummary := "second",
    RiskCategory := "High", Route := "high_abstraction" }

/-- The two successful `Append` calls of the package's tests. -/
def testCalls : List Call :=
  [{ now := testTime, io := .ok, event := testEvent1 },
   { now := testTime, io := .ok, event := testEvent2 }]

/-- An action summary of `n` letters `a`. -/
def longSummary (n : Nat) : String := String.mk (List.replicate n 'a')

/-- A successful `Append` call whose event has an action summary of 65536
bytes, the size of the buffer of a default `bufio.Scanner`. -/
def longCall : Call :=
  { now := testTime, io := .ok,
    event := { testEvent1 with ActionSummary := longSummary 65536 } }

/-- A decoder that reads back the lines of the given records, and rejects
every other text: a stand-in for `json.Unmarshal` on a known log. -/
def lookupLine (rs : List Record) (line : List Char) : Option Record :=
  rs.find? (fun r => decide (recordLine r = line))

/-- A library for a known log: the given digest function, and the decoder of
the lines of the given records. -/
def tableLib (digest : List Char → String) (rs : List Record) : Lib :=
  { sha256Hex := digest, unmarshal := lookupLine rs }

/-- The records that the calls write to a fresh log under the given digest
function (`Append` does not decode). -/
def writtenRecords (digest : List Char → String) (calls : List Call) : List Record :=
  okRecords (runAppends (tableLib digest []) { prevHash := "" } none calls).1

/-- A stand-in digest without collisions: the digested text itself. -/
def textDigest (bytes : List Char) : String := String.mk bytes

end Audit

namespace Json

/-- The value of a hex digit of the table of `hexDigit`. -/
def hexVal (c : Char) : Nat := "0123456789abcdef".data.indexOf c

/-- A decoder of the first escape of an encoded text: the character that the
escape stands for, and the rest of the text.  It inverts `escapeChar`, which
shows that the encoding of strings loses nothing. -/
def unescapeHead : List Char → Option (Char × List Char)
  | [] => none
  | x :: rest =>
    if x ≠ backslash then some (x, rest)
    else
      match rest with
      | [] => none
      | y :: rest =>
        if y = 'b' then some (Char.ofNat 8, rest)
        else if y = 'f' then some (Char.ofNat 12, rest)
        else if y = 'n' then some (Char.ofNat 10, rest)
        else if y = 'r' then some (Char.ofNat 13, rest)
        else if y = 't' then some (Char.ofNat 9, rest)
        else if y = 'u' then
          match rest with
          | a :: b :: c :: d :: rest =>
            some (Char.ofNat (((hexVal a * 16 + hexVal b) * 16 + hexVal c) * 16 + hexVal d), rest)
          | _ => none
        else some (y, rest)

end Json

namespace Audit

/-- The record `r'` is the record `r` with the value of one field changed. -/
def DiffersInOneField (r r' : Record) : Prop :=
  r' ≠ r ∧
  ((∃ v, r' = { r with Timestamp := v }) ∨ (∃ v, r' = { r with RequestID := v }) ∨
   (∃ v, r' = { r with PolicyVersion := v }) ∨ (∃ v, r' = { r with ActionSummary := v }) ∨
   (∃ v, r' = { r with RiskCategory := v }) ∨ (∃ v, r' = { r with Route := v }) ∨
   (∃ v, r' = { r with PrevHash := v }) ∨ (∃ v, r' = { r with EntryHash := v }))

end Audit

namespace Audit

/-- The records of the log of the package's tests under the digest `textDigest`. -/
def testRecords : List Record := writtenRecords textDigest testCalls

/-- The second record of the log of the package's tests. -/
def testRecord2 : Record := (testRecords[1]?).get (by decide)

/-- The second record of the log of the package's tests with the action
summary changed to `tampered`, as in `TestVerifyChainDetectsTampering`. -/
def tamperedRecord2 : Record := { testRecord2 with ActionSummary := "tampered" }

end Audit

/-! ## internal/sanitizer: the result types -/

namespace Sanitizer

/-- Go: `type Mapping struct`. -/
structure Mapping where
  Placeholder : String
  OriginalValue : String
  EntityType : String
  ConfidenceScore : ℚ
  deriving DecidableEq

/-- Go: `type Result struct { Sanitized string; Mappings []Mapping }`. -/
structure Result where
  Sanitized : String
  Mappings : List Mapping
  deriving DecidableEq

end Sanitizer

/-! ## Go: package regexp, for the patterns of the repository -/

namespace Regexp

/-- The syntax of the regular expressions that the repository compiles.  A
class is given by its membership test; `x+` is `seq x (star x)`, `x?` is
`alt x empty` (greedy: `x` is tried first), `x{3}` is `x` three times in
sequence, `x{2,}` is `x`, `x`, `star x`. -/
inductive Regex where
  /-- the empty expression -/
  | empty
  /-- one character of a class -/
  | cls (p : Char → Bool)
  /-- concatenation -/
  | seq (a b : Regex)
  /-- alternation, the left branch preferred -/
  | alt (a b : Regex)
  /-- greedy repetition, zero or more times -/
  | star (a : Regex)
  /-- the ASCII word boundary, written `\b` -/
  | wordBoundary

/-- The class `\w` of the word boundary: `[0-9A-Za-z_]`. -/
def isWordChar (c : Char) : Bool :=
  let n := c.toNat
  (48 ≤ n ∧ n ≤ 57) ∨ (65 ≤ n ∧ n ≤ 90) ∨ (97 ≤ n ∧ n ≤ 122) ∨ n = 95

/-- Whether the character at position `i` exists and is a word character. -/
def wordAt (input : List Char) (i : Nat) : Bool :=
  match input[i]? with
  | some c => isWordChar c
  | none => false

/-- Go: the assertion `\b` at position `i`: exactly one of the characters
before and after the position is a word character (the outside of the text
counting as no word character). -/
def atWordBoundary (input : List Char) (i : Nat) : Bool :=
  (if i = 0 then false else wordAt input (i - 1)) != wordAt input i

/-- The greedy loop of `star`: `step` matches the body once.  One more round
is tried first, and it must consume a character; then the rest `k` of the
expression is tried at the current position. -/
def starLoop (step : Nat → (Nat → Option Nat) → Option Nat) :
    Nat → Nat → (Nat → Option Nat) → Option Nat
  | 0, i, k => k i
  | fuel + 1, i, k =>
    match step i (fun j => if i < j then starLoop step fuel j k else none) with
    | some e => some e
    | none => k i

/-- The backtracking search for a match of the expression that starts at
position `i`, in continuation-passing style: `k` is the rest of the pattern,
and the result is the end of the first match in the order of preference of a
backtracking matcher, which is the order of Go's leftmost-first semantics. -/
def matchAt (input : List Char) : Regex → Nat → (Nat → Option Nat) → Option Nat
  | .empty, i, k => k i
  | .cls p, i, k =>
    match input[i]? with
    | some c => if p c then k (i + 1) else none
    | none => none
  | .seq a b, i, k => matchAt input a i (fun j => matchAt input b j k)
  | .alt a b, i, k =>
    match matchAt input a i k with
    | some e => some e
    | none => matchAt input b i k
  | .star a, i, k => starLoop (matchAt input a) (input.length + 1) i k
  | .wordBoundary, i, k => if atWordBoundary input i then k i else none

/-- The leftmost match that starts at position `pos` or later: its start and
its end.  `fuel` bounds the number of positions tried. -/
def findFrom (re : Regex) (input : List Char) : Nat → Nat → Option (Nat × Nat)
  | 0, _ => none
  | fuel + 1, pos =>
    match matchAt input re pos (fun e => some e) with
    | some e => some (pos, e)
    | none => if pos < input.length then findFrom re input fuel (pos + 1) else none

/-- Go: the loop of `(*Regexp).allMatches` with `n = -1`: the successive
leftmost matches.  An empty match is not accepted right after the previous
match, and the search moves on by one character after an empty match. -/
def allMatchesLoop (re : Regex) (input : List Char) :
    Nat → Nat → Option Nat → List (Nat × Nat)
  | 0, _, _ => []
  | fuel + 1, pos, prevMatchEnd =>
    if input.length < pos then []
    else
      match findFrom re input (input.length + 1 - pos) pos with
      | none => []
      | some (s, e) =>
        let accept := !(e == pos && some s == prevMatchEnd)
        let next := if e = pos then pos + 1 else e
        let rest := allMatchesLoop re input fuel next (some e)
        if accept then (s, e) :: rest else rest

/-- Go: `(*Regexp).FindAllStringIndex(input, -1)`. -/
def FindAllStringIndex (re : Regex) (input : List Char) : List (Nat × Nat) :=
  allMatchesLoop re input (input.length + 2) 0 none

/-- The expression `x+`. -/
def Regex.plus (a : Regex) : Regex := .seq a (.star a)

/-- The literal character `c`. -/
def Regex.char (c : Char) : Regex := .cls (fun x => x == c)

/-- The class `\d`: `[0-9]`. -/
def isDigit (c : Char) : Bool := 48 ≤ c.toNat ∧ c.toNat ≤ 57

/-- The class `[A-Za-z]`. -/
def isLetter (c : Char) : Bool :=
  (65 ≤ c.toNat ∧ c.toNat ≤ 90) ∨ (97 ≤ c.toNat ∧ c.toNat ≤ 122)

/-- The expression `\d{n}`. -/
def digits : Nat → Regex
  | 0 => .empty
  | n + 1 => .seq (.cls isDigit) (digits n)

/-- The least length of a match of the expression. -/
def Regex.minLen : Regex → Nat
  | .empty => 0
  | .cls _ => 1
  | .seq a b => a.minLen + b.minLen
  | .alt a b => min a.minLen b.minLen
  | .star _ => 0
  | .wordBoundary => 0

end Regexp

/-! ## internal/sanitizer -/

namespace Sanitizer

/-- The error of `Sanitize`: `overlap resolution failure`. -/
inductive Error where
  | overlapResolutionFailure
  deriving DecidableEq

/-- Go: `type Rule struct { EntityType string; Regex *regexp.Regexp; Confidence float64 }`. -/
structure Rule where
  EntityType : String
  Regex : Regexp.Regex
  Confidence : ℚ

/-- Go: `type match struct { start int; end int; value string; rule Rule }`. -/
structure Match where
  start : Nat
  «end» : Nat
  value : String
  rule : Rule

/-- Go: `type Sanitizer struct { rules []Rule }`. -/
structure Sanitizer where
  rules : List Rule

/-- The class `[A-Za-z0-9._%+-]` of the local part of an e-mail address. -/
def isEmailLocal (c : Char) : Bool :=
  Regexp.isLetter c || Regexp.isDigit c || c == '.' || c == '_' || c == '%' || c == '+' || c == '-'

/-- The class `[A-Za-z0-9.-]` of the domain of an e-mail address. -/
def isEmailDomain (c : Char) : Bool :=
  Regexp.isLetter c || Regexp.isDigit c || c == '.' || c == '-'

/-- The pattern of the rule EMAIL: `[A-Za-z0-9._%+-]+@[A-Za-z0-9.-]+\.[A-Za-z]{2,}`. -/
def emailRegex : Regexp.Regex :=
  .seq (Regexp.Regex.plus (.cls isEmailLocal))
    (.seq (Regexp.Regex.char '@')
      (.seq (Regexp.Regex.plus (.cls isEmailDomain))
        (.seq (Regexp.Regex.char '.')
          (.seq (.cls Regexp.isLetter) (.seq (.cls Regexp.isLetter)
            (.star (.cls Regexp.isLetter)))))))

/-- The pattern of the rule PHONE: `\b\d{3}-\d{3}-\d{4}\b`. -/
def phoneRegex : Regexp.Regex :=
  .seq .wordBoundary
    (.seq (Regexp.digits 3) (.seq (Regexp.Regex.char '-')
      (.seq (Regexp.digits 3) (.seq (Regexp.Regex.char '-')
        (.seq (Regexp.digits 4) .wordBoundary)))))

/-- The pattern of the rule SSN: `\b\d{3}-\d{2}-\d{4}\b`. -/
def ssnRegex : Regexp.Regex :=
  .seq .wordBoundary
    (.seq (Regexp.digits 3) (.seq (Regexp.Regex.char '-')
      (.seq (Regexp.digits 2) (.seq (Regexp.Regex.char '-')
        (.seq (Regexp.digits 4) .wordBoundary)))))

/-- Go: `NewDefault`. -/
def NewDefault : Sanitizer :=
  { rules :=
      [{ EntityType := "EMAIL", Regex := emailRegex, Confidence := 99 / 100 },
       { EntityType := "PHONE", Regex := phoneRegex, Confidence := 99 / 100 },
       { EntityType := "SSN", Regex := ssnRegex, Confidence := 99 / 100 }] }

/-- Go: `fmt.Sprintf("%04d", index)` for an index that is not negative: the
decimal digits, padded with zeros on the left to four characters. -/
def pad4 (index : Nat) : String :=
  String.mk (List.replicate (4 - (toString index).length) '0') ++ toString index

/-- Go: `surrogateForEntity`. -/
def surrogateForEntity (entityType : String) (index : Nat) : String :=
  let suffix := toString index
  if entityType = "EMAIL" then "person" ++ suffix ++ "@example.net"
  else if entityType = "PHONE" then "555-010-" ++ pad4 index
  else if entityType = "SSN" then "900-00-" ++ pad4 index
  else "redacted-" ++ suffix

/-- Go: the slice `input[lo:hi]` of a string, for `lo ≤ hi ≤ len(input)`. -/
def slice (input : List Char) (lo hi : Nat) : List Char := (input.drop lo).take (hi - lo)

/-- Go: the first loop of `Sanitize`: the matches of every rule, in the order
of the rules and, for one rule, of the positions. -/
def collectMatches (rules : List Rule) (input : List Char) : List Match :=
  rules.flatMap (fun rule =>
    (Regexp.FindAllStringIndex rule.Regex input).map (fun idx =>
      { start := idx.1, «end» := idx.2, value := String.mk (slice input idx.1 idx.2),
        rule := rule }))

/-- Go: `sort.SliceStable`, the insertion of `x` before the elements that
followed it in the slice: `x` goes behind the elements that are less than it,
and before the first element that is not. -/
def insertStable {α : Type} (less : α → α → Bool) (x : α) : List α → List α
  | [] => [x]
  | y :: ys => if less y x then y :: insertStable less x ys else x :: y :: ys

/-- Go: `sort.SliceStable(xs, less)`: the stable sort, which keeps the order
of the elements of which neither is less than the other. -/
def sortStable {α : Type} (less : α → α → Bool) : List α → List α
  | [] => []
  | x :: xs => insertStable less x (sortStable less xs)

/-- Go: the first `less` of `Sanitize`: the longer match first, and of two
matches of one length the one that starts earlier. -/
def lessLongest (a b : Match) : Bool :=
  let lenA := a.end - a.start
  let lenB := b.end - b.start
  if lenA ≠ lenB then decide (lenA > lenB) else decide (a.start < b.start)

/-- Go: the second `less` of `Sanitize`: by start offset. -/
def lessStart (a b : Match) : Bool := decide (a.start < b.start)

/-- Go: the loop `for i := m.start; i < m.end; i++ { if occupied[i] ... }`:
whether a position of the match is occupied. -/
def overlaps (occupied : List Bool) (start stop : Nat) : Bool :=
  (List.range' start (stop - start)).any (fun i => occupied.getD i false)

/-- Go: the loop `for i := m.start; i < m.end; i++ { occupied[i] = true }`. -/
def occupy (occupied : List Bool) (start stop : Nat) : List Bool :=
  (List.range' start (stop - start)).foldl (fun occ i => occ.set i true) occupied

/-- Go: the loop of `Sanitize` that accepts the matches which overlap none of
the matches accepted before. -/
def acceptLoop : List Match → List Bool → List Match → List Match
  | [], _, accepted => accepted
  | m :: ms, occupied, accepted =>
    if overlaps occupied m.start m.end then acceptLoop ms occupied accepted
    else acceptLoop ms (occupy occupied m.start m.end) (accepted ++ [m])

/-- The state of the loop that assigns the surrogates: the map `counts`, and
the map `surrogateByEntityAndValue` as a list of entries keyed by the entity
type and the value; a key that is absent reads as `0` and as the empty
string, as in Go. -/
structure Surrogates where
  counts : List (String × Nat)
  byEntityAndValue : List ((String × String) × String)

/-- Go: `counts[entityType]`. -/
def Surrogates.count (s : Surrogates) (entityType : String) : Nat :=
  (s.counts.lookup entityType).getD 0

/-- Go: `surrogateByEntityAndValue[entityType][value]`. -/
def Surrogates.surrogate (s : Surrogates) (entityType value : String) : String :=
  (s.byEntityAndValue.lookup (entityType, value)).getD ""

/-- Go: `type replacement struct { start, end int; placeholder string; mapping Mapping }`,
the anonymous struct of `Sanitize`. -/
structure Replacement where
  start : Nat
  «end» : Nat
  placeholder : String
  mapping : Mapping

/-- Go: the body of the loop `for _, m := range accepted`: the surrogate of
the match (a new one when the value has none yet), and the state afterwards. -/
def assignSurrogate (s : Surrogates) (m : Match) : Surrogates × Replacement :=
  let known := s.surrogate m.rule.EntityType m.value
  let (s, surrogate) :=
    if known = "" then
      let n := s.count m.rule.EntityType + 1
      let fresh := surrogateForEntity m.rule.EntityType n
      ({ counts := (m.rule.EntityType, n) :: s.counts,
         byEntityAndValue := ((m.rule.EntityType, m.value), fresh) :: s.byEntityAndValue },
       fresh)
    else (s, known)
  (s, { start := m.start, «end» := m.end, placeholder := surrogate,
        mapping := { Placeholder := surrogate, OriginalValue := m.value,
                     EntityType := m.rule.EntityType, ConfidenceScore := m.rule.Confidence } })

/-- Go: the loop `for _, m := range accepted` of `Sanitize`. -/
def assignSurrogates : Surrogates → List Match → List Replacement
  | _, [] => []
  | s, m :: ms =>
    let (s', r) := assignSurrogate s m
    r :: assignSurrogates s' ms

/-- Go: the last loop of `Sanitize`, with the variables `cursor`, `output` and
`mappings`, and the statements after it. -/
def replaceLoop (input : List Char) :
    List Replacement → Nat → List Char → List Mapping → Except Error Result
  | [], cursor, output, mappings =>
    .ok { Sanitized := String.mk (output ++ input.drop cursor), Mappings := mappings }
  | r :: rs, cursor, output, mappings =>
    if cursor > r.start then .error .overlapResolutionFailure
    else
      replaceLoop input rs r.end (output ++ slice input cursor r.start ++ r.placeholder.data)
        (mappings ++ [r.mapping])

/-- Go: `(*Sanitizer).Sanitize`. -/
def Sanitizer.Sanitize (s : Sanitizer) (input : String) : Except Error Result :=
  let found := collectMatches s.rules input.data
  if found.length = 0 then .ok { Sanitized := input, Mappings := [] }
  else
    let found := sortStable lessLongest found
    let accepted := acceptLoop found (List.replicate input.data.length false) []
    let accepted := sortStable lessStart accepted
    let replacements := assignSurrogates { counts := [], byEntityAndValue := [] } accepted
    replaceLoop input.data replacements 0 [] []

end Sanitizer

/-! ## internal/proxy -/

namespace Proxy

/-- Go: `type ChatMessage struct`. -/
structure ChatMessage where
  Role : String
  Content : String
  deriving DecidableEq

/-- Go: `type ChatCompletionRequest struct`. -/
structure ChatCompletionRequest where
  Model : String
  Messages : List ChatMessage
  deriving DecidableEq

/-- Go: `type chatChoice struct`. -/
structure chatChoice where
  Index : Int
  Message : ChatMessage
  FinishReason : String
  deriving DecidableEq

/-- Go: `type ChatCompletionResponse struct`. -/
structure ChatCompletionResponse where
  ID : String
  Object : String
  Model : String
  Choices : List chatChoice
  deriving DecidableEq

/-- Go: `type errorResponse struct`, with its nested `Error` struct flattened. -/
structure errorResponse where
  Code : String
  Message : String
  RequestID : String
  deriving DecidableEq

/-- Go: `type ExplainMapping struct`. -/
structure ExplainMapping where
  Placeholder : String
  EntityType : String
  Confidence : ℚ
  deriving DecidableEq

/-- Go: `type ExplainResponse struct`. -/
structure ExplainResponse where
  RequestID : String
  PolicyVersion : String
  Model : String
  SanitizedInput : String
  Detections : Int
  MinConfidence : ℚ
  RiskScore : Int
  RiskCategory : Risk.Category
  Route : Router.Route
  Egress : Bool
  HardBlock : Bool
  Mappings : List ExplainMapping
  deriving DecidableEq

/-- Go: `type ForwardRequest struct`. -/
structure ForwardRequest where
  RequestID : String
  Model : String
  SanitizedPrompt : String
  RiskCategory : Risk.Category
  Route : Router.Route
  IdempotencyKey : String
  deriving DecidableEq

/-- Go: `type ForwardResponse struct`. -/
structure ForwardResponse where
  Content : String
  deriving DecidableEq

/-- Go: `type AbstractRequest struct`. -/
structure AbstractRequest where
  RequestID : String
  SanitizedPrompt : String
  Mappings : List Sanitizer.Mapping
  Route : Router.Route
  deriving DecidableEq

/-- Go: `type ProviderHTTPStatusError struct`; the map of headers is a list of
pairs of a key and its value, with at most one pair for a key. -/
structure ProviderHTTPStatusError where
  StatusCode : Int
  BodySnippet : String
  ResponseHeaders : List (String × String)
  deriving DecidableEq

/-- What the handler observes of the `error` that an upstream adapter returns:
the value of `isTimeout(err)`, and the `*ProviderHTTPStatusError` that
`errors.As` finds in it, if there is one. -/
structure UpstreamError where
  isTimeout : Bool
  status : Option ProviderHTTPStatusError
  deriving DecidableEq

/-- Go: `type UpstreamAdapter interface`.  An adapter may answer differently
on each call; the first argument is the number of calls made to it before, in
the request at hand. -/
abbrev UpstreamAdapter := Nat → ForwardRequest → Except UpstreamError ForwardResponse

/-- Go: `type Abstractor interface`. -/
abbrev Abstractor := AbstractRequest → Except Unit String

/-- Go: `type Sanitizer interface`. -/
abbrev SanitizerFn := String → Except Unit Sanitizer.Result

/-- Go: `type AuditWriter interface`; only whether `Append` returns an error
is observed by the handler. -/
abbrev AuditWriter := Audit.Event → Except Unit Unit

/-- Go: `type Handler struct`, after `NewHandler` filled in the defaults; an
interface that is `nil` is `none`.  The provider timeout is part of the
environment (`Env.deadlineExceeded`). -/
structure Handler where
  sanitizer : SanitizerFn
  scorer : Risk.Scorer
  router : Router.Engine
  upstream : Option UpstreamAdapter
  abstractor : Option Abstractor
  audit : Option AuditWriter
  policyVersion : String
  strictAudit : Bool

/-- What one request takes from its environment: the identifier that
`newRequestID()` draws, and whether the deadline of the provider context has
passed when the handler examines the error of the upstream
(`errors.Is(ctx.Err(), context.DeadlineExceeded)`). -/
structure Env where
  requestID : String
  deadlineExceeded : Bool

/-- The HTTP request as the handler reads it: the method, the body as decoded
by `json.NewDecoder(r.Body).Decode` (`none` when it returns an error), and the
value of `r.Header.Get("Idempotency-Key")` (empty when the header is absent). -/
structure Request where
  Method : String
  Body : Option ChatCompletionRequest
  IdempotencyKey : String

/-- The body that the handler writes. -/
inductive ResponseBody where
  | error (e : errorResponse)
  | completion (c : ChatCompletionResponse)
  | explain (e : ExplainResponse)
  deriving DecidableEq

/-- The HTTP response: the status code and the body. -/
structure Response where
  Status : Nat
  Body : ResponseBody
  deriving DecidableEq

/-- A call that the handler makes on one of its collaborators. -/
inductive Effect where
  | upstreamCall (req : ForwardRequest)
  | abstractCall (req : AbstractRequest)
  | auditAppend (event : Audit.Event)
  deriving DecidableEq

/-- The outcome of a handler: the response, and the calls made, in order. -/
structure Outcome where
  response : Response
  effects : List Effect
  deriving DecidableEq

/-- Go: `(*Handler).writeError`. -/
def writeError (status : Nat) (code message requestID : String) : Response :=
  { Status := status, Body := .error { Code := code, Message := message, RequestID := requestID } }

/-- Go: `(*Handler).writeSuccess`. -/
def writeSuccess (requestID model content : String) : Response :=
  { Status := 200,
    Body := .completion
      { ID := requestID, Object := "chat.completion", Model := model,
        Choices := [{ Index := 0, Message := { Role := "assistant", Content := content },
                      FinishReason := "stop" }] } }

/-- Go: `strings.TrimSpace` on a string. -/
def trimSpace (s : String) : String := String.mk (GoString.TrimSpace s.data)

/-- Go: the loop of `validateRequest` over the messages, from index `i` on; the
error carries its message. -/
def validateMessages : List ChatMessage → Nat → Except String Unit
  | [], _ => .ok ()
  | m :: ms, i =>
    if trimSpace m.Role = "" then .error ("messages[" ++ toString i ++ "].role is required")
    else if trimSpace m.Content = "" then
      .error ("messages[" ++ toString i ++ "].content is required")
    else validateMessages ms (i + 1)

/-- Go: `validateRequest`. -/
def validateRequest (req : ChatCompletionRequest) : Except String Unit :=
  if trimSpace req.Model = "" then .error "model is required"
  else if req.Messages.length = 0 then .error "at least one message is required"
  else validateMessages req.Messages 0

/-- Go: `joinPrompt`: the contents joined with line feeds. -/
def joinPrompt (messages : List ChatMessage) : String :=
  "\n".intercalate (messages.map (fun m => m.Content))

/-- Go: `minMappingConfidence`. -/
def minMappingConfidence : List Sanitizer.Mapping → ℚ
  | [] => 99 / 100
  | m :: ms => ms.foldl (fun acc x => if x.ConfidenceScore < acc then x.ConfidenceScore else acc)
      m.ConfidenceScore

/-- Go: `(*Handler).appendAudit`: the returned error (`.error ()` only in
strict mode), and the call made on the audit writer. -/
def Handler.appendAudit (h : Handler) (requestID : String) (category : Risk.Category)
    (route : Router.Route) (actionSummary : String) : Except Unit Unit × List Effect :=
  match h.audit with
  | none => (.ok (), [])
  | some audit =>
    let event : Audit.Event :=
      { RequestID := requestID, PolicyVersion := h.policyVersion,
        ActionSummary := actionSummary, RiskCategory := category, Route := route }
    match audit event with
    | .ok _ => (.ok (), [.auditAppend event])
    | .error _ => (if h.strictAudit then .error () else .ok (), [.auditAppend event])

/-- Go: the header names that `safeProviderDiagnostic` prints, in its order. -/
def headerOrder : List String :=
  ["content-type", "x-request-id", "request-id", "trace-id", "x-trace-id", "x-mimo-request-id",
   "retry-after", "status"]

/-- Go: `safeProviderDiagnostic`, for the status error found in the error
value, if any. -/
def safeProviderDiagnostic (err : UpstreamError) : String :=
  match err.status with
  | none => ""
  | some statusErr =>
    let parts := ["provider_status=" ++ toString statusErr.StatusCode]
    let parts :=
      if statusErr.BodySnippet ≠ "" then parts ++ ["provider_body=" ++ statusErr.BodySnippet]
      else parts
    let parts :=
      if statusErr.ResponseHeaders.length > 0 then
        let headerParts := headerOrder.filterMap (fun key =>
          (statusErr.ResponseHeaders.lookup key).map (fun value => key ++ "=" ++ value))
        parts ++ ["provider_headers=" ++ ",".intercalate headerParts]
      else parts
    " ".intercalate parts

/-- The values that `analyzeChatRequest` returns when it succeeds. -/
structure Analysis where
  req : ChatCompletionRequest
  rawPrompt : String
  sanitized : Sanitizer.Result
  result : Risk.Result
  hasHardBlock : Bool
  decision : Router.Decision

/-- Go: the branch of `analyzeChatRequest` taken when `Evaluate` returns an
error: the response 403, and the audit record when `auditFailures` is set. -/
def Handler.riskFailure (h : Handler) (requestID : String) (auditFailures : Bool) : Outcome :=
  { response := writeError 403 "ERR_POLICY_BLOCK" "risk evaluation failed" requestID,
    effects :=
      if auditFailures then
        (h.appendAudit requestID Risk.CategoryCritical Router.RouteCriticalBlocked
          "risk evaluation failed").2
      else [] }

/-- Go: `(*Handler).analyzeChatRequest`; on an error return the outcome is the
response written and the audit call made. -/
def Handler.analyzeChatRequest (h : Handler) (r : Request) (requestID : String)
    (auditFailures : Bool) : Except Outcome Analysis :=
  match r.Body with
  | none =>
    .error { response := writeError 400 "ERR_VALIDATION" "invalid JSON payload" requestID,
             effects := [] }
  | some req =>
    match validateRequest req with
    | .error msg =>
      .error { response := writeError 400 "ERR_VALIDATION" msg requestID, effects := [] }
    | .ok _ =>
      let rawPrompt := joinPrompt req.Messages
      match h.sanitizer rawPrompt with
      | .error _ =>
        .error { response := writeError 500 "ERR_SANITIZATION_FAILURE" "sanitization failed"
                   requestID,
                 effects := [] }
      | .ok sanitized =>
        match h.scorer.Evaluate (sanitized.Mappings.length : Int)
            (minMappingConfidence sanitized.Mappings) with
        | .error _ => .error (h.riskFailure requestID auditFailures)
        | .ok result =>
          let hasHardBlock := sanitized.Mappings.any (fun m => m.EntityType = "SSN")
          let decision := h.router.Decide result.Category hasHardBlock
          .ok { req := req, rawPrompt := rawPrompt, sanitized := sanitized, result := result,
                hasHardBlock := hasHardBlock, decision := decision }

/-- Go: `(*Handler).requireAbstraction`; on an error return the outcome is the
response written and the calls made. -/
def Handler.requireAbstraction (h : Handler) (requestID : String) (sanitized : Sanitizer.Result)
    (decision : Router.Decision) (summary : String) : Except Outcome (String × List Effect) :=
  match h.abstractor with
  | none =>
    .error { response := writeError 503 "ERR_ABSTRACTION_UNAVAILABLE"
               "local abstraction is not enabled" requestID,
             effects := (h.appendAudit requestID decision.Category decision.Route
               (summary ++ " abstraction-unavailable")).2 }
  | some abstractor =>
    let areq : AbstractRequest :=
      { RequestID := requestID, SanitizedPrompt := sanitized.Sanitized,
        Mappings := sanitized.Mappings, Route := decision.Route }
    match abstractor areq with
    | .error _ =>
      .error { response := writeError 503 "ERR_ABSTRACTION_UNAVAILABLE" "local abstraction failed"
                 requestID,
               effects := .abstractCall areq ::
                 (h.appendAudit requestID decision.Category decision.Route
                   (summary ++ " abstraction-failed")).2 }
    | .ok abstraction => .ok (abstraction, [.abstractCall areq])

/-- Go: the part that the two forwarding branches of `HandleChatCompletions`
share, after the last call of the upstream: the provider-timeout and
provider-failure responses, or the audit record and the success response.
`effects` are the calls made so far. -/
def Handler.finishForward (h : Handler) (env : Env) (req : ChatCompletionRequest)
    (decision : Router.Decision) (summary : String) (effects : List Effect)
    (final : Except UpstreamError ForwardResponse) : Outcome :=
  let requestID := env.requestID
  match final with
  | .error err =>
    if err.isTimeout || env.deadlineExceeded then
      { response := writeError 503 "ERR_PROVIDER_TIMEOUT" "provider timeout" requestID,
        effects := effects ++ (h.appendAudit requestID decision.Category decision.Route
          (summary ++ " provider-timeout")).2 }
    else
      let auditSummary := summary ++ " provider-failure"
      let diagnostic := safeProviderDiagnostic err
      let auditSummary := if diagnostic ≠ "" then auditSummary ++ " " ++ diagnostic
                          else auditSummary
      { response := writeError 502 "ERR_PROVIDER_FAILURE" "provider request failed" requestID,
        effects := effects ++ (h.appendAudit requestID decision.Category decision.Route
          auditSummary).2 }
  | .ok resp =>
    match h.appendAudit requestID decision.Category decision.Route (summary ++ " success") with
    | (.error _, auditEffects) =>
      { response := writeError 500 "ERR_AUDIT_FAILURE" "audit append failed" requestID,
        effects := effects ++ auditEffects }
    | (.ok _, auditEffects) =>
      { response := writeSuccess requestID req.Model resp.Content,
        effects := effects ++ auditEffects }

/-- Go: `(*Handler).HandleChatCompletions`. -/
def Handler.HandleChatCompletions (h : Handler) (env : Env) (r : Request) : Outcome :=
  let requestID := env.requestID
  if r.Method ≠ "POST" then
    { response := writeError 405 "ERR_METHOD_NOT_ALLOWED" "method not allowed" requestID,
      effects := [] }
  else
    match h.analyzeChatRequest r requestID true with
    | .error out => out
    | .ok a =>
      let req := a.req
      let sanitized := a.sanitized
      let decision := a.decision
      let summary := "route=" ++ decision.Route ++ " category=" ++ decision.Category
      let idempotencyKey := trimSpace r.IdempotencyKey
      if decision.Route = Router.RouteRawForward ∨ decision.Route = Router.RouteSanitizedForward
      then
        match h.upstream with
        | none =>
          { response := writeError 502 "ERR_PROVIDER_FAILURE" "upstream adapter not configured"
              requestID,
            effects := (h.appendAudit requestID decision.Category decision.Route
              (summary ++ " upstream-missing")).2 }
        | some upstream =>
          let promptForRoute :=
            if decision.Route = Router.RouteRawForward then a.rawPrompt else sanitized.Sanitized
          let forwardReq : ForwardRequest :=
            { RequestID := requestID, Model := req.Model, SanitizedPrompt := promptForRoute,
              RiskCategory := decision.Category, Route := decision.Route,
              IdempotencyKey := idempotencyKey }
          match upstream 0 forwardReq with
          | .error err =>
            if idempotencyKey ≠ "" ∧ (decision.Category = Risk.CategoryLow ∨
                decision.Category = Risk.CategoryMedium) then
              h.finishForward env req decision summary
                [.upstreamCall forwardReq, .upstreamCall forwardReq] (upstream 1 forwardReq)
            else
              h.finishForward env req decision summary [.upstreamCall forwardReq] (.error err)
          | .ok resp =>
            h.finishForward env req decision summary [.upstreamCall forwardReq] (.ok resp)
      else if decision.Route = Router.RouteHighAbstraction then
        match h.requireAbstraction requestID sanitized decision summary with
        | .error out => out
        | .ok (abstraction, absEffects) =>
          match h.upstream with
          | none =>
            { response := writeError 502 "ERR_PROVIDER_FAILURE" "upstream adapter not configured"
                requestID,
              effects := absEffects ++ (h.appendAudit requestID decision.Category decision.Route
                (summary ++ " upstream-missing")).2 }
          | some upstream =>
            let forwardReq : ForwardRequest :=
              { RequestID := requestID, Model := req.Model, SanitizedPrompt := abstraction,
                RiskCategory := decision.Category, Route := decision.Route,
                IdempotencyKey := idempotencyKey }
            h.finishForward env req decision summary (absEffects ++ [.upstreamCall forwardReq])
              (upstream 0 forwardReq)
      else if decision.Route = Router.RouteCriticalLocalOnly then
        match h.requireAbstraction requestID sanitized decision summary with
        | .error out => out
        | .ok (abstraction, absEffects) =>
          match h.appendAudit requestID decision.Category decision.Route
              (summary ++ " local-only-success") with
          | (.error _, auditEffects) =>
            { response := writeError 500 "ERR_AUDIT_FAILURE" "audit append failed" requestID,
              effects := absEffects ++ auditEffects }
          | (.ok _, auditEffects) =>
            { response := writeSuccess requestID req.Model abstraction,
              effects := absEffects ++ auditEffects }
      else
        { response := writeError 403 "ERR_POLICY_BLOCK" "request blocked by policy" requestID,
          effects := (h.appendAudit requestID Risk.CategoryCritical Router.RouteCriticalBlocked
            (summary ++ " blocked")).2 }

/-- The number of calls of the upstream adapter among the calls made. -/
def upstreamCalls : List Effect → Nat
  | [] => 0
  | .upstreamCall _ :: rest => upstreamCalls rest + 1
  | _ :: rest => upstreamCalls rest

end Proxy

namespace Proxy

/-- Go: `PassthroughAbstractor.Abstract`. -/
def PassthroughAbstractor : Abstractor := fun req => .ok req.SanitizedPrompt

/-- Go: `StubUpstream.ChatCompletions`, with a context that is not done. -/
def StubUpstream : UpstreamAdapter := fun _ _ => .ok { Content := "stub completion" }

/-- The sanitizer result of `TestCriticalLocalOnlyReturnsAbstractionWithoutRemoteEgress`:
four mappings of confidence 0.99. -/
def criticalTestResult : Sanitizer.Result :=
  { Sanitized := "person1@example.net person2@example.net 555-010-0001 900-00-0001",
    Mappings :=
      [{ Placeholder := "person1@example.net", OriginalValue := "a@example.com",
         EntityType := "EMAIL", ConfidenceScore := 99 / 100 },
       { Placeholder := "person2@example.net", OriginalValue := "b@example.com",
         EntityType := "EMAIL", ConfidenceScore := 99 / 100 },
       { Placeholder := "555-010-0001", OriginalValue := "555-123-4567",
         EntityType := "PHONE", ConfidenceScore := 99 / 100 },
       { Placeholder := "900-00-0001", OriginalValue := "123-45-6789",
         EntityType := "SSN", ConfidenceScore := 99 / 100 }] }

/-- The handler of `TestCriticalLocalOnlyReturnsAbstractionWithoutRemoteEgress`:
a fixed sanitizer, the scorer of threshold 0.70, the router with
`critical_local_only` set, an upstream, the passthrough abstractor, no audit
writer. -/
def criticalTestHandler : Handler :=
  { sanitizer := fun _ => .ok criticalTestResult,
    scorer := Risk.NewScorer (7 / 10),
    router := Router.NewEngineWithCriticalLocalOnly false true,
    upstream := some StubUpstream,
    abstractor := some PassthroughAbstractor,
    audit := none,
    policyVersion := "v2.1-phase1",
    strictAudit := false }

/-- The request of that test: model `gpt-test`, one user message `test`. -/
def criticalTestRequest : Request :=
  { Method := "POST",
    Body := some { Model := "gpt-test", Messages := [{ Role := "user", Content := "test" }] },
    IdempotencyKey := "" }

/-- The analysis of that request by that handler. -/
def criticalTestAnalysis : Analysis :=
  { req := { Model := "gpt-test", Messages := [{ Role := "user", Content := "test" }] },
    rawPrompt := "test",
    sanitized := criticalTestResult,
    result := { Score := 100, Category := Risk.CategoryCritical, Confidence := 99 / 100 },
    hasHardBlock := true,
    decision := { Category := Risk.CategoryCritical, Route := Router.RouteCriticalLocalOnly,
                  Egress := false } }

end Proxy

namespace Proxy

/-- The requests passed to the upstream adapter, in the order of the calls. -/
def upstreamRequests : List Effect → List ForwardRequest
  | [] => []
  | .upstreamCall req :: rest => req :: upstreamRequests rest
  | _ :: rest => upstreamRequests rest

/-- The number of calls of the audit writer's `Append` among the calls made. -/
def auditAppends : List Effect → Nat
  | [] => 0
  | .auditAppend _ :: rest => auditAppends rest + 1
  | _ :: rest => auditAppends rest

/-- Go: the `forwardReq` that `HandleChatCompletions` builds on the routes
`raw_forward` and `sanitized_forward`. -/
def forwardReqFor (env : Env) (r : Request) (a : Analysis) : ForwardRequest :=
  { RequestID := env.requestID, Model := a.req.Model,
    SanitizedPrompt :=
      if a.decision.Route = Router.RouteRawForward then a.rawPrompt else a.sanitized.Sanitized,
    RiskCategory := a.decision.Category, Route := a.decision.Route,
    IdempotencyKey := trimSpace r.IdempotencyKey }

/-- Go: the `summary` of `HandleChatCompletions`,
`fmt.Sprintf("route=%s category=%s", decision.Route, decision.Category)`. -/
def summaryFor (a : Analysis) : String :=
  "route=" ++ a.decision.Route ++ " category=" ++ a.decision.Category

/-- The handler with its audit writer replaced by one whose `Append` always
succeeds. -/
def Handler.withWorkingAudit (h : Handler) : Handler :=
  { h with audit := some (fun _ => .ok ()) }

/-- Go: `sanitizer.NewDefault()` behind the handler's `Sanitizer` interface. -/
def defaultSanitizer : SanitizerFn := fun text =>
  match Sanitizer.NewDefault.Sanitize text with
  | .ok result => .ok result
  | .error _ => .error ()

/-- Go: `failOnceThenOKUpstream` of `tv_rel_006_retry_test.go`: the first call
fails with an error that is no timeout, the later ones answer `ok`. -/
def failOnceThenOKUpstream : UpstreamAdapter := fun calls _ =>
  if calls = 0 then .error { isTimeout := false, status := none } else .ok { Content := "ok" }

/-- Go: `failAlwaysUpstream` of `tv_rel_006_retry_test.go`. -/
def failAlwaysUpstream : UpstreamAdapter := fun _ _ =>
  .error { isTimeout := false, status := none }

/-- Go: `timeoutUpstream` of `tv_rel_001_timeout_test.go`: every call waits for
the context to be done and returns its error, the deadline being exceeded. -/
def timeoutUpstream : UpstreamAdapter := fun _ _ =>
  .error { isTimeout := true, status := none }

/-- Go: `failingAuditWriter` of `tv_rel_001_timeout_test.go`. -/
def failingAuditWriter : AuditWriter := fun _ => .error ()

/-- An abstractor whose `Abstract` returns an error. -/
def failingAbstractor : Abstractor := fun _ => .error ()

/-- The handler of the tests of `tv_rel_006_retry_test.go` and
`tv_rel_001_timeout_test.go`: the default sanitizer, the scorer of threshold
0.70, the router `NewEngine(false)`, and the given upstream, abstractor, audit
writer and strictness. -/
def testHandler (upstream : UpstreamAdapter) (abstractor : Option Abstractor)
    (audit : Option AuditWriter) (strictAudit : Bool) : Handler :=
  { sanitizer := defaultSanitizer,
    scorer := Risk.NewScorer (7 / 10),
    router := Router.NewEngine false,
    upstream := some upstream,
    abstractor := abstractor,
    audit := audit,
    policyVersion := "v2.1",
    strictAudit := strictAudit }

/-- The request of `TestTVREL002AuditFailureStrictModeBlocks` with the given
value of the header `Idempotency-Key`: model `gpt-test`, one user message
`hello`. -/
def helloRequest (idempotencyKey : String) : Request :=
  { Method := "POST",
    Body := some { Model := "gpt-test", Messages := [{ Role := "user", Content := "hello" }] },
    IdempotencyKey := idempotencyKey }

/-- The analysis of `helloRequest` by `testHandler`: no detection, score 0,
category Low, route `sanitized_forward`. -/
def helloAnalysis : Analysis :=
  { req := { Model := "gpt-test", Messages := [{ Role := "user", Content := "hello" }] },
    rawPrompt := "hello",
    sanitized := { Sanitized := "hello", Mappings := [] },
    result := { Score := 0, Category := Risk.CategoryLow, Confidence := 99 / 100 },
    hasHardBlock := false,
    decision := { Category := Risk.CategoryLow, Route := Router.RouteSanitizedForward,
                  Egress := true } }

/-- The request of `TestTVREL006HighRouteDoesNotRetryEvenWithIdempotencyKey`:
one user message with an e-mail address and a telephone number, and the header
`Idempotency-Key: idem-high`. -/
def highRequest : Request :=
  { Method := "POST",
    Body := some { Model := "gpt-test",
                   Messages := [{ Role := "user",
                                  Content := "alice@example.com and 555-123-4567" }] },
    IdempotencyKey := "idem-high" }

/-- The analysis of `highRequest` by `testHandler`: two detections, score 50,
category High, route `high_abstraction`. -/
def highAnalysis : Analysis :=
  { req := { Model := "gpt-test",
             Messages := [{ Role := "user", Content := "alice@example.com and 555-123-4567" }] },
    rawPrompt := "alice@example.com and 555-123-4567",
    sanitized :=
      { Sanitized := "person1@example.net and 555-010-0001",
        Mappings :=
          [{ Placeholder := "person1@example.net", OriginalValue := "alice@example.com",
             EntityType := "EMAIL", ConfidenceScore := 99 / 100 },
           { Placeholder := "555-010-0001", OriginalValue := "555-123-4567",
             EntityType := "PHONE", ConfidenceScore := 99 / 100 }] },
    result := { Score := 50, Category := Risk.CategoryHigh, Confidence := 99 / 100 },
    hasHardBlock := false,
    decision := { Category := Risk.CategoryHigh, Route := Router.RouteHighAbstraction,
                  Egress := true } }

end Proxy

namespace Proxy

/-- Go: the `audit.Event` that `appendAudit` passes to the writer for the
decision of the analysis and the given action summary. -/
def Handler.auditEventFor (h : Handler) (env : Env) (a : Analysis) (actionSummary : String) :
    Audit.Event :=
  { RequestID := env.requestID, PolicyVersion := h.policyVersion,
    ActionSummary := actionSummary, RiskCategory := a.decision.Category,
    Route := a.decision.Route }

/-- The audit append of the given summary returns an error to the handler: the
handler is strict, a writer is configured and its `Append` fails on the event. -/
def Handler.AuditBlocks (h : Handler) (env : Env) (a : Analysis) (actionSummary : String) :
    Prop :=
  h.strictAudit = true ∧
    ∃ w, h.audit = some w ∧ w (h.auditEventFor env a actionSummary) = .error ()

/-- The environment of the test requests: the request identifier `req-0`. -/
def testEnv (deadlineExceeded : Bool) : Env :=
  { requestID := "req-0", deadlineExceeded := deadlineExceeded }

end Proxy

namespace Proxy

/-- The audit strictness policy as the handler applies it, for the response
`actual` of a handler whose audit writer fails and the response `working` of
the same handler with a writer that succeeds: a strict handler answers 500
ERR_AUDIT_FAILURE in place of a success response and leaves every other
response as it is; a handler that is not strict leaves every response as it
is. -/
def AuditFailurePolicy (strict : Bool) (requestID : String) (actual working : Response) : Prop :=
  (strict = false → actual = working) ∧
  (strict = true →
    (working.Status = 200 →
      actual = writeError 500 "ERR_AUDIT_FAILURE" "audit append failed" requestID) ∧
    (working.Status ≠ 200 → actual = working))

end Proxy

namespace Regexp

/-- What a search in continuation-passing style owes its continuation: when it
succeeds from position `i`, the continuation was called with success at a
position `j` that is at least `n` characters further and, when `i` lies within
the text, within the text. -/
def Advances (input : List Char) (n : Nat) (step : Nat → (Nat → Option Nat) → Option Nat) :
    Prop :=
  ∀ (i : Nat) (k : Nat → Option Nat) (e : Nat), step i k = some e →
    ∃ j, i + n ≤ j ∧ (i ≤ input.length → j ≤ input.length) ∧ k j = some e

end Regexp

namespace Sanitizer

/-- Two matches overlap: they share a position of the text. -/
def Match.Overlaps (a b : Match) : Prop :=
  ∃ i, a.start ≤ i ∧ i < a.end ∧ b.start ≤ i ∧ i < b.end

/-- Go: the value of `accepted` in `Sanitize` after the second sort: the
matches that are kept, by start offset. -/
def Sanitizer.kept (s : Sanitizer) (input : String) : List Match :=
  sortStable lessStart
    (acceptLoop (sortStable lessLongest (collectMatches s.rules input.data))
      (List.replicate input.data.length false) [])

/-- The text woven of the gaps and the fillings in turn: the first gap, the
first filling, the second gap, and so on; the gaps left over when the fillings
run out follow one another. -/
def weave : List (List Char) → List (List Char) → List Char
  | [], _ => []
  | g :: gs, [] => g ++ weave gs []
  | g :: gs, f :: fs => g ++ f ++ weave gs fs

end Sanitizer

namespace Sanitizer

/-- The pieces of the text that the replacement loop copies: the text from
the cursor to the first span, the text between each span and the next, and
the text behind the last span. -/
def gaps (input : List Char) : List (Nat × Nat) → Nat → List (List Char)
  | [], cursor => [input.drop cursor]
  | span :: rest, cursor => slice input cursor span.1 :: gaps input rest span.2

/-- The span of a match: its start and its end. -/
def Match.span (m : Match) : Nat × Nat := (m.start, m.end)

/-- The length of a match. -/
def Match.length (m : Match) : Nat := m.end - m.start

end Sanitizer
namespace Sanitizer

/-- A sanitizer with two rules, of the patterns `abc` and `b*`; the second
pattern matches the empty text. -/
def nullableSanitizer : Sanitizer :=
  { rules :=
      [{ EntityType := "WORD",
         Regex := .seq (Regexp.Regex.char 'a') (.seq (Regexp.Regex.char 'b')
           (Regexp.Regex.char 'c')),
         Confidence := 99 / 100 },
       { EntityType := "RUN", Regex := .star (Regexp.Regex.char 'b'), Confidence := 99 / 100 }] }

end Sanitizer
namespace Sanitizer

/-- The original values of the entity type among the mappings, each once, in
the order of their first occurrence, behind the values seen before. -/
def firstValues (entityType : String) : List Mapping → List String → List String
  | [], seen => seen
  | x :: xs, seen =>
    if x.EntityType = entityType ∧ x.OriginalValue ∉ seen then
      firstValues entityType xs (seen ++ [x.OriginalValue])
    else firstValues entityType xs seen

/-- The distinct original values of the entity type among the mappings, in
left-to-right order. -/
def distinctValues (entityType : String) (mappings : List Mapping) : List String :=
  firstValues entityType mappings []

/-- The index of a mapping among the mappings of a result: `j` when its
original value is the `j`-th distinct original value of its entity type. -/
def valueIndex (mappings : List Mapping) (x : Mapping) : Nat :=
  (distinctValues x.EntityType mappings).indexOf x.OriginalValue + 1

/-- The number that a text of decimal digits stands for; leading zeros do not
count.  It reads back the index from a surrogate. -/
def decimalValue (digits : List Char) : Nat :=
  digits.foldl (fun acc c => acc * 10 + (c.toNat - 48)) 0

end Sanitizer
namespace Sanitizer

/-- The result of the default sanitizer on the text `a@b.co c@d.co a@b.co`:
the first and the third address, which are equal, have the first surrogate, and
the second address has the second one. -/
def repeatedValueResult : Result :=
  { Sanitized := "person1@example.net person2@example.net person1@example.net",
    Mappings :=
      [{ Placeholder := "person1@example.net", OriginalValue := "a@b.co",
         EntityType := "EMAIL", ConfidenceScore := 99 / 100 },
       { Placeholder := "person2@example.net", OriginalValue := "c@d.co",
         EntityType := "EMAIL", ConfidenceScore := 99 / 100 },
       { Placeholder := "person1@example.net", OriginalValue := "a@b.co",
         EntityType := "EMAIL", ConfidenceScore := 99 / 100 }] }

/-- The result of the default sanitizer on the text
`555-123-4567 555-123-9999 555-123-4567 123-45-6789`: the first and the third
telephone number, which are equal, have the first surrogate of PHONE, the
second number has the second one, and the social security number has the
first surrogate of SSN. -/
def repeatedPhoneResult : Result :=
  { Sanitized := "555-010-0001 555-010-0002 555-010-0001 900-00-0001",
    Mappings :=
      [{ Placeholder := "555-010-0001", OriginalValue := "555-123-4567",
         EntityType := "PHONE", ConfidenceScore := 99 / 100 },
       { Placeholder := "555-010-0002", OriginalValue := "555-123-9999",
         EntityType := "PHONE", ConfidenceScore := 99 / 100 },
       { Placeholder := "555-010-0001", OriginalValue := "555-123-4567",
         EntityType := "PHONE", ConfidenceScore := 99 / 100 },
       { Placeholder := "900-00-0001", OriginalValue := "123-45-6789",
         EntityType := "SSN", ConfidenceScore := 99 / 100 }] }

end Sanitizer

namespace Proxy

/-- Go: the loop of `HandleDebugExplain` over `sanitized.Mappings`: one
`ExplainMapping` for each mapping, in order. -/
def explainMappings (mappings : List Sanitizer.Mapping) : List ExplainMapping :=
  mappings.map (fun mapping =>
    { Placeholder := mapping.Placeholder, EntityType := mapping.EntityType,
      Confidence := mapping.ConfidenceScore })

/-- Go: `(*Handler).HandleDebugExplain`. -/
def Handler.HandleDebugExplain (h : Handler) (env : Env) (r : Request) : Outcome :=
  let requestID := env.requestID
  if r.Method ≠ "POST" then
    { response := writeError 405 "ERR_METHOD_NOT_ALLOWED" "method not allowed" requestID,
      effects := [] }
  else
    match h.analyzeChatRequest r requestID false with
    | .error out => out
    | .ok a =>
      { response :=
          { Status := 200,
            Body := .explain
              { RequestID := requestID,
                PolicyVersion := h.policyVersion,
                Model := a.req.Model,
                SanitizedInput := a.sanitized.Sanitized,
                Detections := (a.sanitized.Mappings.length : Int),
                MinConfidence := minMappingConfidence a.sanitized.Mappings,
                RiskScore := a.result.Score,
                RiskCategory := a.result.Category,
                Route := a.decision.Route,
                Egress := a.decision.Egress,
                HardBlock := a.hasHardBlock,
                Mappings := explainMappings a.sanitized.Mappings } },
        effects := [] }

/-- Two results of a sanitizer that differ at most in the `OriginalValue`
fields of their mappings: the same sanitized text, and mappings that agree,
one for one, in placeholder, entity type and confidence. -/
def SameButOriginals (a b : Sanitizer.Result) : Prop :=
  a.Sanitized = b.Sanitized ∧
  List.Forall₂ (fun x y => x.Placeholder = y.Placeholder ∧ x.EntityType = y.EntityType ∧
    x.ConfidenceScore = y.ConfidenceScore) a.Mappings b.Mappings

/-- Two sanitizers whose results on every text differ at most in the
`OriginalValue` fields of the mappings, and which fail on the same texts. -/
def SanitizersAgree (s s' : SanitizerFn) : Prop :=
  ∀ text, match s text, s' text with
    | .ok a, .ok b => SameButOriginals a b
    | .error _, .error _ => True
    | _, _ => False

/-- The default sanitizer with the original value of every mapping replaced by
the text `masked`. -/
def maskedSanitizer : SanitizerFn := fun text =>
  match defaultSanitizer text with
  | .ok result =>
    .ok { result with
          Mappings := result.Mappings.map (fun m => { m with OriginalValue := "masked" }) }
  | .error e => .error e

end Proxy
namespace Proxy

/-- Go: the `AbstractRequest` that `requireAbstraction` builds. -/
def abstractReqFor (env : Env) (a : Analysis) : AbstractRequest :=
  { RequestID := env.requestID, SanitizedPrompt := a.sanitized.Sanitized,
    Mappings := a.sanitized.Mappings, Route := a.decision.Route }

/-- The requests passed to the abstractor, in the order of the calls. -/
def abstractRequests : List Effect → List AbstractRequest
  | [] => []
  | .abstractCall req :: rest => req :: abstractRequests rest
  | _ :: rest => abstractRequests rest

/-- The request of the seed scenario S1: one user message with two e-mail
addresses and a telephone number. -/
def s1Request : Request :=
  { Method := "POST",
    Body := some { Model := "gpt-test",
                   Messages := [{ Role := "user",
                                  Content := "Email alice@example.com and bob@example.com call 555-123-4567" }] },
    IdempotencyKey := "" }

/-- The result of the default sanitizer on the text of the seed scenario S1:
three mappings. -/
def s1Sanitized : Sanitizer.Result :=
  { Sanitized := "Email person1@example.net and person2@example.net call 555-010-0001",
    Mappings :=
      [{ Placeholder := "person1@example.net", OriginalValue := "alice@example.com",
         EntityType := "EMAIL", ConfidenceScore := 99 / 100 },
       { Placeholder := "person2@example.net", OriginalValue := "bob@example.com",
         EntityType := "EMAIL", ConfidenceScore := 99 / 100 },
       { Placeholder := "555-010-0001", OriginalValue := "555-123-4567",
         EntityType := "PHONE", ConfidenceScore := 99 / 100 }] }

/-- The analysis of the request of the seed scenario S1 by the handler of the
tests with the router `e`: three detections, score 75, category Critical. -/
def s1Analysis (e : Router.Engine) : Analysis :=
  { req := { Model := "gpt-test",
             Messages := [{ Role := "user",
                            Content := "Email alice@example.com and bob@example.com call 555-123-4567" }] },
    rawPrompt := "Email alice@example.com and bob@example.com call 555-123-4567",
    sanitized := s1Sanitized,
    result := { Score := 75, Category := Risk.CategoryCritical, Confidence := 99 / 100 },
    hasHardBlock := false,
    decision := e.Decide Risk.CategoryCritical false }

end Proxy
namespace Regexp

/-- The class `\s` of the regular expressions of Go: `[\t\n\f\r ]`. -/
def isSpaceClass (c : Char) : Bool :=
  c.toNat = 9 ∨ c.toNat = 10 ∨ c.toNat = 12 ∨ c.toNat = 13 ∨ c.toNat = 32

/-- The class `[a-z]` under the flag `(?i)`: the ASCII letters of both cases,
and the two characters outside ASCII that Go's simple case folding joins to
`s` and `k`: U+017F (long s) and U+212A (Kelvin sign). -/
def isFoldLetter (c : Char) : Bool :=
  isLetter c || c.toNat = 0x17F || c.toNat = 0x212A

/-- The literal lower-case letter `c` under the flag `(?i)`: the letter, its
upper-case form, and for `s` and `k` the characters U+017F and U+212A. -/
def Regex.foldChar (c : Char) : Regex :=
  .cls (fun x => x == c || x.toNat + 32 = c.toNat ||
    (c == 's' && x.toNat = 0x17F) || (c == 'k' && x.toNat = 0x212A))

/-- The expressions of a list in sequence. -/
def Regex.cat : List Regex → Regex
  | [] => .empty
  | [a] => a
  | a :: rest => .seq a (Regex.cat rest)

/-- A literal text of lower-case letters under the flag `(?i)`. -/
def Regex.foldLit (s : String) : Regex := Regex.cat (s.data.map Regex.foldChar)

/-- The expression `x?`: `x` is tried first. -/
def Regex.opt (a : Regex) : Regex := .alt a .empty

/-- The expression `x{n,}`: `n` times `x`, then `x*`. -/
def Regex.atLeast : Nat → Regex → Regex
  | 0, a => .star a
  | n + 1, a => .seq a (Regex.atLeast n a)

/-- Go: `(*Regexp).MatchString`: whether the text contains a match of the
expression. -/
def MatchString (re : Regex) (input : List Char) : Bool :=
  (findFrom re input (input.length + 1) 0).isSome

/-- Go: the loop of `(*Regexp).replaceAll`, for a replacement text without
`$`: `searchPos` is where the next match is looked for, `lastMatchEnd` the end
of the most recent match, `buf` the output so far.  The replacement is not
inserted for an empty match right after another match, and the search always
moves on by at least one character. -/
def replaceAllLoop (re : Regex) (input repl : List Char) :
    Nat → Nat → Nat → List Char → List Char
  | 0, _, lastMatchEnd, buf => buf ++ input.drop lastMatchEnd
  | fuel + 1, searchPos, lastMatchEnd, buf =>
    if input.length < searchPos then buf ++ input.drop lastMatchEnd
    else
      match findFrom re input (input.length + 1 - searchPos) searchPos with
      | none => buf ++ input.drop lastMatchEnd
      | some (s, e) =>
        let buf := buf ++ (input.drop lastMatchEnd).take (s - lastMatchEnd)
        let buf := if e > lastMatchEnd ∨ s = 0 then buf ++ repl else buf
        let width := if searchPos < input.length then 1 else 0
        let next :=
          if searchPos + width > e then searchPos + width
          else if searchPos + 1 > e then searchPos + 1
          else e
        replaceAllLoop re input repl fuel next e buf

/-- Go: `(*Regexp).ReplaceAllString(input, repl)` for a replacement text
without `$`. -/
def ReplaceAllString (re : Regex) (input repl : List Char) : List Char :=
  replaceAllLoop re input repl (input.length + 2) 0 0 []

end Regexp

namespace Proxy

open Regexp in
/-- The expression `(?i)"key"\s*:\s*"[^"]+"` for a key given by its
expression: a JSON member with a string value that is not empty. -/
def jsonSecretPattern (key : Regex) : Regex :=
  Regex.cat [Regex.char Json.quote, key, Regex.char Json.quote, .star (.cls isSpaceClass),
    Regex.char ':', .star (.cls isSpaceClass), Regex.char Json.quote,
    Regex.plus (.cls (fun c => c != Json.quote)), Regex.char Json.quote]

open Regexp in
/-- The class `[-_]`. -/
def isDashOrUnderscore (c : Char) : Bool := c == '-' || c == '_'

open Regexp in
/-- Go: `(?i)"api[-_]?key"\s*:\s*"[^"]+"`. -/
def apiKeyPattern : Regex :=
  jsonSecretPattern (Regex.cat [Regex.foldLit "api", Regex.opt (.cls isDashOrUnderscore),
    Regex.foldLit "key"])

open Regexp in
/-- Go: `(?i)"access[-_]?token"\s*:\s*"[^"]+"`. -/
def accessTokenPattern : Regex :=
  jsonSecretPattern (Regex.cat [Regex.foldLit "access", Regex.opt (.cls isDashOrUnderscore),
    Regex.foldLit "token"])

open Regexp in
/-- Go: `(?i)"token"\s*:\s*"[^"]+"`. -/
def tokenPattern : Regex := jsonSecretPattern (Regex.foldLit "token")

open Regexp in
/-- Go: `(?i)"authorization"\s*:\s*"[^"]+"`. -/
def authorizationPattern : Regex := jsonSecretPattern (Regex.foldLit "authorization")

open Regexp in
/-- The class `[a-z0-9]` under the flag `(?i)`. -/
def isFoldAlnum (c : Char) : Bool := isFoldLetter c || isDigit c

open Regexp in
/-- Go: `(?i)(?:sk|rk)-[a-z0-9]{8,}`. -/
def secretKeyPattern : Regex :=
  Regex.cat [.alt (Regex.foldLit "sk") (Regex.foldLit "rk"), Regex.char '-',
    Regex.atLeast 8 (.cls isFoldAlnum)]

open Regexp in
/-- The class `[a-z0-9._%+\-]` under the flag `(?i)`. -/
def isFoldEmailLocal (c : Char) : Bool :=
  isFoldLetter c || isDigit c || c == '.' || c == '_' || c == '%' || c == '+' || c == '-'

open Regexp in
/-- The class `[a-z0-9.\-]` under the flag `(?i)`. -/
def isFoldEmailDomain (c : Char) : Bool :=
  isFoldLetter c || isDigit c || c == '.' || c == '-'

open Regexp in
/-- Go: `(?i)[a-z0-9._%+\-]+@[a-z0-9.\-]+\.[a-z]{2,}`. -/
def emailPattern : Regex :=
  Regex.cat [Regex.plus (.cls isFoldEmailLocal), Regex.char '@',
    Regex.plus (.cls isFoldEmailDomain), Regex.char '.', Regex.atLeast 2 (.cls isFoldLetter)]

open Regexp in
/-- The class `[-.\s]`. -/
def isPhoneSeparator (c : Char) : Bool := c == '-' || c == '.' || isSpaceClass c

open Regexp in
/-- Go: `\b\d{3}[-.\s]?\d{3}[-.\s]?\d{4}\b`. -/
def phonePattern : Regex :=
  .seq .wordBoundary
    (.seq (Regex.cat [digits 3, Regex.opt (.cls isPhoneSeparator), digits 3,
        Regex.opt (.cls isPhoneSeparator), digits 4])
      .wordBoundary)

/-- Go: `\b\d{3}-\d{2}-\d{4}\b`. -/
def ssnPattern : Regexp.Regex := Sanitizer.ssnRegex

/-- Go: `redactionPatterns`. -/
def redactionPatterns : List Regexp.Regex :=
  [apiKeyPattern, accessTokenPattern, tokenPattern, authorizationPattern, secretKeyPattern,
   emailPattern, phonePattern, ssnPattern]

/-- The replacement text of the redaction. -/
def redactedMark : List Char := "[REDACTED]".data

/-- Go: the loop `for _, pattern := range redactionPatterns` of
`safeBodySnippet`. -/
def redact (text : List Char) : List Char :=
  redactionPatterns.foldl (fun t pattern => Regexp.ReplaceAllString pattern t redactedMark) text

end Proxy

namespace GoString

/-- Go: `utf8.AppendRune`: the bytes of a character in UTF-8. -/
def utf8Bytes (c : Char) : List Nat :=
  let v := c.toNat
  if v < 0x80 then [v]
  else if v < 0x800 then [0xC0 + v / 0x40, 0x80 + v % 0x40]
  else if v < 0x10000 then [0xE0 + v / 0x1000, 0x80 + v / 0x40 % 0x40, 0x80 + v % 0x40]
  else [0xF0 + v / 0x40000, 0x80 + v / 0x1000 % 0x40, 0x80 + v / 0x40 % 0x40, 0x80 + v % 0x40]

/-- One element of a Go string that need not be valid UTF-8: a character, which
stands for the bytes of its encoding, or a byte that belongs to no character. -/
inductive Piece where
  /-- a character in UTF-8 -/
  | char (c : Char)
  /-- a byte outside every character -/
  | byte (b : Nat)
  deriving DecidableEq

/-- The bytes of one element of a Go string. -/
def Piece.bytes : Piece → List Nat
  | .char c => utf8Bytes c
  | .byte b => [b]

/-- Go: what `utf8.DecodeRuneInString` reads at an element, as `regexp` and a
`range` loop do: the character, or `utf8.RuneError` (U+FFFD, of width 1) for a
byte that belongs to no character. -/
def Piece.rune : Piece → Char
  | .char c => c
  | .byte _ => Char.ofNat 0xFFFD

/-- The Go string of a text. -/
def ofText (s : List Char) : List Piece := s.map Piece.char

/-- Go: `[]byte(s)`: the bytes of a string. -/
def bytes (s : List Piece) : List Nat := s.flatMap Piece.bytes

/-- The characters that `regexp` reads in a string. -/
def runes (s : List Piece) : List Char := s.map Piece.rune

/-- The text of a Go string that is valid UTF-8; there is none when the string
has a byte that belongs to no character. -/
def text? : List Piece → Option (List Char)
  | [] => some []
  | .char c :: rest => (text? rest).map (fun t => c :: t)
  | .byte _ :: _ => none

end GoString

namespace Proxy

/-- Go: the slice `s[:n]` of a string: its first `n` bytes.  The characters
that lie within the first `n` bytes are kept.  When the cut splits a character,
the bytes of it that lie within are kept as they are; they belong to no
character, since the text that follows them does not continue the encoding. -/
def cutBytes : Nat → List Char → List GoString.Piece
  | _, [] => []
  | n, c :: cs =>
    if c.utf8Size ≤ n then .char c :: cutBytes (n - c.utf8Size) cs
    else ((GoString.utf8Bytes c).take n).map .byte

/-- Go: `safeBodySnippet`; the body is a text in UTF-8.  The result is a Go
string that need not be valid UTF-8: the cut at 240 bytes can split a
character. -/
def safeBodySnippet (body : String) : List GoString.Piece :=
  let trimmed := GoString.TrimSpace body.data
  if trimmed = [] then []
  else
    let trimmed := redact trimmed
    if GoString.byteLen trimmed > 240 then cutBytes 240 trimmed ++ GoString.ofText "...".data
    else GoString.ofText trimmed

/-- Go: `validHeaderFieldByte` of `net/textproto`: the characters of a token
of RFC 7230. -/
def isTokenChar (c : Char) : Bool :=
  Regexp.isLetter c || Regexp.isDigit c ||
  [33, 35, 36, 37, 38, 39, 42, 43, 45, 46, 94, 95, 96, 124, 126].contains c.toNat

/-- Go: the loop of `canonicalMIMEHeaderKey`: a letter at the start and after
a hyphen becomes upper case, every other letter lower case. -/
def canonicalLoop : List Char → Bool → List Char
  | [], _ => []
  | c :: cs, upper =>
    let c :=
      if upper ∧ 97 ≤ c.toNat ∧ c.toNat ≤ 122 then Char.ofNat (c.toNat - 32)
      else if ¬ upper ∧ 65 ≤ c.toNat ∧ c.toNat ≤ 90 then Char.ofNat (c.toNat + 32)
      else c
    c :: canonicalLoop cs (c == '-')

/-- Go: `http.CanonicalHeaderKey`; a key with a character that is no token
character is returned as it is. -/
def canonicalHeaderKey (key : String) : String :=
  if key.data.all isTokenChar then String.mk (canonicalLoop key.data true) else key

/-- Go: `values, ok := headers[key]; ok && len(values) > 0`, and then
`values[0]`, on an `http.Header`: a list of pairs of a key and its values, with
at most one pair for a key. -/
def firstHeaderValue (headers : List (String × List String)) (key : String) : Option String :=
  match headers.lookup key with
  | some (value :: _) => some value
  | _ => none

/-- Go: the names of the first loop of `sanitizeResponseHeaders`, which are
looked up under their canonical form. -/
def canonicalNames : List String :=
  ["content-type", "x-request-id", "request-id", "trace-id", "x-trace-id", "x-mimo-request-id"]

/-- Go: `sanitizeResponseHeaders`; the map that it returns is the list of its
entries in the order of their insertion (the keys inserted are distinct). -/
def sanitizeResponseHeaders (headers : List (String × List String)) : List (String × String) :=
  canonicalNames.filterMap (fun key =>
      (firstHeaderValue headers (canonicalHeaderKey key)).map (fun value => (key, value)))
  ++ ((firstHeaderValue headers "Retry-After").map (fun value => ("retry-after", value))).toList
  ++ ((firstHeaderValue headers ":status").map (fun value => ("status", value))).toList

/-- The key of the provider's header map that `sanitizeResponseHeaders` reads
for a name of its result. -/
def headerSource (name : String) : String :=
  if name = "status" then ":status" else canonicalHeaderKey name

/-- What `chatCompletions` reads of the provider's HTTP response: the status
code, the body and the headers. -/
structure HTTPResponse where
  StatusCode : Int
  Body : String
  Header : List (String × List String)

/-- Go: the `&ProviderHTTPStatusError` that `(*providerHTTPClient).chatCompletions`
returns for a response whose status code is not 2xx.  The fields of the error
are texts in UTF-8 in this development: when the body snippet is no valid UTF-8
(the cut of `safeBodySnippet` split a character), the error has no counterpart
here, and there is no value. -/
def statusErrorOf (resp : HTTPResponse) : Option ProviderHTTPStatusError :=
  (GoString.text? (safeBodySnippet resp.Body)).map (fun snippet =>
    { StatusCode := resp.StatusCode, BodySnippet := String.mk snippet,
      ResponseHeaders := sanitizeResponseHeaders resp.Header })

/-- An upstream adapter over the HTTP client (`OpenAICompatibleUpstream`,
`VLLMUpstream`, `MimoUpstream`) whose provider answers every call with a
response of a status code that is not 2xx: the adapter returns the error of
`chatCompletions` for that response, `statusErr`. -/
def providerStatusUpstream (statusErr : ProviderHTTPStatusError) : UpstreamAdapter := fun _ _ =>
  .error { isTimeout := false, status := some statusErr }

/-- An audit writer whose `Append` succeeds. -/
def workingAuditWriter : AuditWriter := fun _ => .ok ()

/-- The action summaries of the audit records appended, in order. -/
def auditSummaries : List Effect → List String
  | [] => []
  | .auditAppend event :: rest => event.ActionSummary :: auditSummaries rest
  | _ :: rest => auditSummaries rest

/-- The response of the seed scenario S7, with a request identifier that the
provider chose: status 401, the body `{"error":"invalid","api_key":"sk-abc12345"}`,
and the header `X-Request-Id: alice@example.com`. -/
def s7Response : HTTPResponse :=
  { StatusCode := 401,
    Body := "\x7b\x22error\x22:\x22invalid\x22,\x22api_key\x22:\x22sk-abc12345\x22\x7d",
    Header := [("Content-Type", ["application/json"]), ("X-Request-Id", ["alice@example.com"])] }

/-- The error of `chatCompletions` for the response `s7Response`: the body with
the member `api_key` redacted, and the two headers of the whitelist. -/
def s7StatusError : ProviderHTTPStatusError :=
  { StatusCode := 401,
    BodySnippet := "\x7b\x22error\x22:\x22invalid\x22,[REDACTED]\x7d",
    ResponseHeaders := [("content-type", "application/json"),
                        ("x-request-id", "alice@example.com")] }

end Proxy
namespace Proxy

/-- A provider body of 241 bytes: 57 times the character U+1F600, of four
bytes each, and the digits `555-123-45678`, which no redaction pattern
matches. -/
def longDigitsBody : String :=
  String.mk (List.replicate 57 (Char.ofNat 0x1F600) ++ "555-123-45678".data)

/-- A provider body in which a JSON member `"token"` with a string value
stands inside a quoted text: `"token":""token":"a""`. -/
def nestedTokenBody : String := "\x22token\x22:\x22\x22token\x22:\x22a\x22\x22"

/-- A provider body of 244 bytes whose cut splits a character: 59 times the
character U+1F600, of four bytes each, the letters `abc`, the character U+00E9,
of the two bytes C3 A9, and the letters `xyz`. -/
def splitBody : String :=
  String.mk (List.replicate 59 (Char.ofNat 0x1F600) ++ "abc\u00e9xyz".data)

end Proxy
namespace Proxy

/-- The audit summary that the handler writes for the response `s7Response` of
the provider, on the request with the message `hello`. -/
def s7Summary : String :=
  "route=sanitized_forward category=Low provider-failure provider_status=401 " ++
  "provider_body=\x7b\x22error\x22:\x22invalid\x22,[REDACTED]\x7d " ++
  "provider_headers=content-type=application/json,x-request-id=alice@example.com"

end Proxy

namespace Regexp

/-- The rounds of a repetition: a chain of matches of the body, each of which
consumes at least one character. -/
inductive StarChain (R : Nat → Nat → Prop) : Nat → Nat → Prop
  /-- no round -/
  | done (i : Nat) : StarChain R i i
  /-- one round from `i` to `m`, then the rest -/
  | round (i m j : Nat) : R i m → i < m → StarChain R m j → StarChain R i j

/-- The expression matches the text of the input between the positions `i`
and `j`: the declarative reading of an expression, with no order of
preference. -/
def Derives (input : List Char) : Regex → Nat → Nat → Prop
  | .empty, i, j => j = i
  | .cls p, i, j => j = i + 1 ∧ ∃ c, input[i]? = some c ∧ p c = true
  | .seq a b, i, j => ∃ m, Derives input a i m ∧ Derives input b m j
  | .alt a b, i, j => Derives input a i j ∨ Derives input b i j
  | .star a, i, j => StarChain (fun x y => Derives input a x y) i j
  | .wordBoundary, i, j => j = i ∧ atWordBoundary input i = true

/-- An expression without word boundary: whether it matches a piece of text
does not depend on the text around the piece. -/
def Regex.free : Regex → Bool
  | .empty => true
  | .cls _ => true
  | .seq a b => a.free && b.free
  | .alt a b => a.free && b.free
  | .star a => a.free
  | .wordBoundary => false

/-- Whether a class of the expression accepts the character: the characters
that can stand in a match. -/
def Regex.accepts : Regex → Char → Bool
  | .empty, _ => false
  | .cls p, c => p c
  | .seq a b, c => a.accepts c || b.accepts c
  | .alt a b, c => a.accepts c || b.accepts c
  | .star a, c => a.accepts c
  | .wordBoundary, _ => false

/-- Whether the expression can match without a character: an upper bound,
which takes every repetition and every assertion to do so. -/
def Regex.nullable : Regex → Bool
  | .empty => true
  | .cls _ => false
  | .seq a b => a.nullable && b.nullable
  | .alt a b => a.nullable || b.nullable
  | .star _ => true
  | .wordBoundary => true

/-- Whether the character can be the last one of a match of the expression. -/
def Regex.lastAccepts : Regex → Char → Bool
  | .empty, _ => false
  | .cls p, c => p c
  | .seq a b, c => b.lastAccepts c || (b.nullable && a.lastAccepts c)
  | .alt a b, c => a.lastAccepts c || b.lastAccepts c
  | .star a, c => a.lastAccepts c
  | .wordBoundary, _ => false

/-- The text has no match of the expression that is not empty. -/
def NoMatch (re : Regex) (text : List Char) : Prop :=
  ∀ p q, p < q → ¬ Derives text re p q

end Regexp
namespace Regexp

/-- Whether the character can be the first one of a match of the expression. -/
def Regex.firstAccepts : Regex → Char → Bool
  | .empty, _ => false
  | .cls p, c => p c
  | .seq a b, c => a.firstAccepts c || (a.nullable && b.firstAccepts c)
  | .alt a b, c => a.firstAccepts c || b.firstAccepts c
  | .star a, c => a.firstAccepts c
  | .wordBoundary, _ => false

/-- The expression `re` is `\b core \b`, for an expression `core` without word
boundary whose matches are not empty and begin and end with a word character. -/
def Fences (re core : Regex) : Prop :=
  core.free = true ∧ 0 < core.minLen ∧
  (∀ c, core.firstAccepts c = true → isWordChar c = true) ∧
  (∀ c, core.lastAccepts c = true → isWordChar c = true) ∧
  ∀ (input : List Char) (p q : Nat),
    Derives input re p q ↔
      atWordBoundary input p = true ∧ Derives input core p q ∧ atWordBoundary input q = true

end Regexp
namespace Proxy

open Regexp in
/-- The part `\d{3}[-.\s]?\d{3}[-.\s]?\d{4}` of the phone pattern, between its
word boundaries. -/
def phoneCore : Regex :=
  Regex.cat [digits 3, Regex.opt (.cls isPhoneSeparator), digits 3,
    Regex.opt (.cls isPhoneSeparator), digits 4]

open Regexp in
/-- The part `\d{3}-\d{2}-\d{4}` of the SSN pattern, between its word
boundaries. -/
def ssnCore : Regex :=
  .seq (digits 3) (.seq (Regex.char '-') (.seq (digits 2) (.seq (Regex.char '-') (digits 4))))

end Proxy

/-! # Theorems -/

/-! ## Router: the decision table -/

namespace Router

/-- C3. For each of the four categories and all values of the hard-block flag
and of the two engine flags, `Engine.Decide` returns the row of the decision
table: Low is `raw_forward` exactly when raw forwarding is allowed and there is
no hard block, otherwise `sanitized_forward`; Medium is `sanitized_forward`;
High is `high_abstraction`; Critical is `critical_local_only` when that flag is
set, otherwise `critical_blocked`.  The returned category is the input category,
egress is true on the first three and false on Critical, and egress is false if
and only if the route is one of the two critical routes. -/
theorem C3_decide_table (allowRaw localOnly hasHardBlock : Bool) :
    (Engine.Decide ⟨allowRaw, localOnly⟩ Risk.CategoryLow hasHardBlock =
      { Category := Risk.CategoryLow,
        Route := if allowRaw = true ∧ hasHardBlock = false then RouteRawForward
                 else RouteSanitizedForward,
        Egress := true }) ∧
    (Engine.Decide ⟨allowRaw, localOnly⟩ Risk.CategoryMedium hasHardBlock =
      { Category := Risk.CategoryMedium, Route := RouteSanitizedForward, Egress := true }) ∧
    (Engine.Decide ⟨allowRaw, localOnly⟩ Risk.CategoryHigh hasHardBlock =
      { Category := Risk.CategoryHigh, Route := RouteHighAbstraction, Egress := true }) ∧
    (Engine.Decide ⟨allowRaw, localOnly⟩ Risk.CategoryCritical hasHardBlock =
      { Category := Risk.CategoryCritical,
        Route := if localOnly = true then RouteCriticalLocalOnly else RouteCriticalBlocked,
        Egress := false }) ∧
    (∀ category ∈ [Risk.CategoryLow, Risk.CategoryMedium, Risk.CategoryHigh,
        Risk.CategoryCritical],
      (Engine.Decide ⟨allowRaw, localOnly⟩ category hasHardBlock).Category = category ∧
      ((Engine.Decide ⟨allowRaw, localOnly⟩ category hasHardBlock).Egress = false ↔
        ((Engine.Decide ⟨allowRaw, localOnly⟩ category hasHardBlock).Route
            = RouteCriticalLocalOnly ∨
         (Engine.Decide ⟨allowRaw, localOnly⟩ category hasHardBlock).Route
            = RouteCriticalBlocked))) := by
  cases allowRaw <;> cases localOnly <;> cases hasHardBlock <;> decide

end Router

/-! ## Risk: bands and escalation -/

namespace Risk

/-- C5. `categoryForScore` returns Low on `[0,24]`, Medium on `[25,49]`, High
on `[50,74]`, Critical on `[75,100]`, and returns an error exactly when the
score is below 0 or above 100. -/
theorem C5_categoryForScore_bands (score : Int) :
    ((0 ≤ score ∧ score ≤ 24) → categoryForScore score = .ok CategoryLow) ∧
    ((25 ≤ score ∧ score ≤ 49) → categoryForScore score = .ok CategoryMedium) ∧
    ((50 ≤ score ∧ score ≤ 74) → categoryForScore score = .ok CategoryHigh) ∧
    ((75 ≤ score ∧ score ≤ 100) → categoryForScore score = .ok CategoryCritical) ∧
    ((∃ err, categoryForScore score = .error err) ↔ (score < 0 ∨ score > 100)) := by
  unfold categoryForScore
  refine ⟨?_, ?_, ?_, ?_, ?_⟩
  · intro h; simp [h]
  · intro h
    have h1 : ¬ (0 ≤ score ∧ score ≤ 24) := by omega
    simp [h1, h]
  · intro h
    have h1 : ¬ (0 ≤ score ∧ score ≤ 24) := by omega
    have h2 : ¬ (25 ≤ score ∧ score ≤ 49) := by omega
    simp [h1, h2, h]
  · intro h
    have h1 : ¬ (0 ≤ score ∧ score ≤ 24) := by omega
    have h2 : ¬ (25 ≤ score ∧ score ≤ 49) := by omega
    have h3 : ¬ (50 ≤ score ∧ score ≤ 74) := by omega
    simp [h1, h2, h3, h]
  · constructor
    · rintro ⟨err, h⟩
      by_contra hc
      split_ifs at h
      all_goals omega
    · intro h
      have h1 : ¬ (0 ≤ score ∧ score ≤ 24) := by omega
      have h2 : ¬ (25 ≤ score ∧ score ≤ 49) := by omega
      have h3 : ¬ (50 ≤ score ∧ score ≤ 74) := by omega
      have h4 : ¬ (75 ≤ score ∧ score ≤ 100) := by omega
      exact ⟨.invalidScore score, by simp [h1, h2, h3, h4]⟩

/-- The band boundaries of the test vector TV-ROUTE-001, evaluated. -/
theorem C5_band_boundaries :
    categoryForScore 0 = .ok CategoryLow ∧ categoryForScore 24 = .ok CategoryLow ∧
    categoryForScore 25 = .ok CategoryMedium ∧ categoryForScore 49 = .ok CategoryMedium ∧
    categoryForScore 50 = .ok CategoryHigh ∧ categoryForScore 74 = .ok CategoryHigh ∧
    categoryForScore 75 = .ok CategoryCritical ∧ categoryForScore 100 = .ok CategoryCritical ∧
    categoryForScore (-1) = .error (.invalidScore (-1)) ∧
    categoryForScore 101 = .error (.invalidScore 101) :=
  ⟨rfl, rfl, rfl, rfl, rfl, rfl, rfl, rfl, rfl, rfl⟩

/-- The band of the code agrees with the band of the specification on `[0,100]`. -/
theorem categoryForScore_eq_specBand (score : Int) (h0 : 0 ≤ score) (h1 : score ≤ 100) :
    categoryForScore score = .ok (specBand score) := by
  unfold categoryForScore specBand CategoryLow CategoryMedium CategoryHigh CategoryCritical
  by_cases a : score ≤ 24
  · simp [a, h0]
  · by_cases b : score ≤ 49
    · have b1 : 25 ≤ score := by omega
      simp [a, b, b1]
    · by_cases c : score ≤ 74
      · have c1 : 50 ≤ score := by omega
        simp [a, b, c, c1]
      · have d1 : 75 ≤ score := by omega
        simp [a, b, c, d1, h1]

/-- On the four categories `escalate` is the one-band promotion of the spec. -/
theorem escalate_specBand (score : Int) : escalate (specBand score) = specPromote (specBand score) := by
  unfold specBand
  split_ifs <;> decide

/-- Without overflow the wrapped product is the product. -/
theorem wrapInt64_of_range (x : Int) (h : IsInt64 x) : wrapInt64 x = x := by
  unfold IsInt64 at h
  unfold wrapInt64
  rw [if_neg (by omega)]

/-- C4, counterexample. The detection count `368934881474191033` is a
non-negative Go `int`, yet its product with 25 exceeds `2^63 - 1` and wraps to a
negative score, so `Evaluate` returns the invalid-score error instead of the
score 100 and a category. -/
theorem C4_counterexample :
    IsInt64 368934881474191033 ∧ (0 : Int) ≤ 368934881474191033 ∧
    Scorer.Evaluate (NewScorer (7 / 10)) 368934881474191033 (99 / 100)
      = .error (.invalidScore (-9223372036854775791)) := by
  refine ⟨by unfold IsInt64; omega, by omega, ?_⟩
  simp [Scorer.Evaluate, NewScorer, wrapInt64, categoryForScore]

/-- C4, amended. For every detection count `d ≥ 0` whose product with 25 does
not overflow the 64-bit `int` (`d * 25 < 2^63`), every confidence and every
threshold `t > 0`, `Evaluate` succeeds with score `min (d * 25) 100`, the
confidence unchanged, and the category `band(score)` promoted by one band
(Critical staying Critical) when `confidence < t`, and `band(score)` itself
when `confidence ≥ t`. -/
theorem C4_evaluate_amended (t confidence : ℚ) (detections : Int) (ht : 0 < t)
    (hd : 0 ≤ detections) (hno : detections * 25 < 2 ^ 63) :
    ∃ r, Scorer.Evaluate (NewScorer t) detections confidence = .ok r ∧
      r.Score = min (detections * 25) 100 ∧
      r.Confidence = confidence ∧
      (confidence < t → r.Category = specPromote (specBand r.Score)) ∧
      (t ≤ confidence → r.Category = specBand r.Score) := by
  have hs : NewScorer t = ⟨t⟩ := by
    unfold NewScorer
    rw [if_neg (not_le.mpr ht)]
  have hw : wrapInt64 (detections * 25) = detections * 25 :=
    wrapInt64_of_range _ ⟨by omega, hno⟩
  have hscore : (if detections * 25 > 100 then (100 : Int) else detections * 25)
      = min (detections * 25) 100 := by
    split_ifs with h
    · exact (min_eq_right (le_of_lt h)).symm
    · exact (min_eq_left (not_lt.mp h)).symm
  have hb := categoryForScore_eq_specBand (min (detections * 25) 100)
    (le_min (by omega) (by omega)) (min_le_right _ _)
  refine ⟨{ Score := min (detections * 25) 100,
            Category := if confidence < t then escalate (specBand (min (detections * 25) 100))
                        else specBand (min (detections * 25) 100),
            Confidence := confidence }, ?_, rfl, rfl, ?_, ?_⟩
  · simp only [Scorer.Evaluate, hs, hw, hscore, hb]
  · intro hlt
    simp only [if_pos hlt, escalate_specBand]
  · intro hge
    simp only [if_neg (not_lt.mpr hge)]

/-- C4, witness of the amended theorem: one detection at threshold and
confidence `0.70`. -/
theorem C4_evaluate_amended_witness :
    ∃ r, Scorer.Evaluate (NewScorer (7 / 10)) 1 (7 / 10) = .ok r ∧
      r.Score = min ((1 : Int) * 25) 100 ∧
      r.Confidence = 7 / 10 ∧
      ((7 / 10 : ℚ) < 7 / 10 → r.Category = specPromote (specBand r.Score)) ∧
      ((7 / 10 : ℚ) ≤ 7 / 10 → r.Category = specBand r.Score) :=
  C4_evaluate_amended (7 / 10) (7 / 10) 1 (by norm_num) (by norm_num) (by norm_num)

/-- The two instances named by the claim: with threshold `0.70`, one detection
at confidence `0.70` is Medium and at confidence `0.69` is High. -/
theorem C4_strict_comparison :
    Scorer.Evaluate (NewScorer (7 / 10)) 1 (7 / 10)
      = .ok { Score := 25, Category := CategoryMedium, Confidence := 7 / 10 } ∧
    Scorer.Evaluate (NewScorer (7 / 10)) 1 (69 / 100)
      = .ok { Score := 25, Category := CategoryHigh, Confidence := 69 / 100 } := by
  constructor
  · simp [Scorer.Evaluate, NewScorer, wrapInt64, categoryForScore, CategoryMedium, CategoryLow]
  · simp [Scorer.Evaluate, NewScorer, wrapInt64, categoryForScore, escalate, CategoryMedium,
      CategoryLow, CategoryHigh]
    norm_num

end Risk

/-! ## Audit: the chain written by `Append` -/

namespace Audit

/-- The result of one `Append`, by cases on what the operating system does. -/
theorem append_cases (lib : Lib) (cw : ChainWriter) (file : File) (now : Time)
    (io : IOOutcome) (event : Event) :
    (∃ err, (cw.Append lib file now io event).result = .error err ∧
        (cw.Append lib file now io event).writer = cw ∧
        (io = .ok → (cw.Append lib file now io event).file = file)) ∨
    (∃ r line, io = .ok ∧ (cw.Append lib file now io event).result = .ok r ∧
        r.PrevHash = cw.prevHash ∧ entryHash lib r = .ok r.EntryHash ∧
        marshalRecord r = .ok line ∧
        (cw.Append lib file now io event).writer = { prevHash := r.EntryHash } ∧
        (cw.Append lib file now io event).file = some (file.getD [] ++ (line ++ [GoString.lf])) ∧
        r.Timestamp = now ∧ r.RequestID = event.RequestID ∧
        r.PolicyVersion = event.PolicyVersion ∧ r.ActionSummary = event.ActionSummary ∧
        r.RiskCategory = event.RiskCategory ∧ r.Route = event.Route) := by
  obtain ⟨text, inRange⟩ := now
  cases inRange with
  | false => exact Or.inl ⟨.marshal, rfl, rfl, fun _ => rfl⟩
  | true =>
    cases io with
    | ok =>
      exact Or.inr ⟨_, _, rfl, rfl, rfl, rfl, rfl, rfl, rfl, rfl, rfl, rfl, rfl, rfl, rfl⟩
    | openFails => exact Or.inl ⟨_, rfl, rfl, fun h => by cases h⟩
    | writeFails w c => exact Or.inl ⟨_, rfl, rfl, fun h => by cases h⟩
    | closeFails => exact Or.inl ⟨_, rfl, rfl, fun h => by cases h⟩

/-- C10. For every writer state, file, clock reading and event: when opening
the file, writing the line or closing the file fails, `Append` returns an error;
whenever `Append` returns an error the writer (its `prevHash`) is unchanged;
and only when `Append` returns a record, which requires that all three file
operations succeeded, does `prevHash` become that record's `entry_hash`. -/
theorem C10_prevHash_committed_on_success_only (lib : Lib) (cw : ChainWriter) (file : File)
    (now : Time) (io : IOOutcome) (event : Event) :
    (io ≠ .ok → ∃ err, (cw.Append lib file now io event).result = .error err) ∧
    (∀ err, (cw.Append lib file now io event).result = .error err →
        (cw.Append lib file now io event).writer.prevHash = cw.prevHash) ∧
    (∀ r, (cw.Append lib file now io event).result = .ok r →
        io = .ok ∧ (cw.Append lib file now io event).writer.prevHash = r.EntryHash) := by
  rcases append_cases lib cw file now io event with ⟨err, he, hw, _⟩ | ⟨r, line, hio, hr, _, _, _, hw, _⟩
  · refine ⟨fun _ => ⟨err, he⟩, fun _ _ => by rw [hw], fun r hr => ?_⟩
    rw [he] at hr
    cases hr
  · refine ⟨fun h => absurd hio h, fun err h => ?_, fun r' h => ?_⟩
    · rw [hr] at h
      cases h
    · rw [hr] at h
      cases h
      exact ⟨hio, by rw [hw]⟩

/-- The records returned by the successful calls of a run form a chain that
follows the writer's `prevHash`, and the writer ends on the last hash. -/
theorem runAppends_chained (lib : Lib) (calls : List Call) :
    ∀ (cw : ChainWriter) (file : File),
      Chained lib cw.prevHash (okRecords (runAppends lib cw file calls).1) ∧
      (runAppends lib cw file calls).2.1.prevHash
        = lastHash cw.prevHash (okRecords (runAppends lib cw file calls).1) := by
  induction calls with
  | nil => intro cw file; exact ⟨trivial, rfl⟩
  | cons c cs ih =>
    intro cw file
    simp only [runAppends]
    rcases append_cases lib cw file c.now c.io c.event with
      ⟨err, he, hw, _⟩ | ⟨r, line, _, hr, hp, hh, _, hw, _⟩
    · rw [he, hw]
      exact ih cw _
    · rw [hr, hw]
      have := ih { prevHash := r.EntryHash } (cw.Append lib file c.now c.io c.event).file
      exact ⟨⟨hp, hh, this.1⟩, this.2⟩

/-- In a chain, every record but the first carries the entry hash of the
record before it. -/
theorem Chained.link (lib : Lib) :
    ∀ (rs : List Record) (prev : String), Chained lib prev rs →
      ∀ (i : Nat) (r r' : Record), rs[i]? = some r → rs[i + 1]? = some r' →
        r'.PrevHash = r.EntryHash := by
  intro rs
  induction rs with
  | nil => intro prev _ i r r' h; simp at h
  | cons a rs ih =>
    intro prev hc i r r' h h'
    obtain ⟨_, _, hrest⟩ := hc
    cases i with
    | zero =>
      simp only [List.getElem?_cons_zero, Option.some.injEq] at h
      subst h
      cases rs with
      | nil => simp at h'
      | cons b rs =>
        simp only [zero_add, List.getElem?_cons_succ, List.getElem?_cons_zero,
          Option.some.injEq] at h'
        subst h'
        exact hrest.1
    | succ i =>
      simp only [List.getElem?_cons_succ] at h h'
      exact ih _ hrest i r r' h h'

/-- In a chain, every record carries the hash that `entryHash` computes for it. -/
theorem Chained.hash (lib : Lib) :
    ∀ (rs : List Record) (prev : String), Chained lib prev rs →
      ∀ r ∈ rs, entryHash lib r = .ok r.EntryHash := by
  intro rs
  induction rs with
  | nil => intro prev _ r h; simp at h
  | cons a rs ih =>
    intro prev hc r h
    obtain ⟨_, ha, hrest⟩ := hc
    rcases List.mem_cons.mp h with rfl | h
    · exact ha
    · exact ih _ hrest r h

/-- What `entryHash` computes, spelled out: the digest of the JSON object of
the six non-hash fields, in their order, followed by `prev_hash`. -/
theorem entryHash_ok_iff (lib : Lib) (r : Record) (h : String) :
    entryHash lib r = .ok h ↔
      r.Timestamp.yearInRange = true ∧
      h = lib.sha256Hex
        (Json.object
          ("\"timestamp\":".data ++ Json.encodeString r.Timestamp.rfc3339 ++
            ",\"request_id\":".data ++ Json.encodeString r.RequestID ++
            ",\"policy_version\":".data ++ Json.encodeString r.PolicyVersion ++
            ",\"action_summary\":".data ++ Json.encodeString r.ActionSummary ++
            ",\"risk_category\":".data ++ Json.encodeString r.RiskCategory ++
            ",\"route\":".data ++ Json.encodeString r.Route) ++
          r.PrevHash.data) := by
  unfold entryHash marshalPayload Time.MarshalJSON payloadFields
  cases hy : r.Timestamp.yearInRange with
  | false => simp
  | true =>
    simp only [if_true, Except.ok.injEq, true_and]
    exact eq_comm

/-- A fresh writer on a log that does not exist or is empty starts from the
empty hash. -/
theorem NewChainWriter_fresh (lib : Lib) (file : File) (h : file = none ∨ file = some []) :
    NewChainWriter lib file = .ok { prevHash := "" } := by
  rcases h with rfl | rfl
  · rfl
  · simp [NewChainWriter, loadPrevHash, GoString.TrimSpace]

/-- C6. Take a writer opened on a log that does not exist or is empty, and any
sequence of `Append` calls on it.  The records returned by the successful calls
satisfy: the first has `prev_hash = ""`; every later one has the `entry_hash` of
the one before it as `prev_hash`; and every `entry_hash` is the hex SHA-256 of
the JSON object (`Json.object`: the members between braces) of the six fields
`timestamp`, `request_id`, `policy_version`, `action_summary`, `risk_category`,
`route`, in that order, followed by the record's `prev_hash`. -/
theorem C6_appended_records_chain (lib : Lib) (file : File) (calls : List Call)
    (hfile : file = none ∨ file = some []) :
    ∃ cw, NewChainWriter lib file = .ok cw ∧
      (∀ r, (okRecords (runAppends lib cw file calls).1)[0]? = some r → r.PrevHash = "") ∧
      (∀ (i : Nat) (r r' : Record),
        (okRecords (runAppends lib cw file calls).1)[i]? = some r →
        (okRecords (runAppends lib cw file calls).1)[i + 1]? = some r' →
        r'.PrevHash = r.EntryHash) ∧
      (∀ r ∈ okRecords (runAppends lib cw file calls).1,
        r.EntryHash = lib.sha256Hex
          (Json.object
            ("\"timestamp\":".data ++ Json.encodeString r.Timestamp.rfc3339 ++
              ",\"request_id\":".data ++ Json.encodeString r.RequestID ++
              ",\"policy_version\":".data ++ Json.encodeString r.PolicyVersion ++
              ",\"action_summary\":".data ++ Json.encodeString r.ActionSummary ++
              ",\"risk_category\":".data ++ Json.encodeString r.RiskCategory ++
              ",\"route\":".data ++ Json.encodeString r.Route) ++
            r.PrevHash.data)) := by
  refine ⟨{ prevHash := "" }, NewChainWriter_fresh lib file hfile, ?_, ?_, ?_⟩
  · intro r h0
    have hc := (runAppends_chained lib calls { prevHash := "" } file).1
    cases hrs : okRecords (runAppends lib { prevHash := "" } file calls).1 with
    | nil => rw [hrs] at h0; simp at h0
    | cons a rs =>
      rw [hrs] at h0 hc
      simp only [List.getElem?_cons_zero, Option.some.injEq] at h0
      subst h0
      exact hc.1
  · exact Chained.link lib _ _ (runAppends_chained lib calls { prevHash := "" } file).1
  · intro r hr
    have := Chained.hash lib _ _ (runAppends_chained lib calls { prevHash := "" } file).1 r hr
    exact ((entryHash_ok_iff lib r r.EntryHash).mp this).2

end Audit

/-! ## Lines of text: scanning and trimming -/

namespace GoString

theorem byteLen_nil : byteLen [] = 0 := rfl

theorem byteLen_cons (c : Char) (s : List Char) : byteLen (c :: s) = c.utf8Size + byteLen s := by
  simp [byteLen]

theorem byteLen_append (s t : List Char) : byteLen (s ++ t) = byteLen s + byteLen t := by
  simp [byteLen]

/-- Scanning a line that is closed by a line feed yields the line and goes on
with the rest of the file. -/
theorem scanLinesAux_line (l rest : List Char) (h : lf ∉ l) :
    ∀ acc, scanLinesAux (l ++ lf :: rest) acc = (acc.reverse ++ l) :: scanLinesAux rest [] := by
  induction l with
  | nil => intro acc; simp [scanLinesAux]
  | cons c cs ih =>
    intro acc
    have hc : c ≠ lf := fun e => h (by simp [e])
    have hcs : lf ∉ cs := fun e => h (by simp [e])
    have step : scanLinesAux ((c :: cs) ++ lf :: rest) acc
        = scanLinesAux (cs ++ lf :: rest) (c :: acc) := by
      simp only [List.cons_append, scanLinesAux, if_neg hc]
      rfl
    rw [step, ih hcs]
    simp

end GoString

namespace Audit

/-- The scanner reads back the lines of a file in which every line is closed
by a line feed and holds none. -/
theorem scanLines_fileOfLines (lines : List (List Char)) (h : ∀ l ∈ lines, GoString.lf ∉ l) :
    GoString.scanLines (fileOfLines lines) = lines := by
  induction lines with
  | nil => rfl
  | cons l ls ih =>
    have hl : GoString.lf ∉ l := h l (by simp)
    have hls : ∀ l' ∈ ls, GoString.lf ∉ l' := fun l' hl' => h l' (by simp [hl'])
    have := GoString.scanLinesAux_line l (fileOfLines ls) hl []
    simp only [List.reverse_nil, List.nil_append] at this
    simp only [GoString.scanLines, fileOfLines, List.flatMap_cons, List.append_assoc,
      List.singleton_append] at *
    rw [this, ih hls]

end Audit

namespace GoString

/-- Trimming leaves alone a text whose first and last characters are no spaces. -/
theorem TrimSpace_of_ends (a b : Char) (mid : List Char) (ha : isSpace a = false)
    (hb : isSpace b = false) : TrimSpace (a :: (mid ++ [b])) = a :: (mid ++ [b]) := by
  unfold TrimSpace
  rw [List.dropWhile_cons_of_neg (by simp [ha])]
  have : (a :: (mid ++ [b])).reverse = b :: (mid.reverse ++ [a]) := by simp
  rw [this, List.dropWhile_cons_of_neg (by simp [hb])]
  simp

/-- A text that does not end in a carriage return keeps its last character. -/
theorem dropCR_of_last (a b : Char) (mid : List Char) (hb : b ≠ cr) :
    dropCR (a :: (mid ++ [b])) = a :: (mid ++ [b]) := by
  unfold dropCR
  have : (a :: (mid ++ [b])).getLast? = some b := by
    rw [← List.cons_append, List.getLast?_append]
    simp
  rw [this, if_neg (by simpa using hb)]

end GoString

namespace Json

/-- Every hex digit is one of the sixteen characters of the table. -/
theorem hexDigit_mem (n : Nat) : hexDigit n ∈ "0123456789abcdef".data := by
  unfold hexDigit
  rcases Nat.lt_or_ge n 16 with h | h
  · interval_cases n <;> decide
  · rw [List.getD_eq_default _ _ (by simpa using h)]
    decide

/-- No escape holds a line feed. -/
theorem lf_not_mem_escapeChar (c : Char) : GoString.lf ∉ escapeChar c := by
  have hx : ∀ n, hexDigit n ≠ GoString.lf := by
    intro n e
    have := hexDigit_mem n
    rw [e] at this
    revert this
    decide
  unfold escapeChar
  simp only
  split_ifs with h1 h2 h3 h4 h5 h6 h7 h8 h9
  · intro hm
    simp only [List.mem_cons, List.mem_singleton, List.not_mem_nil, or_false] at hm
    rcases hm with hm | hm
    · revert hm; decide
    · rw [← hm] at h1
      revert h1; decide
  · decide
  · decide
  · decide
  · decide
  · decide
  · intro hm
    simp only [List.mem_cons, List.mem_singleton, List.not_mem_nil, or_false] at hm
    rcases hm with hm | hm | hm | hm | hm | hm
    · revert hm; decide
    · revert hm; decide
    · revert hm; decide
    · revert hm; decide
    · exact hx _ hm.symm
    · exact hx _ hm.symm
  · decide
  · decide
  · intro hm
    simp only [List.mem_singleton] at hm
    rw [← hm] at h4
    exact h4 (by decide)

/-- No string literal holds a line feed. -/
theorem lf_not_mem_encodeString (s : String) : GoString.lf ∉ encodeString s := by
  unfold encodeString
  intro hm
  simp only [List.mem_cons, List.mem_append, List.mem_flatMap, List.mem_singleton,
    List.not_mem_nil, or_false] at hm
  rcases hm with hm | ⟨c, _, hc⟩ | hm
  · revert hm; decide
  · exact lf_not_mem_escapeChar c hc
  · revert hm; decide

end Json

namespace Audit

/-- The line of a record holds no line feed. -/
theorem lf_not_mem_recordLine (r : Record) : GoString.lf ∉ recordLine r := by
  have e := Json.lf_not_mem_encodeString
  unfold recordLine Json.object payloadFields hashFields
  intro hm
  simp only [List.mem_cons, List.mem_append, List.mem_singleton] at hm
  rcases hm with hm | ((((((((((((hm | hm) | hm) | hm) | hm) | hm) | hm) | hm) | hm) | hm) | hm) | hm) |
      (((hm | hm) | hm) | hm)) | hm
  all_goals first
    | exact e _ hm
    | (revert hm; decide)

/-- The scanner's trimming leaves the line of a record as it is. -/
theorem trim_recordLine (r : Record) :
    GoString.TrimSpace (GoString.dropCR (recordLine r)) = recordLine r := by
  unfold recordLine Json.object
  rw [GoString.dropCR_of_last _ _ _ (by decide), GoString.TrimSpace_of_ends _ _ _ (by decide)
    (by decide)]

/-- The line of a record is not empty. -/
theorem recordLine_ne_nil (r : Record) : recordLine r ≠ [] := by
  simp [recordLine, Json.object]

/-- A record whose time can be marshalled is written as its line. -/
theorem marshalRecord_eq (r : Record) (h : r.Timestamp.yearInRange = true) :
    marshalRecord r = .ok (recordLine r) := by
  simp [marshalRecord, recordLine, Time.MarshalJSON, h]

end Audit

/-! ## Audit: verification of a written log -/

namespace Audit

/-- One turn of the loop of `VerifyChain` on the line of a record that fits
the buffer and is read back by `json.Unmarshal`. -/
theorem verifyLoop_recordLine (lib : Lib) (r : Record) (rest : List (List Char))
    (prev : String) (n : Nat)
    (hshort : GoString.byteLen (recordLine r) < GoString.maxScanTokenSize)
    (hrt : lib.unmarshal (recordLine r) = some r) :
    verifyLoop lib (recordLine r :: rest) prev n =
      if r.PrevHash ≠ prev then .error (.invalidPrevHash (n + 1))
      else
        match entryHash lib r with
        | .error _ => .error (.hashFailure (n + 1))
        | .ok expected =>
          if r.EntryHash ≠ expected then .error (.invalidEntryHash (n + 1))
          else verifyLoop lib rest r.EntryHash (n + 1) := by
  rw [verifyLoop, if_neg (not_le.mpr hshort)]
  simp only [trim_recordLine, if_neg (recordLine_ne_nil r), hrt]

/-- The loop accepts the line of a record that continues the chain. -/
theorem verifyLoop_good (lib : Lib) (r : Record) (rest : List (List Char))
    (prev : String) (n : Nat)
    (hshort : GoString.byteLen (recordLine r) < GoString.maxScanTokenSize)
    (hrt : lib.unmarshal (recordLine r) = some r)
    (hprev : r.PrevHash = prev) (hhash : entryHash lib r = .ok r.EntryHash) :
    verifyLoop lib (recordLine r :: rest) prev n = verifyLoop lib rest r.EntryHash (n + 1) := by
  rw [verifyLoop_recordLine lib r rest prev n hshort hrt, hhash]
  simp [hprev]

/-- The loop accepts the lines of a chain. -/
theorem verifyLoop_chained (lib : Lib) :
    ∀ (rs : List Record) (prev : String) (n : Nat), Chained lib prev rs → RoundTrip lib rs →
      ShortLines rs → verifyLoop lib (rs.map recordLine) prev n = .ok () := by
  intro rs
  induction rs with
  | nil => intro prev n _ _ _; rfl
  | cons r rs ih =>
    intro prev n hc hrt hs
    obtain ⟨hp, hh, hrest⟩ := hc
    rw [List.map_cons, verifyLoop_good lib r _ prev n (hs r (by simp)) (hrt r (by simp)) hp hh]
    exact ih _ _ hrest (fun x hx => hrt x (by simp [hx])) (fun x hx => hs x (by simp [hx]))

/-- `VerifyChain` runs its loop on the lines of the file, an absent file
counting as an empty one. -/
theorem VerifyChain_eq (lib : Lib) (file : File) :
    VerifyChain lib file = verifyLoop lib (GoString.scanLines (file.getD [])) "" 0 := by
  cases file with
  | none => rfl
  | some contents => rfl

/-- A call whose file operations succeed and whose clock reading can be
marshalled returns the record of the event, chained to `prevHash`, commits its
hash, and appends its line to the file. -/
theorem append_succeeds (lib : Lib) (cw : ChainWriter) (file : File) (now : Time)
    (event : Event) (h : now.yearInRange = true) :
    ∃ r, (cw.Append lib file now .ok event).result = .ok r ∧
      (cw.Append lib file now .ok event).writer = { prevHash := r.EntryHash } ∧
      (cw.Append lib file now .ok event).file
        = some (file.getD [] ++ (recordLine r ++ [GoString.lf])) ∧
      r.Timestamp = now ∧ r.RequestID = event.RequestID ∧
      r.PolicyVersion = event.PolicyVersion ∧ r.ActionSummary = event.ActionSummary ∧
      r.RiskCategory = event.RiskCategory ∧ r.Route = event.Route ∧
      r.PrevHash = cw.prevHash := by
  obtain ⟨text, inRange⟩ := now
  simp only at h
  subst h
  exact ⟨_, rfl, rfl, rfl, rfl, rfl, rfl, rfl, rfl, rfl, rfl⟩

/-- When every call succeeds, every call returns a record, and the file at the
end is the file at the start followed by the lines of the records. -/
theorem runAppends_allSucceed (lib : Lib) (calls : List Call) (h : AllSucceed calls) :
    ∀ (cw : ChainWriter) (file : File),
      (runAppends lib cw file calls).1
        = (okRecords (runAppends lib cw file calls).1).map Except.ok ∧
      (okRecords (runAppends lib cw file calls).1).map (fun r => r.Timestamp)
        = calls.map (fun c => c.now) ∧
      (runAppends lib cw file calls).2.2.getD []
        = file.getD [] ++ fileOfLines ((okRecords (runAppends lib cw file calls).1).map recordLine) := by
  induction calls with
  | nil => intro cw file; simp [runAppends, okRecords, fileOfLines]
  | cons c cs ih =>
    intro cw file
    obtain ⟨hio, hy⟩ := h c (by simp)
    obtain ⟨r, hr, hw, hf, ht, -⟩ := append_succeeds lib cw file c.now c.event hy
    have ih' := ih (fun x hx => h x (by simp [hx])) { prevHash := r.EntryHash }
      (some (file.getD [] ++ (recordLine r ++ [GoString.lf])))
    simp only [runAppends, hio, hr, hw, hf, okRecords]
    refine ⟨?_, ?_, ?_⟩
    · rw [List.map_cons, ← ih'.1]
    · rw [List.map_cons, List.map_cons, ih'.2.1, ht]
    · rw [ih'.2.2]
      simp [fileOfLines]

/-- When every call on a fresh log succeeds and the lines fit the scanner's
buffer, `VerifyChain` succeeds on the file.  The hypothesis `RoundTrip` is the
law of encoding/json on the written records. -/
theorem verifyChain_of_appends (lib : Lib) (file : File) (calls : List Call)
    (hfile : file = none ∨ file = some []) (hok : AllSucceed calls)
    (hrt : RoundTrip lib (okRecords (runAppends lib { prevHash := "" } file calls).1))
    (hshort : ShortLines (okRecords (runAppends lib { prevHash := "" } file calls).1)) :
    VerifyChain lib (runAppends lib { prevHash := "" } file calls).2.2 = .ok () := by
  have hf : file.getD [] = [] := by rcases hfile with rfl | rfl <;> rfl
  have hrun := (runAppends_allSucceed lib calls hok { prevHash := "" } file).2.2
  rw [VerifyChain_eq, hrun, hf, List.nil_append, scanLines_fileOfLines]
  · exact verifyLoop_chained lib _ "" 0 (runAppends_chained lib calls _ file).1 hrt hshort
  · intro l hl
    obtain ⟨r, _, rfl⟩ := List.mem_map.mp hl
    exact lf_not_mem_recordLine r

end Audit

/-! ## Audit: a line longer than the scanner's buffer -/

namespace GoString

/-- A text has at least as many bytes as characters. -/
theorem length_le_byteLen (s : List Char) : s.length ≤ byteLen s := by
  induction s with
  | nil => simp [byteLen]
  | cons c cs ih =>
    rw [byteLen_cons, List.length_cons]
    have := Char.utf8Size_pos c
    omega

end GoString

namespace Json

/-- Every escape has at least one character. -/
theorem escapeChar_length_pos (c : Char) : 1 ≤ (escapeChar c).length := by
  unfold escapeChar
  simp only
  split_ifs <;> simp

/-- Escaping does not shorten a text. -/
theorem length_le_flatMap_escapeChar (s : List Char) :
    s.length ≤ (s.flatMap escapeChar).length := by
  induction s with
  | nil => simp
  | cons c cs ih =>
    have := escapeChar_length_pos c
    simp only [List.flatMap_cons, List.length_append, List.length_cons]
    omega

/-- A string literal has at least as many bytes as the string has characters. -/
theorem length_le_byteLen_encodeString (s : String) :
    s.data.length ≤ GoString.byteLen (encodeString s) := by
  have h1 := length_le_flatMap_escapeChar s.data
  have h2 := GoString.length_le_byteLen (encodeString s)
  have h3 : (encodeString s).length = (s.data.flatMap escapeChar).length + 2 := by
    simp [encodeString]
  omega

end Json

namespace Audit

/-- The line of a record has at least as many bytes as its action summary has
characters. -/
theorem summary_length_le_byteLen_recordLine (r : Record) :
    r.ActionSummary.data.length ≤ GoString.byteLen (recordLine r) := by
  have h := Json.length_le_byteLen_encodeString r.ActionSummary
  unfold recordLine Json.object payloadFields
  simp only [GoString.byteLen_cons, GoString.byteLen_append]
  omega

/-- The loop of `VerifyChain` stops with `bufio.ErrTooLong` at a record whose
action summary has 65536 characters or more. -/
theorem verifyLoop_long (lib : Lib) (r : Record) (rest : List (List Char)) (prev : String)
    (n : Nat) (h : 65536 ≤ r.ActionSummary.data.length) :
    verifyLoop lib (recordLine r :: rest) prev n = .error .tokenTooLong := by
  have h1 := summary_length_le_byteLen_recordLine r
  have h2 : GoString.maxScanTokenSize ≤ GoString.byteLen (recordLine r) := by
    unfold GoString.maxScanTokenSize
    omega
  rw [verifyLoop, if_pos h2]

/-- C7, failing input. One `Append` of an event whose action summary has
65536 bytes, on a log that does not exist, succeeds and writes one line; on the
file so written, which nobody changed, `VerifyChain` returns the scanner's error
`bufio.ErrTooLong`.  This holds for every digest function and decoder. -/
theorem C7_untampered_long_line_rejected (lib : Lib) :
    (∃ r, (runAppends lib { prevHash := "" } none [longCall]).1 = [.ok r] ∧
      (runAppends lib { prevHash := "" } none [longCall]).2.2
        = some (fileOfLines [recordLine r])) ∧
    VerifyChain lib (runAppends lib { prevHash := "" } none [longCall]).2.2
      = .error .tokenTooLong := by
  obtain ⟨r, hr, hw, hf, _, _, _, hsum, _⟩ :=
    append_succeeds lib { prevHash := "" } none longCall.now longCall.event rfl
  have hfile : (runAppends lib { prevHash := "" } none [longCall]).2.2
      = some (fileOfLines [recordLine r]) := by
    have : (runAppends lib { prevHash := "" } none [longCall]).2.2
        = (ChainWriter.Append lib { prevHash := "" } none longCall.now .ok longCall.event).file :=
      rfl
    rw [this, hf]
    simp [fileOfLines]
  have hres : (runAppends lib { prevHash := "" } none [longCall]).1 = [.ok r] := by
    have : (runAppends lib { prevHash := "" } none [longCall]).1
        = [(ChainWriter.Append lib { prevHash := "" } none longCall.now .ok
            longCall.event).result] := rfl
    rw [this, hr]
  refine ⟨⟨r, hres, hfile⟩, ?_⟩
  rw [hfile, VerifyChain_eq]
  have hscan : GoString.scanLines ((some (fileOfLines [recordLine r]) : File).getD [])
      = [recordLine r] := by
    apply scanLines_fileOfLines
    intro l hl
    rw [List.mem_singleton.mp hl]
    exact lf_not_mem_recordLine r
  rw [hscan]
  apply verifyLoop_long
  have hdata : longCall.event.ActionSummary.data = List.replicate 65536 'a' := rfl
  rw [hsum, hdata, List.length_replicate]

end Audit

namespace Audit

/-- C6, witness: the two calls of the package's tests on a log that does not
exist return two records, which satisfy the three properties. -/
theorem C6_appended_records_chain_witness :
    ((none : File) = none ∨ (none : File) = some []) ∧
    (okRecords (runAppends (tableLib textDigest []) { prevHash := "" } none testCalls).1).length
      = 2 ∧
    ∃ cw, NewChainWriter (tableLib textDigest []) none = .ok cw ∧
      (∀ r, (okRecords (runAppends (tableLib textDigest []) cw none testCalls).1)[0]? = some r →
        r.PrevHash = "") ∧
      (∀ (i : Nat) (r r' : Record),
        (okRecords (runAppends (tableLib textDigest []) cw none testCalls).1)[i]? = some r →
        (okRecords (runAppends (tableLib textDigest []) cw none testCalls).1)[i + 1]? = some r' →
        r'.PrevHash = r.EntryHash) ∧
      (∀ r ∈ okRecords (runAppends (tableLib textDigest []) cw none testCalls).1,
        r.EntryHash = (tableLib textDigest []).sha256Hex
          (Json.object
            ("\"timestamp\":".data ++ Json.encodeString r.Timestamp.rfc3339 ++
              ",\"request_id\":".data ++ Json.encodeString r.RequestID ++
              ",\"policy_version\":".data ++ Json.encodeString r.PolicyVersion ++
              ",\"action_summary\":".data ++ Json.encodeString r.ActionSummary ++
              ",\"risk_category\":".data ++ Json.encodeString r.RiskCategory ++
              ",\"route\":".data ++ Json.encodeString r.Route) ++
            r.PrevHash.data)) :=
  ⟨Or.inl rfl, by decide,
    C6_appended_records_chain (tableLib textDigest []) none testCalls (Or.inl rfl)⟩

end Audit

/-! ## Audit: removal of records -/

namespace Audit

/-- A prefix of a chain is a chain. -/
theorem Chained.of_prefix (lib : Lib) :
    ∀ (rs kept : List Record) (prev : String), kept <+: rs → Chained lib prev rs →
      Chained lib prev kept := by
  intro rs
  induction rs with
  | nil =>
    intro kept prev hp _
    rw [List.prefix_nil.mp hp]
    trivial
  | cons r rs ih =>
    intro kept prev hp hc
    cases kept with
    | nil => trivial
    | cons k ks =>
      obtain ⟨hk, hks⟩ := List.cons_prefix_cons.mp hp
      subst hk
      exact ⟨hc.1, hc.2.1, ih ks _ hks hc.2.2⟩

/-- In a chain that follows `prev`, the `prev_hash` of every record is `prev`
or the `entry_hash` of a record of the chain. -/
theorem Chained.prev_mem (lib : Lib) :
    ∀ (rs : List Record) (prev : String), Chained lib prev rs →
      ∀ x ∈ rs, x.PrevHash ∈ prev :: rs.map (fun r => r.EntryHash) := by
  intro rs
  induction rs with
  | nil => intro prev _ x hx; simp at hx
  | cons r rs ih =>
    intro prev hc x hx
    rcases List.mem_cons.mp hx with rfl | hx
    · rw [hc.1]
      exact List.mem_cons_self _ _
    · have := ih _ hc.2.2 x hx
      rw [List.map_cons]
      exact List.mem_cons_of_mem _ this

/-- The loop of `VerifyChain` accepts a selection of the records of a chain
exactly when the selection is a prefix of the chain, provided that the entry
hashes of the chain are pairwise distinct and differ from `prev`. -/
theorem verifyLoop_kept_iff (lib : Lib) :
    ∀ (rs kept : List Record) (prev : String) (n : Nat), Chained lib prev rs →
      (prev :: rs.map (fun r => r.EntryHash)).Nodup → RoundTrip lib rs → ShortLines rs →
      kept.Sublist rs →
      (verifyLoop lib (kept.map recordLine) prev n = .ok () ↔ kept <+: rs) := by
  intro rs
  induction rs with
  | nil =>
    intro kept prev n _ _ _ _ hsub
    rw [List.sublist_nil.mp hsub]
    exact ⟨fun _ => List.prefix_refl _, fun _ => rfl⟩
  | cons r rs ih =>
    intro kept prev n hc hnd hrt hs hsub
    have hnd' : (r.EntryHash :: rs.map (fun r => r.EntryHash)).Nodup := by
      rw [List.map_cons] at hnd
      exact (List.nodup_cons.mp hnd).2
    have hprev : prev ∉ r.EntryHash :: rs.map (fun r => r.EntryHash) := by
      rw [List.map_cons] at hnd
      exact (List.nodup_cons.mp hnd).1
    cases hsub with
    | cons _ hsub' =>
      cases kept with
      | nil => exact ⟨fun _ => List.nil_prefix, fun _ => rfl⟩
      | cons x ks =>
        have hx : x ∈ rs := hsub'.subset (List.mem_cons_self _ _)
        have hxp : x.PrevHash ≠ prev := by
          intro e
          exact hprev (e ▸ Chained.prev_mem lib rs _ hc.2.2 x hx)
        constructor
        · intro hv
          rw [List.map_cons, verifyLoop_recordLine lib x _ prev n (hs x (by simp [hx]))
            (hrt x (by simp [hx])), if_pos hxp] at hv
          cases hv
        · intro hp
          obtain ⟨hxr, -⟩ := List.cons_prefix_cons.mp hp
          subst hxr
          exact absurd (List.mem_map_of_mem (fun r => r.EntryHash) hx)
            (List.nodup_cons.mp hnd').1
    | cons₂ _ hsub' =>
      rename_i ks
      rw [List.map_cons, verifyLoop_good lib r _ prev n (hs r (by simp)) (hrt r (by simp))
        hc.1 hc.2.1]
      rw [ih ks r.EntryHash (n + 1) hc.2.2 hnd' (fun x hx => hrt x (by simp [hx]))
        (fun x hx => hs x (by simp [hx])) hsub']
      constructor
      · intro h
        exact List.cons_prefix_cons.mpr ⟨rfl, h⟩
      · intro h
        exact (List.cons_prefix_cons.mp h).2

/-- C9, counterexample. The two calls of the package's tests write a log of two
records; removing the second record leaves a log on which `VerifyChain`
succeeds: there is no digest function and decoder (reading back the written
records, whose lines fit the scanner's buffer) for which it returns an error. -/
theorem C9_counterexample :
    (∀ lib : Lib, (okRecords (runAppends lib { prevHash := "" } none testCalls).1).length = 2) ∧
    ¬ ∃ lib : Lib,
      RoundTrip lib (okRecords (runAppends lib { prevHash := "" } none testCalls).1) ∧
      ShortLines (okRecords (runAppends lib { prevHash := "" } none testCalls).1) ∧
      ∃ e, VerifyChain lib
        (some (fileOfLines
          (((okRecords (runAppends lib { prevHash := "" } none testCalls).1).take 1).map
            recordLine))) = .error e := by
  constructor
  · intro lib
    rfl
  · rintro ⟨lib, hrt, hs, e, he⟩
    have hpre := List.take_prefix 1 (okRecords (runAppends lib { prevHash := "" } none testCalls).1)
    have hmem : ∀ x ∈ (okRecords (runAppends lib { prevHash := "" } none testCalls).1).take 1,
        x ∈ okRecords (runAppends lib { prevHash := "" } none testCalls).1 :=
      fun x hx => List.mem_of_mem_take hx
    have hc := Chained.of_prefix lib _ _ "" hpre
      (runAppends_chained lib testCalls { prevHash := "" } none).1
    have hv := verifyLoop_chained lib _ "" 0 hc (fun x hx => hrt x (hmem x hx))
      (fun x hx => hs x (hmem x hx))
    rw [VerifyChain_eq] at he
    have hscan : GoString.scanLines ((some (fileOfLines
        (((okRecords (runAppends lib { prevHash := "" } none testCalls).1).take 1).map
          recordLine)) : File).getD [])
        = ((okRecords (runAppends lib { prevHash := "" } none testCalls).1).take 1).map
          recordLine := by
      apply scanLines_fileOfLines
      intro l hl
      obtain ⟨r, _, rfl⟩ := List.mem_map.mp hl
      exact lf_not_mem_recordLine r
    rw [hscan, hv] at he
    cases he

/-- C9, amended. Take a log written by successful `Append` calls on a fresh
log, whose records `json.Unmarshal` reads back from their lines as they were
written (`RoundTrip`: so it is for text fields that are valid UTF-8, and not
for a field with an invalid byte), with lines that fit the scanner's buffer and
entry hashes that are not empty and pairwise distinct (as SHA-256 digests are,
collisions apart).  The file holds the lines of the returned records, and on
the log that keeps a selection of the records, in order, `VerifyChain` returns
an error if and only if the selection is not a prefix of the log: removing
records is detected exactly when a removed record is followed by a kept one,
and truncation at the end is not detected. -/
theorem C9_removal_detected_iff_not_truncation (lib : Lib) (calls : List Call)
    (kept : List Record) (hok : AllSucceed calls)
    (hrt : RoundTrip lib (okRecords (runAppends lib { prevHash := "" } none calls).1))
    (hshort : ShortLines (okRecords (runAppends lib { prevHash := "" } none calls).1))
    (hnd : ("" :: (okRecords (runAppends lib { prevHash := "" } none calls).1).map
      (fun r => r.EntryHash)).Nodup)
    (hsub : kept.Sublist (okRecords (runAppends lib { prevHash := "" } none calls).1)) :
    (runAppends lib { prevHash := "" } none calls).2.2.getD []
      = fileOfLines ((okRecords (runAppends lib { prevHash := "" } none calls).1).map recordLine) ∧
    ((∃ e, VerifyChain lib (some (fileOfLines (kept.map recordLine))) = .error e) ↔
      ¬ kept <+: okRecords (runAppends lib { prevHash := "" } none calls).1) := by
  constructor
  · have := (runAppends_allSucceed lib calls hok { prevHash := "" } none).2.2
    simpa using this
  · have hscan : GoString.scanLines ((some (fileOfLines (kept.map recordLine)) : File).getD [])
        = kept.map recordLine := by
      apply scanLines_fileOfLines
      intro l hl
      obtain ⟨r, _, rfl⟩ := List.mem_map.mp hl
      exact lf_not_mem_recordLine r
    have hiff := verifyLoop_kept_iff lib _ kept "" 0
      (runAppends_chained lib calls { prevHash := "" } none).1 hnd hrt hshort hsub
    rw [VerifyChain_eq, hscan, ← hiff]
    constructor
    · rintro ⟨e, he⟩ hv
      rw [hv] at he
      cases he
    · intro hv
      cases hres : verifyLoop lib (kept.map recordLine) "" 0 with
      | error e => exact ⟨e, rfl⟩
      | ok u => exact absurd hres hv

end Audit

namespace Audit

set_option maxRecDepth 100000 in
/-- C9, witness of the amended theorem: the log of the two calls of the
package's tests, under the digest `textDigest` and the decoder of its own
lines, with the first record removed and the second kept. -/
theorem C9_removal_detected_iff_not_truncation_witness :
    AllSucceed testCalls ∧
    (runAppends (tableLib textDigest (writtenRecords textDigest testCalls)) { prevHash := "" }
        none testCalls).2.2.getD []
      = fileOfLines ((okRecords (runAppends
          (tableLib textDigest (writtenRecords textDigest testCalls)) { prevHash := "" } none
          testCalls).1).map recordLine) ∧
    ((∃ e, VerifyChain (tableLib textDigest (writtenRecords textDigest testCalls))
        (some (fileOfLines (((okRecords (runAppends
          (tableLib textDigest (writtenRecords textDigest testCalls)) { prevHash := "" } none
          testCalls).1).drop 1).map recordLine))) = .error e) ↔
      ¬ (okRecords (runAppends (tableLib textDigest (writtenRecords textDigest testCalls))
          { prevHash := "" } none testCalls).1).drop 1
        <+: okRecords (runAppends (tableLib textDigest (writtenRecords textDigest testCalls))
          { prevHash := "" } none testCalls).1) :=
  ⟨by unfold AllSucceed; decide,
    C9_removal_detected_iff_not_truncation
      (tableLib textDigest (writtenRecords textDigest testCalls)) testCalls _
      (by unfold AllSucceed; decide) (by unfold RoundTrip; decide) (by unfold ShortLines; decide)
      (by decide) (List.drop_sublist 1 _)⟩

end Audit

/-! ## Audit: tampering with a record -/

namespace Audit

/-- C8, failing input. The first call of the package's tests writes a log of
one record.  Changing the `action_summary` of that record to a value of 65536
bytes makes `VerifyChain` return the scanner's error `bufio.ErrTooLong`, which
names no line, instead of an error that names line 1.  This holds for every
digest function and decoder. -/
theorem C8_tampered_long_value_not_located (lib : Lib) :
    ∃ r, (runAppends lib { prevHash := "" } none
        [{ now := testTime, io := .ok, event := testEvent1 }]).1 = [.ok r] ∧
      VerifyChain lib
        (some (fileOfLines [recordLine { r with ActionSummary := longSummary 65536 }]))
        = .error .tokenTooLong ∧
      VerifyError.tokenTooLong.line = none := by
  refine ⟨_, rfl, ?_, rfl⟩
  rw [VerifyChain_eq]
  have hscan : ∀ r : Record, GoString.scanLines ((some (fileOfLines [recordLine r]) : File).getD [])
      = [recordLine r] := by
    intro r
    apply scanLines_fileOfLines
    intro l hl
    rw [List.mem_singleton.mp hl]
    exact lf_not_mem_recordLine r
  rw [hscan]
  apply verifyLoop_long
  have hdata : (longSummary 65536).data = List.replicate 65536 'a' := rfl
  show 65536 ≤ (longSummary 65536).data.length
  rw [hdata, List.length_replicate]

end Audit
namespace Json

theorem hexVal_hexDigit (k : Nat) (h : k < 16) : hexVal (hexDigit k) = k := by
  interval_cases k <;> decide

theorem char_eq_of_toNat (c : Char) (n : Nat) (h : c.toNat = n) : c = Char.ofNat n := by
  rw [← h, Char.ofNat_toNat]

/-- The decoder reads back the character of an escape. -/
theorem unescapeHead_escapeChar (c : Char) (r : List Char) :
    unescapeHead (escapeChar c ++ r) = some (c, r) := by
  unfold escapeChar
  simp only
  split_ifs with h1 h2 h3 h4 h5 h6 h7 h8 h9
  · rcases h1 with h | h
    · rw [char_eq_of_toNat c _ h]; rfl
    · rw [char_eq_of_toNat c _ h]; rfl
  · rw [char_eq_of_toNat c _ h2]; rfl
  · rw [char_eq_of_toNat c _ h3]; rfl
  · rw [char_eq_of_toNat c _ h4]; rfl
  · rw [char_eq_of_toNat c _ h5]; rfl
  · rw [char_eq_of_toNat c _ h6]; rfl
  · have hlt : c.toNat < 256 := by omega
    have e1 := hexVal_hexDigit (c.toNat / 16) (by omega)
    have e2 := hexVal_hexDigit (c.toNat % 16) (by omega)
    have e0 : hexVal '0' = 0 := by decide
    have hv : ((hexVal '0' * 16 + hexVal '0') * 16 + hexVal (hexDigit (c.toNat / 16))) * 16
        + hexVal (hexDigit (c.toNat % 16)) = c.toNat := by
      rw [e0, e1, e2]; omega
    show unescapeHead (backslash :: 'u' :: '0' :: '0' :: hexDigit (c.toNat / 16)
      :: hexDigit (c.toNat % 16) :: r) = some (c, r)
    have : unescapeHead (backslash :: 'u' :: '0' :: '0' :: hexDigit (c.toNat / 16)
        :: hexDigit (c.toNat % 16) :: r)
        = some (Char.ofNat (((hexVal '0' * 16 + hexVal '0') * 16
            + hexVal (hexDigit (c.toNat / 16))) * 16 + hexVal (hexDigit (c.toNat % 16))), r) := rfl
    rw [this, hv, Char.ofNat_toNat]
  · rw [char_eq_of_toNat c _ h8]; rfl
  · rw [char_eq_of_toNat c _ h9]; rfl
  · have hne : c ≠ backslash := by
      intro e
      rw [e] at h1
      exact h1 (Or.inr (by decide))
    show unescapeHead (c :: r) = some (c, r)
    simp only [unescapeHead, if_pos hne]

end Json

namespace Json

/-- Escaping loses nothing: two texts with the same escapes are equal. -/
theorem flatMap_escapeChar_injective :
    ∀ s t : List Char, s.flatMap escapeChar = t.flatMap escapeChar → s = t := by
  intro s
  induction s with
  | nil =>
    intro t h
    cases t with
    | nil => rfl
    | cons c cs =>
      have := escapeChar_length_pos c
      have hl := congrArg List.length h
      simp only [List.flatMap_nil, List.flatMap_cons, List.length_nil, List.length_append] at hl
      omega
  | cons a as ih =>
    intro t h
    cases t with
    | nil =>
      have := escapeChar_length_pos a
      have hl := congrArg List.length h
      simp only [List.flatMap_nil, List.flatMap_cons, List.length_nil, List.length_append] at hl
      omega
    | cons c cs =>
      simp only [List.flatMap_cons] at h
      have hd := congrArg unescapeHead h
      rw [unescapeHead_escapeChar, unescapeHead_escapeChar] at hd
      simp only [Option.some.injEq, Prod.mk.injEq] at hd
      rw [hd.1, ih cs hd.2]

/-- The encoding of strings is injective. -/
theorem encodeString_injective (s t : String) (h : encodeString s = encodeString t) : s = t := by
  unfold encodeString at h
  simp only [List.cons.injEq, true_and, List.append_cancel_right_eq] at h
  exact String.ext (flatMap_escapeChar_injective _ _ h)

end Json

namespace Audit

/-- The hash of a record in explicit form, for a record whose time can be
marshalled. -/
theorem entryHash_of_inRange (lib : Lib) (r : Record) (h : r.Timestamp.yearInRange = true) :
    entryHash lib r = .ok (lib.sha256Hex
      (Json.object (payloadFields r (Json.encodeString r.Timestamp.rfc3339))
        ++ r.PrevHash.data)) := by
  simp [entryHash, marshalPayload, Time.MarshalJSON, h]

/-- The hash of a record whose time cannot be marshalled is an error. -/
theorem entryHash_of_outOfRange (lib : Lib) (r : Record) (h : r.Timestamp.yearInRange = false) :
    entryHash lib r = .error .marshal := by
  simp [entryHash, marshalPayload, Time.MarshalJSON, h]

/-- Two records with the same payload text have the same six payload fields
(the time up to its marshalled text), when they differ in at most one field. -/
theorem payload_eq_of_differsInOneField (r r' : Record) (hd : DiffersInOneField r r')
    (hy : r.Timestamp.yearInRange = true) (hy' : r'.Timestamp.yearInRange = true)
    (hprev : r'.PrevHash = r.PrevHash) (hentry : r'.EntryHash = r.EntryHash)
    (hpay : payloadFields r' (Json.encodeString r'.Timestamp.rfc3339)
      = payloadFields r (Json.encodeString r.Timestamp.rfc3339)) : False := by
  obtain ⟨hne, h⟩ := hd
  unfold payloadFields at hpay
  rcases h with ⟨v, rfl⟩ | ⟨v, rfl⟩ | ⟨v, rfl⟩ | ⟨v, rfl⟩ | ⟨v, rfl⟩ | ⟨v, rfl⟩ | ⟨v, rfl⟩ | ⟨v, rfl⟩
  · simp only [List.append_assoc, List.append_cancel_left_eq, List.append_cancel_right_eq] at hpay
    have ht := Json.encodeString_injective _ _ hpay
    apply hne
    have hv : v = r.Timestamp := by
      obtain ⟨t, b⟩ := v
      cases hrt : r.Timestamp with
      | mk t0 b0 =>
        rw [hrt] at ht hy
        simp only at ht hy hy'
        subst ht hy hy'
        rfl
    rw [hv]
  · simp only [List.append_assoc, List.append_cancel_left_eq, List.append_cancel_right_eq] at hpay
    have hv := Json.encodeString_injective _ _ hpay
    simp only at hv
    exact hne (by rw [hv])
  · simp only [List.append_assoc, List.append_cancel_left_eq, List.append_cancel_right_eq] at hpay
    have hv := Json.encodeString_injective _ _ hpay
    simp only at hv
    exact hne (by rw [hv])
  · simp only [List.append_assoc, List.append_cancel_left_eq, List.append_cancel_right_eq] at hpay
    have hv := Json.encodeString_injective _ _ hpay
    simp only at hv
    exact hne (by rw [hv])
  · simp only [List.append_assoc, List.append_cancel_left_eq, List.append_cancel_right_eq] at hpay
    have hv := Json.encodeString_injective _ _ hpay
    simp only at hv
    exact hne (by rw [hv])
  · simp only [List.append_assoc, List.append_cancel_left_eq, List.append_cancel_right_eq] at hpay
    have hv := Json.encodeString_injective _ _ hpay
    simp only at hv
    exact hne (by rw [hv])
  · simp only at hprev
    exact hne (by rw [hprev])
  · simp only at hentry
    exact hne (by rw [hentry])

end Audit

namespace Audit

/-- The loop of `VerifyChain` rejects, at its line, a record that stands in the
place of a record of the chain and differs from it in the value of one field,
when the digest function has no collisions. -/
theorem verifyLoop_tampered_line (lib : Lib) (hinj : Function.Injective lib.sha256Hex)
    (r r' : Record) (rest : List (List Char)) (prev : String) (n : Nat)
    (hp : r.PrevHash = prev) (hh : entryHash lib r = .ok r.EntryHash)
    (hd : DiffersInOneField r r')
    (hrt' : lib.unmarshal (recordLine r') = some r')
    (hs' : GoString.byteLen (recordLine r') < GoString.maxScanTokenSize) :
    ∃ e, verifyLoop lib (recordLine r' :: rest) prev n = .error e ∧ e.line = some (n + 1) := by
  rw [verifyLoop_recordLine lib r' rest prev n hs' hrt']
  by_cases hprev : r'.PrevHash = prev
  · rw [if_neg (not_not.mpr hprev)]
    cases hy' : r'.Timestamp.yearInRange with
    | false =>
      rw [entryHash_of_outOfRange lib r' hy']
      exact ⟨_, rfl, rfl⟩
    | true =>
      rw [entryHash_of_inRange lib r' hy']
      simp only
      by_cases hentry : r'.EntryHash = lib.sha256Hex
          (Json.object (payloadFields r' (Json.encodeString r'.Timestamp.rfc3339))
            ++ r'.PrevHash.data)
      · exfalso
        have hy : r.Timestamp.yearInRange = true := ((entryHash_ok_iff lib r _).mp hh).1
        have hh2 := entryHash_of_inRange lib r hy
        rw [hh2] at hh
        have hre : lib.sha256Hex
            (Json.object (payloadFields r (Json.encodeString r.Timestamp.rfc3339))
              ++ r.PrevHash.data) = r.EntryHash := by
          simpa using hh
        by_cases hsame : r'.EntryHash = r.EntryHash
        · rw [hsame, ← hre] at hentry
          have hx := hinj hentry
          rw [hprev, hp] at hx
          simp only [Json.object, List.cons_append, List.cons.injEq, true_and, List.append_assoc,
            List.append_cancel_right_eq] at hx
          exact payload_eq_of_differsInOneField r r' hd hy hy' (hprev.trans hp.symm) hsame hx.symm
        · -- the entry hash is the changed field, so the payload and `prev_hash` are those of `r`
          obtain ⟨hne, h⟩ := hd
          rcases h with ⟨v, rfl⟩ | ⟨v, rfl⟩ | ⟨v, rfl⟩ | ⟨v, rfl⟩ | ⟨v, rfl⟩ | ⟨v, rfl⟩ |
            ⟨v, rfl⟩ | ⟨v, rfl⟩
          · exact hsame rfl
          · exact hsame rfl
          · exact hsame rfl
          · exact hsame rfl
          · exact hsame rfl
          · exact hsame rfl
          · exact hsame rfl
          · apply hsame
            rw [hentry, ← hre]
            rfl
      · rw [if_pos hentry]
        exact ⟨_, rfl, rfl⟩
  · rw [if_pos hprev]
    exact ⟨_, rfl, rfl⟩

/-- The loop of `VerifyChain`, run on a chain in which the record at position
`i` is replaced by a record that differs from it in one field, stops with an
error that names the line of that record. -/
theorem verifyLoop_tampered (lib : Lib) (hinj : Function.Injective lib.sha256Hex)
    (r r' : Record) (hd : DiffersInOneField r r')
    (hrt' : lib.unmarshal (recordLine r') = some r')
    (hs' : GoString.byteLen (recordLine r') < GoString.maxScanTokenSize) :
    ∀ (rs : List Record) (prev : String) (n i : Nat), Chained lib prev rs → RoundTrip lib rs →
      ShortLines rs → rs[i]? = some r →
      ∃ e, verifyLoop lib ((rs.set i r').map recordLine) prev n = .error e ∧
        e.line = some (n + i + 1) := by
  intro rs
  induction rs with
  | nil => intro prev n i _ _ _ hi; simp at hi
  | cons a rs ih =>
    intro prev n i hc hrt hs hi
    cases i with
    | zero =>
      simp only [List.getElem?_cons_zero, Option.some.injEq] at hi
      subst hi
      rw [List.set_cons_zero, List.map_cons]
      exact verifyLoop_tampered_line lib hinj a r' _ prev n hc.1 hc.2.1 hd hrt' hs'
    | succ j =>
      simp only [List.getElem?_cons_succ] at hi
      rw [List.set_cons_succ, List.map_cons,
        verifyLoop_good lib a _ prev n (hs a (by simp)) (hrt a (by simp)) hc.1 hc.2.1]
      obtain ⟨e, he, hl⟩ := ih a.EntryHash (n + 1) j hc.2.2 (fun x hx => hrt x (by simp [hx]))
        (fun x hx => hs x (by simp [hx])) hi
      exact ⟨e, he, by rw [hl]; congr 1; omega⟩

/-- Tampering is detected at its line.  Take a log written by successful
`Append` calls on a fresh log whose lines fit the scanner's buffer, a digest
function without collisions, and `json.Unmarshal` reading back the lines.
Replacing the record of line `i + 1` by a record that differs from it in the
value of one field (any of the eight), written on a line that fits the buffer,
makes `VerifyChain` return an error that names line `i + 1`. -/
theorem tamper_detected_at_line (lib : Lib) (calls : List Call) (i : Nat) (r r' : Record)
    (hinj : Function.Injective lib.sha256Hex)
    (hrt : RoundTrip lib (okRecords (runAppends lib { prevHash := "" } none calls).1))
    (hshort : ShortLines (okRecords (runAppends lib { prevHash := "" } none calls).1))
    (hi : (okRecords (runAppends lib { prevHash := "" } none calls).1)[i]? = some r)
    (hd : DiffersInOneField r r')
    (hrt' : lib.unmarshal (recordLine r') = some r')
    (hs' : GoString.byteLen (recordLine r') < GoString.maxScanTokenSize) :
    ∃ e, VerifyChain lib (some (fileOfLines
        (((okRecords (runAppends lib { prevHash := "" } none calls).1).set i r').map recordLine)))
        = .error e ∧ e.line = some (i + 1) := by
  have hscan : GoString.scanLines ((some (fileOfLines
      (((okRecords (runAppends lib { prevHash := "" } none calls).1).set i r').map
        recordLine)) : File).getD [])
      = ((okRecords (runAppends lib { prevHash := "" } none calls).1).set i r').map
        recordLine := by
    apply scanLines_fileOfLines
    intro l hl
    obtain ⟨x, _, rfl⟩ := List.mem_map.mp hl
    exact lf_not_mem_recordLine x
  rw [VerifyChain_eq, hscan]
  obtain ⟨e, he, hl⟩ := verifyLoop_tampered lib hinj r r' hd hrt' hs' _ "" 0 i
    (runAppends_chained lib calls { prevHash := "" } none).1 hrt hshort hi
  exact ⟨e, he, by rw [hl]; congr 1; omega⟩

end Audit

namespace Audit

theorem textDigest_injective : Function.Injective textDigest := by
  intro a b h
  unfold textDigest at h
  exact congrArg String.data h

set_option maxRecDepth 100000 in
/-- The tampering of the package's tests, detected at line 2: the hypotheses
of `tamper_detected_at_line` hold on the log of the two test calls with the
action summary of the second record changed. -/
theorem tamper_detected_at_line_witness :
    DiffersInOneField testRecord2 tamperedRecord2 ∧
    ∃ e, VerifyChain (tableLib textDigest (tamperedRecord2 :: testRecords))
        (some (fileOfLines
          (((okRecords (runAppends (tableLib textDigest (tamperedRecord2 :: testRecords))
            { prevHash := "" } none testCalls).1).set 1 tamperedRecord2).map recordLine)))
        = .error e ∧ e.line = some (1 + 1) :=
  ⟨⟨by decide, Or.inr (Or.inr (Or.inr (Or.inl ⟨"tampered", rfl⟩)))⟩,
    tamper_detected_at_line (tableLib textDigest (tamperedRecord2 :: testRecords)) testCalls 1
      testRecord2 tamperedRecord2 textDigest_injective (by unfold RoundTrip; decide)
      (by unfold ShortLines; decide) (by decide)
      ⟨by decide, Or.inr (Or.inr (Or.inr (Or.inl ⟨"tampered", rfl⟩)))⟩ (by decide)
      (by unfold GoString.maxScanTokenSize; decide)⟩

end Audit

/-! ## Proxy: no egress on Critical -/

namespace Proxy

theorem upstreamCalls_append (xs ys : List Effect) :
    upstreamCalls (xs ++ ys) = upstreamCalls xs + upstreamCalls ys := by
  induction xs with
  | nil => simp [upstreamCalls]
  | cons x xs ih =>
    cases x <;> simp [upstreamCalls, ih] <;> omega

/-- An audit append calls no upstream. -/
theorem upstreamCalls_appendAudit (h : Handler) (requestID : String) (category : Risk.Category)
    (route : Router.Route) (summary : String) :
    upstreamCalls (h.appendAudit requestID category route summary).2 = 0 := by
  unfold Handler.appendAudit
  cases h.audit with
  | none => rfl
  | some audit =>
    simp only
    cases audit _ <;> rfl

/-- The abstraction step calls no upstream, whether it fails or succeeds. -/
theorem upstreamCalls_requireAbstraction (h : Handler) (requestID : String)
    (sanitized : Sanitizer.Result) (decision : Router.Decision) (summary : String) :
    (∀ out, h.requireAbstraction requestID sanitized decision summary = .error out →
      upstreamCalls out.effects = 0) ∧
    (∀ abstraction effects,
      h.requireAbstraction requestID sanitized decision summary = .ok (abstraction, effects) →
      upstreamCalls effects = 0) := by
  unfold Handler.requireAbstraction
  cases h.abstractor with
  | none =>
    refine ⟨fun out ho => ?_, fun a e ho => by cases ho⟩
    simp only [Except.error.injEq] at ho
    subst ho
    exact upstreamCalls_appendAudit _ _ _ _ _
  | some abstractor =>
    simp only
    cases abstractor _ with
    | error e =>
      refine ⟨fun out ho => ?_, fun a e ho => by cases ho⟩
      simp only [Except.error.injEq] at ho
      subst ho
      simp only [upstreamCalls]
      exact upstreamCalls_appendAudit _ _ _ _ _
    | ok abstraction =>
      refine ⟨fun out ho => (nomatch ho), fun a e ho => ?_⟩
      simp only [Except.ok.injEq, Prod.mk.injEq] at ho
      rw [← ho.2]
      rfl

/-- The decision of a successful analysis is the router's decision for the
category that the scorer returned. -/
theorem analysis_decision (h : Handler) (r : Request) (requestID : String) (b : Bool)
    (a : Analysis) (ha : h.analyzeChatRequest r requestID b = .ok a) :
    a.decision = h.router.Decide a.result.Category a.hasHardBlock := by
  unfold Handler.analyzeChatRequest at ha
  cases hb : r.Body with
  | none => rw [hb] at ha; cases ha
  | some req =>
    rw [hb] at ha
    simp only at ha
    cases hv : validateRequest req with
    | error msg => rw [hv] at ha; cases ha
    | ok u =>
      rw [hv] at ha
      simp only at ha
      cases hs : h.sanitizer (joinPrompt req.Messages) with
      | error e => rw [hs] at ha; cases ha
      | ok sanitized =>
        rw [hs] at ha
        simp only at ha
        cases he : h.scorer.Evaluate (sanitized.Mappings.length : Int)
            (minMappingConfidence sanitized.Mappings) with
        | error e => rw [he] at ha; cases ha
        | ok result =>
          rw [he] at ha
          simp only [Except.ok.injEq] at ha
          rw [← ha]

/-- The router sends the category Critical to one of the two critical routes. -/
theorem decide_critical (e : Router.Engine) (hasHardBlock : Bool) :
    (e.Decide Risk.CategoryCritical hasHardBlock).Route = Router.RouteCriticalLocalOnly ∨
    (e.Decide Risk.CategoryCritical hasHardBlock).Route = Router.RouteCriticalBlocked := by
  obtain ⟨allowRaw, localOnly⟩ := e
  cases localOnly
  · right; rfl
  · left; rfl

/-- C2. For every handler configuration, environment and request: when the
analysis of the request yields the risk category Critical, the route is
`critical_local_only` or `critical_blocked`, and `HandleChatCompletions` makes
no call to the upstream adapter's `ChatCompletions`, on either route. -/
theorem C2_critical_no_upstream_call (h : Handler) (env : Env) (r : Request) (a : Analysis)
    (ha : h.analyzeChatRequest r env.requestID true = .ok a)
    (hcrit : a.result.Category = Risk.CategoryCritical) :
    (a.decision.Route = Router.RouteCriticalLocalOnly ∨
      a.decision.Route = Router.RouteCriticalBlocked) ∧
    upstreamCalls (h.HandleChatCompletions env r).effects = 0 := by
  have hdec := analysis_decision h r env.requestID true a ha
  rw [hcrit] at hdec
  have hroute := decide_critical h.router a.hasHardBlock
  rw [← hdec] at hroute
  refine ⟨hroute, ?_⟩
  unfold Handler.HandleChatCompletions
  simp only
  split_ifs with hm
  · rfl
  · rw [ha]
    simp only
    have h1 : ¬ (a.decision.Route = Router.RouteRawForward ∨
        a.decision.Route = Router.RouteSanitizedForward) := by
      rcases hroute with e | e <;> rw [e] <;> decide
    have h2 : ¬ a.decision.Route = Router.RouteHighAbstraction := by
      rcases hroute with e | e <;> rw [e] <;> decide
    rw [if_neg h1, if_neg h2]
    split_ifs with h3
    · have hra := upstreamCalls_requireAbstraction h env.requestID a.sanitized a.decision
        ("route=" ++ a.decision.Route ++ " category=" ++ a.decision.Category)
      cases hreq : h.requireAbstraction env.requestID a.sanitized a.decision
          ("route=" ++ a.decision.Route ++ " category=" ++ a.decision.Category) with
      | error out => exact hra.1 out hreq
      | ok p =>
        obtain ⟨abstraction, absEffects⟩ := p
        have h0 := hra.2 abstraction absEffects hreq
        have hau := upstreamCalls_appendAudit h env.requestID a.decision.Category
          a.decision.Route ("route=" ++ a.decision.Route ++ " category=" ++ a.decision.Category
            ++ " local-only-success")
        simp only
        cases hres : h.appendAudit env.requestID a.decision.Category a.decision.Route
            ("route=" ++ a.decision.Route ++ " category=" ++ a.decision.Category
              ++ " local-only-success") with
        | mk res auditEffects =>
          rw [hres] at hau
          cases res <;> simp only [upstreamCalls_append, h0, hau]
    · exact upstreamCalls_appendAudit _ _ _ _ _

end Proxy

namespace Proxy

theorem criticalTest_confidence :
    minMappingConfidence criticalTestResult.Mappings = 99 / 100 := by
  simp [minMappingConfidence, criticalTestResult]

theorem criticalTest_evaluate :
    criticalTestHandler.scorer.Evaluate (criticalTestResult.Mappings.length : Int)
      (minMappingConfidence criticalTestResult.Mappings)
      = .ok { Score := 100, Category := Risk.CategoryCritical, Confidence := 99 / 100 } := by
  rw [criticalTest_confidence]
  have hlen : ((criticalTestResult.Mappings.length : Nat) : Int) = 4 := rfl
  rw [hlen]
  simp [criticalTestHandler, Risk.Scorer.Evaluate, Risk.NewScorer, wrapInt64,
    Risk.categoryForScore]
  norm_num

theorem criticalTest_analysis :
    criticalTestHandler.analyzeChatRequest criticalTestRequest "req-0" true
      = .ok criticalTestAnalysis := by
  have hv : validateRequest { Model := "gpt-test", Messages := [{ Role := "user", Content := "test" }] }
      = .ok () := by rfl
  unfold Handler.analyzeChatRequest
  simp only [criticalTestRequest, hv]
  have hs : criticalTestHandler.sanitizer (joinPrompt [{ Role := "user", Content := "test" }])
      = .ok criticalTestResult := rfl
  rw [hs]
  simp only
  rw [criticalTest_evaluate]
  rfl

/-- C2, witness: the handler and the request of
`TestCriticalLocalOnlyReturnsAbstractionWithoutRemoteEgress`; the analysis
yields Critical, the route is `critical_local_only`, and no upstream call is
made. -/
theorem C2_critical_no_upstream_call_witness :
    criticalTestHandler.analyzeChatRequest criticalTestRequest "req-0" true
      = .ok criticalTestAnalysis ∧
    criticalTestAnalysis.result.Category = Risk.CategoryCritical ∧
    (criticalTestAnalysis.decision.Route = Router.RouteCriticalLocalOnly ∨
      criticalTestAnalysis.decision.Route = Router.RouteCriticalBlocked) ∧
    upstreamCalls (criticalTestHandler.HandleChatCompletions
      { requestID := "req-0", deadlineExceeded := false } criticalTestRequest).effects = 0 :=
  ⟨criticalTest_analysis, rfl,
    C2_critical_no_upstream_call criticalTestHandler
      { requestID := "req-0", deadlineExceeded := false } criticalTestRequest
      criticalTestAnalysis criticalTest_analysis rfl⟩

end Proxy

/-! ## Proxy: retries, upstream calls and the audit record -/

namespace Proxy

theorem upstreamRequests_append (xs ys : List Effect) :
    upstreamRequests (xs ++ ys) = upstreamRequests xs ++ upstreamRequests ys := by
  induction xs with
  | nil => rfl
  | cons x xs ih => cases x <;> simp [upstreamRequests, ih]

theorem auditAppends_append (xs ys : List Effect) :
    auditAppends (xs ++ ys) = auditAppends xs + auditAppends ys := by
  induction xs with
  | nil => simp [auditAppends]
  | cons x xs ih =>
    cases x with
    | upstreamCall req => simpa [auditAppends] using ih
    | abstractCall req => simpa [auditAppends] using ih
    | auditAppend event =>
      show auditAppends (xs ++ ys) + 1 = auditAppends xs + 1 + auditAppends ys
      omega

theorem upstreamCalls_eq_length (xs : List Effect) :
    upstreamCalls xs = (upstreamRequests xs).length := by
  induction xs with
  | nil => rfl
  | cons x xs ih => cases x <;> simp [upstreamCalls, upstreamRequests, ih]

/-- The effects of an audit append: one call of `Append` when a writer is
configured, none otherwise; never a call of the upstream. -/
theorem appendAudit_effects (h : Handler) (requestID : String) (category : Risk.Category)
    (route : Router.Route) (summary : String) :
    upstreamRequests (h.appendAudit requestID category route summary).2 = [] ∧
    auditAppends (h.appendAudit requestID category route summary).2
      = if h.audit.isSome then 1 else 0 := by
  unfold Handler.appendAudit
  cases h.audit with
  | none => exact ⟨rfl, rfl⟩
  | some audit =>
    simp only
    cases audit _ <;> exact ⟨rfl, rfl⟩

/-- The error that an audit append returns: an error exactly when the writer
fails and the handler is strict. -/
theorem appendAudit_result (h : Handler) (requestID : String) (category : Risk.Category)
    (route : Router.Route) (summary : String) :
    (h.appendAudit requestID category route summary).1 =
      match h.audit with
      | none => .ok ()
      | some audit =>
        match audit { RequestID := requestID, PolicyVersion := h.policyVersion,
                      ActionSummary := summary, RiskCategory := category, Route := route } with
        | .ok _ => .ok ()
        | .error _ => if h.strictAudit then .error () else .ok () := by
  unfold Handler.appendAudit
  cases h.audit with
  | none => rfl
  | some audit =>
    simp only
    cases audit _ <;> rfl

/-- The abstraction step: when it fails it has made one audit append (with a
writer configured) and no upstream call; when it succeeds it has made neither. -/
theorem requireAbstraction_effects (h : Handler) (requestID : String)
    (sanitized : Sanitizer.Result) (decision : Router.Decision) (summary : String) :
    (∀ out, h.requireAbstraction requestID sanitized decision summary = .error out →
      upstreamRequests out.effects = [] ∧
      auditAppends out.effects = (if h.audit.isSome then 1 else 0) ∧
      out.response.Status = 503) ∧
    (∀ abstraction effects,
      h.requireAbstraction requestID sanitized decision summary = .ok (abstraction, effects) →
      upstreamRequests effects = [] ∧ auditAppends effects = 0) := by
  unfold Handler.requireAbstraction
  cases h.abstractor with
  | none =>
    refine ⟨fun out ho => ?_, fun a e ho => by cases ho⟩
    simp only [Except.error.injEq] at ho
    subst ho
    exact ⟨(appendAudit_effects _ _ _ _ _).1, (appendAudit_effects _ _ _ _ _).2, rfl⟩
  | some abstractor =>
    simp only
    cases abstractor _ with
    | error e =>
      refine ⟨fun out ho => ?_, fun a e ho => by cases ho⟩
      simp only [Except.error.injEq] at ho
      subst ho
      simp only [upstreamRequests, auditAppends]
      exact ⟨(appendAudit_effects _ _ _ _ _).1, (appendAudit_effects _ _ _ _ _).2, rfl⟩
    | ok abstraction =>
      refine ⟨fun out ho => (nomatch ho), fun a e ho => ?_⟩
      simp only [Except.ok.injEq, Prod.mk.injEq] at ho
      rw [← ho.2]
      exact ⟨rfl, rfl⟩

/-- The shared end of the forwarding branches adds no upstream call and exactly
one audit append (with a writer configured) to the calls made so far. -/
theorem finishForward_effects (h : Handler) (env : Env) (req : ChatCompletionRequest)
    (decision : Router.Decision) (summary : String) (effects : List Effect)
    (final : Except UpstreamError ForwardResponse) :
    upstreamRequests (h.finishForward env req decision summary effects final).effects
      = upstreamRequests effects ∧
    auditAppends (h.finishForward env req decision summary effects final).effects
      = auditAppends effects + (if h.audit.isSome then 1 else 0) := by
  unfold Handler.finishForward
  cases final with
  | error err =>
    simp only
    by_cases ht : (err.isTimeout || env.deadlineExceeded) = true
    · rw [if_pos ht]
      simp only [upstreamRequests_append, auditAppends_append]
      exact ⟨by rw [(appendAudit_effects _ _ _ _ _).1, List.append_nil],
        by rw [(appendAudit_effects _ _ _ _ _).2]⟩
    · rw [if_neg ht]
      simp only [upstreamRequests_append, auditAppends_append]
      exact ⟨by rw [(appendAudit_effects _ _ _ _ _).1, List.append_nil],
        by rw [(appendAudit_effects _ _ _ _ _).2]⟩
  | ok resp =>
    simp only
    have he := appendAudit_effects h env.requestID decision.Category decision.Route
      (summary ++ " success")
    cases hres : h.appendAudit env.requestID decision.Category decision.Route
        (summary ++ " success") with
    | mk res auditEffects =>
      rw [hres] at he
      cases res <;>
        exact ⟨by simp only [upstreamRequests_append]; rw [he.1, List.append_nil],
          by simp only [auditAppends_append]; rw [he.2]⟩

/-- The response of the shared end of the forwarding branches. -/
theorem finishForward_response (h : Handler) (env : Env) (req : ChatCompletionRequest)
    (decision : Router.Decision) (summary : String) (effects : List Effect)
    (final : Except UpstreamError ForwardResponse) :
    (h.finishForward env req decision summary effects final).response =
      match final with
      | .error err =>
        if err.isTimeout || env.deadlineExceeded then
          writeError 503 "ERR_PROVIDER_TIMEOUT" "provider timeout" env.requestID
        else writeError 502 "ERR_PROVIDER_FAILURE" "provider request failed" env.requestID
      | .ok resp =>
        match (h.appendAudit env.requestID decision.Category decision.Route
            (summary ++ " success")).1 with
        | .error _ => writeError 500 "ERR_AUDIT_FAILURE" "audit append failed" env.requestID
        | .ok _ => writeSuccess env.requestID req.Model resp.Content := by
  unfold Handler.finishForward
  cases final with
  | error err =>
    simp only
    split_ifs <;> rfl
  | ok resp =>
    simp only
    cases hres : h.appendAudit env.requestID decision.Category decision.Route
        (summary ++ " success") with
    | mk res auditEffects =>
      cases res <;> rfl

/-- The router's decision for Low and Medium: a forwarding route, with the
category unchanged. -/
theorem decide_low_medium (e : Router.Engine) (category : Risk.Category) (hasHardBlock : Bool)
    (hcat : category = Risk.CategoryLow ∨ category = Risk.CategoryMedium) :
    ((e.Decide category hasHardBlock).Route = Router.RouteRawForward ∨
      (e.Decide category hasHardBlock).Route = Router.RouteSanitizedForward) ∧
    (e.Decide category hasHardBlock).Category = category := by
  rcases hcat with rfl | rfl
  · unfold Router.Engine.Decide
    rw [if_pos rfl]
    split_ifs
    · exact ⟨Or.inl rfl, rfl⟩
    · exact ⟨Or.inr rfl, rfl⟩
  · exact ⟨Or.inr rfl, rfl⟩

/-- The router's decision for High: the route `high_abstraction`, with the
category unchanged. -/
theorem decide_high (e : Router.Engine) (hasHardBlock : Bool) :
    e.Decide Risk.CategoryHigh hasHardBlock
      = { Category := Risk.CategoryHigh, Route := Router.RouteHighAbstraction, Egress := true } :=
  rfl

/-- The router's decisions with egress are those for Low, Medium and High. -/
theorem decide_egress (e : Router.Engine) (category : Risk.Category) (hasHardBlock : Bool)
    (heg : (e.Decide category hasHardBlock).Egress = true) :
    ((e.Decide category hasHardBlock).Route = Router.RouteRawForward ∨
      (e.Decide category hasHardBlock).Route = Router.RouteSanitizedForward) ∧
      (category = Risk.CategoryLow ∨ category = Risk.CategoryMedium) ∨
    (e.Decide category hasHardBlock).Route = Router.RouteHighAbstraction ∧
      category = Risk.CategoryHigh := by
  unfold Router.Engine.Decide at heg ⊢
  split_ifs at heg ⊢ with h1 h2 h3 h4 h5
  · exact Or.inl ⟨Or.inl rfl, Or.inl h1⟩
  · exact Or.inl ⟨Or.inr rfl, Or.inl h1⟩
  · exact Or.inl ⟨Or.inr rfl, Or.inr h3⟩
  · exact Or.inr ⟨rfl, h4⟩

end Proxy

namespace Proxy

/-- The handler on the routes `raw_forward` and `sanitized_forward`, with an
upstream adapter configured. -/
theorem handle_forward (h : Handler) (env : Env) (r : Request) (a : Analysis)
    (up : UpstreamAdapter) (hm : r.Method = "POST")
    (ha : h.analyzeChatRequest r env.requestID true = .ok a)
    (hroute : a.decision.Route = Router.RouteRawForward ∨
      a.decision.Route = Router.RouteSanitizedForward)
    (hup : h.upstream = some up) :
    h.HandleChatCompletions env r =
      match up 0 (forwardReqFor env r a) with
      | .error err =>
        if trimSpace r.IdempotencyKey ≠ "" ∧ (a.decision.Category = Risk.CategoryLow ∨
            a.decision.Category = Risk.CategoryMedium) then
          h.finishForward env a.req a.decision (summaryFor a)
            [.upstreamCall (forwardReqFor env r a), .upstreamCall (forwardReqFor env r a)]
            (up 1 (forwardReqFor env r a))
        else
          h.finishForward env a.req a.decision (summaryFor a)
            [.upstreamCall (forwardReqFor env r a)] (.error err)
      | .ok resp =>
        h.finishForward env a.req a.decision (summaryFor a)
          [.upstreamCall (forwardReqFor env r a)] (.ok resp) := by
  unfold Handler.HandleChatCompletions
  simp only
  rw [if_neg (not_not.mpr hm), ha]
  simp only
  rw [if_pos hroute, hup]
  rfl

/-- The handler on the routes `raw_forward` and `sanitized_forward`, without an
upstream adapter. -/
theorem handle_forward_missing (h : Handler) (env : Env) (r : Request) (a : Analysis)
    (hm : r.Method = "POST")
    (ha : h.analyzeChatRequest r env.requestID true = .ok a)
    (hroute : a.decision.Route = Router.RouteRawForward ∨
      a.decision.Route = Router.RouteSanitizedForward)
    (hup : h.upstream = none) :
    h.HandleChatCompletions env r =
      { response := writeError 502 "ERR_PROVIDER_FAILURE" "upstream adapter not configured"
          env.requestID,
        effects := (h.appendAudit env.requestID a.decision.Category a.decision.Route
          (summaryFor a ++ " upstream-missing")).2 } := by
  unfold Handler.HandleChatCompletions
  simp only
  rw [if_neg (not_not.mpr hm), ha]
  simp only
  rw [if_pos hroute, hup]
  rfl

theorem high_not_forward (route : Router.Route) (hroute : route = Router.RouteHighAbstraction) :
    ¬ (route = Router.RouteRawForward ∨ route = Router.RouteSanitizedForward) := by
  rw [hroute]; decide

/-- The handler on the route `high_abstraction`. -/
theorem handle_high (h : Handler) (env : Env) (r : Request) (a : Analysis)
    (hm : r.Method = "POST")
    (ha : h.analyzeChatRequest r env.requestID true = .ok a)
    (hroute : a.decision.Route = Router.RouteHighAbstraction) :
    h.HandleChatCompletions env r =
      match h.requireAbstraction env.requestID a.sanitized a.decision (summaryFor a) with
      | .error out => out
      | .ok (abstraction, absEffects) =>
        match h.upstream with
        | none =>
          { response := writeError 502 "ERR_PROVIDER_FAILURE" "upstream adapter not configured"
              env.requestID,
            effects := absEffects ++ (h.appendAudit env.requestID a.decision.Category
              a.decision.Route (summaryFor a ++ " upstream-missing")).2 }
        | some upstream =>
          h.finishForward env a.req a.decision (summaryFor a)
            (absEffects ++ [.upstreamCall
              { RequestID := env.requestID, Model := a.req.Model, SanitizedPrompt := abstraction,
                RiskCategory := a.decision.Category, Route := a.decision.Route,
                IdempotencyKey := trimSpace r.IdempotencyKey }])
            (upstream 0
              { RequestID := env.requestID, Model := a.req.Model, SanitizedPrompt := abstraction,
                RiskCategory := a.decision.Category, Route := a.decision.Route,
                IdempotencyKey := trimSpace r.IdempotencyKey }) := by
  unfold Handler.HandleChatCompletions
  simp only
  rw [if_neg (not_not.mpr hm), ha]
  simp only
  rw [if_neg (high_not_forward _ hroute), if_pos hroute]
  rfl

/-- The handler on the two critical routes and on every other route. -/
theorem handle_critical (h : Handler) (env : Env) (r : Request) (a : Analysis)
    (hm : r.Method = "POST")
    (ha : h.analyzeChatRequest r env.requestID true = .ok a)
    (h1 : ¬ (a.decision.Route = Router.RouteRawForward ∨
      a.decision.Route = Router.RouteSanitizedForward))
    (h2 : ¬ a.decision.Route = Router.RouteHighAbstraction) :
    h.HandleChatCompletions env r =
      if a.decision.Route = Router.RouteCriticalLocalOnly then
        match h.requireAbstraction env.requestID a.sanitized a.decision (summaryFor a) with
        | .error out => out
        | .ok (abstraction, absEffects) =>
          match h.appendAudit env.requestID a.decision.Category a.decision.Route
              (summaryFor a ++ " local-only-success") with
          | (.error _, auditEffects) =>
            { response := writeError 500 "ERR_AUDIT_FAILURE" "audit append failed" env.requestID,
              effects := absEffects ++ auditEffects }
          | (.ok _, auditEffects) =>
            { response := writeSuccess env.requestID a.req.Model abstraction,
              effects := absEffects ++ auditEffects }
      else
        { response := writeError 403 "ERR_POLICY_BLOCK" "request blocked by policy" env.requestID,
          effects := (h.appendAudit env.requestID Risk.CategoryCritical
            Router.RouteCriticalBlocked (summaryFor a ++ " blocked")).2 } := by
  unfold Handler.HandleChatCompletions
  simp only
  rw [if_neg (not_not.mpr hm), ha]
  simp only
  rw [if_neg h1, if_neg h2]
  rfl

/-- Every per-route outcome makes one audit append when a writer is
configured, and none otherwise. -/
theorem handle_auditAppends (h : Handler) (env : Env) (r : Request) (a : Analysis)
    (hm : r.Method = "POST")
    (ha : h.analyzeChatRequest r env.requestID true = .ok a) :
    auditAppends (h.HandleChatCompletions env r).effects = if h.audit.isSome then 1 else 0 := by
  by_cases h1 : a.decision.Route = Router.RouteRawForward ∨
      a.decision.Route = Router.RouteSanitizedForward
  · cases hup : h.upstream with
    | none =>
      rw [handle_forward_missing h env r a hm ha h1 hup]
      exact (appendAudit_effects _ _ _ _ _).2
    | some up =>
      rw [handle_forward h env r a up hm ha h1 hup]
      cases up 0 (forwardReqFor env r a) with
      | error err =>
        simp only
        by_cases hk : trimSpace r.IdempotencyKey ≠ "" ∧ (a.decision.Category = Risk.CategoryLow ∨
            a.decision.Category = Risk.CategoryMedium)
        · rw [if_pos hk, (finishForward_effects _ _ _ _ _ _ _).2]
          simp only [auditAppends, Nat.zero_add]
        · rw [if_neg hk, (finishForward_effects _ _ _ _ _ _ _).2]
          simp only [auditAppends, Nat.zero_add]
      | ok resp =>
        simp only
        rw [(finishForward_effects _ _ _ _ _ _ _).2]
        simp only [auditAppends, Nat.zero_add]
  · by_cases h2 : a.decision.Route = Router.RouteHighAbstraction
    · rw [handle_high h env r a hm ha h2]
      have hra := requireAbstraction_effects h env.requestID a.sanitized a.decision (summaryFor a)
      cases hreq : h.requireAbstraction env.requestID a.sanitized a.decision (summaryFor a) with
      | error out => exact (hra.1 out hreq).2.1
      | ok p =>
        obtain ⟨abstraction, absEffects⟩ := p
        have h0 := (hra.2 abstraction absEffects hreq).2
        simp only
        cases h.upstream with
        | none =>
          simp only [auditAppends_append, h0, (appendAudit_effects _ _ _ _ _).2, Nat.zero_add]
        | some up =>
          simp only
          rw [(finishForward_effects _ _ _ _ _ _ _).2, auditAppends_append, h0]
          simp only [auditAppends, Nat.zero_add]
    · rw [handle_critical h env r a hm ha h1 h2]
      by_cases h3 : a.decision.Route = Router.RouteCriticalLocalOnly
      · rw [if_pos h3]
        have hra := requireAbstraction_effects h env.requestID a.sanitized a.decision
          (summaryFor a)
        cases hreq : h.requireAbstraction env.requestID a.sanitized a.decision (summaryFor a) with
        | error out => exact (hra.1 out hreq).2.1
        | ok p =>
          obtain ⟨abstraction, absEffects⟩ := p
          have h0 := (hra.2 abstraction absEffects hreq).2
          have hau := (appendAudit_effects h env.requestID a.decision.Category
            a.decision.Route (summaryFor a ++ " local-only-success")).2
          simp only
          cases hres : h.appendAudit env.requestID a.decision.Category a.decision.Route
              (summaryFor a ++ " local-only-success") with
          | mk res auditEffects =>
            rw [hres] at hau
            cases res <;> simp only [auditAppends_append, h0, hau, Nat.zero_add]
      · rw [if_neg h3]
        exact (appendAudit_effects _ _ _ _ _).2

end Proxy

namespace Proxy

theorem defaultSanitizer_hello :
    defaultSanitizer "hello" = .ok { Sanitized := "hello", Mappings := [] } := by
  rfl

set_option maxRecDepth 100000 in
theorem defaultSanitizer_high :
    defaultSanitizer "alice@example.com and 555-123-4567" = .ok highAnalysis.sanitized := by
  rfl

theorem testScorer_none :
    (Risk.NewScorer (7 / 10)).Evaluate 0 (99 / 100)
      = .ok { Score := 0, Category := Risk.CategoryLow, Confidence := 99 / 100 } := by
  simp [Risk.Scorer.Evaluate, Risk.NewScorer, wrapInt64, Risk.categoryForScore]
  norm_num

theorem testScorer_two :
    (Risk.NewScorer (7 / 10)).Evaluate 2 (99 / 100)
      = .ok { Score := 50, Category := Risk.CategoryHigh, Confidence := 99 / 100 } := by
  simp [Risk.Scorer.Evaluate, Risk.NewScorer, wrapInt64, Risk.categoryForScore]
  norm_num

theorem testHandler_hello_analysis (up : UpstreamAdapter) (abstractor : Option Abstractor)
    (audit : Option AuditWriter) (strict b : Bool) (key requestID : String) :
    (testHandler up abstractor audit strict).analyzeChatRequest (helloRequest key) requestID b
      = .ok helloAnalysis := by
  have hv : validateRequest
      { Model := "gpt-test", Messages := [{ Role := "user", Content := "hello" }] } = .ok () := by
    rfl
  unfold Handler.analyzeChatRequest
  simp only [helloRequest, hv]
  have hs : (testHandler up abstractor audit strict).sanitizer
      (joinPrompt [{ Role := "user", Content := "hello" }])
      = .ok { Sanitized := "hello", Mappings := [] } := defaultSanitizer_hello
  rw [hs]
  simp only
  have hc : minMappingConfidence ([] : List Sanitizer.Mapping) = 99 / 100 := rfl
  have hl : (([] : List Sanitizer.Mapping).length : Int) = 0 := rfl
  have he : (testHandler up abstractor audit strict).scorer.Evaluate 0 (99 / 100)
      = .ok { Score := 0, Category := Risk.CategoryLow, Confidence := 99 / 100 } := testScorer_none
  rw [hc, hl, he]
  rfl

theorem testHandler_high_analysis (up : UpstreamAdapter) (abstractor : Option Abstractor)
    (audit : Option AuditWriter) (strict b : Bool) (requestID : String) :
    (testHandler up abstractor audit strict).analyzeChatRequest highRequest requestID b
      = .ok highAnalysis := by
  have hv : validateRequest
      { Model := "gpt-test",
        Messages := [{ Role := "user", Content := "alice@example.com and 555-123-4567" }] }
      = .ok () := by
    rfl
  unfold Handler.analyzeChatRequest
  simp only [highRequest, hv]
  have hs : (testHandler up abstractor audit strict).sanitizer
      (joinPrompt [{ Role := "user", Content := "alice@example.com and 555-123-4567" }])
      = .ok highAnalysis.sanitized := defaultSanitizer_high
  rw [hs]
  simp only
  have hc : minMappingConfidence highAnalysis.sanitized.Mappings = 99 / 100 := by
    simp [minMappingConfidence, highAnalysis]
  have hl : ((highAnalysis.sanitized.Mappings.length : Nat) : Int) = 2 := rfl
  have he : (testHandler up abstractor audit strict).scorer.Evaluate 2 (99 / 100)
      = .ok { Score := 50, Category := Risk.CategoryHigh, Confidence := 99 / 100 } := testScorer_two
  rw [hc, hl, he]
  rfl

end Proxy

namespace Proxy

/-- The error that `appendAudit` returns, in terms of `AuditBlocks`. -/
theorem appendAudit_blocks (h : Handler) (env : Env) (a : Analysis) (summary : String) :
    (h.AuditBlocks env a summary →
      (h.appendAudit env.requestID a.decision.Category a.decision.Route summary).1 = .error ()) ∧
    (¬ h.AuditBlocks env a summary →
      (h.appendAudit env.requestID a.decision.Category a.decision.Route summary).1 = .ok ()) := by
  rw [appendAudit_result]
  unfold Handler.AuditBlocks Handler.auditEventFor
  cases haud : h.audit with
  | none =>
    constructor
    · rintro ⟨_, w, hw, _⟩
      cases hw
    · intro _
      rfl
  | some w =>
    simp only
    cases hw : w { RequestID := env.requestID, PolicyVersion := h.policyVersion,
                   ActionSummary := summary, RiskCategory := a.decision.Category,
                   Route := a.decision.Route } with
    | ok u =>
      constructor
      · rintro ⟨_, w', hw', he⟩
        cases hw'
        rw [hw] at he
        cases he
      · intro _
        rfl
    | error e =>
      simp only
      constructor
      · rintro ⟨hs, _⟩
        rw [if_pos hs]
      · intro hn
        have hs : ¬ h.strictAudit = true := fun hs => hn ⟨hs, w, rfl, hw⟩
        rw [if_neg hs]

/-- The response of the shared end of the forwarding branches after a
successful upstream call. -/
theorem finishForward_ok_response (h : Handler) (env : Env) (a : Analysis)
    (effects : List Effect) (resp : ForwardResponse) :
    (h.AuditBlocks env a (summaryFor a ++ " success") →
      (h.finishForward env a.req a.decision (summaryFor a) effects (.ok resp)).response
        = writeError 500 "ERR_AUDIT_FAILURE" "audit append failed" env.requestID) ∧
    (¬ h.AuditBlocks env a (summaryFor a ++ " success") →
      (h.finishForward env a.req a.decision (summaryFor a) effects (.ok resp)).response
        = writeSuccess env.requestID a.req.Model resp.Content) := by
  rw [finishForward_response]
  simp only
  constructor
  · intro hb
    rw [(appendAudit_blocks h env a _).1 hb]
  · intro hb
    rw [(appendAudit_blocks h env a _).2 hb]

/-- C12 (amended). For every request whose category is Low or Medium and whose
trimmed Idempotency-Key header is non-empty, with an upstream adapter
configured: if the first upstream call fails, the handler calls the upstream
exactly once more with the identical ForwardRequest, so exactly twice in all;
if the second call fails too, without timeout, the response is 502
ERR_PROVIDER_FAILURE; if the second call succeeds, the response is the 200
success response, unless the handler is strict and the audit append of the
success record fails, in which case it is 500 ERR_AUDIT_FAILURE. -/
theorem C12_retry_exactly_once (h : Handler) (env : Env) (r : Request) (a : Analysis)
    (up : UpstreamAdapter) (err : UpstreamError)
    (hm : r.Method = "POST")
    (ha : h.analyzeChatRequest r env.requestID true = .ok a)
    (hcat : a.result.Category = Risk.CategoryLow ∨ a.result.Category = Risk.CategoryMedium)
    (hkey : trimSpace r.IdempotencyKey ≠ "")
    (hup : h.upstream = some up)
    (hfirst : up 0 (forwardReqFor env r a) = .error err) :
    upstreamRequests (h.HandleChatCompletions env r).effects
      = [forwardReqFor env r a, forwardReqFor env r a] ∧
    (∀ err2, up 1 (forwardReqFor env r a) = .error err2 →
      err2.isTimeout = false → env.deadlineExceeded = false →
      (h.HandleChatCompletions env r).response
        = writeError 502 "ERR_PROVIDER_FAILURE" "provider request failed" env.requestID) ∧
    (∀ resp, up 1 (forwardReqFor env r a) = .ok resp →
      (¬ h.AuditBlocks env a (summaryFor a ++ " success") →
        (h.HandleChatCompletions env r).response
          = writeSuccess env.requestID a.req.Model resp.Content ∧
        (h.HandleChatCompletions env r).response.Status = 200) ∧
      (h.AuditBlocks env a (summaryFor a ++ " success") →
        (h.HandleChatCompletions env r).response
          = writeError 500 "ERR_AUDIT_FAILURE" "audit append failed" env.requestID)) := by
  have hdec := analysis_decision h r env.requestID true a ha
  have hlm := decide_low_medium h.router a.result.Category a.hasHardBlock hcat
  rw [← hdec] at hlm
  have hcat' : a.decision.Category = Risk.CategoryLow ∨
      a.decision.Category = Risk.CategoryMedium := by
    rw [hlm.2]; exact hcat
  rw [handle_forward h env r a up hm ha hlm.1 hup, hfirst]
  simp only
  rw [if_pos ⟨hkey, hcat'⟩]
  refine ⟨?_, ?_, ?_⟩
  · rw [(finishForward_effects _ _ _ _ _ _ _).1]
    rfl
  · intro err2 h2 ht hd
    rw [h2, finishForward_response]
    simp only [ht, hd, Bool.or_self, Bool.false_eq_true, if_false]
  · intro resp h2
    rw [h2]
    refine ⟨fun hb => ?_, fun hb => ?_⟩
    · rw [(finishForward_ok_response h env a _ resp).2 hb]
      exact ⟨rfl, rfl⟩
    · exact (finishForward_ok_response h env a _ resp).1 hb

/-- C12, witness: the handler, upstream and request of
`TestTVREL006IdempotentLowMediumRetryExactlyOnceThenSucceeds` (router
`NewEngine(false)`, message `hello`, header `Idempotency-Key: idem-123`). -/
theorem C12_retry_exactly_once_witness :
    upstreamRequests ((testHandler failOnceThenOKUpstream none none false).HandleChatCompletions
        (testEnv false) (helloRequest "idem-123")).effects
      = [forwardReqFor (testEnv false) (helloRequest "idem-123") helloAnalysis,
         forwardReqFor (testEnv false) (helloRequest "idem-123") helloAnalysis] ∧
    ((testHandler failOnceThenOKUpstream none none false).HandleChatCompletions
        (testEnv false) (helloRequest "idem-123")).response.Status = 200 :=
  have hc := C12_retry_exactly_once (testHandler failOnceThenOKUpstream none none false)
    (testEnv false) (helloRequest "idem-123") helloAnalysis failOnceThenOKUpstream
    { isTimeout := false, status := none } rfl
    (testHandler_hello_analysis _ _ _ _ _ _ _) (Or.inl rfl) (by decide) rfl rfl
  ⟨hc.1, ((hc.2.2 { Content := "ok" } rfl).1 (fun hb => by
    obtain ⟨hs, _⟩ := hb
    cases hs)).2⟩

/-- C12, counterexample: the handler of `TestTVREL002AuditFailureStrictModeBlocks`
(strict audit, a failing audit writer) with the upstream that fails once and
then succeeds, on a Low request with the header `Idempotency-Key: idem-123`:
the first call fails, the second call succeeds, and the response is 500, not
200. -/
theorem C12_counterexample :
    (testHandler failOnceThenOKUpstream none (some failingAuditWriter) true).analyzeChatRequest
        (helloRequest "idem-123") (testEnv false).requestID true = .ok helloAnalysis ∧
    helloAnalysis.result.Category = Risk.CategoryLow ∧
    trimSpace (helloRequest "idem-123").IdempotencyKey ≠ "" ∧
    failOnceThenOKUpstream 0 (forwardReqFor (testEnv false) (helloRequest "idem-123")
        helloAnalysis) = .error { isTimeout := false, status := none } ∧
    failOnceThenOKUpstream 1 (forwardReqFor (testEnv false) (helloRequest "idem-123")
        helloAnalysis) = .ok { Content := "ok" } ∧
    ((testHandler failOnceThenOKUpstream none (some failingAuditWriter) true).HandleChatCompletions
        (testEnv false) (helloRequest "idem-123")).response
      = writeError 500 "ERR_AUDIT_FAILURE" "audit append failed" "req-0" ∧
    ((testHandler failOnceThenOKUpstream none (some failingAuditWriter) true).HandleChatCompletions
        (testEnv false) (helloRequest "idem-123")).response.Status ≠ 200 := by
  have hresp : ((testHandler failOnceThenOKUpstream none (some failingAuditWriter)
      true).HandleChatCompletions (testEnv false) (helloRequest "idem-123")).response
      = writeError 500 "ERR_AUDIT_FAILURE" "audit append failed" "req-0" := by
    rw [handle_forward _ _ _ helloAnalysis failOnceThenOKUpstream rfl
      (testHandler_hello_analysis _ _ _ _ _ _ _) (Or.inr rfl) rfl]
    rfl
  refine ⟨testHandler_hello_analysis _ _ _ _ _ _ _, rfl, by decide, rfl, rfl, hresp, ?_⟩
  rw [hresp]
  decide

end Proxy

namespace Proxy

/-- C13 (amended). For every request that reaches an egress route with the
Idempotency-Key header absent or blank after trimming, or with the category
High: when an upstream adapter is configured and, on the route
`high_abstraction`, the local abstraction succeeded, the upstream is called
exactly once, whether or not that call fails; when no upstream adapter is
configured, or the local abstraction is unavailable or fails, the upstream is
not called. -/
theorem C13_single_upstream_call (h : Handler) (env : Env) (r : Request) (a : Analysis)
    (hm : r.Method = "POST")
    (ha : h.analyzeChatRequest r env.requestID true = .ok a)
    (heg : a.decision.Egress = true)
    (hcase : trimSpace r.IdempotencyKey = "" ∨ a.result.Category = Risk.CategoryHigh) :
    ((∃ up, h.upstream = some up) →
      (a.decision.Route = Router.RouteHighAbstraction →
        ∃ abstraction effects, h.requireAbstraction env.requestID a.sanitized a.decision
          (summaryFor a) = .ok (abstraction, effects)) →
      upstreamCalls (h.HandleChatCompletions env r).effects = 1) ∧
    (h.upstream = none ∨
      (a.decision.Route = Router.RouteHighAbstraction ∧
        ∃ out, h.requireAbstraction env.requestID a.sanitized a.decision (summaryFor a)
          = .error out) →
      upstreamCalls (h.HandleChatCompletions env r).effects = 0) := by
  have hdec := analysis_decision h r env.requestID true a ha
  have hroutes := decide_egress h.router a.result.Category a.hasHardBlock (by rw [← hdec]; exact heg)
  rw [← hdec] at hroutes
  rcases hroutes with ⟨hfw, hlm⟩ | ⟨hhigh, hcat⟩
  · -- the routes raw_forward and sanitized_forward: the key is blank
    have hkey : trimSpace r.IdempotencyKey = "" := by
      rcases hcase with hk | hk
      · exact hk
      · rw [hk] at hlm
        rcases hlm with e | e <;> exact absurd e (by decide)
    have hnothigh : ¬ a.decision.Route = Router.RouteHighAbstraction := by
      intro hh
      exact high_not_forward _ hh hfw
    constructor
    · rintro ⟨up, hup⟩ _
      rw [handle_forward h env r a up hm ha hfw hup, upstreamCalls_eq_length]
      cases up 0 (forwardReqFor env r a) with
      | error err =>
        simp only
        rw [if_neg (fun hk => hk.1 hkey), (finishForward_effects _ _ _ _ _ _ _).1]
        rfl
      | ok resp =>
        simp only
        rw [(finishForward_effects _ _ _ _ _ _ _).1]
        rfl
    · rintro (hup | ⟨hh, _⟩)
      · rw [handle_forward_missing h env r a hm ha hfw hup, upstreamCalls_eq_length,
          (appendAudit_effects _ _ _ _ _).1]
        rfl
      · exact absurd hh hnothigh
  · -- the route high_abstraction
    have hra := requireAbstraction_effects h env.requestID a.sanitized a.decision (summaryFor a)
    rw [handle_high h env r a hm ha hhigh, upstreamCalls_eq_length]
    constructor
    · rintro ⟨up, hup⟩ habs
      obtain ⟨abstraction, absEffects, hreq⟩ := habs hhigh
      rw [hreq, hup]
      simp only
      rw [(finishForward_effects _ _ _ _ _ _ _).1, upstreamRequests_append,
        (hra.2 abstraction absEffects hreq).1]
      rfl
    · rintro (hup | ⟨_, out, hreq⟩)
      · cases hreq : h.requireAbstraction env.requestID a.sanitized a.decision (summaryFor a) with
        | error out =>
          simp only
          rw [(hra.1 out hreq).1]
          rfl
        | ok p =>
          obtain ⟨abstraction, absEffects⟩ := p
          simp only
          rw [hup]
          simp only
          rw [upstreamRequests_append, (hra.2 abstraction absEffects hreq).1,
            (appendAudit_effects _ _ _ _ _).1]
          rfl
      · rw [hreq]
        simp only
        rw [(hra.1 out hreq).1]
        rfl

/-- C13, witness: the handler and the request of
`TestTVREL006HighRouteDoesNotRetryEvenWithIdempotencyKey`: category High, an
upstream that always fails, the passthrough abstractor; one upstream call. -/
theorem C13_single_upstream_call_witness :
    highAnalysis.decision.Egress = true ∧
    highAnalysis.result.Category = Risk.CategoryHigh ∧
    upstreamCalls ((testHandler failAlwaysUpstream (some PassthroughAbstractor) none
      false).HandleChatCompletions (testEnv false) highRequest).effects = 1 :=
  ⟨rfl, rfl,
    (C13_single_upstream_call (testHandler failAlwaysUpstream (some PassthroughAbstractor) none
      false) (testEnv false) highRequest highAnalysis rfl (testHandler_high_analysis _ _ _ _ _ _)
      rfl (Or.inr rfl)).1 ⟨failAlwaysUpstream, rfl⟩ (fun _ => ⟨_, _, rfl⟩)⟩

/-- C13, counterexample: the request of
`TestTVREL006HighRouteDoesNotRetryEvenWithIdempotencyKey` (category High, the
egress route `high_abstraction`) sent to a handler whose abstractor fails: the
response is 503 and the upstream is not called. -/
theorem C13_counterexample :
    (testHandler failAlwaysUpstream (some failingAbstractor) none false).analyzeChatRequest
        highRequest (testEnv false).requestID true = .ok highAnalysis ∧
    highAnalysis.result.Category = Risk.CategoryHigh ∧
    highAnalysis.decision.Route = Router.RouteHighAbstraction ∧
    highAnalysis.decision.Egress = true ∧
    ((testHandler failAlwaysUpstream (some failingAbstractor) none false).HandleChatCompletions
        (testEnv false) highRequest).response
      = writeError 503 "ERR_ABSTRACTION_UNAVAILABLE" "local abstraction failed" "req-0" ∧
    upstreamCalls ((testHandler failAlwaysUpstream (some failingAbstractor) none
      false).HandleChatCompletions (testEnv false) highRequest).effects = 0 := by
  have hh : (testHandler failAlwaysUpstream (some failingAbstractor) none
      false).HandleChatCompletions (testEnv false) highRequest
      = { response := writeError 503 "ERR_ABSTRACTION_UNAVAILABLE" "local abstraction failed"
            "req-0",
          effects := [.abstractCall
            { RequestID := "req-0", SanitizedPrompt := highAnalysis.sanitized.Sanitized,
              Mappings := highAnalysis.sanitized.Mappings,
              Route := Router.RouteHighAbstraction }] } := by
    rw [handle_high _ _ _ highAnalysis rfl (testHandler_high_analysis _ _ _ _ _ _) rfl]
    rfl
  refine ⟨testHandler_high_analysis _ _ _ _ _ _, rfl, rfl, rfl, ?_, ?_⟩
  · rw [hh]
  · rw [hh]
    rfl

/-- C14 (amended). The handler retries on timeouts too: for every Low or
Medium request with an idempotency key and an upstream adapter configured, if
the first upstream call fails, with a timeout or otherwise, the upstream is
called exactly twice; the response is 503 ERR_PROVIDER_TIMEOUT exactly when the
second call fails as well and its error is a timeout or the deadline of the
provider context has passed. -/
theorem C14_timeout_is_retried (h : Handler) (env : Env) (r : Request) (a : Analysis)
    (up : UpstreamAdapter) (err : UpstreamError)
    (hm : r.Method = "POST")
    (ha : h.analyzeChatRequest r env.requestID true = .ok a)
    (hcat : a.result.Category = Risk.CategoryLow ∨ a.result.Category = Risk.CategoryMedium)
    (hkey : trimSpace r.IdempotencyKey ≠ "")
    (hup : h.upstream = some up)
    (hfirst : up 0 (forwardReqFor env r a) = .error err) :
    (err.isTimeout = true ∨ env.deadlineExceeded = true →
      upstreamCalls (h.HandleChatCompletions env r).effects = 2) ∧
    ((h.HandleChatCompletions env r).response
        = writeError 503 "ERR_PROVIDER_TIMEOUT" "provider timeout" env.requestID ↔
      ∃ err2, up 1 (forwardReqFor env r a) = .error err2 ∧
        (err2.isTimeout = true ∨ env.deadlineExceeded = true)) := by
  have hdec := analysis_decision h r env.requestID true a ha
  have hlm := decide_low_medium h.router a.result.Category a.hasHardBlock hcat
  rw [← hdec] at hlm
  have hcat' : a.decision.Category = Risk.CategoryLow ∨
      a.decision.Category = Risk.CategoryMedium := by
    rw [hlm.2]; exact hcat
  rw [handle_forward h env r a up hm ha hlm.1 hup, hfirst]
  simp only
  rw [if_pos ⟨hkey, hcat'⟩]
  constructor
  · intro _
    rw [upstreamCalls_eq_length, (finishForward_effects _ _ _ _ _ _ _).1]
    rfl
  · rw [finishForward_response]
    cases h2 : up 1 (forwardReqFor env r a) with
    | error err2 =>
      simp only
      by_cases ht : (err2.isTimeout || env.deadlineExceeded) = true
      · rw [if_pos ht]
        simp only [true_iff]
        exact ⟨err2, rfl, by simpa [Bool.or_eq_true] using ht⟩
      · rw [if_neg ht]
        constructor
        · intro hne
          have hst : (502 : Nat) = 503 := congrArg Response.Status hne
          exact absurd hst (by decide)
        · rintro ⟨e, he, hte⟩
          cases he
          exact absurd (by simpa [Bool.or_eq_true] using hte) ht
    | ok resp =>
      simp only
      constructor
      · intro hne
        cases hres : (h.appendAudit env.requestID a.decision.Category a.decision.Route
            (summaryFor a ++ " success")).1 with
        | error e =>
          rw [hres] at hne
          have hst : (500 : Nat) = 503 := congrArg Response.Status hne
          exact absurd hst (by decide)
        | ok u =>
          rw [hres] at hne
          have hst : (200 : Nat) = 503 := congrArg Response.Status hne
          exact absurd hst (by decide)
      · rintro ⟨e, he, _⟩
        cases he

/-- C14, witness: the upstream of `TestTVREL001ProviderTimeoutSafeHandling`,
every call of which ends in the deadline being exceeded, on a Low request with
the header `Idempotency-Key: idem-123`: two upstream calls, and the response
503 ERR_PROVIDER_TIMEOUT. -/
theorem C14_timeout_is_retried_witness :
    upstreamCalls ((testHandler timeoutUpstream none none false).HandleChatCompletions
        (testEnv true) (helloRequest "idem-123")).effects = 2 ∧
    ((testHandler timeoutUpstream none none false).HandleChatCompletions
        (testEnv true) (helloRequest "idem-123")).response
      = writeError 503 "ERR_PROVIDER_TIMEOUT" "provider timeout" "req-0" :=
  have hc := C14_timeout_is_retried (testHandler timeoutUpstream none none false)
    (testEnv true) (helloRequest "idem-123") helloAnalysis timeoutUpstream
    { isTimeout := true, status := none } rfl
    (testHandler_hello_analysis _ _ _ _ _ _ _) (Or.inl rfl) (by decide) rfl rfl
  ⟨hc.1 (Or.inl rfl), hc.2.mpr ⟨{ isTimeout := true, status := none }, rfl, Or.inl rfl⟩⟩

/-- C14, counterexample: the handler and the upstream of
`TestTVREL001ProviderTimeoutSafeHandling` on a Low request with the header
`Idempotency-Key: idem-123`: the first upstream call fails with a timeout, the
deadline being exceeded, and the upstream is called twice, not once. -/
theorem C14_counterexample :
    (testHandler timeoutUpstream none none false).analyzeChatRequest
        (helloRequest "idem-123") (testEnv true).requestID true = .ok helloAnalysis ∧
    helloAnalysis.result.Category = Risk.CategoryLow ∧
    trimSpace (helloRequest "idem-123").IdempotencyKey ≠ "" ∧
    timeoutUpstream 0 (forwardReqFor (testEnv true) (helloRequest "idem-123") helloAnalysis)
      = .error { isTimeout := true, status := none } ∧
    (testEnv true).deadlineExceeded = true ∧
    upstreamCalls ((testHandler timeoutUpstream none none false).HandleChatCompletions
        (testEnv true) (helloRequest "idem-123")).effects = 2 ∧
    upstreamCalls ((testHandler timeoutUpstream none none false).HandleChatCompletions
        (testEnv true) (helloRequest "idem-123")).effects ≠ 1 := by
  have hcalls : upstreamCalls ((testHandler timeoutUpstream none none
      false).HandleChatCompletions (testEnv true) (helloRequest "idem-123")).effects = 2 := by
    rw [handle_forward _ _ _ helloAnalysis timeoutUpstream rfl
      (testHandler_hello_analysis _ _ _ _ _ _ _) (Or.inr rfl) rfl]
    rfl
  refine ⟨testHandler_hello_analysis _ _ _ _ _ _ _, rfl, by decide, rfl, rfl, hcalls, ?_⟩
  rw [hcalls]
  decide

/-- C16. With an audit writer configured, every request to
`HandleChatCompletions` that passes the analysis and so ends in one of the
per-route outcomes (success, local-only-success, blocked, abstraction
unavailable or failed, upstream missing, provider timeout, provider failure)
causes exactly one call of the audit writer's `Append`. -/
theorem C16_one_audit_append (h : Handler) (env : Env) (r : Request) (a : Analysis)
    (w : AuditWriter) (haud : h.audit = some w) (hm : r.Method = "POST")
    (ha : h.analyzeChatRequest r env.requestID true = .ok a) :
    auditAppends (h.HandleChatCompletions env r).effects = 1 := by
  rw [handle_auditAppends h env r a hm ha, haud]
  rfl

/-- C16, witness: the handler and the request of
`TestTVREL002AuditFailureStrictModeBlocks`. -/
theorem C16_one_audit_append_witness :
    auditAppends ((testHandler StubUpstream none (some failingAuditWriter)
      true).HandleChatCompletions (testEnv false) (helloRequest "")).effects = 1 :=
  C16_one_audit_append (testHandler StubUpstream none (some failingAuditWriter) true)
    (testEnv false) (helloRequest "") helloAnalysis failingAuditWriter rfl rfl
    (testHandler_hello_analysis _ _ _ _ _ _ _)

end Proxy

namespace Proxy

theorem status_ne_200 {status : Nat} (hne : status ≠ 200) (code message requestID : String) :
    (writeError status code message requestID).Status ≠ 200 := hne

theorem auditFailurePolicy_same (strict : Bool) (requestID : String) (resp : Response)
    (hst : resp.Status ≠ 200) : AuditFailurePolicy strict requestID resp resp :=
  ⟨fun _ => rfl, fun _ => ⟨fun h200 => absurd h200 hst, fun _ => rfl⟩⟩

theorem auditFailurePolicy_success (strict : Bool) (requestID model content : String) :
    AuditFailurePolicy strict requestID
      (match (if strict then Except.error () else Except.ok () : Except Unit Unit) with
        | .error _ => writeError 500 "ERR_AUDIT_FAILURE" "audit append failed" requestID
        | .ok _ => writeSuccess requestID model content)
      (writeSuccess requestID model content) := by
  cases strict
  · exact ⟨fun _ => rfl, fun hs => (nomatch hs)⟩
  · exact ⟨fun hs => (nomatch hs), fun _ => ⟨fun _ => rfl, fun hn => absurd rfl hn⟩⟩

/-- The error that `appendAudit` returns when the writer always fails. -/
theorem appendAudit_failing (h : Handler) (w : AuditWriter) (haud : h.audit = some w)
    (hfail : ∀ e, w e = .error ()) (requestID : String) (category : Risk.Category)
    (route : Router.Route) (summary : String) :
    (h.appendAudit requestID category route summary).1
      = if h.strictAudit then .error () else .ok () := by
  rw [appendAudit_result, haud]
  simp only
  rw [hfail]

/-- With a writer that succeeds `appendAudit` returns no error. -/
theorem appendAudit_working (h : Handler) (requestID : String) (category : Risk.Category)
    (route : Router.Route) (summary : String) :
    (h.withWorkingAudit.appendAudit requestID category route summary).1 = .ok () := by
  rw [appendAudit_result]
  rfl

/-- The analysis does not depend on the audit writer, except for the audit
append of a failed risk evaluation, which the response does not depend on. -/
theorem analyze_withWorkingAudit (h : Handler) (r : Request) (requestID : String) (b : Bool) :
    (∀ a, h.analyzeChatRequest r requestID b = .ok a →
      h.withWorkingAudit.analyzeChatRequest r requestID b = .ok a) ∧
    (∀ out, h.analyzeChatRequest r requestID b = .error out →
      out.response.Status ≠ 200 ∧
      ∃ out', h.withWorkingAudit.analyzeChatRequest r requestID b = .error out' ∧
        out'.response = out.response) := by
  unfold Handler.analyzeChatRequest
  have hsan : h.withWorkingAudit.sanitizer = h.sanitizer := rfl
  have hsc : h.withWorkingAudit.scorer = h.scorer := rfl
  have hrt : h.withWorkingAudit.router = h.router := rfl
  rw [hsan, hsc, hrt]
  cases r.Body with
  | none =>
    refine ⟨fun a ha => (nomatch ha), fun out ho => ?_⟩
    simp only [Except.error.injEq] at ho
    subst ho
    exact ⟨status_ne_200 (by decide) _ _ _, _, rfl, rfl⟩
  | some req =>
    simp only
    cases validateRequest req with
    | error msg =>
      refine ⟨fun a ha => (nomatch ha), fun out ho => ?_⟩
      simp only [Except.error.injEq] at ho
      subst ho
      exact ⟨status_ne_200 (by decide) _ _ _, _, rfl, rfl⟩
    | ok u =>
      simp only
      cases h.sanitizer (joinPrompt req.Messages) with
      | error e =>
        refine ⟨fun a ha => (nomatch ha), fun out ho => ?_⟩
        simp only [Except.error.injEq] at ho
        subst ho
        exact ⟨status_ne_200 (by decide) _ _ _, _, rfl, rfl⟩
      | ok sanitized =>
        simp only
        cases h.scorer.Evaluate (sanitized.Mappings.length : Int)
            (minMappingConfidence sanitized.Mappings) with
        | error e =>
          refine ⟨fun a ha => (nomatch ha), fun out ho => ?_⟩
          simp only [Except.error.injEq] at ho
          subst ho
          exact ⟨status_ne_200 (by decide) _ _ _, _, rfl, rfl⟩
        | ok result =>
          exact ⟨fun a ha => ha, fun out ho => (nomatch ho)⟩

/-- The abstraction step does not depend on the audit writer, except for the
audit append. -/
theorem requireAbstraction_withWorkingAudit (h : Handler) (requestID : String)
    (sanitized : Sanitizer.Result) (decision : Router.Decision) (summary : String) :
    (∀ p, h.requireAbstraction requestID sanitized decision summary = .ok p →
      h.withWorkingAudit.requireAbstraction requestID sanitized decision summary = .ok p) ∧
    (∀ out, h.requireAbstraction requestID sanitized decision summary = .error out →
      out.response.Status ≠ 200 ∧
      ∃ out', h.withWorkingAudit.requireAbstraction requestID sanitized decision summary
          = .error out' ∧ out'.response = out.response) := by
  unfold Handler.requireAbstraction
  have hab : h.withWorkingAudit.abstractor = h.abstractor := rfl
  rw [hab]
  cases h.abstractor with
  | none =>
    refine ⟨fun a ha => (nomatch ha), fun out ho => ?_⟩
    simp only [Except.error.injEq] at ho
    subst ho
    exact ⟨status_ne_200 (by decide) _ _ _, _, rfl, rfl⟩
  | some abstractor =>
    simp only
    cases abstractor _ with
    | error e =>
      refine ⟨fun a ha => (nomatch ha), fun out ho => ?_⟩
      simp only [Except.error.injEq] at ho
      subst ho
      exact ⟨status_ne_200 (by decide) _ _ _, _, rfl, rfl⟩
    | ok abstraction =>
      exact ⟨fun a ha => ha, fun out ho => (nomatch ho)⟩

/-- The policy holds for the shared end of the forwarding branches. -/
theorem finishForward_policy (h : Handler) (w : AuditWriter) (haud : h.audit = some w)
    (hfail : ∀ e, w e = .error ()) (env : Env) (req : ChatCompletionRequest)
    (decision : Router.Decision) (summary : String) (effects effects' : List Effect)
    (final : Except UpstreamError ForwardResponse) :
    AuditFailurePolicy h.strictAudit env.requestID
      (h.finishForward env req decision summary effects final).response
      (h.withWorkingAudit.finishForward env req decision summary effects' final).response := by
  rw [finishForward_response, finishForward_response]
  cases final with
  | error err =>
    simp only
    by_cases ht : (err.isTimeout || env.deadlineExceeded) = true
    · rw [if_pos ht]
      exact auditFailurePolicy_same _ _ _ (status_ne_200 (by decide) _ _ _)
    · rw [if_neg ht]
      exact auditFailurePolicy_same _ _ _ (status_ne_200 (by decide) _ _ _)
  | ok resp =>
    simp only
    rw [appendAudit_failing h w haud hfail, appendAudit_working]
    exact auditFailurePolicy_success _ _ _ _

/-- The policy holds for every response of `HandleChatCompletions`. -/
theorem handle_policy (h : Handler) (env : Env) (r : Request) (w : AuditWriter)
    (haud : h.audit = some w) (hfail : ∀ e, w e = .error ()) :
    AuditFailurePolicy h.strictAudit env.requestID (h.HandleChatCompletions env r).response
      (h.withWorkingAudit.HandleChatCompletions env r).response := by
  by_cases hm : r.Method = "POST"
  swap
  · have e1 : (h.HandleChatCompletions env r).response
        = writeError 405 "ERR_METHOD_NOT_ALLOWED" "method not allowed" env.requestID := by
      unfold Handler.HandleChatCompletions
      simp only
      rw [if_pos hm]
    have e2 : (h.withWorkingAudit.HandleChatCompletions env r).response
        = writeError 405 "ERR_METHOD_NOT_ALLOWED" "method not allowed" env.requestID := by
      unfold Handler.HandleChatCompletions
      simp only
      rw [if_pos hm]
    rw [e1, e2]
    exact auditFailurePolicy_same _ _ _ (status_ne_200 (by decide) _ _ _)
  have han := analyze_withWorkingAudit h r env.requestID true
  cases ha : h.analyzeChatRequest r env.requestID true with
  | error out =>
    obtain ⟨hst, out', ha', hresp⟩ := han.2 out ha
    have e1 : h.HandleChatCompletions env r = out := by
      unfold Handler.HandleChatCompletions
      simp only
      rw [if_neg (not_not.mpr hm), ha]
    have e2 : h.withWorkingAudit.HandleChatCompletions env r = out' := by
      unfold Handler.HandleChatCompletions
      simp only
      rw [if_neg (not_not.mpr hm), ha']
    rw [e1, e2, hresp]
    exact auditFailurePolicy_same _ _ _ hst
  | ok a =>
    have ha' := han.1 a ha
    have hupw : h.withWorkingAudit.upstream = h.upstream := rfl
    by_cases h1 : a.decision.Route = Router.RouteRawForward ∨
        a.decision.Route = Router.RouteSanitizedForward
    · cases hup : h.upstream with
      | none =>
        rw [handle_forward_missing h env r a hm ha h1 hup,
          handle_forward_missing h.withWorkingAudit env r a hm ha' h1 (hupw.trans hup)]
        exact auditFailurePolicy_same _ _ _ (status_ne_200 (by decide) _ _ _)
      | some up =>
        rw [handle_forward h env r a up hm ha h1 hup,
          handle_forward h.withWorkingAudit env r a up hm ha' h1 (hupw.trans hup)]
        cases up 0 (forwardReqFor env r a) with
        | error err =>
          simp only
          by_cases hk : trimSpace r.IdempotencyKey ≠ "" ∧
              (a.decision.Category = Risk.CategoryLow ∨
                a.decision.Category = Risk.CategoryMedium)
          · rw [if_pos hk, if_pos hk]
            exact finishForward_policy h w haud hfail _ _ _ _ _ _ _
          · rw [if_neg hk, if_neg hk]
            exact finishForward_policy h w haud hfail _ _ _ _ _ _ _
        | ok resp =>
          exact finishForward_policy h w haud hfail _ _ _ _ _ _ _
    · have hra := requireAbstraction_withWorkingAudit h env.requestID a.sanitized a.decision
        (summaryFor a)
      by_cases h2 : a.decision.Route = Router.RouteHighAbstraction
      · rw [handle_high h env r a hm ha h2, handle_high h.withWorkingAudit env r a hm ha' h2]
        cases hreq : h.requireAbstraction env.requestID a.sanitized a.decision (summaryFor a) with
        | error out =>
          obtain ⟨hst, out', hreq', hresp⟩ := hra.2 out hreq
          rw [hreq']
          simp only
          rw [hresp]
          exact auditFailurePolicy_same _ _ _ hst
        | ok p =>
          rw [hra.1 p hreq]
          obtain ⟨abstraction, absEffects⟩ := p
          simp only
          rw [hupw]
          cases h.upstream with
          | none => exact auditFailurePolicy_same _ _ _ (status_ne_200 (by decide) _ _ _)
          | some up => exact finishForward_policy h w haud hfail _ _ _ _ _ _ _
      · rw [handle_critical h env r a hm ha h1 h2,
          handle_critical h.withWorkingAudit env r a hm ha' h1 h2]
        by_cases h3 : a.decision.Route = Router.RouteCriticalLocalOnly
        · rw [if_pos h3, if_pos h3]
          cases hreq : h.requireAbstraction env.requestID a.sanitized a.decision
              (summaryFor a) with
          | error out =>
            obtain ⟨hst, out', hreq', hresp⟩ := hra.2 out hreq
            rw [hreq']
            simp only
            rw [hresp]
            exact auditFailurePolicy_same _ _ _ hst
          | ok p =>
            rw [hra.1 p hreq]
            obtain ⟨abstraction, absEffects⟩ := p
            simp only
            have hf := appendAudit_failing h w haud hfail env.requestID a.decision.Category
              a.decision.Route (summaryFor a ++ " local-only-success")
            have hw := appendAudit_working h env.requestID a.decision.Category
              a.decision.Route (summaryFor a ++ " local-only-success")
            cases hres : h.appendAudit env.requestID a.decision.Category a.decision.Route
                (summaryFor a ++ " local-only-success") with
            | mk res auditEffects =>
              cases hres' : h.withWorkingAudit.appendAudit env.requestID a.decision.Category
                  a.decision.Route (summaryFor a ++ " local-only-success") with
              | mk res' auditEffects' =>
                rw [hres] at hf
                rw [hres'] at hw
                simp only at hf hw
                subst hf hw
                generalize h.strictAudit = strict
                cases strict
                · exact auditFailurePolicy_success false _ _ _
                · exact auditFailurePolicy_success true _ _ _
        · rw [if_neg h3, if_neg h3]
          exact auditFailurePolicy_same _ _ _ (status_ne_200 (by decide) _ _ _)

/-- C15 (amended). For every request to `HandleChatCompletions` of a handler
whose audit writer fails: when `strict_audit` is set, the response is 500
ERR_AUDIT_FAILURE if the response would be a success (200) had the Append
succeeded, and the same error response as had the Append succeeded otherwise;
when `strict_audit` is not set, the response (status and body) is the same as
it would be had the Append succeeded. -/
theorem C15_audit_failure_policy (h : Handler) (env : Env) (r : Request) (w : AuditWriter)
    (haud : h.audit = some w) (hfail : ∀ e, w e = .error ()) :
    (h.strictAudit = false →
      (h.HandleChatCompletions env r).response
        = (h.withWorkingAudit.HandleChatCompletions env r).response) ∧
    (h.strictAudit = true →
      ((h.withWorkingAudit.HandleChatCompletions env r).response.Status = 200 →
        (h.HandleChatCompletions env r).response
          = writeError 500 "ERR_AUDIT_FAILURE" "audit append failed" env.requestID) ∧
      ((h.withWorkingAudit.HandleChatCompletions env r).response.Status ≠ 200 →
        (h.HandleChatCompletions env r).response
          = (h.withWorkingAudit.HandleChatCompletions env r).response)) :=
  handle_policy h env r w haud hfail

end Proxy

namespace Proxy

theorem strictTest_working_status :
    ((testHandler StubUpstream none (some failingAuditWriter) true).withWorkingAudit.HandleChatCompletions
      (testEnv false) (helloRequest "")).response.Status = 200 := by
  have ha : (testHandler StubUpstream none (some failingAuditWriter)
      true).withWorkingAudit.analyzeChatRequest (helloRequest "") (testEnv false).requestID true
      = .ok helloAnalysis :=
    testHandler_hello_analysis StubUpstream none (some (fun _ => .ok ())) true true "" "req-0"
  rw [handle_forward _ _ _ helloAnalysis StubUpstream rfl ha (Or.inr rfl) rfl]
  rfl

/-- C15, witness: the handler and the request of
`TestTVREL002AuditFailureStrictModeBlocks` (strict audit, a failing audit
writer, the stub upstream): the response would be 200 with a working writer,
and is 500 ERR_AUDIT_FAILURE. -/
theorem C15_audit_failure_policy_witness :
    ((testHandler StubUpstream none (some failingAuditWriter) true).withWorkingAudit.HandleChatCompletions
      (testEnv false) (helloRequest "")).response.Status = 200 ∧
    ((testHandler StubUpstream none (some failingAuditWriter) true).HandleChatCompletions
      (testEnv false) (helloRequest "")).response
      = writeError 500 "ERR_AUDIT_FAILURE" "audit append failed" "req-0" :=
  ⟨strictTest_working_status,
    ((C15_audit_failure_policy (testHandler StubUpstream none (some failingAuditWriter) true)
      (testEnv false) (helloRequest "") failingAuditWriter rfl (fun _ => rfl)).2 rfl).1
      strictTest_working_status⟩

/-- C15, counterexample: the handler of `TestTVREL002AuditFailureStrictModeBlocks`
(strict audit, a failing audit writer) with the upstream of
`TestTVREL006LowMediumWithoutIdempotencyKeyDoesNotRetry`, which always fails:
the request reaches the provider-failure outcome, the audit writer's `Append`
is called once and fails, `strict_audit` is set, and the response is 502
ERR_PROVIDER_FAILURE, not 500 ERR_AUDIT_FAILURE. -/
theorem C15_counterexample :
    (testHandler failAlwaysUpstream none (some failingAuditWriter) true).strictAudit = true ∧
    (testHandler failAlwaysUpstream none (some failingAuditWriter) true).audit
      = some failingAuditWriter ∧
    (∀ event, failingAuditWriter event = .error ()) ∧
    auditAppends ((testHandler failAlwaysUpstream none (some failingAuditWriter)
      true).HandleChatCompletions (testEnv false) (helloRequest "")).effects = 1 ∧
    ((testHandler failAlwaysUpstream none (some failingAuditWriter) true).HandleChatCompletions
      (testEnv false) (helloRequest "")).response
      = writeError 502 "ERR_PROVIDER_FAILURE" "provider request failed" "req-0" ∧
    ((testHandler failAlwaysUpstream none (some failingAuditWriter) true).HandleChatCompletions
      (testEnv false) (helloRequest "")).response
      ≠ writeError 500 "ERR_AUDIT_FAILURE" "audit append failed" "req-0" := by
  have hh : (testHandler failAlwaysUpstream none (some failingAuditWriter)
      true).HandleChatCompletions (testEnv false) (helloRequest "")
      = { response := writeError 502 "ERR_PROVIDER_FAILURE" "provider request failed" "req-0",
          effects :=
            [.upstreamCall (forwardReqFor (testEnv false) (helloRequest "") helloAnalysis),
             .auditAppend
               { RequestID := "req-0", PolicyVersion := "v2.1",
                 ActionSummary := "route=sanitized_forward category=Low provider-failure",
                 RiskCategory := "Low", Route := "sanitized_forward" }] } := by
    rw [handle_forward _ _ _ helloAnalysis failAlwaysUpstream rfl
      (testHandler_hello_analysis _ _ _ _ _ _ _) (Or.inr rfl) rfl]
    decide
  refine ⟨rfl, rfl, fun _ => rfl, ?_, ?_, ?_⟩
  · rw [hh]; rfl
  · rw [hh]
  · rw [hh]
    decide

end Proxy

/-! ## Audit: reopening a log -/

namespace GoString

/-- A text of spaces only is trimmed to the empty text. -/
theorem TrimSpace_of_spaces (s : List Char) (h : ∀ c ∈ s, isSpace c = true) :
    TrimSpace s = [] := by
  unfold TrimSpace
  have : s.dropWhile isSpace = [] := by
    rw [List.dropWhile_eq_nil_iff]
    exact h
  rw [this]
  rfl

/-- Trimming removes the line feed that ends a text whose first and last
characters before it are no spaces. -/
theorem TrimSpace_of_ends_lf (a b : Char) (mid : List Char) (ha : isSpace a = false)
    (hb : isSpace b = false) : TrimSpace (a :: (mid ++ [b]) ++ [lf]) = a :: (mid ++ [b]) := by
  unfold TrimSpace
  have h1 : (a :: (mid ++ [b]) ++ [lf]).dropWhile isSpace = a :: (mid ++ [b]) ++ [lf] := by
    rw [List.cons_append, List.dropWhile_cons_of_neg (by simp [ha])]
  have h2 : (a :: (mid ++ [b]) ++ [lf]).reverse = lf :: b :: (mid.reverse ++ [a]) := by simp
  have hlf : isSpace lf = true := by decide
  rw [h1, h2, List.dropWhile_cons_of_pos hlf, List.dropWhile_cons_of_neg (by simp [hb])]
  simp

/-- `strings.Split` on a text without line feed gives the text. -/
theorem splitLinesAux_last (l : List Char) (h : lf ∉ l) :
    ∀ acc, splitLinesAux l acc = [acc.reverse ++ l] := by
  induction l with
  | nil => intro acc; simp [splitLinesAux]
  | cons c cs ih =>
    intro acc
    have hc : c ≠ lf := fun e => h (by simp [e])
    have hcs : lf ∉ cs := fun e => h (by simp [e])
    rw [splitLinesAux, if_neg hc, ih hcs]
    simp

/-- `strings.Split` cuts a line off at its line feed. -/
theorem splitLinesAux_line (l rest : List Char) (h : lf ∉ l) :
    ∀ acc, splitLinesAux (l ++ lf :: rest) acc
      = (acc.reverse ++ l) :: splitLinesAux rest [] := by
  induction l with
  | nil => intro acc; simp [splitLinesAux]
  | cons c cs ih =>
    intro acc
    have hc : c ≠ lf := fun e => h (by simp [e])
    have hcs : lf ∉ cs := fun e => h (by simp [e])
    have step : splitLinesAux ((c :: cs) ++ lf :: rest) acc
        = splitLinesAux (cs ++ lf :: rest) (c :: acc) := by
      simp only [List.cons_append, splitLinesAux, if_neg hc]
      rfl
    rw [step, ih hcs]
    simp

/-- `strings.Split` returns at least one piece. -/
theorem splitLinesAux_ne_nil (s : List Char) : ∀ acc, splitLinesAux s acc ≠ [] := by
  induction s with
  | nil => intro acc; simp [splitLinesAux]
  | cons c cs ih =>
    intro acc
    rw [splitLinesAux]
    split_ifs
    · exact List.cons_ne_nil _ _
    · exact ih _

end GoString

namespace Audit

theorem fileOfLines_append (xs ys : List (List Char)) :
    fileOfLines (xs ++ ys) = fileOfLines xs ++ fileOfLines ys := by
  simp [fileOfLines]

/-- The last piece that `strings.Split` cuts out of the lines of a file
followed by one more line without its line feed is that line. -/
theorem splitLines_getLast (lines : List (List Char)) (last : List Char)
    (h : ∀ l ∈ lines, GoString.lf ∉ l) (hlast : GoString.lf ∉ last) :
    (GoString.splitLines (fileOfLines lines ++ last)).getLastD [] = last := by
  unfold GoString.splitLines
  induction lines with
  | nil =>
    rw [show fileOfLines [] = [] from rfl, List.nil_append, GoString.splitLinesAux_last last hlast]
    rfl
  | cons l ls ih =>
    have hl : GoString.lf ∉ l := h l (by simp)
    have hls : ∀ l' ∈ ls, GoString.lf ∉ l' := fun l' hl' => h l' (by simp [hl'])
    have e : fileOfLines (l :: ls) ++ last = l ++ GoString.lf :: (fileOfLines ls ++ last) := by
      simp [fileOfLines]
    rw [e, GoString.splitLinesAux_line l _ hl []]
    have ih' := ih hls
    cases hs : GoString.splitLinesAux (fileOfLines ls ++ last) [] with
    | nil => exact absurd hs (GoString.splitLinesAux_ne_nil _ _)
    | cons x xs =>
      rw [hs] at ih'
      rw [← ih']
      simp [List.getLastD]

/-- On the file of the lines of a non-empty list of records, the last of which
`json.Unmarshal` reads back, `loadPrevHash` adopts the entry hash of the last
record.  No bound on the length of the lines is needed. -/
theorem loadPrevHash_of_records (lib : Lib) (rs : List Record) (r : Record)
    (hrt : lib.unmarshal (recordLine r) = some r) :
    loadPrevHash lib (some (fileOfLines ((rs ++ [r]).map recordLine))) = .ok r.EntryHash := by
  have hfile : fileOfLines ((rs ++ [r]).map recordLine)
      = (fileOfLines (rs.map recordLine) ++ recordLine r) ++ [GoString.lf] := by
    rw [List.map_append, fileOfLines_append]
    simp [fileOfLines]
  -- the file starts with an opening brace and ends with a closing brace and a line feed
  have hshape : ∃ mid, fileOfLines (rs.map recordLine) ++ recordLine r
      = Char.ofNat 123 :: (mid ++ [Char.ofNat 125]) := by
    cases rs with
    | nil => exact ⟨_, rfl⟩
    | cons x xs =>
      refine ⟨payloadFields x (Json.encodeString x.Timestamp.rfc3339) ++ hashFields x ++
        [Char.ofNat 125] ++ [GoString.lf] ++ fileOfLines (xs.map recordLine) ++
        [Char.ofNat 123] ++ (payloadFields r (Json.encodeString r.Timestamp.rfc3339) ++
          hashFields r), ?_⟩
      simp [fileOfLines, recordLine, Json.object]
  obtain ⟨mid, hmid⟩ := hshape
  have htrim : GoString.TrimSpace (fileOfLines ((rs ++ [r]).map recordLine))
      = fileOfLines (rs.map recordLine) ++ recordLine r := by
    rw [hfile, hmid]
    exact GoString.TrimSpace_of_ends_lf _ _ _ (by decide) (by decide)
  unfold loadPrevHash
  simp only
  rw [htrim]
  have hne : fileOfLines (rs.map recordLine) ++ recordLine r ≠ [] := by
    rw [hmid]
    exact List.cons_ne_nil _ _
  rw [if_neg hne, splitLines_getLast _ _ (fun l hl => by
    obtain ⟨x, _, rfl⟩ := List.mem_map.mp hl
    exact lf_not_mem_recordLine x) (lf_not_mem_recordLine r), hrt]

/-- On a file that is absent, empty, or holds only white space, `NewChainWriter`
starts with the empty hash. -/
theorem NewChainWriter_blank (lib : Lib) (file : File)
    (h : file = none ∨ ∃ s, file = some s ∧ ∀ c ∈ s, GoString.isSpace c = true) :
    NewChainWriter lib file = .ok { prevHash := "" } := by
  rcases h with rfl | ⟨s, rfl, hs⟩
  · rfl
  · unfold NewChainWriter loadPrevHash
    simp only
    rw [GoString.TrimSpace_of_spaces s hs, if_pos rfl]

/-- A chain followed by a chain that starts at its last hash is a chain. -/
theorem Chained.append (lib : Lib) :
    ∀ (rs rs' : List Record) (prev : String), Chained lib prev rs →
      Chained lib (lastHash prev rs) rs' → Chained lib prev (rs ++ rs') := by
  intro rs
  induction rs with
  | nil => intro rs' prev _ h; exact h
  | cons a rs ih =>
    intro rs' prev hc h
    obtain ⟨hp, hh, hrest⟩ := hc
    exact ⟨hp, hh, ih rs' _ hrest h⟩

theorem lastHash_append_singleton (prev : String) (rs : List Record) (r : Record) :
    lastHash prev (rs ++ [r]) = r.EntryHash := by
  induction rs generalizing prev with
  | nil => rfl
  | cons a rs ih => exact ih _

end Audit

namespace Audit

/-- The loop of `VerifyChain` passes over the lines of a chain and goes on
with what follows them. -/
theorem verifyLoop_chained_append (lib : Lib) (tail : List (List Char)) :
    ∀ (rs : List Record) (prev : String) (n : Nat), Chained lib prev rs → RoundTrip lib rs →
      ShortLines rs →
      verifyLoop lib (rs.map recordLine ++ tail) prev n
        = verifyLoop lib tail (lastHash prev rs) (n + rs.length) := by
  intro rs
  induction rs with
  | nil => intro prev n _ _ _; rfl
  | cons r rs ih =>
    intro prev n hc hrt hs
    obtain ⟨hp, hh, hrest⟩ := hc
    rw [List.map_cons, List.cons_append,
      verifyLoop_good lib r _ prev n (hs r (by simp)) (hrt r (by simp)) hp hh,
      ih _ _ hrest (fun x hx => hrt x (by simp [hx])) (fun x hx => hs x (by simp [hx]))]
    simp only [lastHash, List.length_cons]
    congr 1
    omega

/-- The file that a run of successful calls on a fresh writer leaves holds the
lines of the returned records. -/
theorem runAppends_file (lib : Lib) (calls : List Call) (hok : AllSucceed calls)
    (hne : calls ≠ []) :
    (runAppends lib { prevHash := "" } none calls).2.2
      = some (fileOfLines
          ((okRecords (runAppends lib { prevHash := "" } none calls).1).map recordLine)) ∧
    okRecords (runAppends lib { prevHash := "" } none calls).1 ≠ [] := by
  obtain ⟨_, htime, hfile⟩ := runAppends_allSucceed lib calls hok { prevHash := "" } none
  have hrs : okRecords (runAppends lib { prevHash := "" } none calls).1 ≠ [] := by
    intro h
    rw [h] at htime
    simp only [List.map_nil] at htime
    exact hne (List.map_eq_nil_iff.mp htime.symm)
  refine ⟨?_, hrs⟩
  simp only [Option.getD_none, List.nil_append] at hfile
  cases hf : (runAppends lib { prevHash := "" } none calls).2.2 with
  | none =>
    rw [hf] at hfile
    simp only [Option.getD_none] at hfile
    obtain ⟨r, rest, hr⟩ := List.exists_cons_of_ne_nil hrs
    rw [hr] at hfile
    simp [fileOfLines] at hfile
  | some contents =>
    rw [hf] at hfile
    simp only [Option.getD_some] at hfile
    rw [hfile]

/-- A writer opened on the log that k >= 1 successful `Append` calls wrote
starts with the entry hash of the last record: `NewChainWriter` reads the last
line with `os.ReadFile`, whatever its length. -/
theorem reopen_adopts_last_hash (lib : Lib) (calls : List Call) (hok : AllSucceed calls)
    (hne : calls ≠ [])
    (hrt : RoundTrip lib (okRecords (runAppends lib { prevHash := "" } none calls).1)) :
    ∃ r, (okRecords (runAppends lib { prevHash := "" } none calls).1).getLast? = some r ∧
      NewChainWriter lib (runAppends lib { prevHash := "" } none calls).2.2
        = .ok { prevHash := r.EntryHash } ∧
      r.EntryHash = lastHash "" (okRecords (runAppends lib { prevHash := "" } none calls).1) := by
  obtain ⟨hfile, hrs⟩ := runAppends_file lib calls hok hne
  rw [hfile]
  generalize okRecords (runAppends lib { prevHash := "" } none calls).1 = rs at hrs hrt ⊢
  obtain ⟨init, r, rfl⟩ : ∃ init r, rs = init ++ [r] :=
    ⟨rs.dropLast, rs.getLast hrs, (List.dropLast_append_getLast hrs).symm⟩
  refine ⟨r, by simp, ?_, (lastHash_append_singleton "" init r).symm⟩
  unfold NewChainWriter
  rw [loadPrevHash_of_records lib init r (hrt r (by simp))]

/-- The records that a reopened writer appends link to the existing chain, and
`VerifyChain` accepts the whole file when `json.Unmarshal` reads back every
record and every line fits the scanner's buffer. -/
theorem reopen_append_verifies (lib : Lib) (calls calls' : List Call) (hok : AllSucceed calls)
    (hne : calls ≠ [])
    (hrt : RoundTrip lib (okRecords (runAppends lib { prevHash := "" } none calls).1)) :
    ∃ cw, NewChainWriter lib (runAppends lib { prevHash := "" } none calls).2.2 = .ok cw ∧
      Chained lib ""
        (okRecords (runAppends lib { prevHash := "" } none calls).1 ++
          okRecords (runAppends lib cw (runAppends lib { prevHash := "" } none calls).2.2
            calls').1) ∧
      (AllSucceed calls' →
        RoundTrip lib (okRecords (runAppends lib cw
          (runAppends lib { prevHash := "" } none calls).2.2 calls').1) →
        ShortLines (okRecords (runAppends lib { prevHash := "" } none calls).1 ++
          okRecords (runAppends lib cw (runAppends lib { prevHash := "" } none calls).2.2
            calls').1) →
        VerifyChain lib (runAppends lib cw (runAppends lib { prevHash := "" } none calls).2.2
          calls').2.2 = .ok ()) := by
  obtain ⟨r, _, hnew, hlast⟩ := reopen_adopts_last_hash lib calls hok hne hrt
  refine ⟨{ prevHash := r.EntryHash }, hnew, ?_, ?_⟩
  · apply Chained.append
    · exact (runAppends_chained lib calls { prevHash := "" } none).1
    · rw [← hlast]
      exact (runAppends_chained lib calls' { prevHash := r.EntryHash } _).1
  · intro hok' hrt' hshort
    have hchain : Chained lib ""
        (okRecords (runAppends lib { prevHash := "" } none calls).1 ++
          okRecords (runAppends lib { prevHash := r.EntryHash }
            (runAppends lib { prevHash := "" } none calls).2.2 calls').1) := by
      apply Chained.append
      · exact (runAppends_chained lib calls { prevHash := "" } none).1
      · rw [← hlast]
        exact (runAppends_chained lib calls' { prevHash := r.EntryHash } _).1
    have hfile' := (runAppends_allSucceed lib calls' hok' { prevHash := r.EntryHash }
      (runAppends lib { prevHash := "" } none calls).2.2).2.2
    rw [(runAppends_file lib calls hok hne).1] at hfile' ⊢
    simp only [Option.getD_some] at hfile'
    rw [VerifyChain_eq, hfile', ← fileOfLines_append, ← List.map_append, scanLines_fileOfLines]
    · rw [(runAppends_file lib calls hok hne).1] at hchain hshort hrt'
      refine verifyLoop_chained lib _ "" 0 hchain ?_ hshort
      intro x hx
      rcases List.mem_append.mp hx with hx | hx
      · exact hrt x hx
      · exact hrt' x hx
    · intro l hl
      obtain ⟨x, _, rfl⟩ := List.mem_map.mp hl
      exact lf_not_mem_recordLine x

end Audit

namespace Audit

theorem testCalls_allSucceed : AllSucceed testCalls := by
  unfold AllSucceed; decide

theorem testCalls_ne_nil : testCalls ≠ [] := by
  unfold testCalls
  exact List.cons_ne_nil _ _

set_option maxRecDepth 100000 in
theorem testRecords_run :
    okRecords (runAppends (tableLib textDigest testRecords) { prevHash := "" } none testCalls).1
      = testRecords := by
  decide

set_option maxRecDepth 100000 in
theorem testRecords_roundTrip : RoundTrip (tableLib textDigest testRecords) testRecords := by
  unfold RoundTrip; decide

set_option maxRecDepth 100000 in
theorem testRecords_shortLines : ShortLines testRecords := by
  unfold ShortLines; decide

set_option maxRecDepth 100000 in
theorem testRecords_last : testRecords.getLast? = some testRecord2 := by
  decide

set_option maxRecDepth 100000 in
/-- C11, failing input. The log of the two calls of the package's tests is
reopened with `NewChainWriter`, which adopts the entry hash of the second
record; one `Append` of an event whose action summary has 65536 bytes succeeds
on the reopened writer and returns a record that links to the second record;
on the whole file, which nobody changed, `VerifyChain` returns the scanner's
error `bufio.ErrTooLong`. -/
theorem C11_reopened_long_line_rejected :
    ∃ cw r,
      NewChainWriter (tableLib textDigest testRecords)
        (runAppends (tableLib textDigest testRecords) { prevHash := "" } none testCalls).2.2
        = .ok cw ∧
      cw.prevHash = testRecord2.EntryHash ∧
      (cw.Append (tableLib textDigest testRecords)
        (runAppends (tableLib textDigest testRecords) { prevHash := "" } none testCalls).2.2
        longCall.now longCall.io longCall.event).result = .ok r ∧
      r.PrevHash = testRecord2.EntryHash ∧
      VerifyChain (tableLib textDigest testRecords)
        (cw.Append (tableLib textDigest testRecords)
          (runAppends (tableLib textDigest testRecords) { prevHash := "" } none testCalls).2.2
          longCall.now longCall.io longCall.event).file
        = .error .tokenTooLong := by
  have hrt : RoundTrip (tableLib textDigest testRecords)
      (okRecords (runAppends (tableLib textDigest testRecords) { prevHash := "" } none
        testCalls).1) := by
    rw [testRecords_run]
    exact testRecords_roundTrip
  obtain ⟨r2, hlast, hnew, _⟩ := reopen_adopts_last_hash (tableLib textDigest testRecords)
    testCalls testCalls_allSucceed testCalls_ne_nil hrt
  rw [testRecords_run, testRecords_last] at hlast
  cases hlast
  have hfile := (runAppends_file (tableLib textDigest testRecords) testCalls
    testCalls_allSucceed testCalls_ne_nil).1
  rw [testRecords_run] at hfile
  obtain ⟨r, hr, _, hf, _, _, _, hsum, _, _, hprev⟩ :=
    append_succeeds (tableLib textDigest testRecords) { prevHash := testRecord2.EntryHash }
      (runAppends (tableLib textDigest testRecords) { prevHash := "" } none testCalls).2.2
      longCall.now longCall.event rfl
  refine ⟨{ prevHash := testRecord2.EntryHash }, r, hnew, rfl, hr, hprev, ?_⟩
  have hio : longCall.io = .ok := rfl
  rw [hio, hf, hfile, VerifyChain_eq]
  have hwhole : ((some ((some (fileOfLines (testRecords.map recordLine)) : File).getD [] ++
      (recordLine r ++ [GoString.lf])) : File).getD [])
      = fileOfLines (testRecords.map recordLine ++ [recordLine r]) := by
    rw [fileOfLines_append]
    simp [fileOfLines]
  have hchain : Chained (tableLib textDigest testRecords) "" testRecords := by
    have := (runAppends_chained (tableLib textDigest testRecords) testCalls { prevHash := "" }
      none).1
    rw [testRecords_run] at this
    exact this
  rw [hwhole, scanLines_fileOfLines, verifyLoop_chained_append _ _ _ _ _ hchain
    testRecords_roundTrip testRecords_shortLines]
  · apply verifyLoop_long
    have hdata : longCall.event.ActionSummary.data = List.replicate 65536 'a' := rfl
    rw [hsum, hdata, List.length_replicate]
  · intro l hl
    rcases List.mem_append.mp hl with hl | hl
    · obtain ⟨x, _, rfl⟩ := List.mem_map.mp hl
      exact lf_not_mem_recordLine x
    · rw [List.mem_singleton.mp hl]
      exact lf_not_mem_recordLine r

end Audit

/-! ## Sanitizer: matches kept, surrogates and the sanitized text -/

namespace Regexp

theorem starLoop_advances (input : List Char) (step : Nat → (Nat → Option Nat) → Option Nat)
    (hstep : Advances input 0 step) (fuel : Nat) :
    Advances input 0 (starLoop step fuel) := by
  induction fuel with
  | zero =>
    intro i k e h
    exact ⟨i, by omega, fun hi => hi, h⟩
  | succ fuel ih =>
    intro i k e h
    rw [starLoop] at h
    cases hs : step i (fun j => if i < j then starLoop step fuel j k else none) with
    | none =>
      rw [hs] at h
      exact ⟨i, by omega, fun hi => hi, h⟩
    | some e' =>
      rw [hs] at h
      simp only [Option.some.injEq] at h
      subst h
      obtain ⟨j, hij, hlen, hk⟩ := hstep _ _ _ hs
      split_ifs at hk with hlt
      obtain ⟨j', hjj, hlen', hk'⟩ := ih _ _ _ hk
      exact ⟨j', by omega, fun hi => hlen' (hlen hi), hk'⟩

/-- A match of an expression from position `i` ends at least `minLen`
characters further, and within the text. -/
theorem matchAt_advances (input : List Char) (re : Regex) :
    Advances input re.minLen (matchAt input re) := by
  induction re with
  | empty =>
    intro i k e h
    exact ⟨i, by simp [Regex.minLen], fun hi => hi, h⟩
  | cls p =>
    intro i k e h
    rw [matchAt] at h
    cases hc : input[i]? with
    | none => rw [hc] at h; cases h
    | some c =>
      rw [hc] at h
      simp only at h
      split_ifs at h
      have hi : i < input.length := by
        by_contra hn
        rw [List.getElem?_eq_none (by omega)] at hc
        cases hc
      exact ⟨i + 1, by simp [Regex.minLen], fun _ => hi, h⟩
  | seq a b iha ihb =>
    intro i k e h
    rw [matchAt] at h
    obtain ⟨j, hij, hlen, hk⟩ := iha _ _ _ h
    obtain ⟨j', hjj, hlen', hk'⟩ := ihb _ _ _ hk
    exact ⟨j', by simp only [Regex.minLen]; omega, fun hi => hlen' (hlen hi), hk'⟩
  | alt a b iha ihb =>
    intro i k e h
    rw [matchAt] at h
    cases ha : matchAt input a i k with
    | some e' =>
      rw [ha] at h
      simp only [Option.some.injEq] at h
      subst h
      obtain ⟨j, hij, hlen, hk⟩ := iha _ _ _ ha
      exact ⟨j, by simp only [Regex.minLen]; omega, hlen, hk⟩
    | none =>
      rw [ha] at h
      obtain ⟨j, hij, hlen, hk⟩ := ihb _ _ _ h
      exact ⟨j, by simp only [Regex.minLen]; omega, hlen, hk⟩
  | star a iha =>
    intro i k e h
    rw [matchAt] at h
    have hstep : Advances input 0 (matchAt input a) := by
      intro i k e h
      obtain ⟨j, hij, hlen, hk⟩ := iha _ _ _ h
      exact ⟨j, by omega, hlen, hk⟩
    obtain ⟨j, hij, hlen, hk⟩ := starLoop_advances input _ hstep _ _ _ _ h
    exact ⟨j, by simp only [Regex.minLen]; omega, hlen, hk⟩
  | wordBoundary =>
    intro i k e h
    rw [matchAt] at h
    split_ifs at h
    exact ⟨i, by simp [Regex.minLen], fun hi => hi, h⟩

/-- The leftmost match from a position within the text starts at that
position or later, has at least the least length, and lies within the text. -/
theorem findFrom_bounds (re : Regex) (input : List Char) :
    ∀ (fuel pos s e : Nat), pos ≤ input.length → findFrom re input fuel pos = some (s, e) →
      pos ≤ s ∧ s + re.minLen ≤ e ∧ e ≤ input.length := by
  intro fuel
  induction fuel with
  | zero => intro pos s e _ h; cases h
  | succ fuel ih =>
    intro pos s e hpos h
    rw [findFrom] at h
    cases hm : matchAt input re pos (fun e => some e) with
    | some e' =>
      rw [hm] at h
      simp only [Option.some.injEq, Prod.mk.injEq] at h
      obtain ⟨rfl, rfl⟩ := h
      obtain ⟨j, hij, hlen, hk⟩ := matchAt_advances input re _ _ _ hm
      simp only [Option.some.injEq] at hk
      subst hk
      exact ⟨le_refl _, hij, hlen hpos⟩
    | none =>
      rw [hm] at h
      simp only at h
      split_ifs at h with hlt
      obtain ⟨h1, h2, h3⟩ := ih (pos + 1) s e (by omega) h
      exact ⟨by omega, h2, h3⟩

/-- Every match that the loop of `allMatches` returns lies within the text and
has at least the least length of the expression. -/
theorem allMatchesLoop_bounds (re : Regex) (input : List Char) :
    ∀ (fuel pos : Nat) (prev : Option Nat),
      ∀ p ∈ allMatchesLoop re input fuel pos prev,
        p.1 + re.minLen ≤ p.2 ∧ p.2 ≤ input.length := by
  intro fuel
  induction fuel with
  | zero => intro pos prev p hp; simp [allMatchesLoop] at hp
  | succ fuel ih =>
    intro pos prev p hp
    rw [allMatchesLoop] at hp
    split_ifs at hp with hlen
    · simp at hp
    · cases hf : findFrom re input (input.length + 1 - pos) pos with
      | none => rw [hf] at hp; simp at hp
      | some se =>
        obtain ⟨s, e⟩ := se
        rw [hf] at hp
        simp only at hp
        have hb := findFrom_bounds re input _ pos s e (by omega) hf
        split_ifs at hp
        all_goals first
          | exact ih _ _ p hp
          | (rcases List.mem_cons.mp hp with rfl | hp
             · exact ⟨hb.2.1, hb.2.2⟩
             · exact ih _ _ p hp)

/-- Every match of `FindAllStringIndex` lies within the text and has at least
the least length of the expression. -/
theorem FindAllStringIndex_bounds (re : Regex) (input : List Char) :
    ∀ p ∈ FindAllStringIndex re input, p.1 + re.minLen ≤ p.2 ∧ p.2 ≤ input.length :=
  allMatchesLoop_bounds re input _ _ _

end Regexp

namespace Sanitizer

theorem insertStable_perm {α : Type} (less : α → α → Bool) (x : α) :
    ∀ xs : List α, (insertStable less x xs).Perm (x :: xs) := by
  intro xs
  induction xs with
  | nil => exact List.Perm.refl _
  | cons y ys ih =>
    rw [insertStable]
    split_ifs
    · exact (List.Perm.cons y ih).trans (List.Perm.swap x y ys)
    · exact List.Perm.refl _

/-- The stable sort permutes the list. -/
theorem sortStable_perm {α : Type} (less : α → α → Bool) :
    ∀ xs : List α, (sortStable less xs).Perm xs := by
  intro xs
  induction xs with
  | nil => exact List.Perm.refl _
  | cons x xs ih =>
    rw [sortStable]
    exact (insertStable_perm less x _).trans (List.Perm.cons x ih)

theorem insertStable_sorted {α : Type} (less : α → α → Bool)
    (hasym : ∀ a b, less a b = true → less b a = false)
    (htrans : ∀ a b c, less a b = false → less b c = false → less a c = false) (x : α) :
    ∀ xs : List α, xs.Pairwise (fun a b => less b a = false) →
      (insertStable less x xs).Pairwise (fun a b => less b a = false) := by
  intro xs
  induction xs with
  | nil => intro _; simp [insertStable]
  | cons y ys ih =>
    intro h
    rw [insertStable]
    obtain ⟨hy, hys⟩ := List.pairwise_cons.mp h
    split_ifs with hlt
    · refine List.pairwise_cons.mpr ⟨?_, ih hys⟩
      intro z hz
      rcases List.mem_cons.mp ((insertStable_perm less x ys).subset hz) with rfl | hz
      · exact hasym _ _ hlt
      · exact hy z hz
    · have hyx : less y x = false := by simpa using hlt
      refine List.pairwise_cons.mpr ⟨?_, h⟩
      intro z hz
      rcases List.mem_cons.mp hz with rfl | hz
      · exact hyx
      · exact htrans _ _ _ (hy z hz) hyx

/-- The stable sort by a comparison that is asymmetric and whose negation is
transitive puts no element before one that is less than it. -/
theorem sortStable_sorted {α : Type} (less : α → α → Bool)
    (hasym : ∀ a b, less a b = true → less b a = false)
    (htrans : ∀ a b c, less a b = false → less b c = false → less a c = false) :
    ∀ xs : List α, (sortStable less xs).Pairwise (fun a b => less b a = false) := by
  intro xs
  induction xs with
  | nil => simp [sortStable]
  | cons x xs ih =>
    rw [sortStable]
    exact insertStable_sorted less hasym htrans x _ ih

theorem lessLongest_asymm (a b : Match) (h : lessLongest a b = true) :
    lessLongest b a = false := by
  unfold lessLongest at h ⊢
  simp only at h ⊢
  split_ifs at h ⊢ <;>
    simp only [decide_eq_true_eq, decide_eq_false_iff_not] at h ⊢ <;> omega

theorem lessLongest_trans (a b c : Match) (h1 : lessLongest a b = false)
    (h2 : lessLongest b c = false) : lessLongest a c = false := by
  unfold lessLongest at h1 h2 ⊢
  simp only at h1 h2 ⊢
  split_ifs at h1 h2 ⊢ <;>
    simp only [decide_eq_true_eq, decide_eq_false_iff_not] at h1 h2 ⊢ <;> omega

/-- In the order of the first sort no match stands before one that is longer,
or as long and earlier. -/
theorem lessLongest_false_iff (a b : Match) :
    lessLongest b a = false ↔
      b.end - b.start < a.end - a.start ∨
      (a.end - a.start = b.end - b.start ∧ a.start ≤ b.start) := by
  unfold lessLongest
  simp only
  split_ifs with h <;> simp only [decide_eq_false_iff_not] <;> omega

theorem lessStart_asymm (a b : Match) (h : lessStart a b = true) : lessStart b a = false := by
  unfold lessStart at h ⊢
  simp only [decide_eq_true_eq, decide_eq_false_iff_not] at h ⊢
  omega

theorem lessStart_trans (a b c : Match) (h1 : lessStart a b = false)
    (h2 : lessStart b c = false) : lessStart a c = false := by
  unfold lessStart at h1 h2 ⊢
  simp only [decide_eq_false_iff_not] at h1 h2 ⊢
  omega

end Sanitizer

namespace Sanitizer

/-- The overlap test finds exactly an occupied position of the match. -/
theorem overlaps_iff (occupied : List Bool) (start stop : Nat) :
    overlaps occupied start stop = true ↔
      ∃ i, start ≤ i ∧ i < stop ∧ occupied.getD i false = true := by
  unfold overlaps
  rw [List.any_eq_true]
  constructor
  · rintro ⟨i, hi, ho⟩
    rw [List.mem_range'_1] at hi
    exact ⟨i, hi.1, by omega, ho⟩
  · rintro ⟨i, h1, h2, ho⟩
    exact ⟨i, by rw [List.mem_range'_1]; omega, ho⟩

theorem getD_set_true (occupied : List Bool) (j i : Nat) :
    (occupied.set j true).getD i false = true ↔
      (i = j ∧ i < occupied.length) ∨ occupied.getD i false = true := by
  rw [List.getD_eq_getElem?_getD, List.getD_eq_getElem?_getD, List.getElem?_set]
  by_cases hji : j = i
  · subst hji
    by_cases hlt : j < occupied.length
    · simp [hlt]
    · have hnone : occupied[j]? = none := List.getElem?_eq_none (by omega)
      simp [hlt, hnone]
  · have hij : ¬ i = j := fun e => hji e.symm
    simp [hji, hij]

theorem foldl_set_getD (l : List Nat) :
    ∀ (occupied : List Bool) (i : Nat),
      ((l.foldl (fun occ j => occ.set j true) occupied).getD i false = true ↔
        (i ∈ l ∧ i < occupied.length) ∨ occupied.getD i false = true) ∧
      (l.foldl (fun occ j => occ.set j true) occupied).length = occupied.length := by
  induction l with
  | nil => intro occupied i; simp
  | cons j l ih =>
    intro occupied i
    rw [List.foldl_cons]
    obtain ⟨h1, h2⟩ := ih (occupied.set j true) i
    rw [h1, h2, getD_set_true, List.length_set]
    refine ⟨?_, rfl⟩
    constructor
    · rintro (⟨hl, hlt⟩ | ⟨hij, hlt⟩ | h)
      · exact Or.inl ⟨List.mem_cons_of_mem _ hl, hlt⟩
      · exact Or.inl ⟨by rw [hij]; exact List.mem_cons_self _ _, hlt⟩
      · exact Or.inr h
    · rintro (⟨hl, hlt⟩ | h)
      · rcases List.mem_cons.mp hl with hij | hl
        · exact Or.inr (Or.inl ⟨hij, hlt⟩)
        · exact Or.inl ⟨hl, hlt⟩
      · exact Or.inr (Or.inr h)

/-- After a match is marked, the occupied positions are those of the match
that lie within the text, and those that were occupied before. -/
theorem occupy_getD (occupied : List Bool) (start stop i : Nat) :
    (occupy occupied start stop).getD i false = true ↔
      (start ≤ i ∧ i < stop ∧ i < occupied.length) ∨ occupied.getD i false = true := by
  unfold occupy
  rw [(foldl_set_getD _ occupied i).1, List.mem_range'_1]
  constructor
  · rintro (⟨⟨h1, h2⟩, h3⟩ | h)
    · exact Or.inl ⟨h1, by omega, h3⟩
    · exact Or.inr h
  · rintro (⟨h1, h2, h3⟩ | h)
    · exact Or.inl ⟨⟨h1, by omega⟩, h3⟩
    · exact Or.inr h

theorem occupy_length (occupied : List Bool) (start stop : Nat) :
    (occupy occupied start stop).length = occupied.length :=
  (foldl_set_getD _ occupied 0).2

/-- The loop that accepts the matches: the matches accepted are pairwise
without overlap, they are accepted in the order of the list, behind those
accepted before, and every match of the list is accepted or overlaps a match
that was accepted before its turn. -/
theorem acceptLoop_spec :
    ∀ (ms : List Match) (occupied : List Bool) (accepted : List Match),
      (∀ m ∈ ms, m.end ≤ occupied.length) →
      (∀ i, occupied.getD i false = true ↔ ∃ k ∈ accepted, k.start ≤ i ∧ i < k.end) →
      accepted.Pairwise (fun a b => ¬ a.Overlaps b) →
      (acceptLoop ms occupied accepted).Pairwise (fun a b => ¬ a.Overlaps b) ∧
      (∃ rest, acceptLoop ms occupied accepted = accepted ++ rest ∧ rest.Sublist ms) ∧
      (∀ pre m post, ms = pre ++ m :: post →
        m ∈ acceptLoop ms occupied accepted ∨
        ∃ k, (k ∈ accepted ∨ k ∈ pre) ∧ k ∈ acceptLoop ms occupied accepted ∧
          k.Overlaps m) := by
  intro ms
  induction ms with
  | nil =>
    intro occupied accepted _ _ hpw
    refine ⟨hpw, ⟨[], by simp [acceptLoop], List.Sublist.refl _⟩, ?_⟩
    intro pre m post h
    simp at h
  | cons m ms ih =>
    intro occupied accepted hlen hocc hpw
    rw [acceptLoop]
    have hlen' : ∀ x ∈ ms, x.end ≤ occupied.length := fun x hx => hlen x (by simp [hx])
    by_cases hov : overlaps occupied m.start m.end = true
    · rw [if_pos hov]
      obtain ⟨h1, ⟨rest, hrest, hsub⟩, h3⟩ := ih occupied accepted hlen' hocc hpw
      refine ⟨h1, ⟨rest, hrest, hsub.cons m⟩, ?_⟩
      intro pre x post hx
      cases pre with
      | nil =>
        simp only [List.nil_append, List.cons.injEq] at hx
        obtain ⟨rfl, -⟩ := hx
        obtain ⟨i, hi1, hi2, hio⟩ := (overlaps_iff _ _ _).mp hov
        obtain ⟨k, hk, hk1, hk2⟩ := (hocc i).mp hio
        refine Or.inr ⟨k, Or.inl hk, ?_, ⟨i, hk1, hk2, hi1, hi2⟩⟩
        rw [hrest]
        exact List.mem_append_left _ hk
      | cons p pre =>
        simp only [List.cons_append, List.cons.injEq] at hx
        obtain ⟨rfl, hx⟩ := hx
        rcases h3 pre x post hx with h | ⟨k, hk, hk', hko⟩
        · exact Or.inl h
        · refine Or.inr ⟨k, ?_, hk', hko⟩
          rcases hk with hk | hk
          · exact Or.inl hk
          · exact Or.inr (List.mem_cons_of_mem _ hk)
    · rw [if_neg hov]
      have hm : m.end ≤ occupied.length := hlen m (by simp)
      have hocc' : ∀ i, (occupy occupied m.start m.end).getD i false = true ↔
          ∃ k ∈ accepted ++ [m], k.start ≤ i ∧ i < k.end := by
        intro i
        rw [occupy_getD]
        constructor
        · rintro (⟨h1, h2, _⟩ | h)
          · exact ⟨m, by simp, h1, h2⟩
          · obtain ⟨k, hk, hk1, hk2⟩ := (hocc i).mp h
            exact ⟨k, List.mem_append_left _ hk, hk1, hk2⟩
        · rintro ⟨k, hk, hk1, hk2⟩
          rcases List.mem_append.mp hk with hk | hk
          · exact Or.inr ((hocc i).mpr ⟨k, hk, hk1, hk2⟩)
          · rw [List.mem_singleton.mp hk] at hk1 hk2
            exact Or.inl ⟨hk1, hk2, by omega⟩
      have hpw' : (accepted ++ [m]).Pairwise (fun a b => ¬ a.Overlaps b) := by
        rw [List.pairwise_append]
        refine ⟨hpw, List.pairwise_singleton _ _, ?_⟩
        intro a ha b hb
        rw [List.mem_singleton.mp hb]
        rintro ⟨i, ha1, ha2, hm1, hm2⟩
        exact hov ((overlaps_iff _ _ _).mpr ⟨i, hm1, hm2, (hocc i).mpr ⟨a, ha, ha1, ha2⟩⟩)
      obtain ⟨h1, ⟨rest, hrest, hsub⟩, h3⟩ := ih (occupy occupied m.start m.end)
        (accepted ++ [m]) (by rw [occupy_length]; exact hlen') hocc' hpw'
      refine ⟨h1, ⟨m :: rest, by rw [hrest]; simp, hsub.cons₂ m⟩, ?_⟩
      intro pre x post hx
      cases pre with
      | nil =>
        simp only [List.nil_append, List.cons.injEq] at hx
        obtain ⟨rfl, -⟩ := hx
        left
        rw [hrest]
        simp
      | cons p pre =>
        simp only [List.cons_append, List.cons.injEq] at hx
        obtain ⟨rfl, hx⟩ := hx
        rcases h3 pre x post hx with h | ⟨k, hk, hk', hko⟩
        · exact Or.inl h
        · refine Or.inr ⟨k, ?_, hk', hko⟩
          rcases hk with hk | hk
          · rcases List.mem_append.mp hk with hk | hk
            · exact Or.inl hk
            · rw [List.mem_singleton.mp hk]
              exact Or.inr (List.mem_cons_self _ _)
          · exact Or.inr (List.mem_cons_of_mem _ hk)

end Sanitizer

namespace Sanitizer

/-- Every match collected lies within the text, has at least the least length
of the pattern of its rule, and carries the text of its span. -/
theorem collectMatches_bounds (rules : List Rule) (input : List Char) :
    ∀ m ∈ collectMatches rules input,
      m.rule ∈ rules ∧ m.start + m.rule.Regex.minLen ≤ m.end ∧ m.end ≤ input.length ∧
      m.value = String.mk (slice input m.start m.end) := by
  intro m hm
  unfold collectMatches at hm
  rw [List.mem_flatMap] at hm
  obtain ⟨rule, hrule, hm⟩ := hm
  rw [List.mem_map] at hm
  obtain ⟨idx, hidx, rfl⟩ := hm
  have hb := Regexp.FindAllStringIndex_bounds rule.Regex input idx hidx
  exact ⟨hrule, hb.1, hb.2, rfl⟩

theorem overlaps_symm (a b : Match) (h : ¬ a.Overlaps b) : ¬ b.Overlaps a := by
  rintro ⟨i, h1, h2, h3, h4⟩
  exact h ⟨i, h3, h4, h1, h2⟩

/-- The matches kept: they are matches collected; they stand by start offset;
no two of them overlap; and every match collected is kept or overlaps a match
kept that is longer, or as long and not later. -/
theorem kept_spec (s : Sanitizer) (input : String) :
    (∀ m ∈ s.kept input, m ∈ collectMatches s.rules input.data) ∧
    (s.kept input).Pairwise (fun a b => a.start ≤ b.start) ∧
    (s.kept input).Pairwise (fun a b => ¬ a.Overlaps b) ∧
    (∀ m ∈ collectMatches s.rules input.data,
      m ∈ s.kept input ∨
      ∃ k ∈ s.kept input, k.Overlaps m ∧
        (m.length < k.length ∨ (k.length = m.length ∧ k.start ≤ m.start))) := by
  have hsorted := sortStable_sorted lessLongest lessLongest_asymm lessLongest_trans
    (collectMatches s.rules input.data)
  have hperm := sortStable_perm lessLongest (collectMatches s.rules input.data)
  have hbounds : ∀ m ∈ sortStable lessLongest (collectMatches s.rules input.data),
      m.end ≤ (List.replicate input.data.length false).length := by
    intro m hm
    rw [List.length_replicate]
    exact (collectMatches_bounds s.rules input.data m (hperm.subset hm)).2.2.1
  obtain ⟨hpw, ⟨rest, hrest, hsub⟩, hdisc⟩ := acceptLoop_spec
    (sortStable lessLongest (collectMatches s.rules input.data))
    (List.replicate input.data.length false) [] hbounds
    (by
      intro i
      constructor
      · intro h
        rw [List.getD_eq_getElem?_getD] at h
        by_cases hi : i < (List.replicate input.data.length false).length
        · rw [List.getElem?_eq_getElem hi] at h
          simp at h
        · rw [List.getElem?_eq_none (by omega)] at h
          simp at h
      · rintro ⟨k, hk, _⟩
        simp at hk)
    List.Pairwise.nil
  have hperm2 := sortStable_perm lessStart
    (acceptLoop (sortStable lessLongest (collectMatches s.rules input.data))
      (List.replicate input.data.length false) [])
  have hmem : ∀ m, m ∈ s.kept input ↔
      m ∈ acceptLoop (sortStable lessLongest (collectMatches s.rules input.data))
        (List.replicate input.data.length false) [] := fun m => hperm2.mem_iff
  refine ⟨?_, ?_, ?_, ?_⟩
  · intro m hm
    rw [hmem, hrest, List.nil_append] at hm
    exact hperm.subset (hsub.subset hm)
  · have := sortStable_sorted lessStart lessStart_asymm lessStart_trans
      (acceptLoop (sortStable lessLongest (collectMatches s.rules input.data))
        (List.replicate input.data.length false) [])
    refine this.imp ?_
    intro a b hab
    unfold lessStart at hab
    simp only [decide_eq_false_iff_not] at hab
    omega
  · exact (hperm2.pairwise_iff (fun {a b} h => overlaps_symm a b h)).mpr hpw
  · intro m hm
    have hm' : m ∈ sortStable lessLongest (collectMatches s.rules input.data) :=
      hperm.symm.subset hm
    obtain ⟨pre, post, hsplit⟩ := List.append_of_mem hm'
    rcases hdisc pre m post hsplit with h | ⟨k, hk, hk', hko⟩
    · exact Or.inl ((hmem m).mpr h)
    · refine Or.inr ⟨k, (hmem k).mpr hk', hko, ?_⟩
      rcases hk with hk | hk
      · simp at hk
      · rw [hsplit, List.pairwise_append] at hsorted
        have hless := hsorted.2.2 k hk m (List.mem_cons_self _ _)
        have := (lessLongest_false_iff k m).mp hless
        unfold Match.length
        exact this

/-- When matches were collected, a match is kept: the first match in the
order of the first sort meets no occupied position. -/
theorem kept_ne_nil (s : Sanitizer) (input : String)
    (h : collectMatches s.rules input.data ≠ []) : s.kept input ≠ [] := by
  obtain ⟨m, hm⟩ := List.exists_mem_of_ne_nil _ h
  rcases (kept_spec s input).2.2.2 m hm with hk | ⟨k, hk, _⟩
  · exact List.ne_nil_of_mem hk
  · exact List.ne_nil_of_mem hk

end Sanitizer

namespace Sanitizer

/-- The replacement of a match has the span, the value, the entity type and
the confidence of the match, and its placeholder is that of its mapping. -/
theorem assignSurrogate_fields (s : Surrogates) (m : Match) :
    (assignSurrogate s m).2.start = m.start ∧ (assignSurrogate s m).2.end = m.end ∧
    (assignSurrogate s m).2.mapping.OriginalValue = m.value ∧
    (assignSurrogate s m).2.mapping.EntityType = m.rule.EntityType ∧
    (assignSurrogate s m).2.mapping.ConfidenceScore = m.rule.Confidence ∧
    (assignSurrogate s m).2.mapping.Placeholder = (assignSurrogate s m).2.placeholder := by
  unfold assignSurrogate
  simp

/-- The replacements stand for the matches, one for one and in order. -/
theorem assignSurrogates_fields :
    ∀ (ms : List Match) (s : Surrogates),
      List.Forall₂ (fun m r => r.start = m.start ∧ r.end = m.end ∧
        r.mapping.OriginalValue = m.value ∧ r.mapping.EntityType = m.rule.EntityType ∧
        r.mapping.ConfidenceScore = m.rule.Confidence ∧
        r.mapping.Placeholder = r.placeholder) ms (assignSurrogates s ms) := by
  intro ms
  induction ms with
  | nil => intro s; exact List.Forall₂.nil
  | cons m ms ih =>
    intro s
    rw [assignSurrogates]
    exact List.Forall₂.cons (assignSurrogate_fields s m) (ih _)

theorem slice_append_drop (input : List Char) (lo hi : Nat) (h : lo ≤ hi) :
    slice input lo hi ++ input.drop hi = input.drop lo := by
  unfold slice
  have : input.drop hi = (input.drop lo).drop (hi - lo) := by
    rw [List.drop_drop]
    congr 1
    omega
  rw [this, List.take_append_drop]

/-- The replacement loop on replacements each of which starts at or after the
end of the one before: it does not fail, the mappings are those of the
replacements, and the output is woven of the gaps of the text and the
placeholders, as the text from the cursor on is woven of the gaps and the
texts of the spans. -/
theorem replaceLoop_ok (input : List Char) :
    ∀ (rs : List Replacement) (before cursor : Nat) (output : List Char)
      (mappings : List Mapping),
      List.Chain (fun a b => a.2 ≤ b.1) (before, cursor) (rs.map (fun r => (r.start, r.end))) →
      (∀ r ∈ rs, r.start ≤ r.end) →
      replaceLoop input rs cursor output mappings
        = .ok { Sanitized := String.mk (output ++
                  weave (gaps input (rs.map (fun r => (r.start, r.end))) cursor)
                    (rs.map (fun r => r.placeholder.data))),
                Mappings := mappings ++ rs.map (fun r => r.mapping) } ∧
      input.drop cursor
        = weave (gaps input (rs.map (fun r => (r.start, r.end))) cursor)
            (rs.map (fun r => slice input r.start r.end)) ∧
      (gaps input (rs.map (fun r => (r.start, r.end))) cursor).length = rs.length + 1 := by
  intro rs
  induction rs with
  | nil =>
    intro before cursor output mappings _ _
    simp [replaceLoop, gaps, weave]
  | cons r rs ih =>
    intro before cursor output mappings hchain hle
    rw [List.map_cons, List.chain_cons] at hchain
    obtain ⟨hcur, hrest⟩ := hchain
    simp only at hcur
    have hr : r.start ≤ r.end := hle r (by simp)
    obtain ⟨h1, h2, h3⟩ := ih r.start r.end (output ++ slice input cursor r.start ++ r.placeholder.data)
      (mappings ++ [r.mapping]) hrest (fun x hx => hle x (by simp [hx]))
    rw [replaceLoop, if_neg (by omega), h1]
    refine ⟨?_, ?_, ?_⟩
    · simp [gaps, weave, List.append_assoc]
    · simp only [List.map_cons, gaps, weave]
      rw [← h2, List.append_assoc, slice_append_drop input r.start r.end hr,
        slice_append_drop input cursor r.start hcur]
    · simp [gaps, h3]

end Sanitizer

namespace Sanitizer

/-- `Sanitize` in terms of the matches kept. -/
theorem Sanitize_eq (s : Sanitizer) (input : String) :
    s.Sanitize input =
      if (collectMatches s.rules input.data).length = 0 then
        .ok { Sanitized := input, Mappings := [] }
      else
        replaceLoop input.data
          (assignSurrogates { counts := [], byEntityAndValue := [] } (s.kept input)) 0 [] [] :=
  rfl

theorem kept_of_no_match (s : Sanitizer) (input : String)
    (h : collectMatches s.rules input.data = []) : s.kept input = [] := by
  unfold Sanitizer.kept
  rw [h]
  rfl

/-- The mappings that the replacement loop returns, when it does not fail,
are those of the replacements. -/
theorem replaceLoop_mappings (input : List Char) :
    ∀ (rs : List Replacement) (cursor : Nat) (output : List Char) (mappings : List Mapping)
      (r : Result), replaceLoop input rs cursor output mappings = .ok r →
      r.Mappings = mappings ++ rs.map (fun x => x.mapping) := by
  intro rs
  induction rs with
  | nil =>
    intro cursor output mappings r h
    simp only [replaceLoop, Except.ok.injEq] at h
    rw [← h]
    simp
  | cons x rs ih =>
    intro cursor output mappings r h
    rw [replaceLoop] at h
    split_ifs at h
    rw [ih _ _ _ _ h]
    simp

theorem assignSurrogates_length (ms : List Match) (s : Surrogates) :
    (assignSurrogates s ms).length = ms.length :=
  (assignSurrogates_fields ms s).length_eq.symm

theorem assignSurrogates_spans (ms : List Match) (s : Surrogates) :
    (assignSurrogates s ms).map (fun r => (r.start, r.end)) = ms.map Match.span := by
  have h := assignSurrogates_fields ms s
  generalize assignSurrogates s ms = rs at h
  induction h with
  | nil => rfl
  | cons hhead _ ih =>
    simp only [List.map_cons, ih, Match.span, hhead.1, hhead.2.1]

theorem assignSurrogates_values (input : List Char) (ms : List Match) (s : Surrogates)
    (hval : ∀ m ∈ ms, m.value = String.mk (slice input m.start m.end)) :
    (assignSurrogates s ms).map (fun r => slice input r.start r.end)
      = ((assignSurrogates s ms).map (fun r => r.mapping)).map (fun x => x.OriginalValue.data) := by
  have h := assignSurrogates_fields ms s
  generalize assignSurrogates s ms = rs at h
  induction h with
  | nil => rfl
  | @cons m r ms rs hhead _ ih =>
    simp only [List.map_cons, List.cons.injEq]
    refine ⟨?_, ih (fun x hx => hval x (by simp [hx]))⟩
    rw [hhead.2.2.1, hval m (by simp), hhead.1, hhead.2.1]

theorem assignSurrogates_placeholders (ms : List Match) (s : Surrogates) :
    (assignSurrogates s ms).map (fun r => r.placeholder.data)
      = ((assignSurrogates s ms).map (fun r => r.mapping)).map (fun x => x.Placeholder.data) := by
  have h := assignSurrogates_fields ms s
  generalize assignSurrogates s ms = rs at h
  induction h with
  | nil => rfl
  | cons hhead _ ih =>
    simp only [List.map_cons, List.cons.injEq]
    exact ⟨by rw [hhead.2.2.2.2.2], ih⟩

/-- With patterns that match no empty text, every match kept is not empty and
ends at or before the start of every match kept behind it. -/
theorem kept_chain (s : Sanitizer) (input : String)
    (hpos : ∀ rule ∈ s.rules, 0 < rule.Regex.minLen) :
    (∀ m ∈ s.kept input, m.start < m.end ∧ m.end ≤ input.data.length) ∧
    (s.kept input).Pairwise (fun a b => a.end ≤ b.start) := by
  obtain ⟨hmem, hstart, hdis, _⟩ := kept_spec s input
  have hne : ∀ m ∈ s.kept input, m.start < m.end ∧ m.end ≤ input.data.length := by
    intro m hm
    obtain ⟨hrule, hlen, hend, _⟩ := collectMatches_bounds s.rules input.data m (hmem m hm)
    have := hpos m.rule hrule
    exact ⟨by omega, hend⟩
  refine ⟨hne, ?_⟩
  refine (hstart.and hdis).imp_of_mem ?_
  intro a b ha hb hab
  obtain ⟨hle, hno⟩ := hab
  by_contra hcon
  exact hno ⟨b.start, hle, by omega, le_refl _, (hne b hb).1⟩

/-- With patterns that match no empty text `Sanitize` does not fail: the
mappings are those of the matches kept, in order, and the text returned is the
input with the span of each match kept replaced by the placeholder of its
mapping. -/
theorem sanitize_ok (s : Sanitizer) (input : String)
    (hpos : ∀ rule ∈ s.rules, 0 < rule.Regex.minLen) :
    ∃ r, s.Sanitize input = .ok r ∧
      r.Mappings = (assignSurrogates { counts := [], byEntityAndValue := [] }
        (s.kept input)).map (fun x => x.mapping) ∧
      r.Sanitized.data
        = weave (gaps input.data ((s.kept input).map Match.span) 0)
            (r.Mappings.map (fun x => x.Placeholder.data)) ∧
      input.data
        = weave (gaps input.data ((s.kept input).map Match.span) 0)
            (r.Mappings.map (fun x => x.OriginalValue.data)) ∧
      (gaps input.data ((s.kept input).map Match.span) 0).length = r.Mappings.length + 1 := by
  rw [Sanitize_eq]
  by_cases h0 : (collectMatches s.rules input.data).length = 0
  · rw [if_pos h0]
    have hk := kept_of_no_match s input (List.length_eq_zero.mp h0)
    refine ⟨_, rfl, ?_, ?_, ?_, ?_⟩
    · rw [hk]; rfl
    · rw [hk]; simp [gaps, weave]
    · rw [hk]; simp [gaps, weave]
    · rw [hk]; rfl
  · rw [if_neg h0]
    obtain ⟨hne, hchain⟩ := kept_chain s input hpos
    have hspans := assignSurrogates_spans (s.kept input)
      { counts := [], byEntityAndValue := [] }
    have hc : List.Chain (fun a b => a.2 ≤ b.1) ((0 : Nat), (0 : Nat))
        ((assignSurrogates { counts := [], byEntityAndValue := [] } (s.kept input)).map
          (fun r => (r.start, r.end))) := by
      rw [hspans]
      apply List.Pairwise.chain
      rw [List.pairwise_cons]
      refine ⟨fun b _ => Nat.zero_le _, ?_⟩
      rw [List.pairwise_map]
      exact hchain
    have hle : ∀ r ∈ assignSurrogates { counts := [], byEntityAndValue := [] } (s.kept input),
        r.start ≤ r.end := by
      intro r hr
      have hmem : (r.start, r.end) ∈ (assignSurrogates { counts := [], byEntityAndValue := [] }
          (s.kept input)).map (fun r => (r.start, r.end)) := List.mem_map_of_mem _ hr
      rw [hspans, List.mem_map] at hmem
      obtain ⟨m, hm, hspan⟩ := hmem
      simp only [Match.span, Prod.mk.injEq] at hspan
      have := (hne m hm).1
      omega
    obtain ⟨h1, h2, h3⟩ := replaceLoop_ok input.data _ 0 0 [] [] hc hle
    rw [h1]
    have hval : ∀ m ∈ s.kept input, m.value = String.mk (slice input.data m.start m.end) :=
      fun m hm => (collectMatches_bounds s.rules input.data m
        ((kept_spec s input).1 m hm)).2.2.2
    refine ⟨_, rfl, by simp, ?_, ?_, ?_⟩
    · simp only [List.nil_append]
      rw [hspans, assignSurrogates_placeholders]
    · simp only [List.nil_append]
      rw [← assignSurrogates_values input.data _ _ hval, ← hspans]
      simpa using h2
    · simp only [List.nil_append, List.length_map]
      rw [← hspans, h3]

end Sanitizer

namespace Sanitizer

theorem default_patterns_positive : ∀ rule ∈ NewDefault.rules, 0 < rule.Regex.minLen := by
  intro rule h
  simp only [NewDefault, List.mem_cons, List.mem_singleton, List.not_mem_nil, or_false] at h
  rcases h with rfl | rfl | rfl <;> decide

/-- C19 (amended). `Sanitize` is total for every input text and every rule set
whose patterns match no empty text, such as the default rules: the matches
kept are such that each starts at or after the end of those before it, so the
`overlap resolution failure` branch is not taken and `Sanitize` returns a
result with a nil error; and every match collected lies within the input, so
no index is out of range. -/
theorem C19_sanitize_total (s : Sanitizer) (input : String)
    (hpos : ∀ rule ∈ s.rules, 0 < rule.Regex.minLen) :
    (∃ r, s.Sanitize input = .ok r) ∧
    (s.kept input).Pairwise (fun a b => a.end ≤ b.start) ∧
    (∀ m ∈ collectMatches s.rules input.data,
      m.start ≤ m.end ∧ m.end ≤ input.data.length) := by
  obtain ⟨r, hr, _⟩ := sanitize_ok s input hpos
  refine ⟨⟨r, hr⟩, (kept_chain s input hpos).2, ?_⟩
  intro m hm
  obtain ⟨_, h1, h2, _⟩ := collectMatches_bounds s.rules input.data m hm
  exact ⟨by omega, h2⟩

/-- C19, witness: the default sanitizer on an input with an e-mail address. -/
theorem C19_sanitize_total_witness :
    (∀ rule ∈ NewDefault.rules, 0 < rule.Regex.minLen) ∧
    (∃ r, NewDefault.Sanitize "mail a@b.co" = .ok r) :=
  ⟨default_patterns_positive,
    (C19_sanitize_total NewDefault "mail a@b.co" default_patterns_positive).1⟩

/-- C19, counterexample: with the rules of the patterns `abc` and `b*`, the
input `abc` makes `Sanitize` return the error `overlap resolution failure`:
the empty match of `b*` at offset 0 is kept beside the match of `abc`. -/
theorem C19_counterexample :
    nullableSanitizer.Sanitize "abc" = .error .overlapResolutionFailure := by
  rfl

/-- C17 (amended). For every input and every rule set whose patterns match no
empty text, such as the default rules: `Sanitize` returns the mappings of the
matches kept, one for one and in their order; the matches kept are pairwise
non-overlapping and stand in increasing start offset; and every match
collected is kept, or overlaps a match kept that is strictly longer, or of
equal length with a start offset that is not later. -/
theorem C17_longest_match_wins (s : Sanitizer) (input : String)
    (hpos : ∀ rule ∈ s.rules, 0 < rule.Regex.minLen) :
    ∃ r, s.Sanitize input = .ok r ∧
      List.Forall₂ (fun m x => x.OriginalValue = m.value ∧ x.EntityType = m.rule.EntityType ∧
        x.ConfidenceScore = m.rule.Confidence) (s.kept input) r.Mappings ∧
      (s.kept input).Pairwise (fun a b => ¬ a.Overlaps b ∧ a.start < b.start) ∧
      (∀ m ∈ collectMatches s.rules input.data,
        m ∈ s.kept input ∨
        ∃ k ∈ s.kept input, k.Overlaps m ∧
          (m.length < k.length ∨ (k.length = m.length ∧ k.start ≤ m.start))) := by
  obtain ⟨r, hr, hmap, _⟩ := sanitize_ok s input hpos
  obtain ⟨hne, hchain⟩ := kept_chain s input hpos
  obtain ⟨_, _, hdis, hdisc⟩ := kept_spec s input
  refine ⟨r, hr, ?_, ?_, hdisc⟩
  · rw [hmap, List.forall₂_map_right_iff]
    exact (assignSurrogates_fields (s.kept input) _).imp
      (fun _ _ h => ⟨h.2.2.1, h.2.2.2.1, h.2.2.2.2.1⟩)
  · refine (hdis.and hchain).imp_of_mem ?_
    intro a b ha _ hab
    have := (hne a ha).1
    exact ⟨hab.1, by omega⟩

/-- C17, witness: the default sanitizer on an input with an e-mail address. -/
theorem C17_longest_match_wins_witness :
    (∀ rule ∈ NewDefault.rules, 0 < rule.Regex.minLen) ∧
    ∃ r, NewDefault.Sanitize "mail a@b.co" = .ok r ∧
      List.Forall₂ (fun m x => x.OriginalValue = m.value ∧ x.EntityType = m.rule.EntityType ∧
        x.ConfidenceScore = m.rule.Confidence) (NewDefault.kept "mail a@b.co") r.Mappings ∧
      (NewDefault.kept "mail a@b.co").Pairwise (fun a b => ¬ a.Overlaps b ∧ a.start < b.start) ∧
      (∀ m ∈ collectMatches NewDefault.rules "mail a@b.co".data,
        m ∈ NewDefault.kept "mail a@b.co" ∨
        ∃ k ∈ NewDefault.kept "mail a@b.co", k.Overlaps m ∧
          (m.length < k.length ∨ (k.length = m.length ∧ k.start ≤ m.start))) :=
  ⟨default_patterns_positive,
    C17_longest_match_wins NewDefault "mail a@b.co" default_patterns_positive⟩

/-- C17, counterexample: with the rules of the patterns `abc` and `b*`, on the
input `abcb` the matches kept are `abc` at [0,3), the empty match of `b*` at
[0,0) and `b` at [3,4), in this order; the second does not start after the
first, and `Sanitize` emits no mappings: it returns the error. -/
theorem C17_counterexample :
    (nullableSanitizer.kept "abcb").map Match.span = [(0, 3), (0, 0), (3, 4)] ∧
    nullableSanitizer.Sanitize "abcb" = .error .overlapResolutionFailure := by
  exact ⟨by decide, rfl⟩

/-- C20. For every rule set and every input text: if `Sanitize` returns an
empty list of mappings, the sanitized text is the input. -/
theorem C20_no_mappings_identity (s : Sanitizer) (input : String) (r : Result)
    (h : s.Sanitize input = .ok r) (hempty : r.Mappings = []) : r.Sanitized = input := by
  rw [Sanitize_eq] at h
  by_cases h0 : (collectMatches s.rules input.data).length = 0
  · rw [if_pos h0] at h
    simp only [Except.ok.injEq] at h
    rw [← h]
  · rw [if_neg h0] at h
    have hm := replaceLoop_mappings _ _ _ _ _ _ h
    rw [hempty, List.nil_append] at hm
    have hlen := congrArg List.length hm
    rw [List.length_map, assignSurrogates_length, List.length_nil] at hlen
    have hk := kept_ne_nil s input (fun hc => h0 (by rw [hc]; rfl))
    exact absurd (List.length_eq_zero.mp hlen.symm) hk

/-- C20, witness: the default sanitizer on `hello`. -/
theorem C20_no_mappings_identity_witness :
    NewDefault.Sanitize "hello" = .ok { Sanitized := "hello", Mappings := [] } ∧
    ({ Sanitized := "hello", Mappings := [] } : Result).Sanitized = "hello" :=
  ⟨rfl, C20_no_mappings_identity NewDefault "hello" { Sanitized := "hello", Mappings := [] }
    rfl rfl⟩

/-- For every input text, `Sanitize` of the default sanitizer returns a result
whose sanitized text is the input text with the detected occurrence of the
OriginalValue of each mapping replaced by the Placeholder of that mapping, in
order, and the text around the occurrences unchanged: there are gaps, one more
than mappings, such that the input is woven of the gaps and the original
values, and the sanitized text of the same gaps and the placeholders.  The
text of the gaps is not looked at again: an occurrence of a value there stays. -/
theorem sanitize_default_weave (input : String) :
    ∃ r, NewDefault.Sanitize input = .ok r ∧
      ∃ gs : List (List Char), gs.length = r.Mappings.length + 1 ∧
        input.data = weave gs (r.Mappings.map (fun x => x.OriginalValue.data)) ∧
        r.Sanitized.data = weave gs (r.Mappings.map (fun x => x.Placeholder.data)) := by
  obtain ⟨r, hr, _, hs, hi, hl⟩ := sanitize_ok NewDefault input default_patterns_positive
  exact ⟨r, hr, _, hl, hi, hs⟩

set_option maxRecDepth 100000 in
/-- On the input `1@example.net` the default sanitizer returns the sanitized
text `person1@example.net` and one mapping of original value `1@example.net`,
which is a substring of its own surrogate. -/
theorem sanitize_surrogate_contains_value :
    NewDefault.Sanitize "1@example.net"
      = .ok { Sanitized := "person1@example.net",
              Mappings := [{ Placeholder := "person1@example.net",
                             OriginalValue := "1@example.net", EntityType := "EMAIL",
                             ConfidenceScore := 99 / 100 }] } ∧
    "1@example.net".data <:+: "person1@example.net".data :=
  ⟨rfl, "person".data, [], rfl⟩

set_option maxRecDepth 100000 in
/-- C1, the code at the failing input `555-123-4567 x555-123-4567`: the default
sanitizer returns a result with one mapping, of entity type PHONE and original
value `555-123-4567` (the first occurrence; the second one follows the word
character `x`, where the pattern's word boundary fails), and the sanitized text
`555-010-0001 x555-123-4567`: a mapping of the result has an original value
that is a substring of the sanitized text of the same result. -/
theorem C1_detected_value_in_sanitized_text :
    NewDefault.Sanitize "555-123-4567 x555-123-4567"
      = .ok { Sanitized := "555-010-0001 x555-123-4567",
              Mappings := [{ Placeholder := "555-010-0001",
                             OriginalValue := "555-123-4567", EntityType := "PHONE",
                             ConfidenceScore := 99 / 100 }] } ∧
    ∃ r, NewDefault.Sanitize "555-123-4567 x555-123-4567" = .ok r ∧
      ∃ m ∈ r.Mappings, m.OriginalValue.data <:+: r.Sanitized.data :=
  ⟨rfl, _, rfl, _, List.mem_singleton.mpr rfl, "555-010-0001 x".data, [], rfl⟩

end Sanitizer

namespace Sanitizer

theorem digitChar_value (k : Nat) (hk : k < 10) : (Nat.digitChar k).toNat - 48 = k := by
  interval_cases k <;> rfl

theorem decimalValue_toDigitsCore (fuel : Nat) :
    ∀ (n : Nat) (acc : List Char), n < fuel →
      (Nat.toDigitsCore 10 fuel n acc).foldl (fun a c => a * 10 + (c.toNat - 48)) 0
        = acc.foldl (fun a c => a * 10 + (c.toNat - 48)) n := by
  induction fuel with
  | zero => intro n acc h; omega
  | succ fuel ih =>
    intro n acc h
    rw [Nat.toDigitsCore]
    split_ifs with h0
    · rw [List.foldl_cons, digitChar_value _ (Nat.mod_lt _ (by decide))]
      congr 1
      have : n < 10 := by
        by_contra hc
        have := Nat.div_pos (Nat.le_of_not_lt hc) (by decide : 0 < 10)
        omega
      omega
    · rw [ih (n / 10) _ (by omega), List.foldl_cons,
        digitChar_value _ (Nat.mod_lt _ (by decide))]
      congr 1
      omega

/-- The decimal text of a number stands for the number. -/
theorem decimalValue_toString (n : Nat) : decimalValue (toString n).data = n := by
  have h : (toString n).data = Nat.toDigits 10 n := rfl
  rw [h]
  unfold decimalValue Nat.toDigits
  rw [decimalValue_toDigitsCore (n + 1) n [] (by omega)]
  rfl

theorem decimalValue_zeros (k : Nat) (ds : List Char) :
    decimalValue (List.replicate k '0' ++ ds) = decimalValue ds := by
  unfold decimalValue
  rw [List.foldl_append]
  congr 1
  induction k with
  | zero => rfl
  | succ k ih =>
    rw [List.replicate_succ, List.foldl_cons]
    exact ih

/-- The padded decimal text of a number stands for the number. -/
theorem decimalValue_pad4 (n : Nat) : decimalValue (pad4 n).data = n := by
  unfold pad4
  rw [String.data_append, decimalValue_zeros, decimalValue_toString]

theorem toString_nat_injective (n n' : Nat) (h : toString n = toString n') : n = n' := by
  rw [← decimalValue_toString n, ← decimalValue_toString n', h]

theorem pad4_injective (n n' : Nat) (h : pad4 n = pad4 n') : n = n' := by
  rw [← decimalValue_pad4 n, ← decimalValue_pad4 n', h]

theorem string_append_left_cancel (p a b : String) (h : p ++ a = p ++ b) : a = b := by
  have := congrArg String.data h
  rw [String.data_append, String.data_append] at this
  exact String.ext (List.append_cancel_left this)

theorem string_append_right_cancel (a b q : String) (h : a ++ q = b ++ q) : a = b := by
  have := congrArg String.data h
  rw [String.data_append, String.data_append] at this
  exact String.ext (List.append_cancel_right this)

/-- No surrogate is the empty string. -/
theorem surrogateForEntity_ne_empty (entityType : String) (index : Nat) :
    surrogateForEntity entityType index ≠ "" := by
  unfold surrogateForEntity
  simp only
  intro h
  have hl := congrArg String.length h
  split_ifs at hl <;> simp only [String.length_append] at hl <;>
    (have : (0 : Nat) = ("" : String).length := rfl) <;> revert hl <;>
    (first
      | (have e : "person".length = 6 := rfl; rw [e]; intro hl; rw [← this] at hl; omega)
      | (have e : "555-010-".length = 8 := rfl; rw [e]; intro hl; rw [← this] at hl; omega)
      | (have e : "900-00-".length = 7 := rfl; rw [e]; intro hl; rw [← this] at hl; omega)
      | (have e : "redacted-".length = 9 := rfl; rw [e]; intro hl; rw [← this] at hl; omega))

/-- For one entity type, different indices give different surrogates. -/
theorem surrogateForEntity_injective (entityType : String) (n n' : Nat)
    (h : surrogateForEntity entityType n = surrogateForEntity entityType n') : n = n' := by
  unfold surrogateForEntity at h
  simp only at h
  split_ifs at h
  · rw [String.append_assoc, String.append_assoc] at h
    exact toString_nat_injective _ _
      (string_append_right_cancel _ _ _ (string_append_left_cancel _ _ _ h))
  · exact pad4_injective _ _ (string_append_left_cancel _ _ _ h)
  · exact pad4_injective _ _ (string_append_left_cancel _ _ _ h)
  · exact toString_nat_injective _ _ (string_append_left_cancel _ _ _ h)

end Sanitizer

namespace Sanitizer

theorem firstValues_extends (entityType : String) :
    ∀ (xs : List Mapping) (seen : List String),
      ∃ extra, firstValues entityType xs seen = seen ++ extra := by
  intro xs
  induction xs with
  | nil => intro seen; exact ⟨[], by simp [firstValues]⟩
  | cons x xs ih =>
    intro seen
    rw [firstValues]
    split_ifs
    · obtain ⟨extra, he⟩ := ih (seen ++ [x.OriginalValue])
      exact ⟨x.OriginalValue :: extra, by rw [he]; simp⟩
    · exact ih seen

theorem firstValues_mem_of_seen (entityType : String) (xs : List Mapping) (seen : List String)
    (v : String) (hv : v ∈ seen) :
    v ∈ firstValues entityType xs seen ∧
    (firstValues entityType xs seen).indexOf v = seen.indexOf v := by
  obtain ⟨extra, he⟩ := firstValues_extends entityType xs seen
  rw [he]
  exact ⟨List.mem_append_left _ hv, List.indexOf_append_of_mem hv⟩

theorem assignSurrogate_known (s : Surrogates) (m : Match)
    (h : s.surrogate m.rule.EntityType m.value ≠ "") :
    assignSurrogate s m
      = (s, { start := m.start, «end» := m.end,
              placeholder := s.surrogate m.rule.EntityType m.value,
              mapping := { Placeholder := s.surrogate m.rule.EntityType m.value,
                           OriginalValue := m.value, EntityType := m.rule.EntityType,
                           ConfidenceScore := m.rule.Confidence } }) := by
  unfold assignSurrogate
  simp only [if_neg h]

theorem assignSurrogate_fresh (s : Surrogates) (m : Match)
    (h : s.surrogate m.rule.EntityType m.value = "") :
    assignSurrogate s m
      = ({ counts := (m.rule.EntityType, s.count m.rule.EntityType + 1) :: s.counts,
           byEntityAndValue :=
             ((m.rule.EntityType, m.value),
               surrogateForEntity m.rule.EntityType (s.count m.rule.EntityType + 1)) ::
               s.byEntityAndValue },
         { start := m.start, «end» := m.end,
           placeholder := surrogateForEntity m.rule.EntityType (s.count m.rule.EntityType + 1),
           mapping := { Placeholder :=
                          surrogateForEntity m.rule.EntityType (s.count m.rule.EntityType + 1),
                        OriginalValue := m.value, EntityType := m.rule.EntityType,
                        ConfidenceScore := m.rule.Confidence } }) := by
  unfold assignSurrogate
  simp only [if_pos h]

theorem count_cons (t t' : String) (n : Nat) (cs : List (String × Nat))
    (es : List ((String × String) × String)) :
    ({ counts := (t, n) :: cs, byEntityAndValue := es } : Surrogates).count t'
      = if t' = t then n
        else ({ counts := cs, byEntityAndValue := es } : Surrogates).count t' := by
  unfold Surrogates.count
  simp only [List.lookup_cons]
  by_cases h : t' = t
  · simp [h]
  · have : (t' == t) = false := by simpa using h
    simp [h, this]

theorem surrogate_cons (t v t' v' x : String) (cs : List (String × Nat))
    (es : List ((String × String) × String)) :
    ({ counts := cs, byEntityAndValue := ((t, v), x) :: es } : Surrogates).surrogate t' v'
      = if t' = t ∧ v' = v then x
        else ({ counts := cs, byEntityAndValue := es } : Surrogates).surrogate t' v' := by
  unfold Surrogates.surrogate
  simp only [List.lookup_cons]
  by_cases h : t' = t ∧ v' = v
  · have : ((t', v') == (t, v)) = true := by simp [h.1, h.2]
    simp [h, this]
  · have : ((t', v') == (t, v)) = false := by
      rw [← Bool.not_eq_true]
      intro hc
      have := eq_of_beq hc
      simp only [Prod.mk.injEq] at this
      exact h this
    simp [h, this]

/-- The loop that assigns the surrogates, started in a state that holds the
surrogates of the values `seen`: the placeholder of every mapping is the
surrogate of the index of its original value among the first occurrences of
the values of its entity type. -/
theorem assignSurrogates_rank :
    ∀ (ms : List Match) (s : Surrogates) (seen : String → List String),
      (∀ t, s.count t = (seen t).length) →
      (∀ t v, s.surrogate t v
        = if v ∈ seen t then surrogateForEntity t ((seen t).indexOf v + 1) else "") →
      ∀ x ∈ (assignSurrogates s ms).map (fun r => r.mapping),
        x.OriginalValue ∈ firstValues x.EntityType
          ((assignSurrogates s ms).map (fun r => r.mapping)) (seen x.EntityType) ∧
        x.Placeholder = surrogateForEntity x.EntityType
          ((firstValues x.EntityType ((assignSurrogates s ms).map (fun r => r.mapping))
            (seen x.EntityType)).indexOf x.OriginalValue + 1) := by
  intro ms
  induction ms with
  | nil => intro s seen _ _ x hx; simp [assignSurrogates] at hx
  | cons m ms ih =>
    intro s seen hcount hsur x hx
    by_cases hknown : s.surrogate m.rule.EntityType m.value = ""
    · -- a value without surrogate: it was not seen, and gets the next index
      have hnot : m.value ∉ seen m.rule.EntityType := by
        intro hmem
        rw [hsur, if_pos hmem] at hknown
        exact surrogateForEntity_ne_empty _ _ hknown
      have hstep : assignSurrogates s (m :: ms) = (assignSurrogate s m).2 ::
          assignSurrogates (assignSurrogate s m).1 ms := rfl
      rw [hstep, assignSurrogate_fresh s m hknown] at hx ⊢
      simp only [List.map_cons] at hx ⊢
      have hcount' : ∀ t, (Surrogates.mk ((m.rule.EntityType, s.count m.rule.EntityType + 1) :: s.counts)
          (((m.rule.EntityType, m.value),
            surrogateForEntity m.rule.EntityType (s.count m.rule.EntityType + 1)) ::
              s.byEntityAndValue)).count t
          = (Function.update seen m.rule.EntityType
              (seen m.rule.EntityType ++ [m.value]) t).length := by
        intro t
        rw [count_cons]
        by_cases ht : t = m.rule.EntityType
        · subst ht
          rw [if_pos rfl, Function.update_same, List.length_append, hcount]
          rfl
        · rw [if_neg ht, Function.update_noteq ht]
          exact hcount t
      have hsur' : ∀ t v, (Surrogates.mk ((m.rule.EntityType, s.count m.rule.EntityType + 1) :: s.counts)
          (((m.rule.EntityType, m.value),
            surrogateForEntity m.rule.EntityType (s.count m.rule.EntityType + 1)) ::
              s.byEntityAndValue)).surrogate t v
          = if v ∈ Function.update seen m.rule.EntityType
                (seen m.rule.EntityType ++ [m.value]) t then
              surrogateForEntity t ((Function.update seen m.rule.EntityType
                (seen m.rule.EntityType ++ [m.value]) t).indexOf v + 1)
            else "" := by
        intro t v
        rw [surrogate_cons]
        by_cases ht : t = m.rule.EntityType
        · subst ht
          rw [Function.update_same]
          by_cases hv : v = m.value
          · subst hv
            rw [if_pos ⟨rfl, rfl⟩, if_pos (by simp), List.indexOf_append_of_not_mem hnot,
              hcount]
            simp
          · rw [if_neg (fun h => hv h.2)]
            have hs := hsur m.rule.EntityType v
            show s.surrogate m.rule.EntityType v = _
            rw [hs]
            by_cases hmem : v ∈ seen m.rule.EntityType
            · rw [if_pos hmem, if_pos (List.mem_append_left _ hmem),
                List.indexOf_append_of_mem hmem]
            · rw [if_neg hmem, if_neg (by simp [hmem, hv])]
        · rw [if_neg (fun h => ht h.1), Function.update_noteq ht]
          exact hsur t v
      have hfirst : ∀ t (x0 : Mapping) (xs : List Mapping),
          x0.EntityType = m.rule.EntityType → x0.OriginalValue = m.value →
          firstValues t (x0 :: xs) (seen t)
          = firstValues t xs (Function.update seen m.rule.EntityType
              (seen m.rule.EntityType ++ [m.value]) t) := by
        intro t x0 xs h1 h2
        rw [firstValues, h1, h2]
        by_cases ht : t = m.rule.EntityType
        · subst ht
          rw [if_pos ⟨rfl, hnot⟩, Function.update_same]
        · rw [if_neg (fun h => ht h.1.symm), Function.update_noteq ht]
      rw [hfirst _ _ _ rfl rfl]
      rcases List.mem_cons.mp hx with rfl | hx
      · simp only [Function.update_same]
        have hv : m.value ∈ seen m.rule.EntityType ++ [m.value] := by simp
        obtain ⟨h1, h2⟩ := firstValues_mem_of_seen m.rule.EntityType
          (List.map (fun r => r.mapping) (assignSurrogates _ ms)) _ m.value hv
        refine ⟨h1, ?_⟩
        rw [h2, List.indexOf_append_of_not_mem hnot, hcount]
        simp
      · exact ih _ _ hcount' hsur' x hx
    · -- a value with a surrogate: it was seen, and keeps its surrogate
      have hmem : m.value ∈ seen m.rule.EntityType := by
        by_contra hn
        rw [hsur, if_neg hn] at hknown
        exact hknown rfl
      have hstep : assignSurrogates s (m :: ms) = (assignSurrogate s m).2 ::
          assignSurrogates (assignSurrogate s m).1 ms := rfl
      rw [hstep, assignSurrogate_known s m hknown] at hx ⊢
      simp only [List.map_cons] at hx ⊢
      have hfirst : ∀ t (x0 : Mapping) (xs : List Mapping),
          x0.EntityType = m.rule.EntityType → x0.OriginalValue = m.value →
          firstValues t (x0 :: xs) (seen t) = firstValues t xs (seen t) := by
        intro t x0 xs h1 h2
        rw [firstValues, h1, h2]
        by_cases ht : t = m.rule.EntityType
        · subst ht
          rw [if_neg (fun h => h.2 hmem)]
        · rw [if_neg (fun h => ht h.1.symm)]
      rw [hfirst _ _ _ rfl rfl]
      rcases List.mem_cons.mp hx with rfl | hx
      · obtain ⟨h1, h2⟩ := firstValues_mem_of_seen m.rule.EntityType
          (List.map (fun r => r.mapping) (assignSurrogates s ms)) _ m.value hmem
        refine ⟨h1, ?_⟩
        simp only
        rw [h2, hsur, if_pos hmem]
      · exact ih _ _ hcount hsur x hx

end Sanitizer

namespace Sanitizer

/-- The values of `firstValues` are the values seen before and the original
values of the mappings of the entity type. -/
theorem mem_firstValues (entityType : String) (v : String) :
    ∀ (xs : List Mapping) (seen : List String),
      v ∈ firstValues entityType xs seen ↔
        v ∈ seen ∨ ∃ x ∈ xs, x.EntityType = entityType ∧ x.OriginalValue = v := by
  intro xs
  induction xs with
  | nil => intro seen; simp [firstValues]
  | cons x xs ih =>
    intro seen
    rw [firstValues]
    by_cases hc : x.EntityType = entityType ∧ x.OriginalValue ∉ seen
    · rw [if_pos hc, ih]
      constructor
      · rintro (hv | ⟨y, hy, hty, hvy⟩)
        · rcases List.mem_append.mp hv with hv | hv
          · exact Or.inl hv
          · exact Or.inr ⟨x, List.mem_cons_self _ _, hc.1, (List.mem_singleton.mp hv).symm⟩
        · exact Or.inr ⟨y, List.mem_cons_of_mem _ hy, hty, hvy⟩
      · rintro (hv | ⟨y, hy, hty, hvy⟩)
        · exact Or.inl (List.mem_append_left _ hv)
        · rcases List.mem_cons.mp hy with rfl | hy
          · exact Or.inl (List.mem_append_right _ (List.mem_singleton.mpr hvy.symm))
          · exact Or.inr ⟨y, hy, hty, hvy⟩
    · rw [if_neg hc, ih]
      constructor
      · rintro (hv | ⟨y, hy, hty, hvy⟩)
        · exact Or.inl hv
        · exact Or.inr ⟨y, List.mem_cons_of_mem _ hy, hty, hvy⟩
      · rintro (hv | ⟨y, hy, hty, hvy⟩)
        · exact Or.inl hv
        · rcases List.mem_cons.mp hy with rfl | hy
          · by_cases hs : y.OriginalValue ∈ seen
            · exact Or.inl (hvy ▸ hs)
            · exact absurd ⟨hty, hs⟩ hc
          · exact Or.inr ⟨y, hy, hty, hvy⟩

/-- No value stands twice in `firstValues`. -/
theorem firstValues_nodup (entityType : String) :
    ∀ (xs : List Mapping) (seen : List String), seen.Nodup →
      (firstValues entityType xs seen).Nodup := by
  intro xs
  induction xs with
  | nil => intro seen h; exact h
  | cons x xs ih =>
    intro seen h
    rw [firstValues]
    split_ifs with hc
    · refine ih _ (List.Nodup.append h (List.nodup_singleton _) ?_)
      intro a ha hb
      rw [List.mem_singleton.mp hb] at ha
      exact hc.2 ha
    · exact ih _ h

/-- The distinct values of an entity type are the original values of the
mappings of that type. -/
theorem mem_distinctValues (entityType v : String) (mappings : List Mapping) :
    v ∈ distinctValues entityType mappings ↔
      ∃ x ∈ mappings, x.EntityType = entityType ∧ x.OriginalValue = v := by
  unfold distinctValues
  rw [mem_firstValues]
  simp

/-- No value stands twice among the distinct values of an entity type. -/
theorem distinctValues_nodup (entityType : String) (mappings : List Mapping) :
    (distinctValues entityType mappings).Nodup :=
  firstValues_nodup entityType mappings [] List.nodup_nil

/-- The values that precede the first occurrence of a value among the distinct
values of its type are the distinct values of the mappings before it: the order
of the distinct values is the order of the first occurrences. -/
theorem distinctValues_append (entityType : String) (xs ys : List Mapping) :
    ∃ extra, distinctValues entityType (xs ++ ys) = distinctValues entityType xs ++ extra := by
  unfold distinctValues
  suffices hgen : ∀ (xs : List Mapping) (seen : List String),
      ∃ extra, firstValues entityType (xs ++ ys) seen = firstValues entityType xs seen ++ extra
    from hgen xs []
  intro xs
  induction xs with
  | nil =>
    intro seen
    exact firstValues_extends entityType ys seen
  | cons x xs ih =>
    intro seen
    rw [List.cons_append, firstValues, firstValues]
    split_ifs
    · exact ih _
    · exact ih _

/-- The entity types and the original values of the mappings are those of the
matches. -/
theorem assignSurrogates_keys (ms : List Match) (s : Surrogates) :
    ((assignSurrogates s ms).map (fun r => r.mapping)).map
        (fun x => (x.EntityType, x.OriginalValue))
      = ms.map (fun m => (m.rule.EntityType, m.value)) := by
  have h := assignSurrogates_fields ms s
  generalize assignSurrogates s ms = rs at h
  induction h with
  | nil => rfl
  | cons hhead _ ih =>
    simp only [List.map_cons, ih, hhead.2.2.1, hhead.2.2.2.1]

/-- The mappings of a result of `Sanitize` are those of the loop that assigns
the surrogates to the matches kept. -/
theorem sanitize_mappings (s : Sanitizer) (input : String) (r : Result)
    (h : s.Sanitize input = .ok r) :
    r.Mappings = (assignSurrogates { counts := [], byEntityAndValue := [] }
      (s.kept input)).map (fun x => x.mapping) := by
  rw [Sanitize_eq] at h
  by_cases h0 : (collectMatches s.rules input.data).length = 0
  · rw [if_pos h0] at h
    simp only [Except.ok.injEq] at h
    rw [← h, kept_of_no_match s input (List.length_eq_zero.mp h0)]
    rfl
  · rw [if_neg h0] at h
    have hm := replaceLoop_mappings _ _ _ _ _ _ h
    rw [List.nil_append] at hm
    exact hm

/-- The placeholder of every mapping of a result of `Sanitize` is the surrogate
of the index of its original value among the distinct values of its type. -/
theorem sanitize_rank (s : Sanitizer) (input : String) (r : Result)
    (h : s.Sanitize input = .ok r) :
    ∀ x ∈ r.Mappings,
      x.OriginalValue ∈ distinctValues x.EntityType r.Mappings ∧
      x.Placeholder = surrogateForEntity x.EntityType (valueIndex r.Mappings x) := by
  intro x hx
  have hm := sanitize_mappings s input r h
  have hrank := assignSurrogates_rank (s.kept input) { counts := [], byEntityAndValue := [] }
    (fun _ => []) (fun _ => rfl) (fun t v => by simp [Surrogates.surrogate]) x (hm ▸ hx)
  rw [← hm] at hrank
  exact hrank

theorem toDigitsCore_small (fuel n : Nat) (acc : List Char) (h : n < 10) :
    Nat.toDigitsCore 10 (fuel + 1) n acc = Nat.digitChar n :: acc := by
  rw [Nat.toDigitsCore]
  have h0 : n / 10 = 0 := by omega
  have h1 : n % 10 = n := by omega
  simp only [h0, h1, if_true]

theorem toDigitsCore_step (fuel n : Nat) (acc : List Char) (h : 10 ≤ n) :
    Nat.toDigitsCore 10 (fuel + 1) n acc
      = Nat.toDigitsCore 10 fuel (n / 10) (Nat.digitChar (n % 10) :: acc) := by
  rw [Nat.toDigitsCore]
  have h0 : n / 10 ≠ 0 := by omega
  simp only [h0, if_false]

theorem toDigitsCore_length (fuel : Nat) :
    ∀ (n : Nat) (acc : List Char), acc.length + 1 ≤ (Nat.toDigitsCore 10 (fuel + 1) n acc).length := by
  induction fuel with
  | zero =>
    intro n acc
    rw [Nat.toDigitsCore]
    split_ifs
    · simp
    · simp [Nat.toDigitsCore]
  | succ fuel ih =>
    intro n acc
    rw [Nat.toDigitsCore]
    split_ifs
    · simp
    · have := ih (n / 10) (Nat.digitChar (n % 10) :: acc)
      simp only [List.length_cons] at this
      omega

/-- The decimal digits of a number below 10000, with zeros on the left. -/
theorem pad4_digits (j : Nat) (h : j < 10000) :
    (pad4 j).data = [Nat.digitChar (j / 1000), Nat.digitChar (j / 100 % 10),
      Nat.digitChar (j / 10 % 10), Nat.digitChar (j % 10)] := by
  have hs : (toString j).data = Nat.toDigitsCore 10 (j + 1) j [] := rfl
  unfold pad4
  rw [String.data_append]
  have hl : (toString j).length = (toString j).data.length := rfl
  rw [hl, hs]
  by_cases h1 : j < 10
  · rw [toDigitsCore_small _ _ _ h1]
    have e1 : j / 1000 = 0 := by omega
    have e2 : j / 100 % 10 = 0 := by omega
    have e3 : j / 10 % 10 = 0 := by omega
    have e4 : j % 10 = j := by omega
    rw [e1, e2, e3, e4]
    rfl
  · obtain ⟨f, rfl⟩ : ∃ f, j = f + 1 := ⟨j - 1, by omega⟩
    rw [toDigitsCore_step _ _ _ (by omega)]
    by_cases h2 : f + 1 < 100
    · rw [toDigitsCore_small _ _ _ (by omega)]
      have e1 : (f + 1) / 1000 = 0 := by omega
      have e2 : (f + 1) / 100 % 10 = 0 := by omega
      have e3 : (f + 1) / 10 % 10 = (f + 1) / 10 := by omega
      rw [e1, e2, e3]
      rfl
    · obtain ⟨g, rfl⟩ : ∃ g, f = g + 1 := ⟨f - 1, by omega⟩
      rw [toDigitsCore_step _ _ _ (by omega)]
      by_cases h3 : g + 1 + 1 < 1000
      · rw [toDigitsCore_small _ _ _ (by omega)]
        have e1 : (g + 1 + 1) / 1000 = 0 := by omega
        have e2 : (g + 1 + 1) / 100 % 10 = (g + 1 + 1) / 10 / 10 := by omega
        rw [e1, e2]
        rfl
      · obtain ⟨k, rfl⟩ : ∃ k, g = k + 1 := ⟨g - 1, by omega⟩
        rw [toDigitsCore_step _ _ _ (by omega), toDigitsCore_small _ _ _ (by omega)]
        have e1 : (k + 1 + 1 + 1) / 1000 = (k + 1 + 1 + 1) / 10 / 10 / 10 := by omega
        have e2 : (k + 1 + 1 + 1) / 100 % 10 = (k + 1 + 1 + 1) / 10 / 10 % 10 := by omega
        rw [e1, e2]
        rfl

/-- A number of 10000 or more is printed whole. -/
theorem pad4_large (j : Nat) (h : 10000 ≤ j) : pad4 j = toString j := by
  have hs : (toString j).data = Nat.toDigitsCore 10 (j + 1) j [] := rfl
  have hl : (toString j).length = (toString j).data.length := rfl
  have hlen : 4 ≤ (toString j).length := by
    rw [hl, hs]
    obtain ⟨f, rfl⟩ : ∃ f, j = f + 4 := ⟨j - 4, by omega⟩
    rw [toDigitsCore_step _ _ _ (by omega), toDigitsCore_step _ _ _ (by omega),
      toDigitsCore_step _ _ _ (by omega)]
    have := toDigitsCore_length (f + 1) ((f + 4) / 10 / 10 / 10)
      [Nat.digitChar ((f + 4) / 10 / 10 % 10), Nat.digitChar ((f + 4) / 10 % 10),
        Nat.digitChar ((f + 4) % 10)]
    simpa using this
  unfold pad4
  have : 4 - (toString j).length = 0 := by omega
  rw [this]
  apply String.ext
  rw [String.data_append]
  rfl

/-- C18. Within one call of `Sanitize` that returns a result, for every rule
set: the mappings carry the entity types and the original values of the kept
matches in their left-to-right order; the placeholder of every mapping is the
surrogate of index `j`, where its original value is the `j`-th distinct original
value of its entity type in that order; the surrogate of index `j` is
`personJ@example.net` for EMAIL, `redacted-J` for a type other than EMAIL,
PHONE and SSN, and for PHONE and SSN it is `555-010-` and `900-00-` followed by
the four decimal digits of `j` (thousands, hundreds, tens, units, so with zeros
on the left) when `j` is below 10000, and by the decimal text of `j` otherwise;
and two mappings of one entity type have the same placeholder exactly when they
have the same original value. -/
theorem C18_surrogate_by_first_occurrence (s : Sanitizer) (input : String) (r : Result)
    (h : s.Sanitize input = .ok r) :
    r.Mappings.map (fun x => (x.EntityType, x.OriginalValue))
      = (s.kept input).map (fun m => (m.rule.EntityType, m.value)) ∧
    (∀ x ∈ r.Mappings,
      x.Placeholder = surrogateForEntity x.EntityType (valueIndex r.Mappings x)) ∧
    (∀ j : Nat,
      surrogateForEntity "EMAIL" j = "person" ++ toString j ++ "@example.net" ∧
      (j < 10000 → surrogateForEntity "PHONE" j = String.mk ("555-010-".data ++
        [Nat.digitChar (j / 1000), Nat.digitChar (j / 100 % 10), Nat.digitChar (j / 10 % 10),
          Nat.digitChar (j % 10)])) ∧
      (10000 ≤ j → surrogateForEntity "PHONE" j = "555-010-" ++ toString j) ∧
      (j < 10000 → surrogateForEntity "SSN" j = String.mk ("900-00-".data ++
        [Nat.digitChar (j / 1000), Nat.digitChar (j / 100 % 10), Nat.digitChar (j / 10 % 10),
          Nat.digitChar (j % 10)])) ∧
      (10000 ≤ j → surrogateForEntity "SSN" j = "900-00-" ++ toString j) ∧
      ∀ t, t ≠ "EMAIL" → t ≠ "PHONE" → t ≠ "SSN" →
        surrogateForEntity t j = "redacted-" ++ toString j) ∧
    (∀ x ∈ r.Mappings, ∀ y ∈ r.Mappings, x.EntityType = y.EntityType →
      (x.Placeholder = y.Placeholder ↔ x.OriginalValue = y.OriginalValue)) := by
  refine ⟨?_, fun x hx => (sanitize_rank s input r h x hx).2, ?_, ?_⟩
  · rw [sanitize_mappings s input r h]
    exact assignSurrogates_keys _ _
  · intro j
    refine ⟨rfl, fun hj => ?_, fun hj => ?_, fun hj => ?_, fun hj => ?_, fun t h1 h2 h3 => ?_⟩
    · apply String.ext
      show ("555-010-" ++ pad4 j).data = _
      rw [String.data_append, pad4_digits j hj]
    · show "555-010-" ++ pad4 j = _
      rw [pad4_large j hj]
    · apply String.ext
      show ("900-00-" ++ pad4 j).data = _
      rw [String.data_append, pad4_digits j hj]
    · show "900-00-" ++ pad4 j = _
      rw [pad4_large j hj]
    · unfold surrogateForEntity
      simp only [if_neg h1, if_neg h2, if_neg h3]
  · intro x hx y hy hty
    obtain ⟨hxm, hxp⟩ := sanitize_rank s input r h x hx
    obtain ⟨hym, hyp⟩ := sanitize_rank s input r h y hy
    rw [hxp, hyp]
    unfold valueIndex
    rw [← hty] at hym ⊢
    constructor
    · intro hp
      have hidx := surrogateForEntity_injective _ _ _ hp
      exact (List.indexOf_inj hxm hym).mp (Nat.succ_injective hidx)
    · intro hv
      rw [hv]

set_option maxRecDepth 100000 in
/-- C18, witness: the default sanitizer on `a@b.co c@d.co a@b.co`, and on
`555-123-4567 555-123-9999 555-123-4567 123-45-6789`, where the placeholders
are `555-010-0001`, `555-010-0002`, `555-010-0001` and `900-00-0001`; and the
surrogates of index 2 of PHONE and of index 12 of SSN. -/
theorem C18_surrogate_by_first_occurrence_witness :
    (NewDefault.Sanitize "a@b.co c@d.co a@b.co" = .ok repeatedValueResult ∧
      repeatedValueResult.Mappings.map (fun x => x.Placeholder)
        = ["person1@example.net", "person2@example.net", "person1@example.net"] ∧
      (∀ x ∈ repeatedValueResult.Mappings,
        x.Placeholder = surrogateForEntity x.EntityType
          (valueIndex repeatedValueResult.Mappings x))) ∧
    (NewDefault.Sanitize "555-123-4567 555-123-9999 555-123-4567 123-45-6789"
        = .ok repeatedPhoneResult ∧
      repeatedPhoneResult.Mappings.map (fun x => x.Placeholder)
        = ["555-010-0001", "555-010-0002", "555-010-0001", "900-00-0001"] ∧
      repeatedPhoneResult.Mappings.map (fun x => valueIndex repeatedPhoneResult.Mappings x)
        = [1, 2, 1, 1] ∧
      (∀ x ∈ repeatedPhoneResult.Mappings,
        x.Placeholder = surrogateForEntity x.EntityType
          (valueIndex repeatedPhoneResult.Mappings x))) ∧
    surrogateForEntity "PHONE" 2 = "555-010-0002" ∧
    surrogateForEntity "SSN" 12 = "900-00-0012" :=
  ⟨⟨rfl, rfl,
      (C18_surrogate_by_first_occurrence NewDefault "a@b.co c@d.co a@b.co"
        repeatedValueResult rfl).2.1⟩,
    ⟨rfl, rfl, rfl,
      (C18_surrogate_by_first_occurrence NewDefault
        "555-123-4567 555-123-9999 555-123-4567 123-45-6789" repeatedPhoneResult rfl).2.1⟩,
    ((C18_surrogate_by_first_occurrence NewDefault "a@b.co c@d.co a@b.co"
      repeatedValueResult rfl).2.2.1 2).2.1 (by decide),
    ((C18_surrogate_by_first_occurrence NewDefault "a@b.co c@d.co a@b.co"
      repeatedValueResult rfl).2.2.1 12).2.2.2.1 (by decide)⟩

end Sanitizer


/-! ## Risk and analysis: the branches of the request analysis -/

namespace Risk

/-- The score of `Evaluate` when the product does not overflow. -/
theorem evaluate_of_range (s : Scorer) (detections : Int) (confidence : ℚ)
    (hrange : IsInt64 (detections * 25)) :
    s.Evaluate detections confidence =
      match categoryForScore (if detections * 25 > 100 then 100 else detections * 25) with
      | .error err => .error err
      | .ok baseCategory =>
        .ok { Score := if detections * 25 > 100 then 100 else detections * 25,
              Category := if confidence < s.confidenceThreshold then escalate baseCategory
                          else baseCategory,
              Confidence := confidence } := by
  unfold Scorer.Evaluate
  simp only [wrapInt64_of_range _ hrange]

/-- The categories that `categoryForScore` returns, with the band of the score. -/
theorem categoryForScore_ok (score : Int) (category : Category)
    (h : categoryForScore score = .ok category) :
    (category = CategoryLow ∧ 0 ≤ score ∧ score ≤ 24) ∨
    (category = CategoryMedium ∧ 25 ≤ score ∧ score ≤ 49) ∨
    (category = CategoryHigh ∧ 50 ≤ score ∧ score ≤ 74) ∨
    (category = CategoryCritical ∧ 75 ≤ score ∧ score ≤ 100) := by
  unfold categoryForScore at h
  split_ifs at h with h1 h2 h3 h4
  · simp only [Except.ok.injEq] at h
    exact Or.inl ⟨h.symm, h1⟩
  · simp only [Except.ok.injEq] at h
    exact Or.inr (Or.inl ⟨h.symm, h2⟩)
  · simp only [Except.ok.injEq] at h
    exact Or.inr (Or.inr (Or.inl ⟨h.symm, h3⟩))
  · simp only [Except.ok.injEq] at h
    exact Or.inr (Or.inr (Or.inr ⟨h.symm, h4⟩))

/-- `categoryForScore` returns a category on `[0, 100]`. -/
theorem categoryForScore_total (score : Int) (h0 : 0 ≤ score) (h100 : score ≤ 100) :
    ∃ category, categoryForScore score = .ok category := by
  unfold categoryForScore
  split_ifs with h1 h2 h3 h4
  · exact ⟨_, rfl⟩
  · exact ⟨_, rfl⟩
  · exact ⟨_, rfl⟩
  · exact ⟨_, rfl⟩
  · omega

/-- `escalate` never returns Low. -/
theorem escalate_ne_low (category : Category) : escalate category ≠ CategoryLow := by
  unfold escalate
  split_ifs <;> decide

/-- Without overflow of the product, `Evaluate` returns an error exactly for a
negative detection count. -/
theorem evaluate_error_iff (s : Scorer) (detections : Int) (confidence : ℚ)
    (hrange : IsInt64 (detections * 25)) :
    (∃ err, s.Evaluate detections confidence = .error err) ↔ detections < 0 := by
  rw [evaluate_of_range s detections confidence hrange]
  constructor
  · rintro ⟨err, h⟩
    by_contra hneg
    have h0 : (0 : Int) ≤ (if detections * 25 > 100 then 100 else detections * 25) := by
      split_ifs <;> omega
    have h100 : (if detections * 25 > 100 then 100 else detections * 25) ≤ (100 : Int) := by
      split_ifs <;> omega
    obtain ⟨category, hc⟩ := categoryForScore_total _ h0 h100
    rw [hc] at h
    cases h
  · intro hneg
    have hlt : ¬ detections * 25 > 100 := by omega
    rw [if_neg hlt]
    cases hc : categoryForScore (detections * 25) with
    | error err => exact ⟨err, rfl⟩
    | ok category =>
      rcases categoryForScore_ok _ _ hc with h | h | h | h <;> omega

/-- Without overflow of the product, a result of category Low comes from a
detection count of zero and has the score 0. -/
theorem evaluate_low (s : Scorer) (detections : Int) (confidence : ℚ) (r : Result)
    (hrange : IsInt64 (detections * 25)) (hpos : 0 ≤ detections)
    (h : s.Evaluate detections confidence = .ok r) (hlow : r.Category = CategoryLow) :
    detections = 0 ∧ r.Score = 0 := by
  rw [evaluate_of_range s detections confidence hrange] at h
  cases hc : categoryForScore (if detections * 25 > 100 then 100 else detections * 25) with
  | error err => rw [hc] at h; cases h
  | ok category =>
    rw [hc] at h
    simp only [Except.ok.injEq] at h
    rw [← h] at hlow ⊢
    simp only at hlow ⊢
    have hbase : category = CategoryLow := by
      by_cases hconf : confidence < s.confidenceThreshold
      · rw [if_pos hconf] at hlow
        exact absurd hlow (escalate_ne_low _)
      · rw [if_neg hconf] at hlow
        exact hlow
    have hband : 0 ≤ (if detections * 25 > 100 then 100 else detections * 25) ∧
        (if detections * 25 > 100 then 100 else detections * 25) ≤ (24 : Int) := by
      rcases categoryForScore_ok _ _ hc with hh | hh | hh | hh
      · exact hh.2
      · rw [hbase] at hh; exact absurd hh.1 (by decide)
      · rw [hbase] at hh; exact absurd hh.1 (by decide)
      · rw [hbase] at hh; exact absurd hh.1 (by decide)
    split_ifs at hband ⊢ <;> omega

end Risk

namespace Proxy

/-- What a successful analysis holds: the request decoded and valid, the prompt
joined of its messages, the result of the sanitizer on the prompt, the result
of the scorer on the number of mappings and their least confidence, the
hard-block flag of an SSN mapping, and the decision of the router. -/
theorem analysis_inv (h : Handler) (r : Request) (requestID : String) (b : Bool)
    (a : Analysis) (ha : h.analyzeChatRequest r requestID b = .ok a) :
    r.Body = some a.req ∧ validateRequest a.req = .ok () ∧
    a.rawPrompt = joinPrompt a.req.Messages ∧
    h.sanitizer a.rawPrompt = .ok a.sanitized ∧
    h.scorer.Evaluate (a.sanitized.Mappings.length : Int)
      (minMappingConfidence a.sanitized.Mappings) = .ok a.result ∧
    a.hasHardBlock = a.sanitized.Mappings.any (fun m => m.EntityType = "SSN") ∧
    a.decision = h.router.Decide a.result.Category a.hasHardBlock := by
  unfold Handler.analyzeChatRequest at ha
  cases hb : r.Body with
  | none => rw [hb] at ha; cases ha
  | some req =>
    rw [hb] at ha
    simp only at ha
    cases hv : validateRequest req with
    | error msg => rw [hv] at ha; cases ha
    | ok u =>
      rw [hv] at ha
      simp only at ha
      cases hs : h.sanitizer (joinPrompt req.Messages) with
      | error e => rw [hs] at ha; cases ha
      | ok sanitized =>
        rw [hs] at ha
        simp only at ha
        cases he : h.scorer.Evaluate (sanitized.Mappings.length : Int)
            (minMappingConfidence sanitized.Mappings) with
        | error e => rw [he] at ha; cases ha
        | ok result =>
          rw [he] at ha
          simp only [Except.ok.injEq] at ha
          rw [← ha]
          exact ⟨rfl, hv, rfl, hs, he, rfl, rfl⟩

/-- The outcomes with which `analyzeChatRequest` returns an error. -/
theorem analysis_error (h : Handler) (r : Request) (requestID : String) (b : Bool)
    (out : Outcome) (ha : h.analyzeChatRequest r requestID b = .error out) :
    (out.response.Status = 400 ∧ out.effects = []) ∨
    (out.response.Status = 500 ∧ out.effects = []) ∨
    (out = h.riskFailure requestID b ∧ ∃ req sanitized err, r.Body = some req ∧
      h.sanitizer (joinPrompt req.Messages) = .ok sanitized ∧
      h.scorer.Evaluate (sanitized.Mappings.length : Int)
        (minMappingConfidence sanitized.Mappings) = .error err) := by
  unfold Handler.analyzeChatRequest at ha
  cases hb : r.Body with
  | none =>
    rw [hb] at ha
    simp only [Except.error.injEq] at ha
    rw [← ha]
    exact Or.inl ⟨rfl, rfl⟩
  | some req =>
    rw [hb] at ha
    simp only at ha
    cases hv : validateRequest req with
    | error msg =>
      rw [hv] at ha
      simp only [Except.error.injEq] at ha
      rw [← ha]
      exact Or.inl ⟨rfl, rfl⟩
    | ok u =>
      rw [hv] at ha
      simp only at ha
      cases hs : h.sanitizer (joinPrompt req.Messages) with
      | error e =>
        rw [hs] at ha
        simp only [Except.error.injEq] at ha
        rw [← ha]
        exact Or.inr (Or.inl ⟨rfl, rfl⟩)
      | ok sanitized =>
        rw [hs] at ha
        simp only at ha
        cases he : h.scorer.Evaluate (sanitized.Mappings.length : Int)
            (minMappingConfidence sanitized.Mappings) with
        | error e =>
          rw [he] at ha
          simp only [Except.error.injEq] at ha
          exact Or.inr (Or.inr ⟨ha.symm, req, sanitized, e, rfl, hs, he⟩)
        | ok result => rw [he] at ha; cases ha

/-- C30. `Scorer.Evaluate` returns an error exactly when the detection count is
negative, for every count whose product with 25 does not overflow; and the
handler calls it with the length of the list of mappings, so that, when the
product of that length with 25 does not overflow, `analyzeChatRequest` never
takes the branch that answers 403 `risk evaluation failed`: the only
responses with which it returns an error are 400 and 500, and they come with
no audit record. -/
theorem C30_risk_failure_unreachable (h : Handler) (r : Request) (requestID : String)
    (auditFailures : Bool)
    (hbound : ∀ req sanitized, r.Body = some req →
      h.sanitizer (joinPrompt req.Messages) = .ok sanitized →
      (sanitized.Mappings.length : Int) * 25 < 2 ^ 63) :
    (∀ (s : Risk.Scorer) (detections : Int) (confidence : ℚ), IsInt64 (detections * 25) →
      ((∃ err, s.Evaluate detections confidence = .error err) ↔ detections < 0)) ∧
    (∀ req sanitized, r.Body = some req →
      h.sanitizer (joinPrompt req.Messages) = .ok sanitized →
      ∃ result, h.scorer.Evaluate (sanitized.Mappings.length : Int)
        (minMappingConfidence sanitized.Mappings) = .ok result) ∧
    (∀ out, h.analyzeChatRequest r requestID auditFailures = .error out →
      (out.response.Status = 400 ∨ out.response.Status = 500) ∧ out.effects = []) := by
  have hok : ∀ req sanitized, r.Body = some req →
      h.sanitizer (joinPrompt req.Messages) = .ok sanitized →
      ∃ result, h.scorer.Evaluate (sanitized.Mappings.length : Int)
        (minMappingConfidence sanitized.Mappings) = .ok result := by
    intro req sanitized hb hs
    have hlt := hbound req sanitized hb hs
    have hrange : IsInt64 ((sanitized.Mappings.length : Int) * 25) := by
      unfold IsInt64
      constructor <;> omega
    cases he : h.scorer.Evaluate (sanitized.Mappings.length : Int)
        (minMappingConfidence sanitized.Mappings) with
    | ok result => exact ⟨result, rfl⟩
    | error err =>
      have := (Risk.evaluate_error_iff h.scorer _ _ hrange).mp ⟨err, he⟩
      omega
  refine ⟨fun s d c hr => Risk.evaluate_error_iff s d c hr, hok, ?_⟩
  intro out ha
  rcases analysis_error h r requestID auditFailures out ha with h1 | h1 | ⟨_, req, sanitized, err, hb, hs, he⟩
  · exact ⟨Or.inl h1.1, h1.2⟩
  · exact ⟨Or.inr h1.1, h1.2⟩
  · obtain ⟨result, hr⟩ := hok req sanitized hb hs
    rw [hr] at he
    cases he

/-- C30, witness: the handler of the tests on the request with the message
`hello`, for which the sanitizer returns no mapping. -/
theorem C30_risk_failure_unreachable_witness :
    ∃ result, (testHandler StubUpstream none none false).scorer.Evaluate
      ((([] : List Sanitizer.Mapping).length : Nat) : Int)
      (minMappingConfidence []) = .ok result :=
  (C30_risk_failure_unreachable (testHandler StubUpstream none none false) (helloRequest "")
    "req-0" true
    (fun req sanitized hb hs => by
      have hreq : req = ChatCompletionRequest.mk "gpt-test" [ChatMessage.mk "user" "hello"] :=
        (Option.some.inj hb).symm
      subst hreq
      have hs2 : (testHandler StubUpstream none none false).sanitizer
          (joinPrompt [{ Role := "user", Content := "hello" }])
          = .ok { Sanitized := "hello", Mappings := [] } := defaultSanitizer_hello
      rw [hs2] at hs
      simp only [Except.ok.injEq] at hs
      rw [← hs]
      decide)).2.1
    { Model := "gpt-test", Messages := [{ Role := "user", Content := "hello" }] }
    { Sanitized := "hello", Mappings := [] } rfl defaultSanitizer_hello

/-- C29. For every handler (sanitizer, scorer threshold and router flags) and
every request whose analysis succeeds, the number of mappings being such that
its product with 25 does not overflow: if the category of the result is Low,
the sanitizer reported zero mappings, the score is 0 and the hard-block flag
is false; and if the decision is `raw_forward`, the category is Low, so the
sanitizer reported zero mappings. -/
theorem C29_raw_forward_no_mappings (h : Handler) (r : Request) (requestID : String)
    (auditFailures : Bool) (a : Analysis)
    (ha : h.analyzeChatRequest r requestID auditFailures = .ok a)
    (hbound : (a.sanitized.Mappings.length : Int) * 25 < 2 ^ 63) :
    (a.result.Category = Risk.CategoryLow →
      a.sanitized.Mappings = [] ∧ a.result.Score = 0 ∧ a.hasHardBlock = false) ∧
    (a.decision.Route = Router.RouteRawForward →
      a.result.Category = Risk.CategoryLow ∧ a.sanitized.Mappings = [] ∧
      a.hasHardBlock = false ∧ h.router.allowRawForwarding = true) := by
  obtain ⟨_, _, _, _, he, hhb, hd⟩ := analysis_inv h r requestID auditFailures a ha
  have hrange : IsInt64 ((a.sanitized.Mappings.length : Int) * 25) := by
    unfold IsInt64
    constructor <;> omega
  have hlow : a.result.Category = Risk.CategoryLow →
      a.sanitized.Mappings = [] ∧ a.result.Score = 0 ∧ a.hasHardBlock = false := by
    intro hcat
    obtain ⟨h0, hscore⟩ := Risk.evaluate_low h.scorer _ _ a.result hrange (by omega) he hcat
    have hnil : a.sanitized.Mappings = [] :=
      List.length_eq_zero.mp (by exact_mod_cast h0)
    refine ⟨hnil, hscore, ?_⟩
    rw [hhb, hnil]
    rfl
  refine ⟨hlow, ?_⟩
  intro hroute
  rw [hd] at hroute
  unfold Router.Engine.Decide at hroute
  split_ifs at hroute with h1 h2
  · obtain ⟨hnil, _, hhard⟩ := hlow h1
    refine ⟨h1, hnil, hhard, ?_⟩
    simp only [Bool.and_eq_true] at h2
    exact h2.1
  all_goals first
    | exact absurd (show Router.RouteSanitizedForward = Router.RouteRawForward from hroute)
        (by decide)
    | exact absurd (show Router.RouteHighAbstraction = Router.RouteRawForward from hroute)
        (by decide)
    | exact absurd (show Router.RouteCriticalLocalOnly = Router.RouteRawForward from hroute)
        (by decide)
    | exact absurd (show Router.RouteCriticalBlocked = Router.RouteRawForward from hroute)
        (by decide)

/-- C29, witness: the handler of the tests on the request with the message
`hello`: the category is Low and there is no mapping. -/
theorem C29_raw_forward_no_mappings_witness :
    helloAnalysis.result.Category = Risk.CategoryLow ∧ helloAnalysis.sanitized.Mappings = [] :=
  ⟨rfl, ((C29_raw_forward_no_mappings (testHandler StubUpstream none none false)
    (helloRequest "") "req-0" true helloAnalysis
    (testHandler_hello_analysis StubUpstream none none false true "" "req-0")
    (by decide)).1 rfl).1⟩

end Proxy

/-! ## Proxy: request validation -/

namespace GoString

/-- `TrimSpace` leaves nothing exactly of a text of white space. -/
theorem TrimSpace_eq_nil_iff (s : List Char) :
    TrimSpace s = [] ↔ ∀ c ∈ s, isSpace c = true := by
  unfold TrimSpace
  rw [List.reverse_eq_nil_iff, List.dropWhile_eq_nil_iff]
  constructor
  · intro h
    have hall : ∀ c ∈ s.dropWhile isSpace, isSpace c = true :=
      fun c hc => h c (List.mem_reverse.mpr hc)
    have hnil : s.dropWhile isSpace = [] := by
      cases hd : s.dropWhile isSpace with
      | nil => rfl
      | cons x xs =>
        have hx : isSpace x = true := hall x (by rw [hd]; exact List.mem_cons_self _ _)
        have hnot := List.head_dropWhile_not isSpace s (by rw [hd]; exact List.cons_ne_nil _ _)
        simp only [hd, List.head_cons] at hnot
        rw [hx] at hnot
        exact absurd hnot (by decide)
    exact List.dropWhile_eq_nil_iff.mp hnil
  · intro h c hc
    have hnil : s.dropWhile isSpace = [] := List.dropWhile_eq_nil_iff.mpr h
    rw [hnil] at hc
    simp at hc

end GoString

namespace Proxy

/-- A string is empty after `strings.TrimSpace` exactly when it consists of
white space only. -/
theorem trimSpace_eq_empty_iff (s : String) :
    trimSpace s = "" ↔ ∀ c ∈ s.data, GoString.isSpace c = true := by
  unfold trimSpace
  rw [← GoString.TrimSpace_eq_nil_iff]
  constructor
  · intro h
    have := congrArg String.data h
    exact this
  · intro h
    rw [h]

/-- The loop over the messages succeeds exactly when every message has a role
and a content. -/
theorem validateMessages_ok_iff :
    ∀ (ms : List ChatMessage) (i : Nat),
      validateMessages ms i = .ok () ↔
        ∀ m ∈ ms, trimSpace m.Role ≠ "" ∧ trimSpace m.Content ≠ "" := by
  intro ms
  induction ms with
  | nil => intro i; simp [validateMessages]
  | cons m ms ih =>
    intro i
    rw [validateMessages]
    by_cases hr : trimSpace m.Role = ""
    · rw [if_pos hr]
      constructor
      · intro h; cases h
      · intro h; exact absurd hr (h m (List.mem_cons_self _ _)).1
    · rw [if_neg hr]
      by_cases hc : trimSpace m.Content = ""
      · rw [if_pos hc]
        constructor
        · intro h; cases h
        · intro h; exact absurd hc (h m (List.mem_cons_self _ _)).2
      · rw [if_neg hc, ih]
        constructor
        · intro h x hx
          rcases List.mem_cons.mp hx with rfl | hx
          · exact ⟨hr, hc⟩
          · exact h x hx
        · intro h x hx
          exact h x (List.mem_cons_of_mem _ hx)

/-- The loop over the messages stops at the first message that lacks a role or
a content, and names its index and the field: the role before the content. -/
theorem validateMessages_first :
    ∀ (pre : List ChatMessage) (m : ChatMessage) (post : List ChatMessage) (i : Nat),
      (∀ x ∈ pre, trimSpace x.Role ≠ "" ∧ trimSpace x.Content ≠ "") →
      validateMessages (pre ++ m :: post) i =
        if trimSpace m.Role = "" then
          .error ("messages[" ++ toString (i + pre.length) ++ "].role is required")
        else if trimSpace m.Content = "" then
          .error ("messages[" ++ toString (i + pre.length) ++ "].content is required")
        else validateMessages post (i + pre.length + 1) := by
  intro pre
  induction pre with
  | nil => intro m post i _; rfl
  | cons x pre ih =>
    intro m post i hpre
    have hx := hpre x (List.mem_cons_self _ _)
    rw [List.cons_append, validateMessages, if_neg hx.1, if_neg hx.2,
      ih m post (i + 1) (fun y hy => hpre y (List.mem_cons_of_mem _ hy))]
    have hlen : i + 1 + pre.length = i + (x :: pre).length := by
      rw [List.length_cons]; omega
    rw [hlen]

/-- The two handlers answer a request that does not validate with 400
`ERR_VALIDATION` and the message of `validateRequest`, and call nothing. -/
theorem analyze_invalid (h : Handler) (r : Request) (requestID : String) (b : Bool)
    (req : ChatCompletionRequest) (msg : String) (hb : r.Body = some req)
    (hv : validateRequest req = .error msg) :
    h.analyzeChatRequest r requestID b =
      .error { response := writeError 400 "ERR_VALIDATION" msg requestID, effects := [] } := by
  unfold Handler.analyzeChatRequest
  rw [hb]
  simp only
  rw [hv]

/-- C22. `validateRequest` returns no error if and only if the model is not
empty, there is at least one message, and every message has a role and a
content that are not empty, where a value is empty when nothing is left of it
after `strings.TrimSpace`, that is when it consists of white space only.
Otherwise both handlers answer 400 `ERR_VALIDATION` with the message of the
error, and the message names the first failing check: the model, then the
number of messages, then for each message index its role before its content. -/
theorem C22_validateRequest (req : ChatCompletionRequest) :
    (validateRequest req = .ok () ↔
      trimSpace req.Model ≠ "" ∧ req.Messages ≠ [] ∧
      ∀ m ∈ req.Messages, trimSpace m.Role ≠ "" ∧ trimSpace m.Content ≠ "") ∧
    (∀ s : String, trimSpace s = "" ↔ ∀ c ∈ s.data, GoString.isSpace c = true) ∧
    (∀ (h : Handler) (env : Env) (r : Request) (msg : String),
      r.Method = "POST" → r.Body = some req → validateRequest req = .error msg →
      h.HandleChatCompletions env r =
        { response := writeError 400 "ERR_VALIDATION" msg env.requestID, effects := [] } ∧
      h.HandleDebugExplain env r =
        { response := writeError 400 "ERR_VALIDATION" msg env.requestID, effects := [] }) ∧
    (trimSpace req.Model = "" → validateRequest req = .error "model is required") ∧
    (trimSpace req.Model ≠ "" → req.Messages = [] →
      validateRequest req = .error "at least one message is required") ∧
    (∀ (pre : List ChatMessage) (m : ChatMessage) (post : List ChatMessage),
      trimSpace req.Model ≠ "" → req.Messages = pre ++ m :: post →
      (∀ x ∈ pre, trimSpace x.Role ≠ "" ∧ trimSpace x.Content ≠ "") →
      (trimSpace m.Role = "" → validateRequest req =
        .error ("messages[" ++ toString pre.length ++ "].role is required")) ∧
      (trimSpace m.Role ≠ "" → trimSpace m.Content = "" → validateRequest req =
        .error ("messages[" ++ toString pre.length ++ "].content is required"))) := by
  refine ⟨?_, trimSpace_eq_empty_iff, ?_, ?_, ?_, ?_⟩
  · unfold validateRequest
    by_cases hm : trimSpace req.Model = ""
    · rw [if_pos hm]
      constructor
      · intro h; cases h
      · intro h; exact absurd hm h.1
    · rw [if_neg hm]
      by_cases hl : req.Messages.length = 0
      · rw [if_pos hl]
        constructor
        · intro h; cases h
        · intro h; exact absurd (List.length_eq_zero.mp hl) h.2.1
      · rw [if_neg hl, validateMessages_ok_iff]
        constructor
        · intro h; exact ⟨hm, fun hc => hl (by rw [hc]; rfl), h⟩
        · intro h; exact h.2.2
  · intro h env r msg hpost hb hv
    constructor
    · unfold Handler.HandleChatCompletions
      simp only
      rw [if_neg (not_not.mpr hpost), analyze_invalid h r env.requestID true req msg hb hv]
    · unfold Handler.HandleDebugExplain
      simp only
      rw [if_neg (not_not.mpr hpost), analyze_invalid h r env.requestID false req msg hb hv]
  · intro hm
    unfold validateRequest
    rw [if_pos hm]
  · intro hm hl
    unfold validateRequest
    rw [if_neg hm, if_pos (by rw [hl]; rfl)]
  · intro pre m post hm hl hpre
    have hne : ¬ req.Messages.length = 0 := by
      rw [hl, List.length_append, List.length_cons]; omega
    have hfirst := validateMessages_first pre m post 0 hpre
    rw [Nat.zero_add] at hfirst
    constructor
    · intro hr
      unfold validateRequest
      rw [if_neg hm, if_neg hne, hl, hfirst, if_pos hr]
    · intro hr hc
      unfold validateRequest
      rw [if_neg hm, if_neg hne, hl, hfirst, if_neg hr, if_pos hc]

end Proxy

/-! ## Proxy: the debug explain endpoint -/

namespace Proxy

/-- What the analysis reads of the mappings does not depend on their original
values. -/
theorem mappings_reads (xs ys : List Sanitizer.Mapping)
    (hm : List.Forall₂ (fun x y => x.Placeholder = y.Placeholder ∧
      x.EntityType = y.EntityType ∧ x.ConfidenceScore = y.ConfidenceScore) xs ys) :
    xs.length = ys.length ∧
    minMappingConfidence xs = minMappingConfidence ys ∧
    xs.any (fun m => m.EntityType = "SSN") = ys.any (fun m => m.EntityType = "SSN") ∧
    explainMappings xs = explainMappings ys := by
  refine ⟨hm.length_eq, ?_, ?_, ?_⟩
  · cases hm with
    | nil => rfl
    | @cons x y xs ys hxy hrest =>
      show List.foldl (fun acc x => if x.ConfidenceScore < acc then x.ConfidenceScore else acc)
          x.ConfidenceScore xs
        = List.foldl (fun acc x => if x.ConfidenceScore < acc then x.ConfidenceScore else acc)
          y.ConfidenceScore ys
      rw [hxy.2.2]
      generalize y.ConfidenceScore = acc
      induction hrest generalizing acc with
      | nil => rfl
      | cons hhead _ ih =>
        simp only [List.foldl_cons]
        rw [hhead.2.2]
        exact ih _
  · induction hm with
    | nil => rfl
    | cons hhead _ ih =>
      simp only [List.any_cons]
      rw [ih, hhead.2.1]
  · unfold explainMappings
    induction hm with
    | nil => rfl
    | cons hhead _ ih =>
      simp only [List.map_cons]
      rw [ih, hhead.1, hhead.2.1, hhead.2.2]

theorem sameButOriginals_reads (a b : Sanitizer.Result) (hab : SameButOriginals a b) :
    a.Sanitized = b.Sanitized ∧ a.Mappings.length = b.Mappings.length ∧
    minMappingConfidence a.Mappings = minMappingConfidence b.Mappings ∧
    a.Mappings.any (fun m => m.EntityType = "SSN")
      = b.Mappings.any (fun m => m.EntityType = "SSN") ∧
    explainMappings a.Mappings = explainMappings b.Mappings :=
  ⟨hab.1, mappings_reads _ _ hab.2⟩

/-- The analysis with a sanitizer that agrees with the handler's up to the
original values: the same outcome on an error, and on success an analysis that
agrees in everything but the original values. -/
theorem analyze_sanitizersAgree (h : Handler) (s' : SanitizerFn)
    (hagree : SanitizersAgree h.sanitizer s') (r : Request) (requestID : String) (b : Bool) :
    match h.analyzeChatRequest r requestID b,
        ({ h with sanitizer := s' } : Handler).analyzeChatRequest r requestID b with
    | .error out, .error out' => out = out'
    | .ok a, .ok a' =>
      a.req = a'.req ∧ a.rawPrompt = a'.rawPrompt ∧ SameButOriginals a.sanitized a'.sanitized ∧
      a.result = a'.result ∧ a.hasHardBlock = a'.hasHardBlock ∧ a.decision = a'.decision
    | _, _ => False := by
  unfold Handler.analyzeChatRequest
  cases r.Body with
  | none => exact rfl
  | some req =>
    simp only
    cases validateRequest req with
    | error msg => exact rfl
    | ok u =>
      simp only
      have hag := hagree (joinPrompt req.Messages)
      cases hs : h.sanitizer (joinPrompt req.Messages) with
      | error e =>
        cases hs' : s' (joinPrompt req.Messages) with
        | error e' => exact rfl
        | ok res' => rw [hs, hs'] at hag; exact hag.elim
      | ok res =>
        cases hs' : s' (joinPrompt req.Messages) with
        | error e' => rw [hs, hs'] at hag; exact hag.elim
        | ok res' =>
          rw [hs, hs'] at hag
          simp only at hag
          obtain ⟨_, hlen, hconf, hany, _⟩ := sameButOriginals_reads res res' hag
          simp only
          rw [← hlen, ← hconf, ← hany]
          cases h.scorer.Evaluate (res.Mappings.length : Int)
              (minMappingConfidence res.Mappings) with
          | error e => exact rfl
          | ok result => exact ⟨rfl, rfl, hag, rfl, rfl, rfl⟩

/-- The sanitizer with masked original values agrees with the default
sanitizer up to the original values. -/
theorem maskedSanitizer_agrees : SanitizersAgree defaultSanitizer maskedSanitizer := by
  intro text
  unfold maskedSanitizer
  cases defaultSanitizer text with
  | error e => trivial
  | ok result =>
    refine ⟨rfl, ?_⟩
    simp only
    rw [List.forall₂_map_right_iff]
    exact List.forall₂_same.mpr (fun _ _ => ⟨rfl, rfl, rfl⟩)

/-- C26. The response of the debug explain endpoint does not include the
original values: for every request whose analysis succeeds the response is 200
with an `ExplainResponse` whose list of mappings has one entry for each mapping
of the sanitizer, in order, holding that mapping's placeholder, entity type and
confidence and nothing else; the endpoint writes no audit record and calls
neither the upstream nor the abstractor; and for every request, a handler whose
sanitizer returns results that differ only in the `OriginalValue` fields of the
mappings gives the same response. -/
theorem C26_explain_without_original_values (h : Handler) (s' : SanitizerFn) (env : Env)
    (r : Request) (hagree : SanitizersAgree h.sanitizer s') :
    (∀ a, r.Method = "POST" → h.analyzeChatRequest r env.requestID false = .ok a →
      ∃ e : ExplainResponse,
        h.HandleDebugExplain env r = { response := { Status := 200, Body := .explain e },
                                       effects := [] } ∧
        e.SanitizedInput = a.sanitized.Sanitized ∧
        List.Forall₂ (fun (m : Sanitizer.Mapping) (x : ExplainMapping) =>
          x.Placeholder = m.Placeholder ∧ x.EntityType = m.EntityType ∧
          x.Confidence = m.ConfidenceScore) a.sanitized.Mappings e.Mappings) ∧
    (h.HandleDebugExplain env r).effects = [] ∧
    ({ h with sanitizer := s' } : Handler).HandleDebugExplain env r = h.HandleDebugExplain env r := by
  refine ⟨?_, ?_, ?_⟩
  · intro a hpost ha
    unfold Handler.HandleDebugExplain
    simp only
    rw [if_neg (not_not.mpr hpost), ha]
    refine ⟨_, rfl, rfl, ?_⟩
    simp only [explainMappings]
    rw [List.forall₂_map_right_iff]
    exact List.forall₂_same.mpr (fun _ _ => ⟨rfl, rfl, rfl⟩)
  · unfold Handler.HandleDebugExplain
    simp only
    by_cases hpost : r.Method = "POST"
    · rw [if_neg (not_not.mpr hpost)]
      cases ha : h.analyzeChatRequest r env.requestID false with
      | ok a => rfl
      | error out =>
        simp only
        rcases analysis_error h r env.requestID false out ha with h1 | h1 | ⟨h1, _⟩
        · exact h1.2
        · exact h1.2
        · rw [h1]; rfl
    · rw [if_pos hpost]
  · have hag := analyze_sanitizersAgree h s' hagree r env.requestID false
    unfold Handler.HandleDebugExplain
    simp only
    by_cases hpost : r.Method = "POST"
    · rw [if_neg (not_not.mpr hpost), if_neg (not_not.mpr hpost)]
      cases ha : h.analyzeChatRequest r env.requestID false with
      | error out =>
        cases ha' : ({ h with sanitizer := s' } : Handler).analyzeChatRequest r env.requestID
            false with
        | error out' => rw [ha, ha'] at hag; simp only at hag ⊢; exact hag.symm
        | ok a' => rw [ha, ha'] at hag; exact hag.elim
      | ok a =>
        cases ha' : ({ h with sanitizer := s' } : Handler).analyzeChatRequest r env.requestID
            false with
        | error out' => rw [ha, ha'] at hag; exact hag.elim
        | ok a' =>
          rw [ha, ha'] at hag
          simp only at hag ⊢
          obtain ⟨hreq, _, hsame, hres, hhb, hdec⟩ := hag
          obtain ⟨hs, hlen, hconf, _, hexp⟩ := sameButOriginals_reads _ _ hsame
          rw [← hreq, ← hs, ← hlen, ← hconf, ← hres, ← hhb, ← hdec, ← hexp]
    · rw [if_pos hpost, if_pos hpost]

/-- C26, witness: the handler of the tests and the same handler with the
original values masked answer the request of the two detections alike. -/
theorem C26_explain_without_original_values_witness :
    SanitizersAgree defaultSanitizer maskedSanitizer ∧
    ({ testHandler StubUpstream none none false with sanitizer := maskedSanitizer } :
      Handler).HandleDebugExplain (testEnv false) highRequest
      = (testHandler StubUpstream none none false).HandleDebugExplain (testEnv false)
          highRequest :=
  ⟨maskedSanitizer_agrees,
    (C26_explain_without_original_values (testHandler StubUpstream none none false)
      maskedSanitizer (testEnv false) highRequest maskedSanitizer_agrees).2.2⟩

end Proxy

/-! ## Proxy: the prompt of each route, and what the abstractor receives -/

namespace Proxy

/-- The abstraction step with an abstractor that succeeds: its output, after
one call with the request built of the sanitizer's result. -/
theorem requireAbstraction_ok (h : Handler) (env : Env) (a : Analysis) (summary : String)
    (ab : Abstractor) (abstraction : String) (hab : h.abstractor = some ab)
    (hok : ab (abstractReqFor env a) = .ok abstraction) :
    h.requireAbstraction env.requestID a.sanitized a.decision summary
      = .ok (abstraction, [.abstractCall (abstractReqFor env a)]) := by
  unfold Handler.requireAbstraction
  rw [hab]
  simp only
  unfold abstractReqFor at hok
  rw [hok]
  rfl

/-- The upstream requests of the forwarding routes: the request built of the
analysis, once or twice. -/
theorem forward_upstreamRequests (h : Handler) (env : Env) (r : Request) (a : Analysis)
    (up : UpstreamAdapter) (hm : r.Method = "POST")
    (ha : h.analyzeChatRequest r env.requestID true = .ok a)
    (hroute : a.decision.Route = Router.RouteRawForward ∨
      a.decision.Route = Router.RouteSanitizedForward)
    (hup : h.upstream = some up) :
    upstreamRequests (h.HandleChatCompletions env r).effects = [forwardReqFor env r a] ∨
    upstreamRequests (h.HandleChatCompletions env r).effects
      = [forwardReqFor env r a, forwardReqFor env r a] := by
  rw [handle_forward h env r a up hm ha hroute hup]
  cases up 0 (forwardReqFor env r a) with
  | ok resp =>
    simp only
    rw [(finishForward_effects _ _ _ _ _ _ _).1]
    exact Or.inl rfl
  | error err =>
    simp only
    split_ifs
    · rw [(finishForward_effects _ _ _ _ _ _ _).1]
      exact Or.inr rfl
    · rw [(finishForward_effects _ _ _ _ _ _ _).1]
      exact Or.inl rfl

/-- C28. For every valid request (a POST request whose analysis succeeds): the
raw prompt is the contents of the messages joined with line feeds; with an
upstream adapter configured, every prompt handed to it (there is at least one)
is the raw prompt on the route `raw_forward` and the sanitizer's sanitized text
on the route `sanitized_forward`; on the route `high_abstraction`, when the
abstractor succeeds, the one prompt handed to the upstream is the abstractor's
output; on the route `critical_local_only`, when the abstractor succeeds, the
response is the success response whose content is the abstractor's output
(unless the audit append fails in strict mode, which answers 500), and no
prompt is handed to the upstream; and the output of the passthrough abstractor
is the sanitized text. -/
theorem C28_prompt_by_route (h : Handler) (env : Env) (r : Request) (a : Analysis)
    (hm : r.Method = "POST")
    (ha : h.analyzeChatRequest r env.requestID true = .ok a) :
    a.rawPrompt = "\n".intercalate (a.req.Messages.map (fun m => m.Content)) ∧
    (∀ up, h.upstream = some up → a.decision.Route = Router.RouteRawForward →
      upstreamRequests (h.HandleChatCompletions env r).effects ≠ [] ∧
      ∀ req ∈ upstreamRequests (h.HandleChatCompletions env r).effects,
        req.SanitizedPrompt = a.rawPrompt) ∧
    (∀ up, h.upstream = some up → a.decision.Route = Router.RouteSanitizedForward →
      upstreamRequests (h.HandleChatCompletions env r).effects ≠ [] ∧
      ∀ req ∈ upstreamRequests (h.HandleChatCompletions env r).effects,
        req.SanitizedPrompt = a.sanitized.Sanitized) ∧
    (∀ up ab abstraction, h.upstream = some up → h.abstractor = some ab →
      ab (abstractReqFor env a) = .ok abstraction →
      a.decision.Route = Router.RouteHighAbstraction →
      (upstreamRequests (h.HandleChatCompletions env r).effects).map
        (fun req => req.SanitizedPrompt) = [abstraction]) ∧
    (∀ ab abstraction, h.abstractor = some ab →
      ab (abstractReqFor env a) = .ok abstraction →
      a.decision.Route = Router.RouteCriticalLocalOnly →
      upstreamRequests (h.HandleChatCompletions env r).effects = [] ∧
      (h.HandleChatCompletions env r).response =
        match (h.appendAudit env.requestID a.decision.Category a.decision.Route
            (summaryFor a ++ " local-only-success")).1 with
        | .error _ => writeError 500 "ERR_AUDIT_FAILURE" "audit append failed" env.requestID
        | .ok _ => writeSuccess env.requestID a.req.Model abstraction) ∧
    PassthroughAbstractor (abstractReqFor env a) = .ok a.sanitized.Sanitized := by
  obtain ⟨_, _, hraw, _⟩ := analysis_inv h r env.requestID true a ha
  refine ⟨hraw, ?_, ?_, ?_, ?_, rfl⟩
  · intro up hup hroute
    have hreqs := forward_upstreamRequests h env r a up hm ha (Or.inl hroute) hup
    have hprompt : (forwardReqFor env r a).SanitizedPrompt = a.rawPrompt := by
      unfold forwardReqFor
      simp only
      rw [if_pos hroute]
    rcases hreqs with hreqs | hreqs <;> rw [hreqs] <;>
      refine ⟨List.cons_ne_nil _ _, fun req hreq => ?_⟩ <;>
      simp only [List.mem_cons, List.mem_singleton, List.not_mem_nil, or_false, or_self]
        at hreq <;>
      rw [hreq] <;> exact hprompt
  · intro up hup hroute
    have hreqs := forward_upstreamRequests h env r a up hm ha (Or.inr hroute) hup
    have hprompt : (forwardReqFor env r a).SanitizedPrompt = a.sanitized.Sanitized := by
      unfold forwardReqFor
      simp only
      rw [if_neg (by rw [hroute]; decide)]
    rcases hreqs with hreqs | hreqs <;> rw [hreqs] <;>
      refine ⟨List.cons_ne_nil _ _, fun req hreq => ?_⟩ <;>
      simp only [List.mem_cons, List.mem_singleton, List.not_mem_nil, or_false, or_self]
        at hreq <;>
      rw [hreq] <;> exact hprompt
  · intro up ab abstraction hup hab hok hroute
    rw [handle_high h env r a hm ha hroute,
      requireAbstraction_ok h env a (summaryFor a) ab abstraction hab hok, hup]
    simp only
    rw [(finishForward_effects _ _ _ _ _ _ _).1]
    rfl
  · intro ab abstraction hab hok hroute
    have h1 : ¬ (a.decision.Route = Router.RouteRawForward ∨
        a.decision.Route = Router.RouteSanitizedForward) := by
      rw [hroute]; decide
    have h2 : ¬ a.decision.Route = Router.RouteHighAbstraction := by
      rw [hroute]; decide
    rw [handle_critical h env r a hm ha h1 h2, if_pos hroute,
      requireAbstraction_ok h env a (summaryFor a) ab abstraction hab hok]
    simp only
    have he := appendAudit_effects h env.requestID a.decision.Category a.decision.Route
      (summaryFor a ++ " local-only-success")
    cases hres : h.appendAudit env.requestID a.decision.Category a.decision.Route
        (summaryFor a ++ " local-only-success") with
    | mk res auditEffects =>
      rw [hres] at he
      cases res with
      | error e =>
        simp only
        exact ⟨by rw [upstreamRequests_append, he.1]; rfl, by first | rfl | trivial⟩
      | ok u =>
        simp only
        exact ⟨by rw [upstreamRequests_append, he.1]; rfl, by first | rfl | trivial⟩

/-- C28, witness: the handler of the tests with the passthrough abstractor on
the request of the two detections, on the route `high_abstraction`: the prompt
handed to the upstream is the sanitized text. -/
theorem C28_prompt_by_route_witness :
    (upstreamRequests ((testHandler StubUpstream (some PassthroughAbstractor) none
      false).HandleChatCompletions (testEnv false) highRequest).effects).map
        (fun req => req.SanitizedPrompt) = ["person1@example.net and 555-010-0001"] :=
  (C28_prompt_by_route (testHandler StubUpstream (some PassthroughAbstractor) none false)
    (testEnv false) highRequest highAnalysis rfl
    (testHandler_high_analysis _ _ _ _ _ _)).2.2.2.1 StubUpstream PassthroughAbstractor
    "person1@example.net and 555-010-0001" rfl rfl rfl rfl

/-- The requests passed to the abstractor on the routes `high_abstraction` and
`critical_local_only`, with an abstractor configured: one request, which
carries the mappings of the sanitizer, original values included. -/
theorem abstractRequests_carry_mappings (h : Handler) (env : Env) (r : Request) (a : Analysis)
    (ab : Abstractor) (hm : r.Method = "POST")
    (ha : h.analyzeChatRequest r env.requestID true = .ok a)
    (hroute : a.decision.Route = Router.RouteHighAbstraction ∨
      a.decision.Route = Router.RouteCriticalLocalOnly)
    (hab : h.abstractor = some ab) :
    ∃ rest, (h.HandleChatCompletions env r).effects = .abstractCall (abstractReqFor env a) :: rest ∧
      (abstractReqFor env a).Mappings = a.sanitized.Mappings := by
  have hreq : h.requireAbstraction env.requestID a.sanitized a.decision (summaryFor a)
      = match ab (abstractReqFor env a) with
        | .error _ =>
          .error { response := writeError 503 "ERR_ABSTRACTION_UNAVAILABLE"
                     "local abstraction failed" env.requestID,
                   effects := .abstractCall (abstractReqFor env a) ::
                     (h.appendAudit env.requestID a.decision.Category a.decision.Route
                       (summaryFor a ++ " abstraction-failed")).2 }
        | .ok abstraction => .ok (abstraction, [.abstractCall (abstractReqFor env a)]) := by
    unfold Handler.requireAbstraction
    rw [hab]
    rfl
  rcases hroute with hroute | hroute
  · rw [handle_high h env r a hm ha hroute, hreq]
    cases ab (abstractReqFor env a) with
    | error e => exact ⟨_, rfl, rfl⟩
    | ok abstraction =>
      simp only
      cases h.upstream with
      | none => exact ⟨_, rfl, rfl⟩
      | some up =>
        simp only
        unfold Handler.finishForward
        cases up 0 _ with
        | error err =>
          simp only
          split_ifs
          all_goals exact ⟨_, rfl, rfl⟩
        | ok resp =>
          simp only
          cases h.appendAudit env.requestID a.decision.Category a.decision.Route
              (summaryFor a ++ " success") with
          | mk res auditEffects =>
            cases res <;> exact ⟨_, rfl, rfl⟩
  · have h1 : ¬ (a.decision.Route = Router.RouteRawForward ∨
        a.decision.Route = Router.RouteSanitizedForward) := by
      rw [hroute]; decide
    have h2 : ¬ a.decision.Route = Router.RouteHighAbstraction := by
      rw [hroute]; decide
    rw [handle_critical h env r a hm ha h1 h2, if_pos hroute, hreq]
    cases ab (abstractReqFor env a) with
    | error e => exact ⟨_, rfl, rfl⟩
    | ok abstraction =>
      simp only
      cases h.appendAudit env.requestID a.decision.Category a.decision.Route
          (summaryFor a ++ " local-only-success") with
      | mk res auditEffects =>
        cases res <;> exact ⟨_, rfl, rfl⟩

/-- C21, counterexample: the handler of the tests with the passthrough
abstractor, on the request of `alice@example.com and 555-123-4567` (category
High, route `high_abstraction`), passes to the abstractor one request, and that
request carries the two mappings of the sanitizer, with the original values
`alice@example.com` and `555-123-4567`. -/
theorem C21_counterexample :
    highAnalysis.decision.Route = Router.RouteHighAbstraction ∧
    abstractRequests ((testHandler StubUpstream (some PassthroughAbstractor) none
      false).HandleChatCompletions (testEnv false) highRequest).effects
      = [{ RequestID := "req-0", SanitizedPrompt := "person1@example.net and 555-010-0001",
           Mappings := highAnalysis.sanitized.Mappings,
           Route := Router.RouteHighAbstraction }] ∧
    highAnalysis.sanitized.Mappings.map (fun m => m.OriginalValue)
      = ["alice@example.com", "555-123-4567"] := by
  refine ⟨rfl, ?_, rfl⟩
  rw [handle_high _ (testEnv false) highRequest highAnalysis rfl
    (testHandler_high_analysis _ _ _ _ _ _) rfl]
  rfl

theorem abstractRequests_append (xs ys : List Effect) :
    abstractRequests (xs ++ ys) = abstractRequests xs ++ abstractRequests ys := by
  induction xs with
  | nil => rfl
  | cons x xs ih =>
    cases x <;> simp [abstractRequests, ih]

theorem appendAudit_abstractRequests (h : Handler) (requestID : String)
    (category : Risk.Category) (route : Router.Route) (summary : String) :
    abstractRequests (h.appendAudit requestID category route summary).2 = [] := by
  unfold Handler.appendAudit
  cases h.audit with
  | none => rfl
  | some audit =>
    simp only
    cases audit _ <;> rfl

theorem finishForward_abstractRequests (h : Handler) (env : Env) (req : ChatCompletionRequest)
    (decision : Router.Decision) (summary : String) (effects : List Effect)
    (res : Except UpstreamError ForwardResponse) :
    abstractRequests (h.finishForward env req decision summary effects res).effects
      = abstractRequests effects := by
  unfold Handler.finishForward
  cases res with
  | error err =>
    simp only
    split_ifs <;>
      simp only [abstractRequests_append, appendAudit_abstractRequests, List.append_nil]
  | ok resp =>
    simp only
    cases hres : h.appendAudit env.requestID decision.Category decision.Route
        (summary ++ " success") with
    | mk r auditEffects =>
      have := appendAudit_abstractRequests h env.requestID decision.Category decision.Route
        (summary ++ " success")
      rw [hres] at this
      cases r <;> simp only [abstractRequests_append, this, List.append_nil]

/-- C21 (amended). For every request on the route `high_abstraction` or
`critical_local_only`, with an abstractor configured, the handler calls
`Abstract` once, before any other call, and the `AbstractRequest` that it
passes carries the request id, the sanitized text of the sanitizer as
`SanitizedPrompt`, the route of the decision, and as `Mappings` the mappings of
the sanitizer, each with its `OriginalValue`. -/
theorem C21_abstract_request_fields (h : Handler) (env : Env) (r : Request) (a : Analysis)
    (ab : Abstractor) (hm : r.Method = "POST")
    (ha : h.analyzeChatRequest r env.requestID true = .ok a)
    (hroute : a.decision.Route = Router.RouteHighAbstraction ∨
      a.decision.Route = Router.RouteCriticalLocalOnly)
    (hab : h.abstractor = some ab) :
    abstractRequests (h.HandleChatCompletions env r).effects
      = [{ RequestID := env.requestID, SanitizedPrompt := a.sanitized.Sanitized,
           Mappings := a.sanitized.Mappings, Route := a.decision.Route }] ∧
    ∃ rest, (h.HandleChatCompletions env r).effects
      = .abstractCall { RequestID := env.requestID, SanitizedPrompt := a.sanitized.Sanitized,
                        Mappings := a.sanitized.Mappings, Route := a.decision.Route } :: rest := by
  have hreq : h.requireAbstraction env.requestID a.sanitized a.decision (summaryFor a)
      = match ab (abstractReqFor env a) with
        | .error _ =>
          .error { response := writeError 503 "ERR_ABSTRACTION_UNAVAILABLE"
                     "local abstraction failed" env.requestID,
                   effects := .abstractCall (abstractReqFor env a) ::
                     (h.appendAudit env.requestID a.decision.Category a.decision.Route
                       (summaryFor a ++ " abstraction-failed")).2 }
        | .ok abstraction => .ok (abstraction, [.abstractCall (abstractReqFor env a)]) := by
    unfold Handler.requireAbstraction
    rw [hab]
    rfl
  show abstractRequests (h.HandleChatCompletions env r).effects = [abstractReqFor env a] ∧
    ∃ rest, (h.HandleChatCompletions env r).effects = .abstractCall (abstractReqFor env a) :: rest
  rcases hroute with hroute | hroute
  · rw [handle_high h env r a hm ha hroute, hreq]
    cases ab (abstractReqFor env a) with
    | error e =>
      refine ⟨?_, _, rfl⟩
      simp only [abstractRequests, appendAudit_abstractRequests]
    | ok abstraction =>
      simp only
      cases h.upstream with
      | none =>
        refine ⟨?_, _, rfl⟩
        show abstractRequests ([Effect.abstractCall (abstractReqFor env a)] ++ _) = _
        rw [abstractRequests_append, appendAudit_abstractRequests]
        rfl
      | some up =>
        simp only
        refine ⟨?_, ?_⟩
        · rw [finishForward_abstractRequests]
          rfl
        · unfold Handler.finishForward
          cases up 0 _ with
          | error err =>
            simp only
            split_ifs
            all_goals exact ⟨_, rfl⟩
          | ok resp =>
            simp only
            cases h.appendAudit env.requestID a.decision.Category a.decision.Route
                (summaryFor a ++ " success") with
            | mk res auditEffects =>
              cases res <;> exact ⟨_, rfl⟩
  · have h1 : ¬ (a.decision.Route = Router.RouteRawForward ∨
        a.decision.Route = Router.RouteSanitizedForward) := by
      rw [hroute]; decide
    have h2 : ¬ a.decision.Route = Router.RouteHighAbstraction := by
      rw [hroute]; decide
    rw [handle_critical h env r a hm ha h1 h2, if_pos hroute, hreq]
    cases ab (abstractReqFor env a) with
    | error e =>
      refine ⟨?_, _, rfl⟩
      simp only [abstractRequests, appendAudit_abstractRequests]
    | ok abstraction =>
      simp only
      have hz := appendAudit_abstractRequests h env.requestID a.decision.Category
        a.decision.Route (summaryFor a ++ " local-only-success")
      cases hres : h.appendAudit env.requestID a.decision.Category a.decision.Route
          (summaryFor a ++ " local-only-success") with
      | mk res auditEffects =>
        rw [hres] at hz
        cases res
        all_goals
          refine ⟨?_, _, rfl⟩
          show abstractRequests ([Effect.abstractCall (abstractReqFor env a)] ++ auditEffects) = _
          rw [abstractRequests_append, hz]
          rfl


/-- C21, witness of the amended theorem: the handler of the tests with the
passthrough abstractor on the request of `alice@example.com and 555-123-4567`,
on the route `high_abstraction`. -/
theorem C21_abstract_request_fields_witness :
    abstractRequests ((testHandler StubUpstream (some PassthroughAbstractor) none
      false).HandleChatCompletions (testEnv false) highRequest).effects
      = [{ RequestID := "req-0", SanitizedPrompt := "person1@example.net and 555-010-0001",
           Mappings :=
             [{ Placeholder := "person1@example.net", OriginalValue := "alice@example.com",
                EntityType := "EMAIL", ConfidenceScore := 99 / 100 },
              { Placeholder := "555-010-0001", OriginalValue := "555-123-4567",
                EntityType := "PHONE", ConfidenceScore := 99 / 100 }],
           Route := Router.RouteHighAbstraction }] :=
  (C21_abstract_request_fields (testHandler StubUpstream (some PassthroughAbstractor) none false)
    (testEnv false) highRequest highAnalysis PassthroughAbstractor rfl
    (testHandler_high_analysis _ _ _ _ _ _) (Or.inl rfl) rfl).1

end Proxy

/-! ## Proxy: the seed scenario S1 -/

namespace Proxy

set_option maxRecDepth 100000 in
theorem defaultSanitizer_s1 :
    defaultSanitizer "Email alice@example.com and bob@example.com call 555-123-4567"
      = .ok s1Sanitized := by
  rfl

theorem testScorer_three :
    (Risk.NewScorer (7 / 10)).Evaluate 3 (99 / 100)
      = .ok { Score := 75, Category := Risk.CategoryCritical, Confidence := 99 / 100 } := by
  simp [Risk.Scorer.Evaluate, Risk.NewScorer, wrapInt64, Risk.categoryForScore]
  norm_num

/-- The analysis of the request of the seed scenario S1 by the handler of the
tests, with any router. -/
theorem s1_analysis (e : Router.Engine) (up : UpstreamAdapter)
    (abstractor : Option Abstractor) (audit : Option AuditWriter) (strict b : Bool)
    (requestID : String) :
    ({ testHandler up abstractor audit strict with router := e } : Handler).analyzeChatRequest
      s1Request requestID b = .ok (s1Analysis e) := by
  have hv : validateRequest
      { Model := "gpt-test",
        Messages := [{ Role := "user",
                       Content := "Email alice@example.com and bob@example.com call 555-123-4567" }] }
      = .ok () := by
    rfl
  unfold Handler.analyzeChatRequest
  simp only [s1Request, hv]
  have hs : ({ testHandler up abstractor audit strict with router := e } : Handler).sanitizer
      (joinPrompt [{ Role := "user",
                     Content := "Email alice@example.com and bob@example.com call 555-123-4567" }])
      = .ok s1Sanitized := defaultSanitizer_s1
  rw [hs]
  simp only
  have hc : minMappingConfidence s1Sanitized.Mappings = 99 / 100 := by
    simp [minMappingConfidence, s1Sanitized]
  have hl : ((s1Sanitized.Mappings.length : Nat) : Int) = 3 := rfl
  have he : ({ testHandler up abstractor audit strict with router := e } : Handler).scorer.Evaluate
      3 (99 / 100)
      = .ok { Score := 75, Category := Risk.CategoryCritical, Confidence := 99 / 100 } :=
    testScorer_three
  rw [hc, hl, he]
  rfl

/-- C27 (amended). For the input
`Email alice@example.com and bob@example.com call 555-123-4567`, with the
default sanitizer, the default scorer (threshold 0.70) and any router: the
sanitized text is
`Email person1@example.net and person2@example.net call 555-010-0001`; there
are three detections, so the score is 75 and the risk category is Critical;
and the route is `critical_local_only` when the router is configured for it and
`critical_blocked` otherwise, without egress. -/
theorem C27_seed_scenario_is_critical (e : Router.Engine) (up : UpstreamAdapter)
    (abstractor : Option Abstractor) (audit : Option AuditWriter) (strict b : Bool)
    (requestID : String) :
    ∃ a, ({ testHandler up abstractor audit strict with router := e } :
        Handler).analyzeChatRequest s1Request requestID b = .ok a ∧
      a.sanitized.Sanitized
        = "Email person1@example.net and person2@example.net call 555-010-0001" ∧
      a.sanitized.Mappings.length = 3 ∧ a.result.Score = 75 ∧
      a.result.Category = Risk.CategoryCritical ∧
      a.decision.Route = (if e.criticalLocalOnly then Router.RouteCriticalLocalOnly
                          else Router.RouteCriticalBlocked) ∧
      a.decision.Egress = false := by
  refine ⟨s1Analysis e, s1_analysis e up abstractor audit strict b requestID, rfl, rfl, rfl, rfl,
    ?_, ?_⟩
  · show (e.Decide Risk.CategoryCritical false).Route = _
    unfold Router.Engine.Decide
    rw [if_neg (by decide), if_neg (by decide), if_neg (by decide)]
    split_ifs <;> rfl
  · show (e.Decide Risk.CategoryCritical false).Egress = _
    unfold Router.Engine.Decide
    rw [if_neg (by decide), if_neg (by decide), if_neg (by decide)]
    split_ifs <;> rfl

/-- C27, counterexample: with the default sanitizer, the default scorer and the
router `NewEngine(false)`, the input of the seed scenario S1 has the sanitized
text of the scenario, but the category Critical, not High, and the route
`critical_blocked`, not `high_abstraction`. -/
theorem C27_counterexample :
    (testHandler StubUpstream (some PassthroughAbstractor) none false).analyzeChatRequest
      s1Request "req-0" true = .ok (s1Analysis (Router.NewEngine false)) ∧
    (s1Analysis (Router.NewEngine false)).sanitized.Sanitized
      = "Email person1@example.net and person2@example.net call 555-010-0001" ∧
    (s1Analysis (Router.NewEngine false)).result.Category = Risk.CategoryCritical ∧
    (s1Analysis (Router.NewEngine false)).result.Category ≠ Risk.CategoryHigh ∧
    (s1Analysis (Router.NewEngine false)).decision.Route = Router.RouteCriticalBlocked ∧
    (s1Analysis (Router.NewEngine false)).decision.Route ≠ Router.RouteHighAbstraction :=
  ⟨s1_analysis (Router.NewEngine false) StubUpstream (some PassthroughAbstractor) none false true
    "req-0", rfl, rfl, by decide, rfl, by decide⟩

end Proxy

/-! ## Proxy: provider diagnostics -/

namespace Proxy

theorem canonicalHeaderKey_whitelist :
    canonicalHeaderKey "content-type" = "Content-Type" ∧
    canonicalHeaderKey "x-request-id" = "X-Request-Id" ∧
    canonicalHeaderKey "request-id" = "Request-Id" ∧
    canonicalHeaderKey "trace-id" = "Trace-Id" ∧
    canonicalHeaderKey "x-trace-id" = "X-Trace-Id" ∧
    canonicalHeaderKey "x-mimo-request-id" = "X-Mimo-Request-Id" ∧
    canonicalHeaderKey "retry-after" = "Retry-After" := by
  decide

/-- The value that `sanitizeResponseHeaders` keeps is the first value of the
header. -/
theorem firstHeaderValue_eq_some (headers : List (String × List String)) (key value : String) :
    firstHeaderValue headers key = some value ↔
      ∃ rest, headers.lookup key = some (value :: rest) := by
  unfold firstHeaderValue
  cases headers.lookup key with
  | none => simp
  | some values =>
    cases values with
    | nil => simp
    | cons v vs => simp

theorem mem_headerOrder (name : String) :
    name ∈ headerOrder ↔ name ∈ canonicalNames ∨ name = "retry-after" ∨ name = "status" := by
  unfold headerOrder canonicalNames
  simp only [List.mem_cons, List.mem_singleton, List.not_mem_nil, or_false]
  tauto

theorem headerSource_canonical (name : String) (h : name ∈ canonicalNames) :
    headerSource name = canonicalHeaderKey name := by
  unfold headerSource
  rw [if_neg]
  intro hs
  rw [hs] at h
  exact absurd h (by decide)

/-- The entries of the result of `sanitizeResponseHeaders`: the names of the
whitelist whose header has a first value, with that value. -/
theorem mem_sanitizeResponseHeaders (headers : List (String × List String))
    (name value : String) :
    (name, value) ∈ sanitizeResponseHeaders headers ↔
      name ∈ headerOrder ∧ firstHeaderValue headers (headerSource name) = some value := by
  unfold sanitizeResponseHeaders
  rw [mem_headerOrder]
  simp only [List.mem_append, List.mem_filterMap, Option.mem_toList, Option.mem_def,
    Option.map_eq_some', Prod.mk.injEq]
  constructor
  · rintro ((⟨key, hkey, v, hv, rfl, rfl⟩ | ⟨v, hv, rfl, rfl⟩) | ⟨v, hv, rfl, rfl⟩)
    · exact ⟨Or.inl hkey, by rw [headerSource_canonical _ hkey]; exact hv⟩
    · refine ⟨Or.inr (Or.inl rfl), ?_⟩
      unfold headerSource
      rw [if_neg (by decide), canonicalHeaderKey_whitelist.2.2.2.2.2.2]
      exact hv
    · refine ⟨Or.inr (Or.inr rfl), ?_⟩
      unfold headerSource
      rw [if_pos rfl]
      exact hv
  · rintro ⟨hname | rfl | rfl, hv⟩
    · rw [headerSource_canonical _ hname] at hv
      exact Or.inl (Or.inl ⟨name, hname, value, hv, rfl, rfl⟩)
    · unfold headerSource at hv
      rw [if_neg (by decide), canonicalHeaderKey_whitelist.2.2.2.2.2.2] at hv
      exact Or.inl (Or.inr ⟨value, hv, rfl, rfl⟩)
    · unfold headerSource at hv
      rw [if_pos rfl] at hv
      exact Or.inr ⟨value, hv, rfl, rfl⟩

/-- The names of the result of `sanitizeResponseHeaders` are distinct: the
list stands for a map. -/
theorem sanitizeResponseHeaders_nodup (headers : List (String × List String)) :
    ((sanitizeResponseHeaders headers).map Prod.fst).Nodup := by
  have hsub : List.Sublist ((sanitizeResponseHeaders headers).map Prod.fst) headerOrder := by
    unfold sanitizeResponseHeaders headerOrder canonicalNames
    have hfm : ∀ (l : List String) (f : String → Option String),
        List.Sublist ((l.filterMap (fun key => (f key).map (fun value => (key, value)))).map
          Prod.fst) l := by
      intro l f
      induction l with
      | nil => exact List.Sublist.slnil
      | cons a l ih =>
        rw [List.filterMap_cons]
        cases f a with
        | none => exact List.Sublist.cons _ ih
        | some v => exact List.Sublist.cons₂ _ ih
    have hopt : ∀ (key : String) (o : Option String),
        List.Sublist ((o.map (fun value => (key, value))).toList.map Prod.fst) [key] := by
      intro key o
      cases o with
      | none => exact List.nil_sublist _
      | some v => exact List.Sublist.refl _
    rw [List.map_append, List.map_append]
    exact (List.Sublist.append ((hfm _ _).append (hopt _ _)) (hopt _ _))
  exact hsub.nodup (by decide)

/-- The headers that `safeProviderDiagnostic` prints. -/
theorem safeProviderDiagnostic_parts (err : UpstreamError) (statusErr : ProviderHTTPStatusError)
    (hs : err.status = some statusErr) :
    ∃ printed : List (String × String),
      (∀ kv ∈ printed, kv.1 ∈ headerOrder ∧ statusErr.ResponseHeaders.lookup kv.1 = some kv.2) ∧
      safeProviderDiagnostic err = " ".intercalate
        (["provider_status=" ++ toString statusErr.StatusCode] ++
          (if statusErr.BodySnippet ≠ "" then ["provider_body=" ++ statusErr.BodySnippet]
           else []) ++
          (if statusErr.ResponseHeaders.length > 0 then
            ["provider_headers=" ++
              ",".intercalate (printed.map (fun kv => kv.1 ++ "=" ++ kv.2))]
           else [])) := by
  refine ⟨headerOrder.filterMap (fun key =>
    (statusErr.ResponseHeaders.lookup key).map (fun value => (key, value))), ?_, ?_⟩
  · intro kv hkv
    simp only [List.mem_filterMap, Option.map_eq_some'] at hkv
    obtain ⟨key, hkey, v, hv, rfl⟩ := hkv
    exact ⟨hkey, hv⟩
  · unfold safeProviderDiagnostic
    rw [hs]
    simp only
    have hmap : (headerOrder.filterMap (fun key =>
        (statusErr.ResponseHeaders.lookup key).map (fun value => (key, value)))).map
          (fun kv => kv.1 ++ "=" ++ kv.2)
        = headerOrder.filterMap (fun key =>
          (statusErr.ResponseHeaders.lookup key).map (fun value => key ++ "=" ++ value)) := by
      rw [List.map_filterMap]
      congr 1
      funext key
      cases statusErr.ResponseHeaders.lookup key <;> rfl
    rw [hmap]
    split_ifs <;> simp

/-- The diagnostic does not depend on the entries of the header map whose key
is not on the whitelist. -/
theorem safeProviderDiagnostic_whitelist (timeout timeout' : Bool)
    (e e' : ProviderHTTPStatusError)
    (hcode : e.StatusCode = e'.StatusCode) (hbody : e.BodySnippet = e'.BodySnippet)
    (hempty : e.ResponseHeaders = [] ↔ e'.ResponseHeaders = [])
    (hsame : ∀ key ∈ headerOrder, e.ResponseHeaders.lookup key = e'.ResponseHeaders.lookup key) :
    safeProviderDiagnostic { isTimeout := timeout, status := some e }
      = safeProviderDiagnostic { isTimeout := timeout', status := some e' } := by
  unfold safeProviderDiagnostic
  simp only
  have hlen : (e.ResponseHeaders.length > 0) ↔ (e'.ResponseHeaders.length > 0) := by
    rw [gt_iff_lt, gt_iff_lt, List.length_pos, List.length_pos]
    exact not_congr hempty
  have hparts : headerOrder.filterMap (fun key =>
        (e.ResponseHeaders.lookup key).map (fun value => key ++ "=" ++ value))
      = headerOrder.filterMap (fun key =>
        (e'.ResponseHeaders.lookup key).map (fun value => key ++ "=" ++ value)) := by
    apply List.filterMap_congr
    intro key hkey
    rw [hsame key hkey]
  rw [hcode, hbody, hparts]
  by_cases hl : e.ResponseHeaders.length > 0
  · rw [if_pos hl, if_pos (hlen.mp hl)]
  · rw [if_neg hl, if_neg (fun h => hl (hlen.mpr h))]

/-- C25. For every set of provider response headers: the names of the result
of `sanitizeResponseHeaders` are names of the whitelist `content-type`,
`x-request-id`, `request-id`, `trace-id`, `x-trace-id`, `x-mimo-request-id`,
`retry-after`, `status`, each at most once; a name of the whitelist is kept
exactly when its header (looked up under its canonical key, `Retry-After`, or
`:status`) has a value, and it carries the first value of that header; and
`safeProviderDiagnostic` prints only entries of the error's header map whose
name is on the whitelist, whatever other keys the map holds: entries with other
keys do not change the diagnostic. -/
theorem C25_header_whitelist (headers : List (String × List String)) :
    (∀ kv ∈ sanitizeResponseHeaders headers, kv.1 ∈ headerOrder) ∧
    ((sanitizeResponseHeaders headers).map Prod.fst).Nodup ∧
    (∀ name value, (name, value) ∈ sanitizeResponseHeaders headers ↔
      name ∈ headerOrder ∧ ∃ rest, headers.lookup (headerSource name) = some (value :: rest)) ∧
    (∀ (err : UpstreamError) (statusErr : ProviderHTTPStatusError), err.status = some statusErr →
      ∃ printed : List (String × String),
        (∀ kv ∈ printed, kv.1 ∈ headerOrder ∧
          statusErr.ResponseHeaders.lookup kv.1 = some kv.2) ∧
        safeProviderDiagnostic err = " ".intercalate
          (["provider_status=" ++ toString statusErr.StatusCode] ++
            (if statusErr.BodySnippet ≠ "" then ["provider_body=" ++ statusErr.BodySnippet]
             else []) ++
            (if statusErr.ResponseHeaders.length > 0 then
              ["provider_headers=" ++
                ",".intercalate (printed.map (fun kv => kv.1 ++ "=" ++ kv.2))]
             else []))) ∧
    (∀ (timeout timeout' : Bool) (e e' : ProviderHTTPStatusError),
      e.StatusCode = e'.StatusCode → e.BodySnippet = e'.BodySnippet →
      (e.ResponseHeaders = [] ↔ e'.ResponseHeaders = []) →
      (∀ key ∈ headerOrder, e.ResponseHeaders.lookup key = e'.ResponseHeaders.lookup key) →
      safeProviderDiagnostic { isTimeout := timeout, status := some e }
        = safeProviderDiagnostic { isTimeout := timeout', status := some e' }) := by
  refine ⟨?_, sanitizeResponseHeaders_nodup headers, ?_, safeProviderDiagnostic_parts,
    safeProviderDiagnostic_whitelist⟩
  · rintro ⟨name, value⟩ hkv
    exact ((mem_sanitizeResponseHeaders headers name value).mp hkv).1
  · intro name value
    rw [mem_sanitizeResponseHeaders, firstHeaderValue_eq_some]

end Proxy

namespace Proxy

set_option maxHeartbeats 4000000 in
theorem statusErrorOf_s7 : statusErrorOf s7Response = some s7StatusError := by
  decide!

set_option maxHeartbeats 4000000 in
/-- C24, the code at the failing input: the provider answers 401 with the body
`{"error":"invalid","api_key":"sk-abc12345"}` and the header
`X-Request-Id: alice@example.com`, for which `chatCompletions` returns the
error `s7StatusError`.  The handler answers 502 and writes one audit record;
its action summary contains `provider_status=401` and the redacted body, and it
contains the header value `alice@example.com`, which matches the e-mail pattern
of the redaction: the header values are not passed through the redaction. -/
theorem C24_header_value_in_audit_summary :
    statusErrorOf s7Response = some s7StatusError ∧
    ((testHandler (providerStatusUpstream s7StatusError) none (some workingAuditWriter)
        false).HandleChatCompletions (testEnv false) (helloRequest "")).response
      = writeError 502 "ERR_PROVIDER_FAILURE" "provider request failed" "req-0" ∧
    auditSummaries ((testHandler (providerStatusUpstream s7StatusError) none
      (some workingAuditWriter) false).HandleChatCompletions (testEnv false)
        (helloRequest "")).effects = [s7Summary] ∧
    "provider_status=401".data <:+: s7Summary.data ∧
    "alice@example.com".data <:+: s7Summary.data ∧
    Regexp.MatchString emailPattern s7Summary.data = true := by
  have hh : (testHandler (providerStatusUpstream s7StatusError) none (some workingAuditWriter)
      false).HandleChatCompletions (testEnv false) (helloRequest "")
      = { response := writeError 502 "ERR_PROVIDER_FAILURE" "provider request failed" "req-0",
          effects := [.upstreamCall (forwardReqFor (testEnv false) (helloRequest "")
              helloAnalysis),
            .auditAppend { RequestID := "req-0", PolicyVersion := "v2.1",
                           ActionSummary := s7Summary, RiskCategory := Risk.CategoryLow,
                           Route := Router.RouteSanitizedForward }] } := by
    rw [handle_forward _ _ _ helloAnalysis (providerStatusUpstream s7StatusError) rfl
      (testHandler_hello_analysis _ _ _ _ _ _ _) (Or.inr rfl) rfl]
    have hup : providerStatusUpstream s7StatusError 0
        (forwardReqFor (testEnv false) (helloRequest "") helloAnalysis)
        = .error { isTimeout := false, status := some s7StatusError } := rfl
    rw [hup]
    rfl
  refine ⟨statusErrorOf_s7, by rw [hh], by rw [hh]; rfl, ?_, ?_, by decide!⟩
  · exact ⟨"route=sanitized_forward category=Low provider-failure ".data,
      (" provider_body=\x7b\x22error\x22:\x22invalid\x22,[REDACTED]\x7d " ++
       "provider_headers=content-type=application/json,x-request-id=alice@example.com").data,
      by decide!⟩
  · exact ⟨("route=sanitized_forward category=Low provider-failure provider_status=401 " ++
      "provider_body=\x7b\x22error\x22:\x22invalid\x22,[REDACTED]\x7d " ++
      "provider_headers=content-type=application/json,x-request-id=").data, [], by decide!⟩

end Proxy

/-! ## Proxy: the redaction of provider bodies -/

namespace Proxy

set_option maxHeartbeats 4000000 in
/-- C23, counterexample.  (1) For the body `"token":""token":"a""` the snippet
is `"token":"[REDACTED]"`, which matches the pattern `(?i)"token"\s*:\s*"[^"]+"`.
(2) The body of 57 times U+1F600 (228 bytes) followed by `555-123-45678` has
241 bytes and no match of the phone pattern; its snippet is its first 240
bytes followed by `...`: it ends with `555-123-4567...` and matches the phone
pattern. -/
theorem C23_counterexample :
    (safeBodySnippet nestedTokenBody
        = GoString.ofText "\x22token\x22:\x22[REDACTED]\x22".data ∧
      Regexp.MatchString tokenPattern
        (GoString.runes (GoString.ofText "\x22token\x22:\x22[REDACTED]\x22".data)) = true) ∧
    (GoString.byteLen longDigitsBody.data = 241 ∧
      Regexp.MatchString phonePattern longDigitsBody.data = false ∧
      safeBodySnippet longDigitsBody
        = GoString.ofText (List.replicate 57 (Char.ofNat 0x1F600) ++ "555-123-4567...".data) ∧
      Regexp.MatchString phonePattern (GoString.runes (GoString.ofText
        (List.replicate 57 (Char.ofNat 0x1F600) ++ "555-123-4567...".data))) = true) := by
  refine ⟨⟨by decide!, by decide!⟩, by decide!, by decide!, by decide!, by decide!⟩

set_option maxHeartbeats 4000000 in
/-- The snippet of `splitBody`, whose cut splits a character: it has 243
bytes, the first 240 bytes of the body, which end with the first byte C3 of the
character U+00E9, and `...`; it is no valid UTF-8. -/
theorem safeBodySnippet_splitBody :
    safeBodySnippet splitBody
      = GoString.ofText (List.replicate 59 (Char.ofNat 0x1F600) ++ "abc".data)
        ++ [GoString.Piece.byte 0xC3] ++ GoString.ofText "...".data ∧
    GoString.bytes (safeBodySnippet splitBody)
      = (List.replicate 59 [0xF0, 0x9F, 0x98, 0x80]).flatten ++ [97, 98, 99, 0xC3, 46, 46, 46] ∧
    (GoString.bytes (safeBodySnippet splitBody)).length = 243 ∧
    GoString.text? (safeBodySnippet splitBody) = none := by
  have h : safeBodySnippet splitBody
      = GoString.ofText (List.replicate 59 (Char.ofNat 0x1F600) ++ "abc".data)
        ++ [GoString.Piece.byte 0xC3] ++ GoString.ofText "...".data := by decide!
  refine ⟨h, ?_, ?_, ?_⟩
  · rw [h]; decide!
  · rw [h]; decide!
  · rw [h]; decide!

end Proxy

namespace Regexp

theorem StarChain.le {R : Nat → Nat → Prop} {i j : Nat} (h : StarChain R i j) : i ≤ j := by
  induction h with
  | done i => exact le_refl _
  | round i m j _ hlt _ ih => omega

/-- A match goes forward, and it ends within the text when it is not empty. -/
theorem Derives_le (input : List Char) (re : Regex) :
    ∀ i j, Derives input re i j → i ≤ j ∧ (i < j → j ≤ input.length) := by
  induction re with
  | empty => intro i j h; simp only [Derives] at h; omega
  | cls p =>
    intro i j h
    simp only [Derives] at h
    obtain ⟨rfl, c, hc, _⟩ := h
    have hi : i < input.length := by
      by_contra hn
      rw [List.getElem?_eq_none (by omega)] at hc
      cases hc
    omega
  | seq a b iha ihb =>
    intro i j h
    simp only [Derives] at h
    obtain ⟨m, h1, h2⟩ := h
    have := iha _ _ h1
    have := ihb _ _ h2
    omega
  | alt a b iha ihb =>
    intro i j h
    simp only [Derives] at h
    rcases h with h | h
    · exact iha _ _ h
    · exact ihb _ _ h
  | star a iha =>
    intro i j h
    simp only [Derives] at h
    induction h with
    | done i => omega
    | round i m j hr hlt _ ih =>
      have := iha _ _ hr
      omega
  | wordBoundary => intro i j h; simp only [Derives] at h; omega

/-- The search finds only matches of the declarative reading. -/
theorem matchAt_sound (input : List Char) (re : Regex) :
    ∀ (i : Nat) (k : Nat → Option Nat) (e : Nat), matchAt input re i k = some e →
      ∃ j, Derives input re i j ∧ k j = some e := by
  induction re with
  | empty => intro i k e h; exact ⟨i, by simp [Derives], h⟩
  | cls p =>
    intro i k e h
    rw [matchAt] at h
    cases hc : input[i]? with
    | none => rw [hc] at h; cases h
    | some c =>
      rw [hc] at h
      simp only at h
      split_ifs at h with hp
      exact ⟨i + 1, (by rw [Derives]; exact ⟨rfl, c, hc, hp⟩), h⟩
  | seq a b iha ihb =>
    intro i k e h
    rw [matchAt] at h
    obtain ⟨m, h1, hk⟩ := iha _ _ _ h
    obtain ⟨j, h2, hk'⟩ := ihb _ _ _ hk
    exact ⟨j, by simp only [Derives]; exact ⟨m, h1, h2⟩, hk'⟩
  | alt a b iha ihb =>
    intro i k e h
    rw [matchAt] at h
    cases ha : matchAt input a i k with
    | some e' =>
      rw [ha] at h
      simp only [Option.some.injEq] at h
      subst h
      obtain ⟨j, h1, hk⟩ := iha _ _ _ ha
      exact ⟨j, by simp only [Derives]; exact Or.inl h1, hk⟩
    | none =>
      rw [ha] at h
      obtain ⟨j, h1, hk⟩ := ihb _ _ _ h
      exact ⟨j, by simp only [Derives]; exact Or.inr h1, hk⟩
  | star a iha =>
    intro i k e h
    rw [matchAt] at h
    have hloop : ∀ (fuel i : Nat) (k : Nat → Option Nat) (e : Nat),
        starLoop (matchAt input a) fuel i k = some e →
        ∃ j, StarChain (fun x y => Derives input a x y) i j ∧ k j = some e := by
      intro fuel
      induction fuel with
      | zero => intro i k e h; exact ⟨i, StarChain.done i, h⟩
      | succ fuel ih =>
        intro i k e h
        rw [starLoop] at h
        cases hs : matchAt input a i (fun j => if i < j then starLoop (matchAt input a) fuel j k
            else none) with
        | none => rw [hs] at h; exact ⟨i, StarChain.done i, h⟩
        | some e' =>
          rw [hs] at h
          simp only [Option.some.injEq] at h
          subst h
          obtain ⟨m, h1, hk⟩ := iha _ _ _ hs
          split_ifs at hk with hlt
          obtain ⟨j, h2, hk'⟩ := ih _ _ _ hk
          exact ⟨j, StarChain.round i m j h1 hlt h2, hk'⟩
    obtain ⟨j, hc, hk⟩ := hloop _ _ _ _ h
    exact ⟨j, by simp only [Derives]; exact hc, hk⟩
  | wordBoundary =>
    intro i k e h
    rw [matchAt] at h
    split_ifs at h with hb
    exact ⟨i, (by rw [Derives]; exact ⟨rfl, hb⟩), h⟩

/-- The search finds a match whenever the declarative reading has one with
which the rest of the pattern succeeds. -/
theorem matchAt_complete (input : List Char) (re : Regex) :
    ∀ (i j : Nat) (k : Nat → Option Nat), Derives input re i j → (k j).isSome = true →
      (matchAt input re i k).isSome = true := by
  induction re with
  | empty =>
    intro i j k h hk
    simp only [Derives] at h
    subst h
    exact hk
  | cls p =>
    intro i j k h hk
    simp only [Derives] at h
    obtain ⟨rfl, c, hc, hp⟩ := h
    rw [matchAt, hc]
    simp only [hp, if_true]
    exact hk
  | seq a b iha ihb =>
    intro i j k h hk
    simp only [Derives] at h
    obtain ⟨m, h1, h2⟩ := h
    rw [matchAt]
    exact iha _ _ _ h1 (ihb _ _ _ h2 hk)
  | alt a b iha ihb =>
    intro i j k h hk
    simp only [Derives] at h
    rw [matchAt]
    cases ha : matchAt input a i k with
    | some e => rfl
    | none =>
      simp only
      rcases h with h | h
      · have := iha _ _ _ h hk
        rw [ha] at this
        cases this
      · exact ihb _ _ _ h hk
  | star a iha =>
    intro i j k h hk
    simp only [Derives] at h
    rw [matchAt]
    have hloop : ∀ (i j : Nat), StarChain (fun x y => Derives input a x y) i j →
        (k j).isSome = true → ∀ (fuel : Nat), input.length < fuel + i →
        (starLoop (matchAt input a) fuel i k).isSome = true := by
      intro i j hc
      induction hc with
      | done i =>
        intro hk fuel _
        cases fuel with
        | zero => exact hk
        | succ fuel =>
          rw [starLoop]
          cases matchAt input a i (fun j => if i < j then starLoop (matchAt input a) fuel j k
              else none) with
          | none => exact hk
          | some e => rfl
      | round i m j hr hlt _ ih =>
        intro hk fuel hfuel
        have hm : m ≤ input.length := (Derives_le input a _ _ hr).2 hlt
        cases fuel with
        | zero => omega
        | succ fuel =>
          rw [starLoop]
          have hround := iha i m
            (fun j => if i < j then starLoop (matchAt input a) fuel j k else none) hr
            (by
              show (if i < m then starLoop (matchAt input a) fuel m k else none).isSome = true
              rw [if_pos hlt]
              exact ih hk fuel (by omega))
          cases hs : matchAt input a i (fun j => if i < j then starLoop (matchAt input a) fuel j k
              else none) with
          | none => rw [hs] at hround; cases hround
          | some e => rfl
    exact hloop i j h hk _ (by omega)
  | wordBoundary =>
    intro i j k h hk
    simp only [Derives] at h
    obtain ⟨rfl, hb⟩ := h
    rw [matchAt, if_pos hb]
    exact hk

/-- A match of the declarative reading from a position is found by the search
from that position. -/
theorem matchAt_of_derives (input : List Char) (re : Regex) (i j : Nat)
    (h : Derives input re i j) : matchAt input re i (fun e => some e) ≠ none := by
  have := matchAt_complete input re i j (fun e => some e) h rfl
  intro hn
  rw [hn] at this
  cases this

/-- The leftmost search: no match starts between the position of the search
and the match found, and without a match found none starts from the position
of the search on. -/
theorem findFrom_leftmost (re : Regex) (input : List Char) :
    ∀ (fuel pos : Nat),
      (∀ s e, findFrom re input fuel pos = some (s, e) →
        matchAt input re s (fun e => some e) = some e ∧
        ∀ p, pos ≤ p → p < s → matchAt input re p (fun e => some e) = none) ∧
      (findFrom re input fuel pos = none → input.length < fuel + pos →
        ∀ p, pos ≤ p → p ≤ input.length → matchAt input re p (fun e => some e) = none) := by
  intro fuel
  induction fuel with
  | zero =>
    intro pos
    refine ⟨fun s e h => (by cases h), fun _ hlen p hp hpl => (by omega)⟩
  | succ fuel ih =>
    intro pos
    rw [findFrom]
    cases hm : matchAt input re pos (fun e => some e) with
    | some e' =>
      refine ⟨fun s e h => ?_, fun h => (by cases h)⟩
      simp only [Option.some.injEq, Prod.mk.injEq] at h
      obtain ⟨rfl, rfl⟩ := h
      exact ⟨hm, fun p hp hps => by omega⟩
    | none =>
      simp only
      by_cases hlt : pos < input.length
      · rw [if_pos hlt]
        obtain ⟨ih1, ih2⟩ := ih (pos + 1)
        refine ⟨fun s e h => ?_, fun h hlen p hp hpl => ?_⟩
        · obtain ⟨h1, h2⟩ := ih1 s e h
          refine ⟨h1, fun p hp hps => ?_⟩
          by_cases hpp : p = pos
          · rw [hpp]; exact hm
          · exact h2 p (by omega) hps
        · by_cases hpp : p = pos
          · rw [hpp]; exact hm
          · exact ih2 h (by omega) p (by omega) hpl
      · rw [if_neg hlt]
        refine ⟨fun s e h => (by cases h), fun _ hlen p hp hpl => ?_⟩
        have : p = pos := by omega
        rw [this]; exact hm

end Regexp

namespace Regexp

/-- A match of an expression without word boundary depends only on the
characters that it spans: it is a match of every text with the same
characters at the positions of the span, shifted or not. -/
theorem Derives_window (input input' : List Char) (re : Regex) :
    re.free = true → ∀ (i j i' : Nat), Derives input re i j →
      (∀ x, x < j - i → input'[i' + x]? = input[i + x]?) →
      Derives input' re i' (i' + (j - i)) := by
  induction re with
  | empty =>
    intro _ i j i' h _
    simp only [Derives] at h ⊢
    subst h
    omega
  | cls p =>
    intro _ i j i' h hw
    simp only [Derives] at h ⊢
    obtain ⟨rfl, c, hc, hp⟩ := h
    refine ⟨by omega, c, ?_, hp⟩
    have := hw 0 (by omega)
    simpa using this.trans hc
  | seq a b iha ihb =>
    intro hfree i j i' h hw
    simp only [Regex.free, Bool.and_eq_true] at hfree
    simp only [Derives] at h ⊢
    obtain ⟨m, h1, h2⟩ := h
    have hle1 := (Derives_le input a _ _ h1).1
    have hle2 := (Derives_le input b _ _ h2).1
    refine ⟨i' + (m - i), iha hfree.1 i m i' h1 (fun x hx => hw x (by omega)), ?_⟩
    have hb := ihb hfree.2 m j (i' + (m - i)) h2 (fun x hx => by
      have := hw ((m - i) + x) (by omega)
      have e1 : i' + (m - i) + x = i' + ((m - i) + x) := by omega
      have e2 : i + ((m - i) + x) = m + x := by omega
      rw [e1, this, e2])
    have e3 : i' + (m - i) + (j - m) = i' + (j - i) := by omega
    rw [e3] at hb
    exact hb
  | alt a b iha ihb =>
    intro hfree i j i' h hw
    simp only [Regex.free, Bool.and_eq_true] at hfree
    simp only [Derives] at h ⊢
    rcases h with h | h
    · exact Or.inl (iha hfree.1 i j i' h hw)
    · exact Or.inr (ihb hfree.2 i j i' h hw)
  | star a iha =>
    intro hfree i j i' h hw
    simp only [Regex.free] at hfree
    simp only [Derives] at h ⊢
    induction h generalizing i' with
    | done i =>
      have : i' + (i - i) = i' := by omega
      rw [this]
      exact StarChain.done i'
    | round i m j hr hlt hrest ih =>
      have hle1 := (Derives_le input a _ _ hr).1
      have hle2 := hrest.le
      have h1 := iha hfree i m i' hr (fun x hx => hw x (by omega))
      have h2 := ih (i' + (m - i)) (fun x hx => by
        have := hw ((m - i) + x) (by omega)
        have e1 : i' + (m - i) + x = i' + ((m - i) + x) := by omega
        have e2 : i + ((m - i) + x) = m + x := by omega
        rw [e1, this, e2])
      have e3 : i' + (m - i) + (j - m) = i' + (j - i) := by omega
      rw [e3] at h2
      exact StarChain.round i' (i' + (m - i)) _ h1 (by omega) h2
  | wordBoundary =>
    intro hfree
    simp [Regex.free] at hfree

/-- Every character of a match is accepted by a class of the expression. -/
theorem Derives_accepts (input : List Char) (re : Regex) :
    ∀ (i j : Nat), Derives input re i j → ∀ x, i ≤ x → x < j →
      ∃ c, input[x]? = some c ∧ re.accepts c = true := by
  induction re with
  | empty =>
    intro i j h x h1 h2
    simp only [Derives] at h
    omega
  | cls p =>
    intro i j h x h1 h2
    simp only [Derives] at h
    obtain ⟨rfl, c, hc, hp⟩ := h
    have : x = i := by omega
    subst this
    exact ⟨c, hc, hp⟩
  | seq a b iha ihb =>
    intro i j h x h1 h2
    simp only [Derives] at h
    obtain ⟨m, ha, hb⟩ := h
    by_cases hx : x < m
    · obtain ⟨c, hc, hp⟩ := iha _ _ ha x h1 hx
      exact ⟨c, hc, by simp [Regex.accepts, hp]⟩
    · obtain ⟨c, hc, hp⟩ := ihb _ _ hb x (by omega) h2
      exact ⟨c, hc, by simp [Regex.accepts, hp]⟩
  | alt a b iha ihb =>
    intro i j h x h1 h2
    simp only [Derives] at h
    rcases h with h | h
    · obtain ⟨c, hc, hp⟩ := iha _ _ h x h1 h2
      exact ⟨c, hc, by simp [Regex.accepts, hp]⟩
    · obtain ⟨c, hc, hp⟩ := ihb _ _ h x h1 h2
      exact ⟨c, hc, by simp [Regex.accepts, hp]⟩
  | star a iha =>
    intro i j h
    simp only [Derives] at h
    induction h with
    | done i => intro x h1 h2; omega
    | round i m j hr hlt _ ih =>
      intro x h1 h2
      by_cases hx : x < m
      · obtain ⟨c, hc, hp⟩ := iha _ _ hr x h1 hx
        exact ⟨c, hc, by simpa [Regex.accepts] using hp⟩
      · exact ih x (by omega) h2
  | wordBoundary =>
    intro i j h x h1 h2
    simp only [Derives] at h
    omega

/-- An expression with an empty match is nullable. -/
theorem Derives_nullable (input : List Char) (re : Regex) :
    ∀ (i : Nat), Derives input re i i → re.nullable = true := by
  induction re with
  | empty => intro _ _; rfl
  | cls p =>
    intro i h
    simp only [Derives] at h
    omega
  | seq a b iha ihb =>
    intro i h
    simp only [Derives] at h
    obtain ⟨m, ha, hb⟩ := h
    have h1 := (Derives_le input a _ _ ha).1
    have h2 := (Derives_le input b _ _ hb).1
    have : m = i := by omega
    subst this
    simp [Regex.nullable, iha _ ha, ihb _ hb]
  | alt a b iha ihb =>
    intro i h
    simp only [Derives] at h
    rcases h with h | h
    · simp [Regex.nullable, iha _ h]
    · simp [Regex.nullable, ihb _ h]
  | star a _ => intro _ _; rfl
  | wordBoundary => intro _ _; rfl

/-- The last character of a match that is not empty. -/
theorem Derives_last (input : List Char) (re : Regex) :
    ∀ (i j : Nat), Derives input re i j → i < j →
      ∃ c, input[j - 1]? = some c ∧ re.lastAccepts c = true := by
  induction re with
  | empty =>
    intro i j h hlt
    simp only [Derives] at h
    omega
  | cls p =>
    intro i j h hlt
    simp only [Derives] at h
    obtain ⟨rfl, c, hc, hp⟩ := h
    exact ⟨c, by simpa using hc, hp⟩
  | seq a b iha ihb =>
    intro i j h hlt
    simp only [Derives] at h
    obtain ⟨m, ha, hb⟩ := h
    have h2 := (Derives_le input b _ _ hb).1
    by_cases hm : m < j
    · obtain ⟨c, hc, hp⟩ := ihb _ _ hb hm
      exact ⟨c, hc, by simp [Regex.lastAccepts, hp]⟩
    · have : m = j := by omega
      subst this
      obtain ⟨c, hc, hp⟩ := iha _ _ ha hlt
      exact ⟨c, hc, by simp [Regex.lastAccepts, hp, Derives_nullable input b _ hb]⟩
  | alt a b iha ihb =>
    intro i j h hlt
    simp only [Derives] at h
    rcases h with h | h
    · obtain ⟨c, hc, hp⟩ := iha _ _ h hlt
      exact ⟨c, hc, by simp [Regex.lastAccepts, hp]⟩
    · obtain ⟨c, hc, hp⟩ := ihb _ _ h hlt
      exact ⟨c, hc, by simp [Regex.lastAccepts, hp]⟩
  | star a iha =>
    intro i j h
    simp only [Derives] at h
    induction h with
    | done i => intro hlt; omega
    | round i m j hr hlt hrest ih =>
      intro _
      by_cases hm : m < j
      · exact ih hm
      · have : m = j := by have := hrest.le; omega
        subst this
        obtain ⟨c, hc, hp⟩ := iha _ _ hr hlt
        exact ⟨c, hc, by simpa [Regex.lastAccepts] using hp⟩
  | wordBoundary =>
    intro i j h hlt
    simp only [Derives] at h
    omega

/-- A text without a match of an expression that matches no empty text is a
text on which `MatchString` answers no. -/
theorem matchString_of_noMatch (re : Regex) (text : List Char) (hpos : 0 < re.minLen)
    (h : NoMatch re text) : MatchString re text = false := by
  unfold MatchString
  cases hf : findFrom re text (text.length + 1) 0 with
  | none => rfl
  | some se =>
    obtain ⟨s, e⟩ := se
    have hb := findFrom_bounds re text _ 0 s e (by omega) hf
    have hm := ((findFrom_leftmost re text _ 0).1 s e hf).1
    obtain ⟨j, hd, hj⟩ := matchAt_sound text re _ _ _ hm
    simp only [Option.some.injEq] at hj
    subst hj
    exact absurd hd (h s j (by omega))

/-- Conversely, where `MatchString` answers no there is no match. -/
theorem noMatch_of_matchString (re : Regex) (text : List Char)
    (h : MatchString re text = false) : NoMatch re text := by
  intro p q hpq hd
  unfold MatchString at h
  have hnone : findFrom re text (text.length + 1) 0 = none := by
    cases hf : findFrom re text (text.length + 1) 0 with
    | none => rfl
    | some se => rw [hf] at h; cases h
  have hq := (Derives_le text re _ _ hd).2 hpq
  have := (findFrom_leftmost re text _ 0).2 hnone (by omega) p (by omega) (by omega)
  exact matchAt_of_derives text re p q hd this

end Regexp

namespace Regexp

/-- The loop of `replaceAll` only adds to its buffer. -/
theorem replaceAllLoop_extends (re : Regex) (input repl : List Char) :
    ∀ (fuel searchPos lastMatchEnd : Nat) (buf : List Char),
      ∃ rest, replaceAllLoop re input repl fuel searchPos lastMatchEnd buf = buf ++ rest := by
  intro fuel
  induction fuel with
  | zero => intro _ _ buf; exact ⟨_, rfl⟩
  | succ fuel ih =>
    intro searchPos lastMatchEnd buf
    rw [replaceAllLoop]
    by_cases hlen : input.length < searchPos
    · rw [if_pos hlen]
      exact ⟨_, rfl⟩
    · rw [if_neg hlen]
      cases findFrom re input (input.length + 1 - searchPos) searchPos with
      | none => exact ⟨_, rfl⟩
      | some se =>
        obtain ⟨s, e⟩ := se
        simp only
        generalize (if searchPos + (if searchPos < input.length then 1 else 0) > e then
            searchPos + (if searchPos < input.length then 1 else 0)
          else if searchPos + 1 > e then searchPos + 1 else e) = next
        by_cases hc : e > lastMatchEnd ∨ s = 0
        · rw [if_pos hc]
          obtain ⟨rest, hr⟩ := ih next e
            (buf ++ (input.drop lastMatchEnd).take (s - lastMatchEnd) ++ repl)
          rw [hr]
          exact ⟨(input.drop lastMatchEnd).take (s - lastMatchEnd) ++ repl ++ rest,
            by simp only [List.append_assoc]⟩
        · rw [if_neg hc]
          obtain ⟨rest, hr⟩ := ih next e (buf ++ (input.drop lastMatchEnd).take (s - lastMatchEnd))
          rw [hr]
          exact ⟨(input.drop lastMatchEnd).take (s - lastMatchEnd) ++ rest,
            by simp only [List.append_assoc]⟩

/-- One round of the loop of `replaceAll` for an expression that matches no
empty text, when the search starts at the end of the last match: the text up
to the match found, then the replacement, and the search goes on at the end of
the match. -/
theorem replaceAllLoop_step (re : Regex) (input repl : List Char) (hpos : 0 < re.minLen)
    (fuel pos s e : Nat) (buf : List Char) (hle : pos ≤ input.length)
    (hf : findFrom re input (input.length + 1 - pos) pos = some (s, e)) :
    replaceAllLoop re input repl (fuel + 1) pos pos buf
      = replaceAllLoop re input repl fuel e e
          (buf ++ (input.drop pos).take (s - pos) ++ repl) := by
  have hb := findFrom_bounds re input _ pos s e hle hf
  rw [replaceAllLoop, if_neg (by omega), hf]
  simp only
  rw [if_pos (Or.inl (by omega))]
  have hnext : (if pos + (if pos < input.length then 1 else 0) > e then
        pos + (if pos < input.length then 1 else 0)
      else if pos + 1 > e then pos + 1 else e) = e := by
    split_ifs <;> omega
  rw [hnext]

/-- The end of the loop of `replaceAll`: without a further match, the rest of
the text is copied. -/
theorem replaceAllLoop_none (re : Regex) (input repl : List Char)
    (fuel pos : Nat) (buf : List Char) (hle : pos ≤ input.length)
    (hf : findFrom re input (input.length + 1 - pos) pos = none) :
    replaceAllLoop re input repl (fuel + 1) pos pos buf = buf ++ input.drop pos := by
  rw [replaceAllLoop, if_neg (by omega), hf]

theorem getElem?_append_mid (a b c : List Char) (x : Nat) (hx : x < b.length) :
    (a ++ b ++ c)[a.length + x]? = b[x]? := by
  rw [List.append_assoc, List.getElem?_append_right (by omega),
    List.getElem?_append_left (by omega)]
  congr 1
  omega

/-- Replacing matches of `re'` by a text that `re` cannot cross and does not
match leaves no match of `re`, where the text between the matches replaced had
none: the output of the loop has no match of `re` that starts behind the
buffer. -/
theorem replaceAllLoop_noMatch (re re' : Regex) (T R : List Char)
    (hfree : re.free = true) (hpos' : 0 < re'.minLen)
    (hfirst : ∀ c, R[0]? = some c → re.accepts c = false)
    (hlast : ∀ c, R[R.length - 1]? = some c → re.accepts c = false)
    (hR : 0 < R.length)
    (hmark : NoMatch re R)
    (hclean : ∀ pos, pos ≤ T.length →
      ∀ p q, pos ≤ p → p < q → Derives T re p q →
        ∃ s e, findFrom re' T (T.length + 1 - pos) pos = some (s, e) ∧ s ≤ p) :
    ∀ (fuel pos : Nat) (buf : List Char), pos ≤ T.length → T.length < fuel + pos →
      ∀ p q, buf.length ≤ p → p < q →
        ¬ Derives (replaceAllLoop re' T R fuel pos pos buf) re p q := by
  intro fuel
  induction fuel with
  | zero => intro pos buf h1 h2; omega
  | succ fuel ih =>
    intro pos buf hle hfuel p q hp hpq hd
    cases hf : findFrom re' T (T.length + 1 - pos) pos with
    | none =>
      rw [replaceAllLoop_none re' T R fuel pos buf hle hf] at hd
      have hw := Derives_window _ T re hfree p q (pos + (p - buf.length)) hd (fun x hx => by
        rw [List.getElem?_append_right (by omega), List.getElem?_drop]
        congr 1
        omega)
      obtain ⟨s, e, hse, _⟩ := hclean pos hle _ _ (by omega) (by omega) hw
      rw [hf] at hse
      cases hse
    | some se =>
      obtain ⟨s, e⟩ := se
      have hb := findFrom_bounds re' T _ pos s e hle hf
      rw [replaceAllLoop_step re' T R hpos' fuel pos s e buf hle hf] at hd
      obtain ⟨rest, hrest⟩ := replaceAllLoop_extends re' T R fuel e e
        (buf ++ (T.drop pos).take (s - pos) ++ R)
      have hglen : ((T.drop pos).take (s - pos)).length = s - pos := by
        rw [List.length_take, List.length_drop]
        omega
      by_cases hp2 : p < buf.length + (s - pos) + R.length
      · rw [hrest] at hd
        by_cases hp1 : p < buf.length + (s - pos)
        · -- the match starts in the text before the match replaced
          have hq : q ≤ buf.length + (s - pos) := by
            by_contra hq
            obtain ⟨c, hc, hacc⟩ := Derives_accepts _ re p q hd (buf.length + (s - pos))
              (by omega) (by omega)
            have hidx : (buf ++ (T.drop pos).take (s - pos) ++ R ++ rest)[buf.length +
                (s - pos)]? = R[0]? := by
              have := getElem?_append_mid (buf ++ (T.drop pos).take (s - pos)) R rest 0 hR
              rw [List.length_append, hglen] at this
              exact this
            rw [hidx] at hc
            rw [hfirst c hc] at hacc
            cases hacc
          have hw := Derives_window _ T re hfree p q (pos + (p - buf.length)) hd (fun x hx => by
            have := getElem?_append_mid buf ((T.drop pos).take (s - pos)) (R ++ rest)
              (p - buf.length + x) (by omega)
            have e1 : buf.length + (p - buf.length + x) = p + x := by omega
            rw [e1] at this
            rw [List.append_assoc, List.append_assoc, ← List.append_assoc buf, this,
              List.getElem?_take_of_lt (by omega), List.getElem?_drop]
            congr 1
            omega)
          obtain ⟨s', e', hse, hs'⟩ := hclean pos hle _ _ (by omega) (by omega) hw
          rw [hf] at hse
          simp only [Option.some.injEq, Prod.mk.injEq] at hse
          omega
        · -- the match starts in the replacement
          by_cases hq : q ≤ buf.length + (s - pos) + R.length
          · have hw := Derives_window _ R re hfree p q (p - (buf.length + (s - pos))) hd
              (fun x hx => by
                have := getElem?_append_mid (buf ++ (T.drop pos).take (s - pos)) R rest
                  (p - (buf.length + (s - pos)) + x) (by omega)
                rw [List.length_append, hglen] at this
                have e1 : buf.length + (s - pos) + (p - (buf.length + (s - pos)) + x) = p + x := by
                  omega
                rw [e1] at this
                exact this.symm)
            exact hmark _ _ (by omega) hw
          · obtain ⟨c, hc, hacc⟩ := Derives_accepts _ re p q hd
              (buf.length + (s - pos) + (R.length - 1)) (by omega) (by omega)
            have hidx : (buf ++ (T.drop pos).take (s - pos) ++ R ++ rest)[buf.length +
                (s - pos) + (R.length - 1)]? = R[R.length - 1]? := by
              have := getElem?_append_mid (buf ++ (T.drop pos).take (s - pos)) R rest
                (R.length - 1) (by omega)
              rw [List.length_append, hglen] at this
              exact this
            rw [hidx] at hc
            rw [hlast c hc] at hacc
            cases hacc
      · exact ih e (buf ++ (T.drop pos).take (s - pos) ++ R) (by omega) (by omega) p q
          (by rw [List.length_append, List.length_append, hglen]; omega) hpq hd

/-- After `ReplaceAllString` of an expression without word boundary, by a
replacement that the expression cannot cross and does not match, no match of
the expression is left. -/
theorem replaceAll_noMatch_self (re : Regex) (T R : List Char)
    (hfree : re.free = true) (hpos : 0 < re.minLen)
    (hfirst : ∀ c, R[0]? = some c → re.accepts c = false)
    (hlast : ∀ c, R[R.length - 1]? = some c → re.accepts c = false)
    (hR : 0 < R.length) (hmark : NoMatch re R) :
    NoMatch re (ReplaceAllString re T R) := by
  intro p q hpq
  apply replaceAllLoop_noMatch re re T R hfree hpos hfirst hlast hR hmark ?_ _ 0 [] (by omega)
    (by omega) p q (by simp) hpq
  intro pos hle p q hp hpq hd
  cases hf : findFrom re T (T.length + 1 - pos) pos with
  | none =>
    have hq := (Derives_le T re _ _ hd).2 hpq
    have := (findFrom_leftmost re T _ pos).2 hf (by omega) p hp (by omega)
    exact absurd this (matchAt_of_derives T re p q hd)
  | some se =>
    obtain ⟨s, e⟩ := se
    refine ⟨s, e, rfl, ?_⟩
    by_contra hlt
    have := ((findFrom_leftmost re T _ pos).1 s e hf).2 p hp (by omega)
    exact absurd this (matchAt_of_derives T re p q hd)

/-- `ReplaceAllString` of another expression, which matches no empty text,
brings no match of an expression without word boundary into a text that had
none. -/
theorem replaceAll_noMatch_other (re re' : Regex) (T R : List Char)
    (hfree : re.free = true) (hpos' : 0 < re'.minLen)
    (hfirst : ∀ c, R[0]? = some c → re.accepts c = false)
    (hlast : ∀ c, R[R.length - 1]? = some c → re.accepts c = false)
    (hR : 0 < R.length) (hmark : NoMatch re R) (hT : NoMatch re T) :
    NoMatch re (ReplaceAllString re' T R) := by
  intro p q hpq
  apply replaceAllLoop_noMatch re re' T R hfree hpos' hfirst hlast hR hmark ?_ _ 0 [] (by omega)
    (by omega) p q (by simp) hpq
  intro pos hle p q hp hpq hd
  exact absurd hd (hT p q hpq)

end Regexp

namespace Proxy

end Proxy

namespace GoString

theorem utf8Bytes_length (c : Char) : (utf8Bytes c).length = c.utf8Size := by
  unfold utf8Bytes Char.utf8Size
  simp only
  have hv : c.toNat = c.val.toNat := rfl
  by_cases h1 : c.toNat < 0x80
  · have : c.val ≤ UInt32.ofNatCore 127 (by decide) := by
      rw [UInt32.le_def]; show c.val.toNat ≤ 127; omega
    rw [if_pos h1, if_pos this]; rfl
  · have n1 : ¬ c.val ≤ UInt32.ofNatCore 127 (by decide) := by
      rw [UInt32.le_def]; show ¬ c.val.toNat ≤ 127; omega
    rw [if_neg h1, if_neg n1]
    by_cases h2 : c.toNat < 0x800
    · have : c.val ≤ UInt32.ofNatCore 2047 (by decide) := by
        rw [UInt32.le_def]; show c.val.toNat ≤ 2047; omega
      rw [if_pos h2, if_pos this]; rfl
    · have n2 : ¬ c.val ≤ UInt32.ofNatCore 2047 (by decide) := by
        rw [UInt32.le_def]; show ¬ c.val.toNat ≤ 2047; omega
      rw [if_neg h2, if_neg n2]
      by_cases h3 : c.toNat < 0x10000
      · have : c.val ≤ UInt32.ofNatCore 65535 (by decide) := by
          rw [UInt32.le_def]; show c.val.toNat ≤ 65535; omega
        rw [if_pos h3, if_pos this]; rfl
      · have n3 : ¬ c.val ≤ UInt32.ofNatCore 65535 (by decide) := by
          rw [UInt32.le_def]; show ¬ c.val.toNat ≤ 65535; omega
        rw [if_neg h3, if_neg n3]; rfl

theorem runes_ofText (s : List Char) : runes (ofText s) = s := by
  unfold runes ofText
  rw [List.map_map]
  exact List.map_id _

theorem runes_append (s t : List Piece) : runes (s ++ t) = runes s ++ runes t := by
  unfold runes
  exact List.map_append _ _ _

theorem bytes_append (s t : List Piece) : bytes (s ++ t) = bytes s ++ bytes t := by
  unfold bytes
  exact List.flatMap_append _ _ _

theorem bytes_ofText_cons (c : Char) (s : List Char) :
    bytes (ofText (c :: s)) = utf8Bytes c ++ bytes (ofText s) := rfl

theorem bytes_map_byte (bs : List Nat) : bytes (bs.map Piece.byte) = bs := by
  induction bs with
  | nil => rfl
  | cons b bs ih =>
    show b :: bytes (bs.map Piece.byte) = b :: bs
    rw [ih]

theorem runes_map_byte (bs : List Nat) :
    runes (bs.map Piece.byte) = List.replicate bs.length (Char.ofNat 0xFFFD) := by
  induction bs with
  | nil => rfl
  | cons b bs ih =>
    show Char.ofNat 0xFFFD :: runes (bs.map Piece.byte) = _
    rw [ih]
    rfl

theorem text?_ofText (s : List Char) : text? (ofText s) = some s := by
  induction s with
  | nil => rfl
  | cons c s ih =>
    show (text? (ofText s)).map (fun t => c :: t) = some (c :: s)
    rw [ih]
    rfl

theorem length_bytes_ofText (s : List Char) : (bytes (ofText s)).length = byteLen s := by
  induction s with
  | nil => rfl
  | cons c s ih =>
    rw [bytes_ofText_cons, List.length_append, ih, utf8Bytes_length, byteLen_cons]

theorem u32_shift6 (x : UInt32) : (x >>> 6).toNat = x.toNat / 64 := by
  show (UInt32.shiftRight x 6).toNat = _
  unfold UInt32.shiftRight
  simp only [UInt32.toNat, Fin.shiftRight, Nat.shiftRight_eq_div_pow]
  have h : (UInt32.mod 6 32).toBitVec.toNat = 6 := by decide
  simp [Nat.shiftRight_eq_div_pow, h]

theorem u32_shift12 (x : UInt32) : (x >>> 12).toNat = x.toNat / 4096 := by
  show (UInt32.shiftRight x 12).toNat = _
  unfold UInt32.shiftRight
  have h : (UInt32.mod 12 32).toBitVec.toNat = 12 := by decide
  simp [UInt32.toNat, Nat.shiftRight_eq_div_pow, h]

theorem u32_shift18 (x : UInt32) : (x >>> 18).toNat = x.toNat / 262144 := by
  show (UInt32.shiftRight x 18).toNat = _
  unfold UInt32.shiftRight
  have h : (UInt32.mod 18 32).toBitVec.toNat = 18 := by decide
  simp [UInt32.toNat, Nat.shiftRight_eq_div_pow, h]

theorem u32_toUInt8 (x : UInt32) : x.toUInt8.toNat = x.toNat % 256 := rfl

theorem u8_and (a b : UInt8) : (a &&& b).toNat = a.toNat &&& b.toNat := by
  show (UInt8.land a b).toNat = _
  unfold UInt8.land
  simp [UInt8.toNat]

theorem u8_or (a b : UInt8) : (a ||| b).toNat = a.toNat ||| b.toNat := by
  show (UInt8.lor a b).toNat = _
  unfold UInt8.lor
  simp [UInt8.toNat]

theorem low6 (n : Nat) : (n % 256 &&& 63 ||| 128) = 128 + n % 64 := by
  have h1 : n % 256 &&& 63 = n % 64 := by
    have := Nat.and_pow_two_sub_one_eq_mod (n % 256) 6
    simp only [show (2:Nat) ^ 6 - 1 = 63 from rfl, show (2:Nat)^6 = 64 from rfl] at this
    rw [this]
    omega
  rw [h1]
  have h2 : ∀ y < 64, (y ||| 128) = 128 + y := by decide
  exact h2 _ (Nat.mod_lt _ (by decide))

theorem top5 (n : Nat) (h : n < 32) : (n % 256 &&& 31 ||| 192) = 192 + n := by
  have h2 : ∀ y < 32, (y % 256 &&& 31 ||| 192) = 192 + y := by decide
  exact h2 n h

theorem top4 (n : Nat) (h : n < 16) : (n % 256 &&& 15 ||| 224) = 224 + n := by
  have h2 : ∀ y < 16, (y % 256 &&& 15 ||| 224) = 224 + y := by decide
  exact h2 n h

theorem top3 (n : Nat) (h : n < 8) : (n % 256 &&& 7 ||| 240) = 240 + n := by
  have h2 : ∀ y < 8, (y % 256 &&& 7 ||| 240) = 240 + y := by decide
  exact h2 n h

theorem char_toNat_lt (c : Char) : c.toNat < 0x110000 := by
  have h := c.valid
  have hv : c.toNat = c.val.toNat := rfl
  rw [hv]
  rcases h with h | h
  · have : c.val.toNat < 0xd800 := h
    omega
  · exact h.2

/-- The bytes of a character are those of the UTF-8 encoder of the core
library. -/
theorem utf8Bytes_eq (c : Char) :
    utf8Bytes c = (String.utf8EncodeChar c).map UInt8.toNat := by
  have hmax := char_toNat_lt c
  have hv : c.toNat = c.val.toNat := rfl
  unfold utf8Bytes String.utf8EncodeChar
  simp only
  by_cases h1 : c.toNat < 0x80
  · have : c.val ≤ 0x7f := by
      rw [UInt32.le_def]; show c.val.toNat ≤ 127; omega
    rw [if_pos h1, if_pos this]
    simp only [List.map_cons, List.map_nil, u32_toUInt8]
    rw [← hv]
    congr 1
    omega
  · have n1 : ¬ c.val ≤ 0x7f := by
      rw [UInt32.le_def]; show ¬ c.val.toNat ≤ 127; omega
    rw [if_neg h1, if_neg n1]
    by_cases h2 : c.toNat < 0x800
    · have : c.val ≤ 0x7ff := by
        rw [UInt32.le_def]; show c.val.toNat ≤ 2047; omega
      rw [if_pos h2, if_pos this]
      simp only [List.map_cons, List.map_nil, u8_or, u8_and, u32_toUInt8, u32_shift6]
      rw [← hv]
      have e1 := top5 (c.toNat / 64) (by omega)
      have e2 := low6 c.toNat
      have k1 : (0x1f : UInt8).toNat = 31 := rfl
      have k2 : (0xc0 : UInt8).toNat = 192 := rfl
      have k3 : (0x3f : UInt8).toNat = 63 := rfl
      have k4 : (0x80 : UInt8).toNat = 128 := rfl
      rw [k1, k2, k3, k4, e1, e2]
    · have n2 : ¬ c.val ≤ 0x7ff := by
        rw [UInt32.le_def]; show ¬ c.val.toNat ≤ 2047; omega
      rw [if_neg h2, if_neg n2]
      have k3 : (0x3f : UInt8).toNat = 63 := rfl
      have k4 : (0x80 : UInt8).toNat = 128 := rfl
      by_cases h3 : c.toNat < 0x10000
      · have : c.val ≤ 0xffff := by
          rw [UInt32.le_def]; show c.val.toNat ≤ 65535; omega
        rw [if_pos h3, if_pos this]
        simp only [List.map_cons, List.map_nil, u8_or, u8_and, u32_toUInt8, u32_shift6,
          u32_shift12]
        rw [← hv]
        have e1 := top4 (c.toNat / 4096) (by omega)
        have e2 := low6 (c.toNat / 64)
        have e3 := low6 c.toNat
        have k1 : (0x0f : UInt8).toNat = 15 := rfl
        have k2 : (0xe0 : UInt8).toNat = 224 := rfl
        rw [k1, k2, k3, k4, e1, e2, e3]
      · have n3 : ¬ c.val ≤ 0xffff := by
          rw [UInt32.le_def]; show ¬ c.val.toNat ≤ 65535; omega
        rw [if_neg h3, if_neg n3]
        simp only [List.map_cons, List.map_nil, u8_or, u8_and, u32_toUInt8, u32_shift6,
          u32_shift12, u32_shift18]
        rw [← hv]
        have e1 := top3 (c.toNat / 262144) (by omega)
        have e2 := low6 (c.toNat / 4096)
        have e3 := low6 (c.toNat / 64)
        have e4 := low6 c.toNat
        have k1 : (0x07 : UInt8).toNat = 7 := rfl
        have k2 : (0xf0 : UInt8).toNat = 240 := rfl
        rw [k1, k2, k3, k4, e1, e2, e3, e4]

/-- The bytes of the Go string of a text are those of the text in UTF-8, as the
core library encodes it. -/
theorem bytes_ofText (s : List Char) :
    bytes (ofText s) = (String.mk s).toUTF8.data.toList.map UInt8.toNat := by
  show _ = (s.flatMap String.utf8EncodeChar).map UInt8.toNat
  induction s with
  | nil => rfl
  | cons c s ih =>
    rw [bytes_ofText_cons, ih, utf8Bytes_eq, List.flatMap_cons, List.map_append]

end GoString

namespace Proxy

/-- The cut at `n` bytes keeps the first `n` bytes of the text. -/
theorem bytes_cutBytes :
    ∀ (t : List Char) (n : Nat),
      GoString.bytes (cutBytes n t) = (GoString.bytes (GoString.ofText t)).take n := by
  intro t
  induction t with
  | nil => intro n; simp [cutBytes, GoString.bytes, GoString.ofText]
  | cons c cs ih =>
    intro n
    rw [cutBytes, GoString.bytes_ofText_cons]
    by_cases hc : c.utf8Size ≤ n
    · rw [if_pos hc]
      show GoString.utf8Bytes c ++ GoString.bytes (cutBytes (n - c.utf8Size) cs) = _
      have e1 : (GoString.utf8Bytes c).take n = GoString.utf8Bytes c :=
        List.take_of_length_le (by rw [GoString.utf8Bytes_length]; exact hc)
      rw [ih, List.take_append_eq_append_take, e1, GoString.utf8Bytes_length]
    · rw [if_neg hc, GoString.bytes_map_byte, List.take_append_of_le_length
        (by rw [GoString.utf8Bytes_length]; omega)]

/-- What `regexp` reads in the cut at `n` bytes: the characters that lie within
the first `n` bytes, and one U+FFFD for each byte kept of a character that the
cut splits. -/
theorem runes_cutBytes :
    ∀ (t : List Char) (n : Nat),
      ∃ k m, GoString.runes (cutBytes n t)
        = t.take k ++ List.replicate m (Char.ofNat 0xFFFD) := by
  intro t
  induction t with
  | nil =>
    intro n
    exact ⟨0, 0, rfl⟩
  | cons c cs ih =>
    intro n
    rw [cutBytes]
    by_cases hc : c.utf8Size ≤ n
    · rw [if_pos hc]
      obtain ⟨k, m, heq⟩ := ih (n - c.utf8Size)
      refine ⟨k + 1, m, ?_⟩
      show c :: GoString.runes (cutBytes (n - c.utf8Size) cs) = _
      rw [heq]
      rfl
    · rw [if_neg hc, GoString.runes_map_byte]
      exact ⟨0, _, rfl⟩

end Proxy

namespace Regexp

/-- A text without a match of an expression without word boundary, cut and
followed by characters that cannot end a match of the expression, has no match
of it. -/
theorem noMatch_cut (re : Regex) (T B : List Char) (k : Nat) (hfree : re.free = true)
    (hB : ∀ c ∈ B, re.lastAccepts c = false) (hT : NoMatch re T) :
    NoMatch re (T.take k ++ B) := by
  intro p q hpq hd
  obtain ⟨c, hc, hacc⟩ := Derives_last _ re p q hd hpq
  have hq : q ≤ (T.take k).length := by
    by_contra hq
    rw [List.getElem?_append_right (by omega)] at hc
    have hmem : c ∈ B := by
      obtain ⟨hlt, hget⟩ := List.getElem?_eq_some.mp hc
      rw [← hget]
      exact List.getElem_mem hlt
    rw [hB c hmem] at hacc
    cases hacc
  have hk : (T.take k).length ≤ k := by
    rw [List.length_take]
    omega
  have hw := Derives_window _ T re hfree p q p hd (fun x hx => by
    rw [List.getElem?_append_left (by omega), List.getElem?_take_of_lt (by omega)])
  have e1 : p + (q - p) = q := by omega
  rw [e1] at hw
  exact hT p q hpq hw

end Regexp

namespace Regexp

/-- A match has at least the least length of the expression. -/
theorem Derives_minLen (input : List Char) (re : Regex) :
    ∀ (i j : Nat), Derives input re i j → i + re.minLen ≤ j := by
  induction re with
  | empty => intro i j h; simp only [Derives] at h; simp only [Regex.minLen]; omega
  | cls p => intro i j h; simp only [Derives] at h; simp only [Regex.minLen]; omega
  | seq a b iha ihb =>
    intro i j h
    simp only [Derives] at h
    obtain ⟨m, h1, h2⟩ := h
    have := iha _ _ h1
    have := ihb _ _ h2
    simp only [Regex.minLen]
    omega
  | alt a b iha ihb =>
    intro i j h
    simp only [Derives] at h
    simp only [Regex.minLen]
    rcases h with h | h
    · have := iha _ _ h; omega
    · have := ihb _ _ h; omega
  | star a _ =>
    intro i j h
    have := (Derives_le input (.star a) _ _ h).1
    simp only [Regex.minLen]
    omega
  | wordBoundary => intro i j h; simp only [Derives] at h; simp only [Regex.minLen]; omega

/-- The first character of a match that is not empty. -/
theorem Derives_first (input : List Char) (re : Regex) :
    ∀ (i j : Nat), Derives input re i j → i < j →
      ∃ c, input[i]? = some c ∧ re.firstAccepts c = true := by
  induction re with
  | empty =>
    intro i j h hlt
    simp only [Derives] at h
    omega
  | cls p =>
    intro i j h hlt
    simp only [Derives] at h
    obtain ⟨rfl, c, hc, hp⟩ := h
    exact ⟨c, hc, hp⟩
  | seq a b iha ihb =>
    intro i j h hlt
    simp only [Derives] at h
    obtain ⟨m, ha, hb⟩ := h
    have h1 := (Derives_le input a _ _ ha).1
    by_cases hm : i < m
    · obtain ⟨c, hc, hp⟩ := iha _ _ ha hm
      exact ⟨c, hc, by simp [Regex.firstAccepts, hp]⟩
    · have : m = i := by omega
      subst this
      obtain ⟨c, hc, hp⟩ := ihb _ _ hb hlt
      exact ⟨c, hc, by simp [Regex.firstAccepts, hp, Derives_nullable input a _ ha]⟩
  | alt a b iha ihb =>
    intro i j h hlt
    simp only [Derives] at h
    rcases h with h | h
    · obtain ⟨c, hc, hp⟩ := iha _ _ h hlt
      exact ⟨c, hc, by simp [Regex.firstAccepts, hp]⟩
    · obtain ⟨c, hc, hp⟩ := ihb _ _ h hlt
      exact ⟨c, hc, by simp [Regex.firstAccepts, hp]⟩
  | star a iha =>
    intro i j h hlt
    simp only [Derives] at h
    cases h with
    | done i => omega
    | round i m j hr hlt' _ =>
      obtain ⟨c, hc, hp⟩ := iha _ _ hr hlt'
      exact ⟨c, hc, by simpa [Regex.firstAccepts] using hp⟩
  | wordBoundary =>
    intro i j h hlt
    simp only [Derives] at h
    omega

theorem wordAt_congr (X T : List Char) (i i' : Nat) (h : X[i]? = T[i']?) :
    wordAt X i = wordAt T i' := by
  unfold wordAt
  rw [h]

/-- A match of `\b core \b`: a match of `core` with no word character right
before it and none right after it. -/
theorem fenced_iff (re core : Regex) (hf : Fences re core) (X : List Char) (p q : Nat) :
    Derives X re p q ↔
      Derives X core p q ∧ (p = 0 ∨ wordAt X (p - 1) = false) ∧ wordAt X q = false := by
  obtain ⟨_, hmin, hfirst, hlast, hiff⟩ := hf
  rw [hiff]
  constructor
  · rintro ⟨hb1, hd, hb2⟩
    have hpq : p < q := by have := Derives_minLen X core _ _ hd; omega
    obtain ⟨c1, hc1, ha1⟩ := Derives_first X core _ _ hd hpq
    obtain ⟨c2, hc2, ha2⟩ := Derives_last X core _ _ hd hpq
    have hw1 : wordAt X p = true := by
      unfold wordAt; rw [hc1]; exact hfirst c1 ha1
    have hw2 : wordAt X (q - 1) = true := by
      unfold wordAt; rw [hc2]; exact hlast c2 ha2
    refine ⟨hd, ?_, ?_⟩
    · unfold atWordBoundary at hb1
      rw [hw1] at hb1
      by_cases h0 : p = 0
      · exact Or.inl h0
      · rw [if_neg h0] at hb1
        right
        cases hw : wordAt X (p - 1) with
        | false => rfl
        | true => rw [hw] at hb1; cases hb1
    · unfold atWordBoundary at hb2
      rw [if_neg (by omega), hw2] at hb2
      cases hw : wordAt X q with
      | false => rfl
      | true => rw [hw] at hb2; cases hb2
  · rintro ⟨hd, hleft, hright⟩
    have hpq : p < q := by have := Derives_minLen X core _ _ hd; omega
    obtain ⟨c1, hc1, ha1⟩ := Derives_first X core _ _ hd hpq
    obtain ⟨c2, hc2, ha2⟩ := Derives_last X core _ _ hd hpq
    have hw1 : wordAt X p = true := by
      unfold wordAt; rw [hc1]; exact hfirst c1 ha1
    have hw2 : wordAt X (q - 1) = true := by
      unfold wordAt; rw [hc2]; exact hlast c2 ha2
    refine ⟨?_, hd, ?_⟩
    · unfold atWordBoundary
      rw [hw1]
      rcases hleft with h0 | hw
      · rw [if_pos h0]; rfl
      · by_cases h0 : p = 0
        · rw [if_pos h0]; rfl
        · rw [if_neg h0, hw]; rfl
    · unfold atWordBoundary
      rw [if_neg (by omega), hw2, hright]
      rfl

/-- Replacing matches of `\b core' \b` by a text of characters that `core`
does not accept, which ends with a character that is no word character,
leaves no match of `\b core \b`, where the text between the
matches replaced had none. -/
theorem replaceAllLoop_noMatch_fenced (re core re' core' : Regex) (T R : List Char)
    (hf : Fences re core) (hf' : Fences re' core') (hpos' : 0 < re'.minLen)
    (hR : ∀ c ∈ R, core.accepts c = false)
    (hRlast : wordAt R (R.length - 1) = false)
    (hRlen : 0 < R.length)
    (hclean : ∀ pos, pos ≤ T.length →
      ∀ p q, pos ≤ p → p < q → Derives T re p q →
        ∃ s e, findFrom re' T (T.length + 1 - pos) pos = some (s, e) ∧ s ≤ p) :
    ∀ (fuel pos : Nat) (buf : List Char), pos ≤ T.length → T.length < fuel + pos →
      ((buf = [] ∧ pos = 0) ∨ (buf ≠ [] ∧ wordAt buf (buf.length - 1) = false ∧
        wordAt T pos = false)) →
      ∀ p q, buf.length ≤ p → p < q →
        ¬ Derives (replaceAllLoop re' T R fuel pos pos buf) re p q := by
  have hfree := hf.1
  intro fuel
  induction fuel with
  | zero => intro pos buf h1 h2; omega
  | succ fuel ih =>
    intro pos buf hle hfuel hedge p q hp hpq hd
    -- what a match in the gap gives, for an output `X` that begins with the buffer and
    -- the text from `pos` up to `stop`
    have hgap : ∀ (X : List Char) (stop : Nat), pos ≤ stop → stop ≤ T.length →
        (∀ x, x < stop - pos → X[buf.length + x]? = T[pos + x]?) →
        (∀ x, x < buf.length → X[x]? = buf[x]?) →
        p < buf.length + (stop - pos) → q ≤ buf.length + (stop - pos) →
        (q = buf.length + (stop - pos) → wordAt X q = false → wordAt T stop = false) →
        Derives X re p q → Derives T re (pos + (p - buf.length)) (pos + (p - buf.length) +
          (q - p)) := by
      intro X stop hps hst hX hXbuf hp1 hq1 hright hdX
      rw [fenced_iff re core hf] at hdX ⊢
      obtain ⟨hdc, hleft, hrightX⟩ := hdX
      have hwin : ∀ x, x < q - p → T[pos + (p - buf.length) + x]? = X[p + x]? := by
        intro x hx
        have := hX (p - buf.length + x) (by omega)
        have e1 : buf.length + (p - buf.length + x) = p + x := by omega
        have e2 : pos + (p - buf.length + x) = pos + (p - buf.length) + x := by omega
        rw [e1, e2] at this
        exact this.symm
      refine ⟨Derives_window X T core hfree p q _ hdc hwin, ?_, ?_⟩
      · -- the character before the match
        by_cases hpb : p = buf.length
        · rcases hedge with ⟨hb, hp0⟩ | ⟨hb, hlastb, hT⟩
          · left
            rw [hpb, hb, hp0]
            rfl
          · -- the match would start with the character at `pos`, no word character
            exfalso
            obtain ⟨c1, hc1, ha1⟩ := Derives_first X core _ _ hdc hpq
            have hw1 : wordAt X p = true := by
              unfold wordAt; rw [hc1]; exact hf.2.2.1 c1 ha1
            have := hX 0 (by omega)
            rw [Nat.add_zero, Nat.add_zero, ← hpb] at this
            rw [wordAt_congr X T p pos this, hT] at hw1
            cases hw1
        · right
          rcases hleft with h0 | hw
          · omega
          · have := hX (p - 1 - buf.length) (by omega)
            have e1 : buf.length + (p - 1 - buf.length) = p - 1 := by omega
            have e2 : pos + (p - 1 - buf.length) = pos + (p - buf.length) - 1 := by omega
            rw [e1, e2] at this
            rw [← wordAt_congr X T _ _ this]
            exact hw
      · -- the character behind the match
        by_cases hqs : q = buf.length + (stop - pos)
        · have := hright hqs hrightX
          have e1 : pos + (p - buf.length) + (q - p) = stop := by omega
          rw [e1]
          exact this
        · have := hX (q - buf.length) (by omega)
          have e1 : buf.length + (q - buf.length) = q := by omega
          have e2 : pos + (q - buf.length) = pos + (p - buf.length) + (q - p) := by omega
          rw [e1, e2] at this
          rw [← wordAt_congr X T _ _ this]
          exact hrightX
    cases hfnd : findFrom re' T (T.length + 1 - pos) pos with
    | none =>
      rw [replaceAllLoop_none re' T R fuel pos buf hle hfnd] at hd
      have hq := (Derives_le _ re _ _ hd).2 hpq
      rw [List.length_append, List.length_drop] at hq
      have hT := hgap (buf ++ T.drop pos) T.length hle (le_refl _)
        (fun x hx => by
          rw [List.getElem?_append_right (by omega), List.getElem?_drop]
          congr 1
          omega)
        (fun x hx => List.getElem?_append_left hx)
        (by omega) (by omega)
        (fun _ _ => by
          unfold wordAt
          rw [List.getElem?_eq_none (le_refl _)])
        hd
      obtain ⟨s, e, hse, _⟩ := hclean pos hle _ _ (by omega) (by omega) hT
      rw [hfnd] at hse
      cases hse
    | some se =>
      obtain ⟨s, e⟩ := se
      have hb := findFrom_bounds re' T _ pos s e hle hfnd
      -- the match replaced is a match of `\b core' \b`
      have hm := ((findFrom_leftmost re' T _ pos).1 s e hfnd).1
      obtain ⟨j, hdm, hj⟩ := matchAt_sound T re' _ _ _ hm
      simp only [Option.some.injEq] at hj
      subst hj
      rw [fenced_iff re' core' hf'] at hdm
      obtain ⟨hdc', hleft', hright'⟩ := hdm
      have hse : s < j := by omega
      obtain ⟨c1, hc1, ha1⟩ := Derives_first T core' _ _ hdc' hse
      have hws : wordAt T s = true := by
        unfold wordAt; rw [hc1]; exact hf'.2.2.1 c1 ha1
      rw [replaceAllLoop_step re' T R hpos' fuel pos s j buf hle hfnd] at hd
      obtain ⟨rest, hrest⟩ := replaceAllLoop_extends re' T R fuel j j
        (buf ++ (T.drop pos).take (s - pos) ++ R)
      have hglen : ((T.drop pos).take (s - pos)).length = s - pos := by
        rw [List.length_take, List.length_drop]
        omega
      by_cases hp2 : p < buf.length + (s - pos) + R.length
      · rw [hrest] at hd
        have hdc := ((fenced_iff re core hf _ p q).mp hd).1
        by_cases hp1 : p < buf.length + (s - pos)
        · -- the match starts in the text before the match replaced
          have hidx0 : (buf ++ (T.drop pos).take (s - pos) ++ R ++ rest)[buf.length +
              (s - pos)]? = R[0]? := by
            have := getElem?_append_mid (buf ++ (T.drop pos).take (s - pos)) R rest 0 hRlen
            rw [List.length_append, hglen] at this
            exact this
          have hq : q ≤ buf.length + (s - pos) := by
            by_contra hq
            obtain ⟨c, hc, hacc⟩ := Derives_accepts _ core p q hdc (buf.length + (s - pos))
              (by omega) (by omega)
            rw [hidx0] at hc
            have hmem : c ∈ R := by
              obtain ⟨hlt, hget⟩ := List.getElem?_eq_some.mp hc
              rw [← hget]
              exact List.getElem_mem hlt
            rw [hR c hmem] at hacc
            cases hacc
          have hT := hgap _ s hb.1 (by omega)
            (fun x hx => by
              have := getElem?_append_mid buf ((T.drop pos).take (s - pos)) (R ++ rest) x
                (by omega)
              rw [List.append_assoc, List.append_assoc, ← List.append_assoc buf, this,
                List.getElem?_take_of_lt (by omega), List.getElem?_drop])
            (fun x hx => by
              rw [List.append_assoc, List.append_assoc, List.getElem?_append_left hx])
            hp1 hq
            (fun hqs _ => by
              -- the match replaced begins with a word character, and no word character
              -- stands before it; but the last character of our match does
              exfalso
              obtain ⟨c2, hc2, ha2⟩ := Derives_last _ core _ _ hdc hpq
              have hwq : wordAt (buf ++ (T.drop pos).take (s - pos) ++ R ++ rest) (q - 1)
                  = true := by
                unfold wordAt; rw [hc2]; exact hf.2.2.2.1 c2 ha2
              have hXT := getElem?_append_mid buf ((T.drop pos).take (s - pos)) (R ++ rest)
                (q - 1 - buf.length) (by omega)
              have e1 : buf.length + (q - 1 - buf.length) = q - 1 := by omega
              rw [e1, List.getElem?_take_of_lt (by omega), List.getElem?_drop] at hXT
              have e2 : pos + (q - 1 - buf.length) = s - 1 := by omega
              rw [e2] at hXT
              rw [List.append_assoc, List.append_assoc, ← List.append_assoc buf,
                wordAt_congr _ T (q - 1) (s - 1) hXT] at hwq
              rcases hleft' with h0 | hw
              · omega
              · rw [hw] at hwq
                cases hwq)
            hd
          obtain ⟨s', e', hse', hs'⟩ := hclean pos hle _ _ (by omega) (by omega) hT
          rw [hfnd] at hse'
          simp only [Option.some.injEq, Prod.mk.injEq] at hse'
          omega
        · -- the match starts in the replacement
          obtain ⟨c, hc, hacc⟩ := Derives_accepts _ core p q hdc p (le_refl _) hpq
          have := getElem?_append_mid (buf ++ (T.drop pos).take (s - pos)) R rest
            (p - (buf.length + (s - pos))) (by omega)
          rw [List.length_append, hglen] at this
          have e1 : buf.length + (s - pos) + (p - (buf.length + (s - pos))) = p := by omega
          rw [e1] at this
          rw [this] at hc
          have hmem : c ∈ R := by
            obtain ⟨hlt, hget⟩ := List.getElem?_eq_some.mp hc
            rw [← hget]
            exact List.getElem_mem hlt
          rw [hR c hmem] at hacc
          cases hacc
      · refine ih j (buf ++ (T.drop pos).take (s - pos) ++ R) (by omega) (by omega) ?_ p q
          (by rw [List.length_append, List.length_append, hglen]; omega) hpq hd
        right
        refine ⟨?_, ?_, hright'⟩
        · intro hnil
          have := congrArg List.length hnil
          rw [List.length_append, List.length_append] at this
          simp only [List.length_nil] at this
          omega
        · have hlen : (buf ++ (T.drop pos).take (s - pos) ++ R).length - 1
              = (buf ++ (T.drop pos).take (s - pos)).length + (R.length - 1) := by
            rw [List.length_append]
            omega
          rw [hlen]
          have := getElem?_append_mid (buf ++ (T.drop pos).take (s - pos)) R [] (R.length - 1)
            (by omega)
          rw [List.append_nil] at this
          rw [wordAt_congr _ R _ _ this]
          exact hRlast

end Regexp

namespace Regexp

/-- After `ReplaceAllString` of an expression `\b core \b`, by a replacement of
characters that `core` does not accept, no match of the expression is left. -/
theorem replaceAll_noMatch_fenced_self (re core : Regex) (T R : List Char)
    (hf : Fences re core) (hpos : 0 < re.minLen)
    (hR : ∀ c ∈ R, core.accepts c = false)
    (hRlast : wordAt R (R.length - 1) = false) (hRlen : 0 < R.length) :
    NoMatch re (ReplaceAllString re T R) := by
  intro p q hpq
  apply replaceAllLoop_noMatch_fenced re core re core T R hf hf hpos hR hRlast hRlen ?_ _ 0 []
    (by omega) (by omega) (Or.inl ⟨rfl, rfl⟩) p q (by simp) hpq
  intro pos hle p q hp hpq hd
  cases hfnd : findFrom re T (T.length + 1 - pos) pos with
  | none =>
    have hq := (Derives_le T re _ _ hd).2 hpq
    have := (findFrom_leftmost re T _ pos).2 hfnd (by omega) p hp (by omega)
    exact absurd this (matchAt_of_derives T re p q hd)
  | some se =>
    obtain ⟨s, e⟩ := se
    refine ⟨s, e, rfl, ?_⟩
    by_contra hlt
    have := ((findFrom_leftmost re T _ pos).1 s e hfnd).2 p hp (by omega)
    exact absurd this (matchAt_of_derives T re p q hd)

/-- `ReplaceAllString` of an expression `\b core' \b` brings no match of an
expression `\b core \b` into a text that had none. -/
theorem replaceAll_noMatch_fenced_other (re core re' core' : Regex) (T R : List Char)
    (hf : Fences re core) (hf' : Fences re' core') (hpos' : 0 < re'.minLen)
    (hR : ∀ c ∈ R, core.accepts c = false)
    (hRlast : wordAt R (R.length - 1) = false) (hRlen : 0 < R.length)
    (hT : NoMatch re T) :
    NoMatch re (ReplaceAllString re' T R) := by
  intro p q hpq
  apply replaceAllLoop_noMatch_fenced re core re' core' T R hf hf' hpos' hR hRlast hRlen ?_ _ 0 []
    (by omega) (by omega) (Or.inl ⟨rfl, rfl⟩) p q (by simp) hpq
  intro pos hle p q hp hpq hd
  exact absurd hd (hT p q hpq)

theorem isDigit_isWordChar (c : Char) (h : isDigit c = true) : isWordChar c = true := by
  unfold isDigit at h
  unfold isWordChar
  simp only [decide_eq_true_eq] at h
  simp only [decide_eq_true_eq]
  exact Or.inl h

end Regexp

namespace Proxy

open Regexp

theorem redact_eq (text : List Char) :
    redact text =
      ReplaceAllString ssnPattern (ReplaceAllString phonePattern
        (ReplaceAllString emailPattern (ReplaceAllString secretKeyPattern
          (ReplaceAllString authorizationPattern (ReplaceAllString tokenPattern
            (ReplaceAllString accessTokenPattern
              (ReplaceAllString apiKeyPattern text redactedMark) redactedMark)
            redactedMark) redactedMark) redactedMark) redactedMark) redactedMark)
        redactedMark := by
  unfold redact redactionPatterns
  simp only [List.foldl_cons, List.foldl_nil]

theorem redactedMark_first (c : Char) (h : redactedMark[0]? = some c) : c = '[' := by
  have : redactedMark[0]? = some '[' := rfl
  rw [this] at h
  exact (Option.some.inj h).symm

theorem redactedMark_last (c : Char) (h : redactedMark[redactedMark.length - 1]? = some c) :
    c = ']' := by
  have : redactedMark[redactedMark.length - 1]? = some ']' := rfl
  rw [this] at h
  exact (Option.some.inj h).symm

/-- The pattern of the secret keys and the mark of the redaction. -/
theorem secretKeyPattern_mark :
    secretKeyPattern.free = true ∧ 0 < secretKeyPattern.minLen ∧
    (∀ c, redactedMark[0]? = some c → secretKeyPattern.accepts c = false) ∧
    (∀ c, redactedMark[redactedMark.length - 1]? = some c →
      secretKeyPattern.accepts c = false) ∧
    NoMatch secretKeyPattern redactedMark := by
  refine ⟨by decide, by decide, fun c h => ?_, fun c h => ?_,
    noMatch_of_matchString _ _ (by decide)⟩
  · rw [redactedMark_first c h]; decide
  · rw [redactedMark_last c h]; decide

/-- The pattern of the e-mail addresses and the mark of the redaction. -/
theorem emailPattern_mark :
    emailPattern.free = true ∧ 0 < emailPattern.minLen ∧
    (∀ c, redactedMark[0]? = some c → emailPattern.accepts c = false) ∧
    (∀ c, redactedMark[redactedMark.length - 1]? = some c → emailPattern.accepts c = false) ∧
    NoMatch emailPattern redactedMark := by
  refine ⟨by decide, by decide, fun c h => ?_, fun c h => ?_,
    noMatch_of_matchString _ _ (by decide)⟩
  · rw [redactedMark_first c h]; decide
  · rw [redactedMark_last c h]; decide

theorem phoneCore_first (c : Char) (h : phoneCore.firstAccepts c = true) :
    isWordChar c = true := by
  have : phoneCore.firstAccepts c = isDigit c := by
    simp [phoneCore, Regex.cat, Regex.firstAccepts, digits, Regex.nullable, Regex.opt]
  rw [this] at h
  exact isDigit_isWordChar c h

theorem phoneCore_last (c : Char) (h : phoneCore.lastAccepts c = true) :
    isWordChar c = true := by
  have : phoneCore.lastAccepts c = isDigit c := by
    simp [phoneCore, Regex.cat, Regex.lastAccepts, digits, Regex.nullable, Regex.opt]
  rw [this] at h
  exact isDigit_isWordChar c h

theorem ssnCore_first (c : Char) (h : ssnCore.firstAccepts c = true) :
    isWordChar c = true := by
  have : ssnCore.firstAccepts c = isDigit c := by
    simp [ssnCore, Regex.firstAccepts, digits, Regex.nullable, Regex.char]
  rw [this] at h
  exact isDigit_isWordChar c h

theorem ssnCore_last (c : Char) (h : ssnCore.lastAccepts c = true) :
    isWordChar c = true := by
  have : ssnCore.lastAccepts c = isDigit c := by
    simp [ssnCore, Regex.lastAccepts, digits, Regex.nullable, Regex.char]
  rw [this] at h
  exact isDigit_isWordChar c h

/-- The phone pattern is `\b phoneCore \b`. -/
theorem phonePattern_fences : Fences phonePattern phoneCore := by
  refine ⟨by decide, by decide, phoneCore_first, phoneCore_last, ?_⟩
  intro input p q
  have hp : phonePattern = .seq .wordBoundary (.seq phoneCore .wordBoundary) := rfl
  rw [hp]
  simp only [Derives]
  constructor
  · rintro ⟨m, ⟨rfl, hb⟩, m', hd, rfl, hb'⟩
    exact ⟨hb, hd, hb'⟩
  · rintro ⟨hb, hd, hb'⟩
    exact ⟨p, ⟨rfl, hb⟩, q, hd, rfl, hb'⟩

/-- The SSN pattern is `\b ssnCore \b`. -/
theorem ssnPattern_fences : Fences ssnPattern ssnCore := by
  refine ⟨by decide, by decide, ssnCore_first, ssnCore_last, ?_⟩
  intro input p q
  have hp : ssnPattern = .seq .wordBoundary (.seq (digits 3) (.seq (Regex.char '-')
      (.seq (digits 2) (.seq (Regex.char '-') (.seq (digits 4) .wordBoundary))))) := rfl
  have hc : ssnCore = .seq (digits 3) (.seq (Regex.char '-')
      (.seq (digits 2) (.seq (Regex.char '-') (digits 4)))) := rfl
  rw [hp, hc]
  simp only [Derives]
  constructor
  · rintro ⟨m, ⟨rfl, hb⟩, m1, h1, m2, h2, m3, h3, m4, h4, m5, h5, rfl, hb'⟩
    exact ⟨hb, ⟨m1, h1, m2, h2, m3, h3, m4, h4, h5⟩, hb'⟩
  · rintro ⟨hb, ⟨m1, h1, m2, h2, m3, h3, m4, h4, h5⟩, hb'⟩
    exact ⟨p, ⟨rfl, hb⟩, m1, h1, m2, h2, m3, h3, m4, h4, q, h5, rfl, hb'⟩

theorem redactedMark_phoneCore : ∀ c ∈ redactedMark, phoneCore.accepts c = false := by
  decide

theorem redactedMark_ssnCore : ∀ c ∈ redactedMark, ssnCore.accepts c = false := by
  decide

/-- The redacted text has no match of the pattern of the secret keys, of the
e-mail pattern, of the phone pattern and of the SSN pattern. -/
theorem redact_noMatch (text : List Char) :
    NoMatch secretKeyPattern (redact text) ∧ NoMatch emailPattern (redact text) ∧
    NoMatch phonePattern (redact text) ∧ NoMatch ssnPattern (redact text) := by
  rw [redact_eq]
  obtain ⟨ks1, ks2, ks3, ks4, ks5⟩ := secretKeyPattern_mark
  obtain ⟨em1, em2, em3, em4, em5⟩ := emailPattern_mark
  have hlen : 0 < redactedMark.length := by decide
  have hlast : wordAt redactedMark (redactedMark.length - 1) = false := by decide
  have hph : 0 < phonePattern.minLen := by decide
  have hss : 0 < ssnPattern.minLen := by decide
  refine ⟨?_, ?_, ?_, ?_⟩
  · exact replaceAll_noMatch_other _ _ _ _ ks1 hss ks3 ks4 hlen ks5
      (replaceAll_noMatch_other _ _ _ _ ks1 hph ks3 ks4 hlen ks5
        (replaceAll_noMatch_other _ _ _ _ ks1 em2 ks3 ks4 hlen ks5
          (replaceAll_noMatch_self _ _ _ ks1 ks2 ks3 ks4 hlen ks5)))
  · exact replaceAll_noMatch_other _ _ _ _ em1 hss em3 em4 hlen em5
      (replaceAll_noMatch_other _ _ _ _ em1 hph em3 em4 hlen em5
        (replaceAll_noMatch_self _ _ _ em1 em2 em3 em4 hlen em5))
  · exact replaceAll_noMatch_fenced_other _ _ _ _ _ _ phonePattern_fences ssnPattern_fences hss
      redactedMark_phoneCore hlast hlen
      (replaceAll_noMatch_fenced_self _ _ _ _ phonePattern_fences hph redactedMark_phoneCore
        hlast hlen)
  · exact replaceAll_noMatch_fenced_self _ _ _ _ ssnPattern_fences hss redactedMark_ssnCore
      hlast hlen

/-- C23 (amended). For every provider response body, `safeBodySnippet` returns
a string in which `regexp` finds no match of the pattern of the `sk-`/`rk-`
tokens and no match of the e-mail pattern.  The string is empty when the body
is white space.  Otherwise, when the redacted text (the trimmed body after the
eight replacements, in order) has at most 240 bytes, the snippet is the
redacted text, and it has no match of the phone pattern and none of the SSN
pattern either; and when the redacted text has more than 240 bytes, the bytes
of the snippet are the first 240 bytes of the redacted text in UTF-8 (as the
core library encodes it), followed by the three bytes of `...`. -/
theorem C23_snippet_redaction (body : String) :
    MatchString secretKeyPattern (GoString.runes (safeBodySnippet body)) = false ∧
    MatchString emailPattern (GoString.runes (safeBodySnippet body)) = false ∧
    (GoString.TrimSpace body.data = [] → safeBodySnippet body = []) ∧
    (GoString.TrimSpace body.data ≠ [] →
      GoString.byteLen (redact (GoString.TrimSpace body.data)) ≤ 240 →
      safeBodySnippet body = GoString.ofText (redact (GoString.TrimSpace body.data)) ∧
      MatchString phonePattern (GoString.runes (safeBodySnippet body)) = false ∧
      MatchString ssnPattern (GoString.runes (safeBodySnippet body)) = false) ∧
    (GoString.TrimSpace body.data ≠ [] →
      240 < GoString.byteLen (redact (GoString.TrimSpace body.data)) →
      GoString.bytes (safeBodySnippet body)
        = ((String.mk (redact (GoString.TrimSpace body.data))).toUTF8.data.toList.map
            UInt8.toNat).take 240 ++ [46, 46, 46]) := by
  obtain ⟨hks, hem, hph, hss⟩ := redact_noMatch (GoString.TrimSpace body.data)
  have hsnip : safeBodySnippet body =
      if GoString.TrimSpace body.data = [] then []
      else if GoString.byteLen (redact (GoString.TrimSpace body.data)) > 240 then
        cutBytes 240 (redact (GoString.TrimSpace body.data)) ++ GoString.ofText "...".data
      else GoString.ofText (redact (GoString.TrimSpace body.data)) := by
    unfold safeBodySnippet
    simp only
  obtain ⟨k, m, hcut⟩ := runes_cutBytes (redact (GoString.TrimSpace body.data)) 240
  have hfree : ∀ (re : Regex), re.free = true → 0 < re.minLen →
      re.lastAccepts (Char.ofNat 0xFFFD) = false → re.lastAccepts '.' = false →
      NoMatch re (redact (GoString.TrimSpace body.data)) →
      MatchString re (GoString.runes (safeBodySnippet body)) = false := by
    intro re h1 h2 h3 h4 h5
    apply matchString_of_noMatch re _ h2
    rw [hsnip]
    split_ifs
    · intro p q hpq hd
      have := (Derives_le [] re _ _ hd).2 hpq
      simp only [GoString.runes, List.map_nil, List.length_nil] at this
      omega
    · rw [GoString.runes_append, GoString.runes_ofText, hcut, List.append_assoc]
      apply noMatch_cut re _ _ k h1 ?_ h5
      intro c hc
      rcases List.mem_append.mp hc with hc | hc
      · rw [List.eq_of_mem_replicate hc]; exact h3
      · have : c = '.' := by
          simp only [String.data, List.mem_cons, List.mem_singleton, List.not_mem_nil,
            or_false, or_self] at hc
          exact hc
        rw [this]; exact h4
    · rw [GoString.runes_ofText]
      exact h5
  refine ⟨hfree _ secretKeyPattern_mark.1 secretKeyPattern_mark.2.1 (by decide) (by decide) hks,
    hfree _ emailPattern_mark.1 emailPattern_mark.2.1 (by decide) (by decide) hem, ?_, ?_, ?_⟩
  · intro ht
    rw [hsnip, if_pos ht]
  · intro ht hlen
    have hd : safeBodySnippet body = GoString.ofText (redact (GoString.TrimSpace body.data)) := by
      rw [hsnip, if_neg ht, if_neg (by omega)]
    rw [hd, GoString.runes_ofText]
    exact ⟨rfl, matchString_of_noMatch _ _ (by decide) hph,
      matchString_of_noMatch _ _ (by decide) hss⟩
  · intro ht hlen
    rw [hsnip, if_neg ht, if_pos hlen, GoString.bytes_append, bytes_cutBytes,
      GoString.bytes_ofText]
    rfl

end Proxy

